import Mathlib

/-!
# Restrictive precise angle shadowcasting (libtcod `fov_restrictive.c`)

A shallow embedding of `compute_quadrant` and
`TCOD_map_compute_fov_restrictive_shadowcasting`, followed by a verification
development of the field-of-view properties of the map they produce.

Conventions of the embedding:
* C `int` values are `Int` (coordinates, ring index, radius) or `Nat`
  (the obstacle counters and buffer indices, which only count up from zero);
* C `double` slopes are exact rationals `ℚ`, without the rounding of the
  source: two slopes that are equal as rationals may differ in the last place
  as doubles, and a comparison of two such slopes may then come out differently
  in the source;
* the cell array is a list indexed by the flat index `x + y * width`; an access
  outside the array is the fault `out_of_bounds` instead of undefined behaviour;
* the two interval buffers are unbounded arrays `Nat → ℚ` whose initial content
  (the result of `malloc`) is arbitrary and passed in by the caller; whether the
  `nbcells / 7` entries requested at lines 283-285 suffice is a property of the
  counter `total_obstacles`, which the embedding keeps;
* every C loop is `while_loop` with an iteration bound; exceeding the bound is
  the fault `out_of_fuel`.
-/

namespace Tcod

/-! ## Data model -/

/-- Outcomes of the embedded code other than a normal return. -/
inductive Fault where
  | out_of_bounds
  | out_of_fuel
deriving DecidableEq

/-- Modelled from the spec: the cell record of the grid (`struct TCOD_MapCell`,
declared in a header that is not part of the sources at hand): the
`transparent`, `walkable` and `fov` (visible) flags. -/
structure TCOD_MapCell where
  transparent : Bool
  walkable : Bool
  fov : Bool
deriving DecidableEq

/-- Modelled from the spec: the grid (`struct TCOD_Map`, declared in a header
that is not part of the sources at hand): `width`, `height`,
`nbcells = width * height` and the row-major cell array. -/
structure TCOD_Map where
  width : Int
  height : Int
  nbcells : Int
  cells : List TCOD_MapCell
deriving DecidableEq

/-- The two octants of a quadrant, in the order `compute_quadrant` sweeps them. -/
inductive Edge where
  | vertical
  | horizontal
deriving DecidableEq

/-- Read `m->cells[c]`. -/
def TCOD_Map.cell (m : TCOD_Map) (c : Int) : Except Fault TCOD_MapCell :=
  if 0 ≤ c then
    match m.cells[c.toNat]? with
    | some cell => .ok cell
    | none => .error .out_of_bounds
  else .error .out_of_bounds

/-- Write `m->cells[c].fov = b`. -/
def TCOD_Map.set_fov (m : TCOD_Map) (c : Int) (b : Bool) : Except Fault TCOD_Map :=
  if 0 ≤ c then
    match m.cells[c.toNat]? with
    | some cell => .ok { m with cells := m.cells.set c.toNat { cell with fov := b } }
    | none => .error .out_of_bounds
  else .error .out_of_bounds

/-- The C conversion `(int)q` of a slope quotient: truncation toward zero. -/
def int_cast (q : ℚ) : Int := if 0 ≤ q then ⌊q⌋ else ⌈q⌉

/-- Modelled from the spec: the macro `MAX` of `utility.h`, a header that is not
among the sources at hand: the larger of its two arguments. -/
def MAX {α : Type} [Max α] (a b : α) : α := max a b

/-- Modelled from the spec: the macro `MIN` of `utility.h`, a header that is not
among the sources at hand: the smaller of its two arguments. -/
def MIN {α : Type} [Min α] (a b : α) : α := min a b

/-- A C loop `while (cond) body` run for at most `fuel` iterations. -/
def while_loop {σ : Type} (cond : σ → Bool) (body : σ → Except Fault σ) :
    Nat → σ → Except Fault σ
  | 0, s => if cond s then .error .out_of_fuel else .ok s
  | fuel + 1, s => if cond s then (body s).bind (while_loop cond body fuel) else .ok s

/-! ## `compute_quadrant` -/

/-- The variables of one octant sweep of `compute_quadrant`: the map and the two
interval buffers it works on, and the block-local variables (lines 55-61 and
164-170) together with `processed_cell` of the ring being scanned. -/
structure Octant where
  m : TCOD_Map
  start_angle : Nat → ℚ
  end_angle : Nat → ℚ
  iteration : Int
  done : Bool
  total_obstacles : Nat
  obstacles_in_last_line : Nat
  min_angle : ℚ
  x : Int
  y : Int
  processed_cell : Int

/-- The variables of the visibility test of one cell (lines 80-81 and 98). -/
structure CellScan where
  start_angle : Nat → ℚ
  end_angle : Nat → ℚ
  idx : Nat
  visible : Bool
  extended : Bool

/-- One iteration of the obstacle loop, lines 100-123 (vertical edge) and
209-233 (horizontal edge), followed by the `++idx` of the loop header. The
horizontal-edge copy has a second `++idx` at line 232, inside the overlap
branch. -/
def obstacle_body (e : Edge) (m : TCOD_Map) (c : Int)
    (start_slope centre_slope end_slope : ℚ) (s : CellScan) : Except Fault CellScan :=
  if start_slope ≤ s.end_angle s.idx ∧ end_slope ≥ s.start_angle s.idx then
    (m.cell c).bind fun cell =>
      let s1 : CellScan :=
        if cell.transparent then
          if centre_slope > s.start_angle s.idx ∧ centre_slope < s.end_angle s.idx then
            { s with visible := false }
          else s
        else
          if start_slope ≥ s.start_angle s.idx ∧ end_slope ≤ s.end_angle s.idx then
            { s with visible := false }
          else
            { s with
              start_angle :=
                Function.update s.start_angle s.idx (MIN (s.start_angle s.idx) start_slope)
              end_angle :=
                Function.update s.end_angle s.idx (MAX (s.end_angle s.idx) end_slope)
              extended := true }
      let s2 : CellScan :=
        match e with
        | .vertical => s1
        | .horizontal => { s1 with idx := s1.idx + 1 }
      .ok { s2 with idx := s2.idx + 1 }
  else .ok { s with idx := s.idx + 1 }

/-- The index of the first cell of the neighbour test: `c-(m->width * dy)` at
lines 88-89 (vertical edge), `c-dx` at lines 197-198 (horizontal edge). -/
def first_neighbour (e : Edge) (width c dx dy : Int) : Int :=
  match e with
  | .vertical => c - width * dy
  | .horizontal => c - dx

/-- The neighbour test, lines 86-95 (vertical edge) and 195-204 (horizontal
edge): true when neither of the two cells one ring closer is both in view and
transparent. The second cell is read only when the first fails (`&&`). -/
def neighbours_blocked (e : Edge) (m : TCOD_Map) (c dx dy : Int) : Except Fault Bool :=
  (m.cell (first_neighbour e m.width c dx dy)).bind fun a =>
    if a.fov && a.transparent then .ok false
    else (m.cell (c - m.width * dy - dx)).bind fun b => .ok (!(b.fov && b.transparent))

/-- The visibility test of the cell with flat index `c`, lines 80-126 and
189-236. -/
def cell_visibility (e : Edge) (dx dy : Int) (start_slope centre_slope end_slope : ℚ)
    (c : Int) (s : Octant) : Except Fault CellScan :=
  let init : CellScan :=
    { start_angle := s.start_angle, end_angle := s.end_angle,
      idx := 0, visible := true, extended := false }
  if s.obstacles_in_last_line > 0 then
    (neighbours_blocked e s.m c dx dy).bind fun blocked =>
      if blocked then .ok { init with visible := false }
      else
        while_loop (fun t => decide (t.idx < s.obstacles_in_last_line) && t.visible)
          (obstacle_body e s.m c start_slope centre_slope end_slope)
          s.obstacles_in_last_line init
  else .ok init

/-- The branch `if (visible)`, lines 127-147 and 237-257. -/
def mark_visible (light_walls : Bool) (start_slope end_slope : ℚ) (extended : Bool)
    (c : Int) (s : Octant) : Except Fault Octant :=
  (s.m.set_fov c true).bind fun m1 =>
    let s1 : Octant := { s with done := false, m := m1 }
    (m1.cell c).bind fun cell =>
      if !cell.transparent then
        let s2 : Octant :=
          if s1.min_angle ≥ start_slope then
            { s1 with
              min_angle := end_slope
              done := if s1.processed_cell = s1.iteration then true else s1.done }
          else if !extended then
            { s1 with
              start_angle := Function.update s1.start_angle s1.total_obstacles start_slope
              end_angle := Function.update s1.end_angle s1.total_obstacles end_slope
              total_obstacles := s1.total_obstacles + 1 }
          else s1
        if !light_walls then
          (s2.m.set_fov c false).bind fun m2 => .ok { s2 with m := m2 }
        else .ok s2
      else .ok s1

/-- The body of the `for` loop over the cells of a ring together with the loop
step, lines 78-148 with `x += dx` (vertical edge) and lines 187-258 with
`y += dy` (horizontal edge). -/
def scan_cell (e : Edge) (light_walls : Bool) (dx dy : Int)
    (slopes_per_cell half_slopes : ℚ) (s : Octant) : Except Fault Octant :=
  let c : Int := s.x + s.y * s.m.width
  let centre_slope : ℚ := (s.processed_cell : ℚ) * slopes_per_cell
  let start_slope : ℚ := centre_slope - half_slopes
  let end_slope : ℚ := centre_slope + half_slopes
  (cell_visibility e dx dy start_slope centre_slope end_slope c s).bind fun r =>
    let s1 : Octant := { s with start_angle := r.start_angle, end_angle := r.end_angle }
    (if r.visible then mark_visible light_walls start_slope end_slope r.extended c s1
      else .ok s1).bind fun s2 =>
      let s3 : Octant := { s2 with processed_cell := s2.processed_cell + 1 }
      match e with
      | .vertical => .ok { s3 with x := s3.x + dx }
      | .horizontal => .ok { s3 with y := s3.y + dy }

/-- The lower end of the scanned line: `minx` at line 74 (vertical edge), `miny`
at line 183 (horizontal edge). -/
def line_lo (e : Edge) (player_x player_y iteration : Int) : Int :=
  match e with
  | .vertical => MAX 0 (player_x - iteration)
  | .horizontal => MAX 0 (player_y - iteration)

/-- The upper end of the scanned line: `maxx` at line 75 (vertical edge), `maxy`
at line 184 (horizontal edge). -/
def line_hi (e : Edge) (m : TCOD_Map) (player_x player_y iteration : Int) : Int :=
  match e with
  | .vertical => MIN (m.width - 1) (player_x + iteration)
  | .horizontal => MIN (m.height - 1) (player_y + iteration)

/-- The start of a line: `done = true` (lines 76, 185) and the initialisation of
the `for` loop (lines 77, 186), with `processed_cell` of lines 73, 182. -/
def line_start (e : Edge) (player_x player_y dx dy processed_cell : Int) (s : Octant) :
    Octant :=
  match e with
  | .vertical =>
    { s with done := true, processed_cell := processed_cell,
             x := player_x + processed_cell * dx }
  | .horizontal =>
    { s with done := true, processed_cell := processed_cell,
             y := player_y + processed_cell * dy }

/-- The condition of the `for` loop: `x >= minx && x <= maxx` (line 77),
`y >= miny && y <= maxy` (line 186). -/
def in_line (e : Edge) (lo hi : Int) (t : Octant) : Bool :=
  match e with
  | .vertical => decide (t.x ≥ lo) && decide (t.x ≤ hi)
  | .horizontal => decide (t.y ≥ lo) && decide (t.y ≤ hi)

/-- The end of the `while` body, lines 150-158 (vertical edge) and 260-268
(horizontal edge): the radius test, the step to the next ring and the test
that the ring coordinate is still inside the map. -/
def line_end (e : Edge) (max_radius dx dy : Int) (s2 : Octant) : Octant :=
  let s3 : Octant := if s2.iteration = max_radius then { s2 with done := true } else s2
  let s4 : Octant :=
    { s3 with iteration := s3.iteration + 1, obstacles_in_last_line := s3.total_obstacles }
  match e with
  | .vertical =>
    let s5 : Octant := { s4 with y := s4.y + dy }
    if s5.y < 0 ∨ s5.y ≥ s5.m.height then { s5 with done := true } else s5
  | .horizontal =>
    let s5 : Octant := { s4 with x := s4.x + dx }
    if s5.x < 0 ∨ s5.x ≥ s5.m.width then { s5 with done := true } else s5

/-- The body of the `while (!done)` loop, lines 70-158 (vertical edge) and
179-268 (horizontal edge): scan one ring, then step to the next one. -/
def scan_ring (e : Edge) (player_x player_y max_radius : Int) (light_walls : Bool)
    (dx dy : Int) (s : Octant) : Except Fault Octant :=
  let slopes_per_cell : ℚ := 1 / (s.iteration : ℚ)
  let half_slopes : ℚ := slopes_per_cell * (1 / 2)
  let processed_cell : Int := int_cast ((s.min_angle + half_slopes) / slopes_per_cell)
  let lo : Int := line_lo e player_x player_y s.iteration
  let hi : Int := line_hi e s.m player_x player_y s.iteration
  (while_loop (in_line e lo hi) (scan_cell e light_walls dx dy slopes_per_cell half_slopes)
      (hi - lo + 1).toNat (line_start e player_x player_y dx dy processed_cell s)).bind
    fun s2 => .ok (line_end e max_radius dx dy s2)

/-- The variables of an octant block on entry to its `while` loop, lines 55-68
(vertical edge) and 164-177 (horizontal edge). The scan coordinate and
`processed_cell` are not yet assigned; they start at `player_x`, `player_y`
and `0` here and are overwritten before their first use. -/
def octant_init (e : Edge) (m : TCOD_Map) (player_x player_y dx dy : Int)
    (start_angle end_angle : Nat → ℚ) : Octant :=
  match e with
  | .vertical =>
    { m := m, start_angle := start_angle, end_angle := end_angle, iteration := 1,
      done := decide (player_y + dy < 0 ∨ player_y + dy ≥ m.height),
      total_obstacles := 0, obstacles_in_last_line := 0, min_angle := 0,
      x := player_x, y := player_y + dy, processed_cell := 0 }
  | .horizontal =>
    { m := m, start_angle := start_angle, end_angle := end_angle, iteration := 1,
      done := decide (player_x + dx < 0 ∨ player_x + dx ≥ m.width),
      total_obstacles := 0, obstacles_in_last_line := 0, min_angle := 0,
      x := player_x + dx, y := player_y, processed_cell := 0 }

/-- A bound on the number of rings of an octant block: with `dy = ±1` (resp.
`dx = ±1`), the only values `compute_quadrant` is called with, the ring
coordinate leaves the grid after at most `height` (resp. `width`) rings. -/
def ring_bound (e : Edge) (m : TCOD_Map) : Nat :=
  match e with
  | .vertical => m.height.toNat
  | .horizontal => m.width.toNat

/-- One octant block of `compute_quadrant`, lines 54-160 (vertical edge) and
163-270 (horizontal edge): the `while (!done)` loop from the initial values of
the block. -/
def octant (e : Edge) (m : TCOD_Map) (player_x player_y max_radius : Int)
    (light_walls : Bool) (dx dy : Int) (start_angle end_angle : Nat → ℚ) :
    Except Fault Octant :=
  while_loop (fun s => !s.done)
    (scan_ring e player_x player_y max_radius light_walls dx dy) (ring_bound e m)
    (octant_init e m player_x player_y dx dy start_angle end_angle)

/-- The function `compute_quadrant`, lines 42-271: the vertical-edge octant, then
the horizontal-edge octant on the map and the buffers the first one left. The
result is the map and the two buffers. -/
def compute_quadrant (m : TCOD_Map) (player_x player_y max_radius : Int)
    (light_walls : Bool) (dx dy : Int) (start_angle end_angle : Nat → ℚ) :
    Except Fault (TCOD_Map × (Nat → ℚ) × (Nat → ℚ)) :=
  (octant .vertical m player_x player_y max_radius light_walls dx dy
      start_angle end_angle).bind fun v =>
    (octant .horizontal v.m player_x player_y max_radius light_walls dx dy
        v.start_angle v.end_angle).bind fun h =>
      .ok (h.m, h.start_angle, h.end_angle)

/-! ## `TCOD_map_compute_fov_restrictive_shadowcasting` -/

/-- The loop of lines 275-277, `for (i = 0, e = nbcells; i != e; i++)
cells[i].fov = false`, on the pair of the map and `i`. -/
def zero_fov (m : TCOD_Map) : Except Fault (TCOD_Map × Int) :=
  while_loop (fun s : TCOD_Map × Int => decide (s.2 ≠ m.nbcells))
    (fun s => (s.1.set_fov s.2 false).bind fun m1 => .ok (m1, s.2 + 1))
    m.nbcells.toNat (m, 0)

/-- The function `TCOD_map_compute_fov_restrictive_shadowcasting`, lines
273-295. `start_angle` and `end_angle` are the contents of the two freshly
allocated buffers. -/
def TCOD_map_compute_fov_restrictive_shadowcasting (map : TCOD_Map)
    (player_x player_y max_radius : Int) (light_walls : Bool)
    (start_angle end_angle : Nat → ℚ) : Except Fault TCOD_Map :=
  (zero_fov map).bind fun z =>
    (z.1.set_fov (player_x + player_y * z.1.width) true).bind fun m0 =>
      (compute_quadrant m0 player_x player_y max_radius light_walls 1 1
          start_angle end_angle).bind fun q1 =>
        (compute_quadrant q1.1 player_x player_y max_radius light_walls 1 (-1)
            q1.2.1 q1.2.2).bind fun q2 =>
          (compute_quadrant q2.1 player_x player_y max_radius light_walls (-1) 1
              q2.2.1 q2.2.2).bind fun q3 =>
            (compute_quadrant q3.1 player_x player_y max_radius light_walls (-1) (-1)
                q3.2.1 q3.2.2).bind fun q4 =>
              .ok q4.1

/-! ## Observations on maps -/

/-- The map is a `width × height` grid with at least one cell: `nbcells` and the
length of the cell array are both `width * height`. -/
def TCOD_Map.wf (m : TCOD_Map) : Prop :=
  0 < m.width ∧ 0 < m.height ∧ m.nbcells = m.width * m.height ∧
    (m.cells.length : Int) = m.nbcells

instance (m : TCOD_Map) : Decidable m.wf := by
  unfold TCOD_Map.wf; infer_instance

/-- The coordinates `(x, y)` name a cell of the grid. -/
def TCOD_Map.in_bounds (m : TCOD_Map) (x y : Int) : Prop :=
  0 ≤ x ∧ x < m.width ∧ 0 ≤ y ∧ y < m.height

instance (m : TCOD_Map) (x y : Int) : Decidable (m.in_bounds x y) := by
  unfold TCOD_Map.in_bounds; infer_instance

/-- The `fov` flag of the cell at `(x, y)` (false when there is no such cell). -/
def TCOD_Map.visible (m : TCOD_Map) (x y : Int) : Bool :=
  match m.cells[(x + y * m.width).toNat]? with
  | some cell => cell.fov
  | none => false

/-- The `fov` flag at `(x, y)` of the map a call returned (false when the call
did not return). -/
def returned_visible (r : Except Fault TCOD_Map) (x y : Int) : Bool :=
  match r with
  | .ok m => m.visible x y
  | .error _ => false

/-- The `transparent` flag of the cell at `(x, y)` (false when there is no such
cell). -/
def TCOD_Map.is_transparent (m : TCOD_Map) (x y : Int) : Bool :=
  match m.cells[(x + y * m.width).toNat]? with
  | some cell => cell.transparent
  | none => false

/-! ## Sample maps -/

/-- A floor cell with its `fov` flag clear. -/
def floor_cell : TCOD_MapCell := { transparent := true, walkable := true, fov := false }

/-- A wall cell with its `fov` flag clear. -/
def wall_cell : TCOD_MapCell := { transparent := false, walkable := false, fov := false }

/-- A 3 × 3 room without walls. -/
def open_room : TCOD_Map :=
  { width := 3, height := 3, nbcells := 9,
    cells := [floor_cell, floor_cell, floor_cell,
              floor_cell, floor_cell, floor_cell,
              floor_cell, floor_cell, floor_cell] }

/-- The row `[origin, floor, wall, floor, floor]` as a 5 × 1 map. -/
def corridor : TCOD_Map :=
  { width := 5, height := 1, nbcells := 5,
    cells := [floor_cell, floor_cell, wall_cell, floor_cell, floor_cell] }

/-- The corridor after an earlier computation left every `fov` flag set, with
every cell walkable. -/
def stale_corridor : TCOD_Map :=
  { corridor with
    cells := corridor.cells.map (fun c => { c with walkable := true, fov := true }) }

/-- A buffer whose entries are all zero. -/
def zero_buffer : Nat → ℚ := fun _ => 0

/-! ## The sweep in ring and scan coordinates

An octant sweep only ever looks at the quadrant it belongs to. The functions
below restate the sweep on that quadrant alone: a cell is named by its ring
index and its position along the ring, the obstacle intervals form a list, and
nothing can fault. The refinement theorems further down connect them with
`octant`, `compute_quadrant` and the entry point. -/

/-- A loop on a pure state, run for at most `fuel` iterations. -/
def iterate_while {α : Type} (cond : α → Bool) (body : α → α) : Nat → α → α
  | 0, a => a
  | fuel + 1, a => if cond a then iterate_while cond body fuel (body a) else a

/-- The state of an octant sweep in ring and scan coordinates: `lit ring pos`
is the `fov` flag of the cell at position `pos` of ring `ring`. -/
structure Sweep where
  lit : Int → Int → Bool
  obstacles : List (ℚ × ℚ)
  last_line : Nat
  min_angle : ℚ
  done : Bool
  ring : Int
  pos : Int

/-- The state of the visibility test of one cell, the obstacles as a list. -/
structure Probe where
  obstacles : List (ℚ × ℚ)
  idx : Nat
  visible : Bool
  extended : Bool

/-- Overwrite one entry of a table of flags. -/
def set_lit (g : Int → Int → Bool) (r p : Int) (b : Bool) : Int → Int → Bool :=
  fun r1 p1 => if r1 = r ∧ p1 = p then b else g r1 p1

/-- The list counterpart of `obstacle_body` for a cell of transparency `t`. -/
def probe_step (e : Edge) (t : Bool) (start_slope centre_slope end_slope : ℚ)
    (s : Probe) : Probe :=
  let o : ℚ × ℚ := s.obstacles.getD s.idx (0, 0)
  if start_slope ≤ o.2 ∧ end_slope ≥ o.1 then
    let s1 : Probe :=
      if t then
        if centre_slope > o.1 ∧ centre_slope < o.2 then { s with visible := false } else s
      else
        if start_slope ≥ o.1 ∧ end_slope ≤ o.2 then { s with visible := false }
        else
          { s with
            obstacles := s.obstacles.set s.idx (min o.1 start_slope, max o.2 end_slope)
            extended := true }
    let s2 : Probe :=
      match e with
      | .vertical => s1
      | .horizontal => { s1 with idx := s1.idx + 1 }
    { s2 with idx := s2.idx + 1 }
  else { s with idx := s.idx + 1 }

/-- The counterpart of `cell_visibility` for the cell at position `a.pos` of
ring `a.ring`. At position `0` the second neighbour lies outside the quadrant
and is not consulted. -/
def probe (e : Edge) (tr : Int → Int → Bool) (start_slope centre_slope end_slope : ℚ)
    (a : Sweep) : Probe :=
  let init : Probe := { obstacles := a.obstacles, idx := 0, visible := true, extended := false }
  if a.last_line > 0 then
    if !(a.lit (a.ring - 1) a.pos && tr (a.ring - 1) a.pos) &&
        !(decide (1 ≤ a.pos) && (a.lit (a.ring - 1) (a.pos - 1) && tr (a.ring - 1) (a.pos - 1)))
    then { init with visible := false }
    else
      iterate_while (fun t => decide (t.idx < a.last_line) && t.visible)
        (probe_step e (tr a.ring a.pos) start_slope centre_slope end_slope) a.last_line init
  else init

/-- The counterpart of `mark_visible`. -/
def sweep_mark (light_walls : Bool) (t : Bool) (start_slope end_slope : ℚ)
    (extended : Bool) (a : Sweep) : Sweep :=
  let a1 : Sweep := { a with done := false, lit := set_lit a.lit a.ring a.pos true }
  if !t then
    let a2 : Sweep :=
      if a1.min_angle ≥ start_slope then
        { a1 with
          min_angle := end_slope
          done := if a1.pos = a1.ring then true else a1.done }
      else if !extended then
        { a1 with obstacles := a1.obstacles ++ [(start_slope, end_slope)] }
      else a1
    if !light_walls then { a2 with lit := set_lit a2.lit a2.ring a2.pos false } else a2
  else a1

/-- The counterpart of `scan_cell`. -/
def sweep_cell (e : Edge) (light_walls : Bool) (tr : Int → Int → Bool) (a : Sweep) : Sweep :=
  let slopes_per_cell : ℚ := 1 / (a.ring : ℚ)
  let half_slopes : ℚ := slopes_per_cell * (1 / 2)
  let centre_slope : ℚ := (a.pos : ℚ) * slopes_per_cell
  let start_slope : ℚ := centre_slope - half_slopes
  let end_slope : ℚ := centre_slope + half_slopes
  let r : Probe := probe e tr start_slope centre_slope end_slope a
  let a1 : Sweep := { a with obstacles := r.obstacles }
  let a2 : Sweep :=
    if r.visible then sweep_mark light_walls (tr a.ring a.pos) start_slope end_slope r.extended a1
    else a1
  { a2 with pos := a2.pos + 1 }

/-- The start of a ring: the first position to scan, from `min_angle`. -/
def ring_open (a : Sweep) : Sweep :=
  { a with
    done := true
    pos := int_cast ((a.min_angle + 1 / (a.ring : ℚ) * (1 / 2)) / (1 / (a.ring : ℚ))) }

/-- The end of a ring: the radius test, the step to the next ring and the test
that this ring is still inside the quadrant. -/
def ring_close (max_radius rmax : Int) (a : Sweep) : Sweep :=
  { a with
    done := a.done || decide (a.ring = max_radius) || decide (a.ring + 1 > rmax)
    ring := a.ring + 1
    last_line := a.obstacles.length }

/-- The counterpart of `scan_ring` on a quadrant whose last ring is `rmax` and
whose last position along a ring is `smax`. -/
def sweep_ring (e : Edge) (light_walls : Bool) (max_radius : Int) (tr : Int → Int → Bool)
    (rmax smax : Int) (a : Sweep) : Sweep :=
  ring_close max_radius rmax
    (iterate_while (fun t => decide (t.pos ≤ min a.ring smax)) (sweep_cell e light_walls tr)
      (min a.ring smax + 1 - (ring_open a).pos).toNat (ring_open a))

/-- The state of a sweep on entry to its ring loop. -/
def sweep_init (g : Int → Int → Bool) (rmax : Int) : Sweep :=
  { lit := g, obstacles := [], last_line := 0, min_angle := 0,
    done := decide (1 > rmax), ring := 1, pos := 0 }

/-- The counterpart of `octant`. -/
def sweep (e : Edge) (light_walls : Bool) (max_radius : Int) (tr : Int → Int → Bool)
    (rmax smax : Int) (g : Int → Int → Bool) : Sweep :=
  iterate_while (fun a => !a.done) (sweep_ring e light_walls max_radius tr rmax smax)
    rmax.toNat (sweep_init g rmax)

/-! ## The sweeps on a table of flags in grid coordinates -/

/-- The number of cells between coordinate `p` and the edge of a grid of size
`limit`, going in direction `d` (`1` or `-1`). -/
def extent (p d limit : Int) : Int := if d = 1 then limit - 1 - p else p

/-- A table in grid coordinates seen from the octant `e` of the quadrant
`(dx, dy)` around `(px, py)`, in ring and scan coordinates. -/
def to_octant (e : Edge) (px py dx dy : Int) (f : Int → Int → Bool) : Int → Int → Bool :=
  fun r s =>
    match e with
    | .vertical => f (px + s * dx) (py + r * dy)
    | .horizontal => f (px + r * dx) (py + s * dy)

/-- The table `f` in grid coordinates with the cells of the quadrant `(dx, dy)`
around `(px, py)` replaced by the table `g` in ring and scan coordinates. -/
def of_octant (e : Edge) (px py dx dy : Int) (f g : Int → Int → Bool) : Int → Int → Bool :=
  fun x y =>
    if 0 ≤ (x - px) * dx ∧ 0 ≤ (y - py) * dy then
      match e with
      | .vertical => g ((y - py) * dy) ((x - px) * dx)
      | .horizontal => g ((x - px) * dx) ((y - py) * dy)
    else f x y

/-- The last ring of the octant `e` inside a `w × h` grid. -/
def ring_extent (e : Edge) (w h px py dx dy : Int) : Int :=
  match e with
  | .vertical => extent py dy h
  | .horizontal => extent px dx w

/-- The last position along a ring of the octant `e` inside a `w × h` grid. -/
def scan_extent (e : Edge) (w h px py dx dy : Int) : Int :=
  match e with
  | .vertical => extent px dx w
  | .horizontal => extent py dy h

/-- The effect of one octant sweep on the table `f` of `fov` flags, `tr` being
the table of `transparent` flags. -/
def octant_lit (e : Edge) (light_walls : Bool) (max_radius : Int) (tr : Int → Int → Bool)
    (w h px py dx dy : Int) (f : Int → Int → Bool) : Int → Int → Bool :=
  of_octant e px py dx dy f
    (sweep e light_walls max_radius (to_octant e px py dx dy tr)
      (ring_extent e w h px py dx dy) (scan_extent e w h px py dx dy)
      (to_octant e px py dx dy f)).lit

/-- The eight octant sweeps of a call, in the order they run. -/
def octant_order : List (Edge × Int × Int) :=
  [(.vertical, 1, 1), (.horizontal, 1, 1), (.vertical, 1, -1), (.horizontal, 1, -1),
   (.vertical, -1, 1), (.horizontal, -1, 1), (.vertical, -1, -1), (.horizontal, -1, -1)]

/-- The effect of `compute_quadrant` on the table of `fov` flags. -/
def quadrant_lit (light_walls : Bool) (max_radius : Int) (tr : Int → Int → Bool)
    (w h px py dx dy : Int) (f : Int → Int → Bool) : Int → Int → Bool :=
  octant_lit .horizontal light_walls max_radius tr w h px py dx dy
    (octant_lit .vertical light_walls max_radius tr w h px py dx dy f)

/-- The table of `fov` flags the entry point computes on a `w × h` grid with
`transparent` flags `tr`. -/
def fov_lit (light_walls : Bool) (max_radius : Int) (tr : Int → Int → Bool)
    (w h px py : Int) : Int → Int → Bool :=
  quadrant_lit light_walls max_radius tr w h px py (-1) (-1)
    (quadrant_lit light_walls max_radius tr w h px py (-1) 1
      (quadrant_lit light_walls max_radius tr w h px py 1 (-1)
        (quadrant_lit light_walls max_radius tr w h px py 1 1
          (fun x y => decide (x = px ∧ y = py)))))

/-! ## Relations between the embedding and the tables -/

/-- The map `m` is the map `m0` with its `fov` flags replaced by the table `f`
in grid coordinates. -/
structure LitAs (m0 : TCOD_Map) (f : Int → Int → Bool) (m : TCOD_Map) : Prop where
  width : m.width = m0.width
  height : m.height = m0.height
  nbcells : m.nbcells = m0.nbcells
  length : m.cells.length = m0.cells.length
  cells : ∀ i : Nat, i < m0.cells.length →
    ∃ c c0, m.cells[i]? = some c ∧ m0.cells[i]? = some c0 ∧
      c.transparent = c0.transparent ∧ c.walkable = c0.walkable ∧
      c.fov = f ((i : Int) % m0.width) ((i : Int) / m0.width)

/-- The table of `transparent` flags of a map, in grid coordinates; positions outside the
grid, which the algorithm never reads, count as opaque. -/
def TCOD_Map.tr (m : TCOD_Map) : Int → Int → Bool :=
  fun x y => decide (m.in_bounds x y) && m.is_transparent x y

/-- The table of `fov` flags of a map, in grid coordinates. -/
def TCOD_Map.lit (m : TCOD_Map) : Int → Int → Bool := fun x y => m.visible x y

/-- The centre slope of the cell at position `p` of ring `i`. -/
def centre_slope (i p : Int) : ℚ := (p : ℚ) * (1 / (i : ℚ))

/-- The start slope of the cell at position `p` of ring `i`. -/
def start_slope (i p : Int) : ℚ := (p : ℚ) * (1 / (i : ℚ)) - 1 / (i : ℚ) * (1 / 2)

/-- The end slope of the cell at position `p` of ring `i`. -/
def end_slope (i p : Int) : ℚ := (p : ℚ) * (1 / (i : ℚ)) + 1 / (i : ℚ) * (1 / 2)

/-- The visibility test `sweep_cell` performs. -/
def cell_probe (e : Edge) (tr : Int → Int → Bool) (a : Sweep) : Probe :=
  probe e tr (start_slope a.ring a.pos) (centre_slope a.ring a.pos) (end_slope a.ring a.pos) a

/-! ## Invariants of the sweep in ring and scan coordinates -/

/-- What holds whenever the scan loop of ring `i` is about to test its
condition. `g` is the table the sweep started from. -/
structure ScanInv (light_walls : Bool) (max_radius : Int) (tr : Int → Int → Bool)
    (rmax smax : Int) (g : Int → Int → Bool) (i : Int) (a : Sweep) : Prop where
  ring : a.ring = i
  ring_pos : 1 ≤ i
  ring_le : i ≤ rmax
  radius : 0 < max_radius → i ≤ max_radius
  pos_nonneg : 0 ≤ a.pos
  last_le : a.last_line ≤ a.obstacles.length
  last_ring : 0 < a.last_line → 2 ≤ i
  min_nonneg : 0 ≤ a.min_angle
  min_far : a.min_angle = 0 ∨ 1 ≤ 2 * (i : ℚ) * a.min_angle
  pos_zero : a.pos = 0 → a.min_angle = 0
  starts : a.min_angle = 0 → ∀ o ∈ a.obstacles, 0 < o.1
  axis_prev : a.min_angle = 0 → a.pos = 0 → 2 ≤ i →
    a.lit (i - 1) 0 = true ∧ tr (i - 1) 0 = true
  axis_here : a.min_angle = 0 → 1 ≤ a.pos →
    a.lit i 0 = true ∧ tr i 0 = true ∧ a.done = false
  clear : a.min_angle = 0 → ∀ k, 1 ≤ k → k < i → tr k 0 = true
  wall : a.min_angle ≠ 0 → ∃ k, 1 ≤ k ∧ k ≤ i ∧ tr k 0 = false
  axis_lit : ∀ j, 1 ≤ j → (j < i ∨ (j = i ∧ 1 ≤ a.pos)) →
    (∀ k, 1 ≤ k → k < j → tr k 0 = true) → a.lit j 0 = (tr j 0 || light_walls)
  frame : ∀ r s, a.lit r s = g r s ∨
    (1 ≤ r ∧ r ≤ i ∧ (r = i → s < a.pos) ∧ 0 ≤ s ∧ s ≤ r ∧ s ≤ smax ∧ r ≤ rmax ∧
      (0 < max_radius → r ≤ max_radius) ∧
      (s = 0 → ∀ k, 1 ≤ k → k < r → tr k 0 = true) ∧
      a.lit r s = (tr r s || light_walls))

/-- What holds whenever the ring loop is about to test its condition. -/
structure RingInv (light_walls : Bool) (max_radius : Int) (tr : Int → Int → Bool)
    (rmax smax : Int) (g : Int → Int → Bool) (a : Sweep) : Prop where
  ring_pos : 1 ≤ a.ring
  ring_le : a.done = false → a.ring ≤ rmax
  radius : 0 < max_radius → a.done = false → a.ring ≤ max_radius
  last_eq : a.last_line = a.obstacles.length
  first_ring : a.ring = 1 → a.obstacles = []
  min_nonneg : 0 ≤ a.min_angle
  min_far : a.min_angle = 0 ∨ 1 ≤ 2 * ((a.ring : ℚ) - 1) * a.min_angle
  starts : a.min_angle = 0 → ∀ o ∈ a.obstacles, 0 < o.1
  axis : a.min_angle = 0 → 2 ≤ a.ring →
    a.lit (a.ring - 1) 0 = true ∧ tr (a.ring - 1) 0 = true
  alive : a.min_angle = 0 → a.ring ≤ rmax → (a.ring = 1 ∨ a.ring - 1 ≠ max_radius) →
    a.done = false
  clear : a.min_angle = 0 → ∀ k, 1 ≤ k → k < a.ring → tr k 0 = true
  wall : a.min_angle ≠ 0 → ∃ k, 1 ≤ k ∧ k < a.ring ∧ tr k 0 = false
  axis_lit : ∀ j, 1 ≤ j → j < a.ring →
    (∀ k, 1 ≤ k → k < j → tr k 0 = true) → a.lit j 0 = (tr j 0 || light_walls)
  frame : ∀ r s, a.lit r s = g r s ∨
    (1 ≤ r ∧ r < a.ring ∧ 0 ≤ s ∧ s ≤ r ∧ s ≤ smax ∧ r ≤ rmax ∧
      (0 < max_radius → r ≤ max_radius) ∧
      (s = 0 → ∀ k, 1 ≤ k → k < r → tr k 0 = true) ∧
      a.lit r s = (tr r s || light_walls))

/-- While no obstacle has been met, the scanned part of the quadrant is lit. -/
structure CoverScan (smax : Int) (i : Int) (a : Sweep) : Prop where
  obstacles : a.obstacles = []
  last_line : a.last_line = 0
  min_angle : a.min_angle = 0
  earlier : ∀ r s, 1 ≤ r → r < i → 0 ≤ s → s ≤ min r smax → a.lit r s = true
  here : ∀ s, 0 ≤ s → s < a.pos → s ≤ min i smax → a.lit i s = true

/-- The ray from the origin in an axis direction `(d1, d2)` is the first column
of the octant `e` of the quadrant `(dx, dy)`. -/
def OnAxis (e : Edge) (dx dy d1 d2 : Int) : Prop :=
  (e = .vertical ∧ d1 = 0 ∧ d2 = dy) ∨ (e = .horizontal ∧ d2 = 0 ∧ d1 = dx)

/-! ## Two sweeps side by side -/

/-- Two sweeps over the same transparency table, inside ring `i`, one with
`light_walls = lw` and one with `lw1`: they agree on every variable and on the
flags of the cells they may still read. A cell of the first column of the
quadrant whose column is clear up to it and which has not been scanned yet may
differ: it is written before it is read. -/
structure ScanAgree (tr : Int → Int → Bool) (lw lw1 : Bool) (i : Int) (a b : Sweep) :
    Prop where
  obstacles : a.obstacles = b.obstacles
  last_line : a.last_line = b.last_line
  min_angle : a.min_angle = b.min_angle
  done : a.done = b.done
  ring : a.ring = b.ring
  pos : a.pos = b.pos
  cells : ∀ r s, 1 ≤ r → 0 ≤ s →
    ((tr r s = true ∨ lw = lw1) → a.lit r s = b.lit r s) ∨
      (s = 0 ∧ (∀ k, 1 ≤ k → k < r → tr k 0 = true) ∧ (i < r ∨ (r = i ∧ a.pos = 0)))

/-- Two sweeps over the same transparency table, between two rings. -/
structure RingAgree (tr : Int → Int → Bool) (lw lw1 : Bool) (a b : Sweep) : Prop where
  obstacles : a.obstacles = b.obstacles
  last_line : a.last_line = b.last_line
  min_angle : a.min_angle = b.min_angle
  done : a.done = b.done
  ring : a.ring = b.ring
  cells : ∀ r s, 1 ≤ r → 0 ≤ s →
    ((tr r s = true ∨ lw = lw1) → a.lit r s = b.lit r s) ∨
      (s = 0 ∧ (∀ k, 1 ≤ k → k < r → tr k 0 = true) ∧ a.ring ≤ r)

/-! ## Relations between `compute_quadrant` and the sweep -/

/-- The grid column of the cell at position `s` of ring `r` of an octant. -/
def cell_x (e : Edge) (px dx r s : Int) : Int :=
  match e with
  | .vertical => px + s * dx
  | .horizontal => px + r * dx

/-- The grid row of the cell at position `s` of ring `r` of an octant. -/
def cell_y (e : Edge) (py dy r s : Int) : Int :=
  match e with
  | .vertical => py + r * dy
  | .horizontal => py + s * dy

/-- The variables of a visibility test agree with a `Probe`. -/
structure ProbeRel (c : CellScan) (p : Probe) : Prop where
  idx : c.idx = p.idx
  visible : c.visible = p.visible
  extended : c.extended = p.extended
  buffers : ∀ (j : Nat) (hj : j < p.obstacles.length),
    c.start_angle j = (p.obstacles[j]).1 ∧ c.end_angle j = (p.obstacles[j]).2

/-- The variables of an octant block agree with a `Sweep`, between two rings:
the map is `m0` with the `fov` flags of the sweep written over the table `f0`. -/
structure OctRel (e : Edge) (m0 : TCOD_Map) (px py dx dy : Int) (f0 : Int → Int → Bool)
    (s : Octant) (a : Sweep) : Prop where
  lit : LitAs m0 (of_octant e px py dx dy f0 a.lit) s.m
  iteration : s.iteration = a.ring
  done : s.done = a.done
  total : s.total_obstacles = a.obstacles.length
  last : s.obstacles_in_last_line = a.last_line
  min_angle : s.min_angle = a.min_angle
  buffers : ∀ (j : Nat) (hj : j < a.obstacles.length),
    s.start_angle j = (a.obstacles[j]).1 ∧ s.end_angle j = (a.obstacles[j]).2
  ring_coord :
    match e with
    | .vertical => s.y = py + a.ring * dy
    | .horizontal => s.x = px + a.ring * dx

/-- The variables of an octant block agree with a `Sweep`, inside a ring. -/
structure ScanRel (e : Edge) (m0 : TCOD_Map) (px py dx dy : Int) (f0 : Int → Int → Bool)
    (s : Octant) (a : Sweep) : Prop where
  lit : LitAs m0 (of_octant e px py dx dy f0 a.lit) s.m
  iteration : s.iteration = a.ring
  done : s.done = a.done
  total : s.total_obstacles = a.obstacles.length
  last : s.obstacles_in_last_line = a.last_line
  min_angle : s.min_angle = a.min_angle
  buffers : ∀ (j : Nat) (hj : j < a.obstacles.length),
    s.start_angle j = (a.obstacles[j]).1 ∧ s.end_angle j = (a.obstacles[j]).2
  processed : s.processed_cell = a.pos
  x : s.x = cell_x e px dx a.ring a.pos
  y : s.y = cell_y e py dy a.ring a.pos

/-- The standing assumptions of an octant sweep: a well-formed map, an origin
inside it, and unit steps. -/
structure OctCtx (m0 : TCOD_Map) (px py dx dy : Int) : Prop where
  wf : m0.wf
  origin : m0.in_bounds px py
  hdx : dx = 1 ∨ dx = -1
  hdy : dy = 1 ∨ dy = -1

/-- The table `compute_quadrant` leaves in the quadrant `(1, 1)` when it runs
on the initial table, in offsets from the origin `(px, py)`. -/
def first_quadrant_lit (light_walls : Bool) (max_radius : Int) (tr : Int → Int → Bool)
    (w h px py : Int) : Int → Int → Bool :=
  fun u v =>
    quadrant_lit light_walls max_radius tr w h px py 1 1
      (fun x y => decide (x = px ∧ y = py)) (px + u) (py + v)

/-- A 3 × 3 room with a pillar in each corner. -/
def pillar_room : TCOD_Map :=
  { width := 3, height := 3, nbcells := 9,
    cells := [wall_cell, floor_cell, wall_cell,
              floor_cell, floor_cell, floor_cell,
              wall_cell, floor_cell, wall_cell] }

/-! ## Observations on a run -/

/-- The capacity of the two interval buffers, `max_obstacles` of line 283:
`nbcells / 7` in C integer division. -/
def max_obstacles (map : TCOD_Map) : Int := Int.tdiv map.nbcells 7

/-- The state of an octant block after at most `n` passes through the body of
its `while (!done)` loop. -/
def after_rings (e : Edge) (m : TCOD_Map) (player_x player_y max_radius : Int)
    (light_walls : Bool) (dx dy : Int) (start_angle end_angle : Nat → ℚ) :
    Nat → Except Fault Octant
  | 0 => .ok (octant_init e m player_x player_y dx dy start_angle end_angle)
  | n + 1 =>
    (after_rings e m player_x player_y max_radius light_walls dx dy start_angle end_angle n).bind
      fun s => if s.done then .ok s
        else scan_ring e player_x player_y max_radius light_walls dx dy s

/-- The first octant block of a call, the vertical-edge block of the quadrant
`(1, 1)`, after at most `n` rings: lines 275-280, then the block on the map they
leave. -/
def first_vertical_rings (map : TCOD_Map) (player_x player_y max_radius : Int)
    (light_walls : Bool) (start_angle end_angle : Nat → ℚ) (n : Nat) :
    Except Fault Octant :=
  (zero_fov map).bind fun z =>
    (z.1.set_fov (player_x + player_y * z.1.width) true).bind fun m0 =>
      after_rings .vertical m0 player_x player_y max_radius light_walls 1 1
        start_angle end_angle n

/-- The second octant block of a call, the horizontal-edge block of the quadrant
`(1, 1)`, after at most `n` rings: it runs on the map and the buffers the first
block leaves. -/
def first_horizontal_rings (map : TCOD_Map) (player_x player_y max_radius : Int)
    (light_walls : Bool) (start_angle end_angle : Nat → ℚ) (n : Nat) :
    Except Fault Octant :=
  (zero_fov map).bind fun z =>
    (z.1.set_fov (player_x + player_y * z.1.width) true).bind fun m0 =>
      (octant .vertical m0 player_x player_y max_radius light_walls 1 1
          start_angle end_angle).bind fun v =>
        after_rings .horizontal v.m player_x player_y max_radius light_walls 1 1
          v.start_angle v.end_angle n

/-- The obstacle intervals an octant block has recorded, read from the two
buffers. -/
def Octant.obstacles (s : Octant) : List (ℚ × ℚ) :=
  (List.range s.total_obstacles).map fun i => (s.start_angle i, s.end_angle i)

/-- The map with rows and columns exchanged: the cell `(x, y)` of the result is
the cell `(y, x)` of `m`. -/
def TCOD_Map.transpose (m : TCOD_Map) : TCOD_Map :=
  { width := m.height, height := m.width, nbcells := m.nbcells,
    cells := (List.range m.cells.length).map fun i =>
      m.cells.getD (i / m.height.toNat + i % m.height.toNat * m.width.toNat) wall_cell }

/-! ## More sample maps -/

/-- A 1 × 1 map whose only cell is a wall. -/
def single_cell : TCOD_Map :=
  { width := 1, height := 1, nbcells := 1, cells := [wall_cell] }

/-- A 2 × 5 map with walls at `(1, 1)` and `(1, 4)`. -/
def narrow_hall : TCOD_Map :=
  { width := 2, height := 5, nbcells := 10,
    cells := [floor_cell, floor_cell,
              floor_cell, wall_cell,
              floor_cell, floor_cell,
              floor_cell, floor_cell,
              floor_cell, wall_cell] }

/-- A 3 × 3 room with a pillar at its centre `(1, 1)`. -/
def pillar_cross : TCOD_Map :=
  { width := 3, height := 3, nbcells := 9,
    cells := [floor_cell, floor_cell, floor_cell,
              floor_cell, wall_cell, floor_cell,
              floor_cell, floor_cell, floor_cell] }

/-- A 6 × 5 map with walls at `(3, 1)`, `(4, 3)` and `(5, 3)`. -/
def slanted_hall : TCOD_Map :=
  { width := 6, height := 5, nbcells := 30,
    cells := [floor_cell, floor_cell, floor_cell, floor_cell, floor_cell, floor_cell,
              floor_cell, floor_cell, floor_cell, wall_cell, floor_cell, floor_cell,
              floor_cell, floor_cell, floor_cell, floor_cell, floor_cell, floor_cell,
              floor_cell, floor_cell, floor_cell, floor_cell, wall_cell, wall_cell,
              floor_cell, floor_cell, floor_cell, floor_cell, floor_cell, floor_cell] }

/-- A 7 × 5 map with walls at `(3, 1)`, `(4, 3)` and `(6, 3)`. -/
def gapped_hall : TCOD_Map :=
  { width := 7, height := 5, nbcells := 35,
    cells := [floor_cell, floor_cell, floor_cell, floor_cell, floor_cell, floor_cell, floor_cell,
              floor_cell, floor_cell, floor_cell, wall_cell, floor_cell, floor_cell, floor_cell,
              floor_cell, floor_cell, floor_cell, floor_cell, floor_cell, floor_cell, floor_cell,
              floor_cell, floor_cell, floor_cell, floor_cell, wall_cell, floor_cell, wall_cell,
              floor_cell, floor_cell, floor_cell, floor_cell, floor_cell, floor_cell,
              floor_cell] }

/-- A state of a vertical-edge octant block about to scan the cell `(1, 2)` of
the open room, second ring, with one obstacle recorded and no cell in view. -/
def dark_scan : Octant :=
  { m := open_room, start_angle := zero_buffer, end_angle := zero_buffer, iteration := 2,
    done := true, total_obstacles := 1, obstacles_in_last_line := 1, min_angle := 0,
    x := 1, y := 2, processed_cell := 1 }

/-- A floor cell in view. -/
def lit_floor : TCOD_MapCell := { transparent := true, walkable := true, fov := true }

/-- A state of a vertical-edge octant block about to scan the wall `(1, 2)` of a
3 × 3 room whose other cells are floor cells in view, second ring, with the
obstacle `(1/2, 3/2)` recorded. -/
def widening_scan : Octant :=
  { m := { width := 3, height := 3, nbcells := 9,
           cells := [lit_floor, lit_floor, lit_floor,
                     lit_floor, lit_floor, lit_floor,
                     lit_floor, wall_cell, lit_floor] },
    start_angle := fun _ => 1 / 2, end_angle := fun _ => 3 / 2, iteration := 2,
    done := true, total_obstacles := 1, obstacles_in_last_line := 1, min_angle := 0,
    x := 1, y := 2, processed_cell := 1 }

/-- What the vertical-edge obstacle loop has established for an opaque cell of
slope range `[ss, es]` once the obstacles below `k` have been tested without
blocking it, `sa` and `ea` being the buffers before the loop: none of them
contains the range of the cell, those that overlap it are widened, the others
are as they were. -/
structure OpaqueScan (sa ea : Nat → ℚ) (ss es : ℚ) (k : Nat) (t : CellScan) : Prop where
  idx : t.idx = k
  visible : t.visible = true
  open_before : ∀ i, i < k → ¬ ((ss ≤ ea i ∧ es ≥ sa i) ∧ (ss ≥ sa i ∧ es ≤ ea i))
  widened : ∀ i, i < k → (ss ≤ ea i ∧ es ≥ sa i) →
    t.start_angle i = min (sa i) ss ∧ t.end_angle i = max (ea i) es
  kept : ∀ i, ¬ (i < k ∧ (ss ≤ ea i ∧ es ≥ sa i)) →
    t.start_angle i = sa i ∧ t.end_angle i = ea i
  extended : t.extended = true ↔ ∃ i, i < k ∧ (ss ≤ ea i ∧ es ≥ sa i)

/-! ## The code with every cell access checked against its coordinates

The functions below are `compute_quadrant` and the entry point once more, with
each access `m->cells[c]` annotated with the coordinates `(x, y)` of the cell
it is meant for: the access is a fault unless `(x, y)` lies inside the grid and
`c` is the index `x + y * width` of that cell. A run of the checked code that
returns has therefore touched no index outside the array and no cell of a
neighbouring row or column by wrap-around. -/

/-- Read `m->cells[c]`, meant for the cell `(x, y)`. -/
def TCOD_Map.cell_at (m : TCOD_Map) (x y c : Int) : Except Fault TCOD_MapCell :=
  if m.in_bounds x y ∧ c = x + y * m.width then m.cell c else .error .out_of_bounds

/-- Write `m->cells[c].fov = b`, meant for the cell `(x, y)`. -/
def TCOD_Map.set_fov_at (m : TCOD_Map) (x y c : Int) (b : Bool) : Except Fault TCOD_Map :=
  if m.in_bounds x y ∧ c = x + y * m.width then m.set_fov c b else .error .out_of_bounds

/-- The function `obstacle_body` with its read of `m->cells[c]` checked: `c` is
meant for the scanned cell `(x, y)`. -/
def obstacle_body_checked (e : Edge) (m : TCOD_Map) (x y c : Int)
    (start_slope centre_slope end_slope : ℚ) (s : CellScan) : Except Fault CellScan :=
  if start_slope ≤ s.end_angle s.idx ∧ end_slope ≥ s.start_angle s.idx then
    (m.cell_at x y c).bind fun cell =>
      let s1 : CellScan :=
        if cell.transparent then
          if centre_slope > s.start_angle s.idx ∧ centre_slope < s.end_angle s.idx then
            { s with visible := false }
          else s
        else
          if start_slope ≥ s.start_angle s.idx ∧ end_slope ≤ s.end_angle s.idx then
            { s with visible := false }
          else
            { s with
              start_angle :=
                Function.update s.start_angle s.idx (MIN (s.start_angle s.idx) start_slope)
              end_angle :=
                Function.update s.end_angle s.idx (MAX (s.end_angle s.idx) end_slope)
              extended := true }
      let s2 : CellScan :=
        match e with
        | .vertical => s1
        | .horizontal => { s1 with idx := s1.idx + 1 }
      .ok { s2 with idx := s2.idx + 1 }
  else .ok { s with idx := s.idx + 1 }

/-- The function `neighbours_blocked` with its reads checked, `(x, y)` being the
scanned cell: `c-(m->width * dy)` is meant for `(x, y - dy)`, `c-dx` for
`(x - dx, y)` and `c-(m->width * dy) - dx` for `(x - dx, y - dy)`. -/
def neighbours_blocked_checked (e : Edge) (m : TCOD_Map) (x y c dx dy : Int) :
    Except Fault Bool :=
  (match e with
    | .vertical => m.cell_at x (y - dy) (first_neighbour e m.width c dx dy)
    | .horizontal => m.cell_at (x - dx) y (first_neighbour e m.width c dx dy)).bind fun a =>
    if a.fov && a.transparent then .ok false
    else
      (m.cell_at (x - dx) (y - dy) (c - m.width * dy - dx)).bind fun b =>
        .ok (!(b.fov && b.transparent))

/-- The function `cell_visibility` with its reads checked; the scanned cell is
`(s.x, s.y)`. -/
def cell_visibility_checked (e : Edge) (dx dy : Int)
    (start_slope centre_slope end_slope : ℚ) (c : Int) (s : Octant) : Except Fault CellScan :=
  let init : CellScan :=
    { start_angle := s.start_angle, end_angle := s.end_angle,
      idx := 0, visible := true, extended := false }
  if s.obstacles_in_last_line > 0 then
    (neighbours_blocked_checked e s.m s.x s.y c dx dy).bind fun blocked =>
      if blocked then .ok { init with visible := false }
      else
        while_loop (fun t => decide (t.idx < s.obstacles_in_last_line) && t.visible)
          (obstacle_body_checked e s.m s.x s.y c start_slope centre_slope end_slope)
          s.obstacles_in_last_line init
  else .ok init

/-- The function `mark_visible` with its accesses checked; the scanned cell is
`(s.x, s.y)`. -/
def mark_visible_checked (light_walls : Bool) (start_slope end_slope : ℚ) (extended : Bool)
    (c : Int) (s : Octant) : Except Fault Octant :=
  (s.m.set_fov_at s.x s.y c true).bind fun m1 =>
    let s1 : Octant := { s with done := false, m := m1 }
    (m1.cell_at s.x s.y c).bind fun cell =>
      if !cell.transparent then
        let s2 : Octant :=
          if s1.min_angle ≥ start_slope then
            { s1 with
              min_angle := end_slope
              done := if s1.processed_cell = s1.iteration then true else s1.done }
          else if !extended then
            { s1 with
              start_angle := Function.update s1.start_angle s1.total_obstacles start_slope
              end_angle := Function.update s1.end_angle s1.total_obstacles end_slope
              total_obstacles := s1.total_obstacles + 1 }
          else s1
        if !light_walls then
          (s2.m.set_fov_at s.x s.y c false).bind fun m2 => .ok { s2 with m := m2 }
        else .ok s2
      else .ok s1

/-- The function `scan_cell` with its accesses checked. -/
def scan_cell_checked (e : Edge) (light_walls : Bool) (dx dy : Int)
    (slopes_per_cell half_slopes : ℚ) (s : Octant) : Except Fault Octant :=
  let c : Int := s.x + s.y * s.m.width
  let centre_slope : ℚ := (s.processed_cell : ℚ) * slopes_per_cell
  let start_slope : ℚ := centre_slope - half_slopes
  let end_slope : ℚ := centre_slope + half_slopes
  (cell_visibility_checked e dx dy start_slope centre_slope end_slope c s).bind fun r =>
    let s1 : Octant := { s with start_angle := r.start_angle, end_angle := r.end_angle }
    (if r.visible then mark_visible_checked light_walls start_slope end_slope r.extended c s1
      else .ok s1).bind fun s2 =>
      let s3 : Octant := { s2 with processed_cell := s2.processed_cell + 1 }
      match e with
      | .vertical => .ok { s3 with x := s3.x + dx }
      | .horizontal => .ok { s3 with y := s3.y + dy }

/-- The function `scan_ring` with its accesses checked. -/
def scan_ring_checked (e : Edge) (player_x player_y max_radius : Int) (light_walls : Bool)
    (dx dy : Int) (s : Octant) : Except Fault Octant :=
  let slopes_per_cell : ℚ := 1 / (s.iteration : ℚ)
  let half_slopes : ℚ := slopes_per_cell * (1 / 2)
  let processed_cell : Int := int_cast ((s.min_angle + half_slopes) / slopes_per_cell)
  let lo : Int := line_lo e player_x player_y s.iteration
  let hi : Int := line_hi e s.m player_x player_y s.iteration
  (while_loop (in_line e lo hi)
      (scan_cell_checked e light_walls dx dy slopes_per_cell half_slopes)
      (hi - lo + 1).toNat (line_start e player_x player_y dx dy processed_cell s)).bind
    fun s2 => .ok (line_end e max_radius dx dy s2)

/-- The function `octant` with its accesses checked. -/
def octant_checked (e : Edge) (m : TCOD_Map) (player_x player_y max_radius : Int)
    (light_walls : Bool) (dx dy : Int) (start_angle end_angle : Nat → ℚ) :
    Except Fault Octant :=
  while_loop (fun s => !s.done)
    (scan_ring_checked e player_x player_y max_radius light_walls dx dy) (ring_bound e m)
    (octant_init e m player_x player_y dx dy start_angle end_angle)

/-- The function `compute_quadrant` with its accesses checked. -/
def compute_quadrant_checked (m : TCOD_Map) (player_x player_y max_radius : Int)
    (light_walls : Bool) (dx dy : Int) (start_angle end_angle : Nat → ℚ) :
    Except Fault (TCOD_Map × (Nat → ℚ) × (Nat → ℚ)) :=
  (octant_checked .vertical m player_x player_y max_radius light_walls dx dy
      start_angle end_angle).bind fun v =>
    (octant_checked .horizontal v.m player_x player_y max_radius light_walls dx dy
        v.start_angle v.end_angle).bind fun h =>
      .ok (h.m, h.start_angle, h.end_angle)

/-- The entry point with its accesses checked: the loop of lines 275-277 keeps
its plain accesses `cells[i]`, which fault outside `[0, nbcells)`; the write of
line 280 is meant for the cell `(player_x, player_y)`. -/
def compute_fov_checked (map : TCOD_Map) (player_x player_y max_radius : Int)
    (light_walls : Bool) (start_angle end_angle : Nat → ℚ) : Except Fault TCOD_Map :=
  (zero_fov map).bind fun z =>
    (z.1.set_fov_at player_x player_y (player_x + player_y * z.1.width) true).bind fun m0 =>
      (compute_quadrant_checked m0 player_x player_y max_radius light_walls 1 1
          start_angle end_angle).bind fun q1 =>
        (compute_quadrant_checked q1.1 player_x player_y max_radius light_walls 1 (-1)
            q1.2.1 q1.2.2).bind fun q2 =>
          (compute_quadrant_checked q2.1 player_x player_y max_radius light_walls (-1) 1
              q2.2.1 q2.2.2).bind fun q3 =>
            (compute_quadrant_checked q3.1 player_x player_y max_radius light_walls (-1) (-1)
                q3.2.1 q3.2.2).bind fun q4 =>
              .ok q4.1

/-! ## A run step by step -/

/-- The state of a C loop `while (cond) body` after at most `k` passes through
its body (fewer when the condition fails earlier). -/
def loop_steps {σ : Type} (cond : σ → Bool) (body : σ → Except Fault σ) :
    Nat → σ → Except Fault σ
  | 0, s => .ok s
  | k + 1, s => (loop_steps cond body k s).bind fun t => if cond t then body t else .ok t

/-- The `for` loop over the cells of the ring that `scan_ring` scans from the
state `s` (lines 71-77 and 180-186), after at most `k` cells. -/
def scan_steps (e : Edge) (player_x player_y : Int) (light_walls : Bool) (dx dy : Int)
    (s : Octant) (k : Nat) : Except Fault Octant :=
  let slopes_per_cell : ℚ := 1 / (s.iteration : ℚ)
  let half_slopes : ℚ := slopes_per_cell * (1 / 2)
  let processed_cell : Int := int_cast ((s.min_angle + half_slopes) / slopes_per_cell)
  let lo : Int := line_lo e player_x player_y s.iteration
  let hi : Int := line_hi e s.m player_x player_y s.iteration
  loop_steps (in_line e lo hi) (scan_cell e light_walls dx dy slopes_per_cell half_slopes)
    k (line_start e player_x player_y dx dy processed_cell s)

/-- The visibility test `scan_cell` performs on the state `t` of a scan. -/
def scan_visibility (e : Edge) (dx dy : Int) (t : Octant) : Except Fault CellScan :=
  cell_visibility e dx dy (start_slope t.iteration t.processed_cell)
    (centre_slope t.iteration t.processed_cell) (end_slope t.iteration t.processed_cell)
    (t.x + t.y * t.m.width) t

/-- Two states of an octant block agree on the map, on the variables of the
block and on the obstacles recorded so far (the buffer entries below
`total_obstacles`). -/
def same_run (s s1 : Octant) : Prop :=
  s1.m = s.m ∧ s1.iteration = s.iteration ∧ s1.done = s.done ∧
    s1.total_obstacles = s.total_obstacles ∧
    s1.obstacles_in_last_line = s.obstacles_in_last_line ∧ s1.min_angle = s.min_angle ∧
    ∀ j, j < s.total_obstacles →
      s1.start_angle j = s.start_angle j ∧ s1.end_angle j = s.end_angle j

/-! ## Further sample maps -/

/-- A 3 × 4 map with walls at `(0, 1)` and `(1, 2)`. -/
def stepped_hall : TCOD_Map :=
  { width := 3, height := 4, nbcells := 12,
    cells := [floor_cell, floor_cell, floor_cell,
              wall_cell, floor_cell, floor_cell,
              floor_cell, wall_cell, floor_cell,
              floor_cell, floor_cell, floor_cell] }

/-- A 4 × 3 map: the cell `(1, 1)` walled in by its eight neighbours, and a
column of floor cells at `x = 3`. -/
def walled_in : TCOD_Map :=
  { width := 4, height := 3, nbcells := 12,
    cells := [wall_cell, wall_cell, wall_cell, floor_cell,
              wall_cell, floor_cell, wall_cell, floor_cell,
              wall_cell, wall_cell, wall_cell, floor_cell] }

/-- The map `walled_in` with its cell `(1, 1)` made opaque. -/
def walled_up : TCOD_Map :=
  { width := 4, height := 3, nbcells := 12,
    cells := [wall_cell, wall_cell, wall_cell, floor_cell,
              wall_cell, wall_cell, wall_cell, floor_cell,
              wall_cell, wall_cell, wall_cell, floor_cell] }

/-! ## Further invariants of the sweep in ring and scan coordinates -/

/-- Bounds that hold whenever the scan loop of ring `i` is about to test its
condition: `min_angle` lies below the end slope of the next cell, every
obstacle is an interval inside `[1 / (2 i), 3 / 2]`, and the cells of ring 1
that have been scanned carry their final flag. -/
structure ScanBounds (light_walls : Bool) (tr : Int → Int → Bool) (smax : Int) (i : Int)
    (a : Sweep) : Prop where
  ahead : a.min_angle < end_slope i a.pos
  bounds : ∀ o ∈ a.obstacles, 1 ≤ 2 * (i : ℚ) * o.1 ∧ o.1 < o.2 ∧ o.2 ≤ 3 / 2 ∧
    (a.pos = 0 → 1 < 2 * (i : ℚ) * o.1)
  first : ∀ s, 0 ≤ s → s ≤ min 1 smax → (i = 1 → s < a.pos) →
    a.lit 1 s = (tr 1 s || light_walls)

/-- Bounds that hold whenever the ring loop is about to test its condition. -/
structure RingBounds (light_walls : Bool) (tr : Int → Int → Bool) (smax : Int)
    (a : Sweep) : Prop where
  bounds : ∀ o ∈ a.obstacles, 1 ≤ 2 * ((a.ring : ℚ) - 1) * o.1 ∧ o.1 < o.2 ∧ o.2 ≤ 3 / 2
  first : 2 ≤ a.ring → ∀ s, 0 ≤ s → s ≤ min 1 smax →
    a.lit 1 s = (tr 1 s || light_walls)

/-- The scan of a quadrant whose two cells of ring 1 are opaque, inside ring
`i`: ring 1 ends the sweep, or the quadrant is one cell wide and no further
cell is scanned. `g` is the table the sweep started from. -/
structure ShutScan (smax : Int) (g : Int → Int → Bool) (i : Int) (a : Sweep) : Prop where
  ring_one : i = 1 → a.pos = 0 ∨ (a.pos = 1 ∧ a.min_angle = 1 / 2) ∨
    (2 ≤ a.pos ∧ a.done = true)
  beyond : 2 ≤ i → smax = 0 ∧ 1 ≤ a.pos ∧ 1 / 2 ≤ a.min_angle ∧ a.done = true
  frame : ∀ r s, 2 ≤ r → a.lit r s = g r s

/-- The sweep of a quadrant whose two cells of ring 1 are opaque, between two
rings. -/
structure ShutRing (smax : Int) (g : Int → Int → Bool) (a : Sweep) : Prop where
  beyond : 2 ≤ a.ring → a.done = true ∨ (smax = 0 ∧ 1 / 2 ≤ a.min_angle)
  frame : ∀ r s, 2 ≤ r → a.lit r s = g r s

/-- A sweep `a` with radius `R` beside a sweep `b` without radius over the same
transparency table, while both are scanning the same ring: they agree on every
variable and on the flags of the cells within distance `R`. -/
structure RadiusAgree (R : Int) (a b : Sweep) : Prop where
  obstacles : a.obstacles = b.obstacles
  last_line : a.last_line = b.last_line
  min_angle : a.min_angle = b.min_angle
  done : a.done = b.done
  ring : a.ring = b.ring
  pos : a.pos = b.pos
  cells : ∀ r s, 0 ≤ r → r ≤ R → 0 ≤ s → s ≤ R → a.lit r s = b.lit r s

/-! ## Loops -/

theorem bind_ok {α β : Type} {x : Except Fault α} {f : α → Except Fault β} {a : α}
    (h : x = .ok a) : x.bind f = f a := by
  subst h; rfl

theorem iterate_while_inv {α : Type} (P : α → Prop) (c : α → Bool) (b : α → α)
    (h : ∀ a, P a → c a = true → P (b a)) :
    ∀ (fuel : Nat) (a : α), P a → P (iterate_while c b fuel a) := by
  intro fuel
  induction fuel with
  | zero => intro a ha; simpa [iterate_while] using ha
  | succ n ih =>
    intro a ha
    by_cases hc : c a = true
    · simp only [iterate_while, hc, if_true]
      exact ih _ (h a ha hc)
    · simp only [iterate_while, hc]
      simpa using ha

theorem iterate_while_done {α : Type} (P : α → Prop) (c : α → Bool) (b : α → α)
    (μ : α → Nat) (h : ∀ a, P a → c a = true → P (b a) ∧ μ (b a) < μ a) :
    ∀ (fuel : Nat) (a : α), P a → μ a ≤ fuel → c (iterate_while c b fuel a) = false := by
  intro fuel
  induction fuel with
  | zero =>
    intro a ha hμ
    by_cases hc : c a = true
    · have := (h a ha hc).2; omega
    · simpa [iterate_while] using hc
  | succ n ih =>
    intro a ha hμ
    by_cases hc : c a = true
    · simp only [iterate_while, hc, if_true]
      have := h a ha hc
      exact ih _ this.1 (by omega)
    · simp only [iterate_while, hc]
      simpa using hc

theorem iterate_while_fuel {α : Type} (P : α → Prop) (c : α → Bool) (b : α → α)
    (μ : α → Nat) (h : ∀ a, P a → c a = true → P (b a) ∧ μ (b a) < μ a) :
    ∀ (n k : Nat) (a : α), P a → μ a ≤ n → μ a ≤ k →
      iterate_while c b n a = iterate_while c b k a := by
  intro n
  induction n with
  | zero =>
    intro k a ha hn hk
    by_cases hc : c a = true
    · have := (h a ha hc).2; omega
    · cases k <;> simp [iterate_while, hc]
  | succ n ih =>
    intro k a ha hn hk
    by_cases hc : c a = true
    · have h1 := h a ha hc
      cases k with
      | zero => omega
      | succ k =>
        simp only [iterate_while, hc, if_true]
        exact ih k _ h1.1 (by omega) (by omega)
    · cases k <;> simp [iterate_while, hc]

theorem iterate_while_rel {α β : Type} (R : α → β → Prop) (c1 : α → Bool) (b1 : α → α)
    (c2 : β → Bool) (b2 : β → β) (hc : ∀ a b, R a b → c1 a = c2 b)
    (hb : ∀ a b, R a b → c1 a = true → R (b1 a) (b2 b)) :
    ∀ (fuel : Nat) (a : α) (b : β), R a b →
      R (iterate_while c1 b1 fuel a) (iterate_while c2 b2 fuel b) := by
  intro fuel
  induction fuel with
  | zero => intro a b h; simpa [iterate_while] using h
  | succ n ih =>
    intro a b h
    have h1 := hc a b h
    by_cases hc1 : c1 a = true
    · have hc2 : c2 b = true := by rw [← h1]; exact hc1
      simp only [iterate_while, hc1, hc2, if_true]
      exact ih _ _ (hb a b h hc1)
    · have hc2 : ¬ c2 b = true := by rw [← h1]; exact hc1
      simp only [iterate_while, hc1, hc2]
      simpa using h

theorem while_loop_refines {σ α : Type} (Rel : σ → α → Prop)
    (cc : σ → Bool) (bc : σ → Except Fault σ) (ca : α → Bool) (ba : α → α)
    (hcond : ∀ s a, Rel s a → cc s = ca a)
    (hbody : ∀ s a, Rel s a → ca a = true → ∃ s1, bc s = .ok s1 ∧ Rel s1 (ba a)) :
    ∀ (fuel : Nat) (s : σ) (a : α), Rel s a → ca (iterate_while ca ba fuel a) = false →
      ∃ s1, while_loop cc bc fuel s = .ok s1 ∧ Rel s1 (iterate_while ca ba fuel a) := by
  intro fuel
  induction fuel with
  | zero =>
    intro s a h hfin
    have hca : ca a = false := by simpa [iterate_while] using hfin
    have hcc : cc s = false := by rw [hcond s a h]; exact hca
    exact ⟨s, by simp [while_loop, hcc], by simpa [iterate_while] using h⟩
  | succ n ih =>
    intro s a h hfin
    by_cases hca : ca a = true
    · have hcc : cc s = true := by rw [hcond s a h]; exact hca
      obtain ⟨s1, hs1, hrel⟩ := hbody s a h hca
      simp only [iterate_while, hca, if_true] at hfin ⊢
      obtain ⟨s2, hs2, hrel2⟩ := ih s1 (ba a) hrel hfin
      refine ⟨s2, ?_, hrel2⟩
      simp only [while_loop, hcc, if_true]
      rw [bind_ok hs1]; exact hs2
    · have hcc : cc s = false := by
        rw [hcond s a h]; simpa using hca
      refine ⟨s, by simp [while_loop, hcc], ?_⟩
      simp only [iterate_while, hca]
      simpa using h

/-! ## Flat indices -/

theorem index_bounds {w h x y : Int} (hx : 0 ≤ x) (hxw : x < w) (hy : 0 ≤ y) (hyh : y < h) :
    0 ≤ x + y * w ∧ x + y * w < w * h := by
  have h1 : 0 ≤ y * w := Int.mul_nonneg hy (by omega)
  have h2 : y * w ≤ (h - 1) * w := Int.mul_le_mul_of_nonneg_right (by omega) (by omega)
  have h3 : (h - 1) * w = w * h - w := by ring
  constructor <;> omega

theorem index_mod {w x : Int} (y : Int) (hx : 0 ≤ x) (hxw : x < w) : (x + y * w) % w = x := by
  rw [Int.add_mul_emod_self]; exact Int.emod_eq_of_lt hx hxw

theorem index_div {w x : Int} (y : Int) (hx : 0 ≤ x) (hxw : x < w) : (x + y * w) / w = y := by
  rw [Int.add_mul_ediv_right _ _ (by omega), Int.ediv_eq_zero_of_lt hx hxw]; simp

theorem index_toNat {m0 : TCOD_Map} (hwf : m0.wf) {x y : Int} (hb : m0.in_bounds x y) :
    0 ≤ x + y * m0.width ∧ (x + y * m0.width).toNat < m0.cells.length ∧
      (((x + y * m0.width).toNat : Nat) : Int) = x + y * m0.width := by
  obtain ⟨hx, hxw, hy, hyh⟩ := hb
  obtain ⟨h1, h2⟩ := index_bounds hx hxw hy hyh
  obtain ⟨_, _, h4, h3⟩ := hwf
  refine ⟨h1, ?_, Int.toNat_of_nonneg h1⟩
  omega

theorem coords_of_index {m0 : TCOD_Map} (hwf : m0.wf) {i : Nat} (hi : i < m0.cells.length) :
    m0.in_bounds ((i : Int) % m0.width) ((i : Int) / m0.width) ∧
      (i : Int) % m0.width + (i : Int) / m0.width * m0.width = i := by
  obtain ⟨hw, hh, h4, h3⟩ := hwf
  have hlt : (i : Int) < m0.height * m0.width := by rw [Int.mul_comm]; omega
  refine ⟨⟨Int.emod_nonneg _ (by omega), Int.emod_lt_of_pos _ hw,
    Int.ediv_nonneg (by omega) (by omega), Int.ediv_lt_of_lt_mul hw hlt⟩, ?_⟩
  have := Int.emod_add_ediv (i : Int) m0.width
  rw [Int.mul_comm] at this
  exact this

/-! ## Maps and tables -/

theorem LitAs.refl {m0 : TCOD_Map} (hwf : m0.wf) : LitAs m0 m0.lit m0 := by
  refine ⟨rfl, rfl, rfl, rfl, ?_⟩
  intro i hi
  obtain ⟨_, hidx⟩ := coords_of_index hwf hi
  refine ⟨m0.cells[i], m0.cells[i], List.getElem?_eq_getElem hi, List.getElem?_eq_getElem hi,
    rfl, rfl, ?_⟩
  simp only [TCOD_Map.lit, TCOD_Map.visible, hidx, Int.toNat_ofNat, List.getElem?_eq_getElem hi]

theorem LitAs.congr {m0 m : TCOD_Map} {f g : Int → Int → Bool} (h : LitAs m0 f m)
    (hwf : m0.wf) (hfg : ∀ x y, m0.in_bounds x y → f x y = g x y) : LitAs m0 g m := by
  refine ⟨h.width, h.height, h.nbcells, h.length, ?_⟩
  intro i hi
  obtain ⟨c, c0, h1, h2, h3, h4, h5⟩ := h.cells i hi
  exact ⟨c, c0, h1, h2, h3, h4, by rw [h5]; exact hfg _ _ (coords_of_index hwf hi).1⟩

theorem LitAs.cell_at {m0 m : TCOD_Map} {f : Int → Int → Bool} (h : LitAs m0 f m)
    (hwf : m0.wf) {x y : Int} (hb : m0.in_bounds x y) :
    ∃ c, m.cell (x + y * m.width) = .ok c ∧ c.fov = f x y ∧ c.transparent = m0.tr x y := by
  obtain ⟨h0, hlt, hcast⟩ := index_toNat hwf hb
  obtain ⟨c, c0, h1, h2, h3, _, h5⟩ := h.cells _ hlt
  refine ⟨c, ?_, ?_, ?_⟩
  · simp only [TCOD_Map.cell, h.width, h0, if_true, h1]
  · rw [h5, hcast, index_mod y hb.1 hb.2.1, index_div y hb.1 hb.2.1]
  · simp only [TCOD_Map.tr, TCOD_Map.is_transparent, h2, h3, hb, decide_True, Bool.true_and]

theorem LitAs.visible_at {m0 m : TCOD_Map} {f : Int → Int → Bool} (h : LitAs m0 f m)
    (hwf : m0.wf) {x y : Int} (hb : m0.in_bounds x y) :
    m.visible x y = f x y ∧ m.is_transparent x y = m0.is_transparent x y := by
  obtain ⟨h0, hlt, hcast⟩ := index_toNat hwf hb
  obtain ⟨c, c0, h1, h2, h3, _, h5⟩ := h.cells _ hlt
  constructor
  · simp only [TCOD_Map.visible, h.width, h1]
    rw [h5, hcast, index_mod y hb.1 hb.2.1, index_div y hb.1 hb.2.1]
  · simp only [TCOD_Map.is_transparent, h.width, h1, h2, h3]

theorem LitAs.set_at {m0 m : TCOD_Map} {f : Int → Int → Bool} (h : LitAs m0 f m)
    (hwf : m0.wf) {x y : Int} (hb : m0.in_bounds x y) (b : Bool) :
    ∃ m1, m.set_fov (x + y * m.width) b = .ok m1 ∧ LitAs m0 (set_lit f x y b) m1 := by
  obtain ⟨h0, hlt, hcast⟩ := index_toNat hwf hb
  obtain ⟨c, c0, h1, h2, h3, h4, h5⟩ := h.cells _ hlt
  refine ⟨{ m with cells := m.cells.set (x + y * m0.width).toNat { c with fov := b } }, ?_, ?_⟩
  · simp only [TCOD_Map.set_fov, h.width, h0, if_true, h1]
  · refine ⟨h.width, h.height, h.nbcells, by simp [h.length], ?_⟩
    intro i hi
    by_cases hij : (x + y * m0.width).toNat = i
    · subst hij
      refine ⟨{ c with fov := b }, c0, ?_, h2, h3, h4, ?_⟩
      · simp only [List.getElem?_set, if_true, h.length, hlt]
      · simp only [set_lit, hcast, index_mod y hb.1 hb.2.1, index_div y hb.1 hb.2.1,
          and_self, if_true]
    · obtain ⟨d, d0, g1, g2, g3, g4, g5⟩ := h.cells i hi
      refine ⟨d, d0, ?_, g2, g3, g4, ?_⟩
      · simp only [List.getElem?_set, hij, if_false, g1]
      · rw [g5]
        have hne : ¬ ((i : Int) % m0.width = x ∧ (i : Int) / m0.width = y) := by
          rintro ⟨e1, e2⟩
          apply hij
          have := (coords_of_index hwf hi).2
          rw [e1, e2] at this
          rw [this]; simp
        simp only [set_lit, hne, if_false]

/-! ## Slopes -/

theorem first_cell_zero {i : Int} (hi : 1 ≤ i) :
    int_cast (((0 : ℚ) + 1 / (i : ℚ) * (1 / 2)) / (1 / (i : ℚ))) = 0 := by
  have hq : (0 : ℚ) < (i : ℚ) := by exact_mod_cast (by omega : (0 : Int) < i)
  have h : ((0 : ℚ) + 1 / (i : ℚ) * (1 / 2)) / (1 / (i : ℚ)) = 1 / 2 := by
    field_simp
  rw [h]
  unfold int_cast
  norm_num

theorem first_cell_eq {i : Int} (hi : 1 ≤ i) {q : ℚ} (hq0 : 0 ≤ q) :
    int_cast ((q + 1 / (i : ℚ) * (1 / 2)) / (1 / (i : ℚ))) = ⌊q * i + 1 / 2⌋ := by
  have hq : (0 : ℚ) < (i : ℚ) := by exact_mod_cast (by omega : (0 : Int) < i)
  have h : (q + 1 / (i : ℚ) * (1 / 2)) / (1 / (i : ℚ)) = q * i + 1 / 2 := by
    field_simp
    ring
  rw [h]
  unfold int_cast
  have : (0 : ℚ) ≤ q * i + 1 / 2 := by positivity
  rw [if_pos this]

theorem first_cell_nonneg {i : Int} (hi : 1 ≤ i) {q : ℚ} (hq0 : 0 ≤ q) :
    0 ≤ int_cast ((q + 1 / (i : ℚ) * (1 / 2)) / (1 / (i : ℚ))) := by
  have hq : (0 : ℚ) < (i : ℚ) := by exact_mod_cast (by omega : (0 : Int) < i)
  rw [first_cell_eq hi hq0]
  apply Int.floor_nonneg.mpr
  positivity

theorem first_cell_pos {i : Int} (hi : 1 ≤ i) {q : ℚ} (hq0 : 0 ≤ q)
    (hfar : 1 ≤ 2 * ((i : ℚ) - 1) * q) :
    1 ≤ int_cast ((q + 1 / (i : ℚ) * (1 / 2)) / (1 / (i : ℚ))) := by
  rw [first_cell_eq hi hq0]
  apply Int.le_floor.mpr
  push_cast
  nlinarith

theorem end_slope_eq {i : Int} (hi : 1 ≤ i) (p : Int) :
    2 * (i : ℚ) * ((p : ℚ) * (1 / (i : ℚ)) + 1 / (i : ℚ) * (1 / 2)) = 2 * p + 1 := by
  have hq : (0 : ℚ) < (i : ℚ) := by exact_mod_cast (by omega : (0 : Int) < i)
  field_simp
  ring

theorem start_slope_eq {i : Int} (hi : 1 ≤ i) (p : Int) :
    2 * (i : ℚ) * ((p : ℚ) * (1 / (i : ℚ)) - 1 / (i : ℚ) * (1 / 2)) = 2 * p - 1 := by
  have hq : (0 : ℚ) < (i : ℚ) := by exact_mod_cast (by omega : (0 : Int) < i)
  field_simp
  ring

theorem start_slope_pos {i : Int} (hi : 1 ≤ i) {p : Int} (hp : 1 ≤ p) :
    0 < (p : ℚ) * (1 / (i : ℚ)) - 1 / (i : ℚ) * (1 / 2) := by
  have hq : (0 : ℚ) < (i : ℚ) := by exact_mod_cast (by omega : (0 : Int) < i)
  have h := start_slope_eq hi p
  have hp1 : (1 : ℚ) ≤ (p : ℚ) := by exact_mod_cast hp
  by_contra hcon
  push_neg at hcon
  have : 2 * (i : ℚ) * ((p : ℚ) * (1 / (i : ℚ)) - 1 / (i : ℚ) * (1 / 2)) ≤ 0 :=
    mul_nonpos_of_nonneg_of_nonpos (by positivity) hcon
  linarith

theorem start_slope_neg {i : Int} (hi : 1 ≤ i) :
    ((0 : Int) : ℚ) * (1 / (i : ℚ)) - 1 / (i : ℚ) * (1 / 2) < 0 := by
  have hq : (0 : ℚ) < (i : ℚ) := by exact_mod_cast (by omega : (0 : Int) < i)
  have : (0 : ℚ) < 1 / (i : ℚ) * (1 / 2) := by positivity
  simp only [Int.cast_zero, zero_mul, zero_sub]
  linarith

theorem end_slope_pos {i : Int} (hi : 1 ≤ i) {p : Int} (hp : 0 ≤ p) :
    0 < (p : ℚ) * (1 / (i : ℚ)) + 1 / (i : ℚ) * (1 / 2) := by
  have hq : (0 : ℚ) < (i : ℚ) := by exact_mod_cast (by omega : (0 : Int) < i)
  have hp1 : (0 : ℚ) ≤ (p : ℚ) := by exact_mod_cast hp
  positivity

/-! ## The visibility test on lists of obstacles -/

theorem probe_step_length (e : Edge) (t : Bool) (ss cs es : ℚ) (s : Probe) :
    (probe_step e t ss cs es s).obstacles.length = s.obstacles.length := by
  unfold probe_step
  cases e <;> cases t <;> simp only [] <;> split_ifs <;> simp

theorem probe_length (e : Edge) (tr : Int → Int → Bool) (ss cs es : ℚ) (a : Sweep) :
    (probe e tr ss cs es a).obstacles.length = a.obstacles.length := by
  unfold probe
  split_ifs
  · rfl
  · exact iterate_while_inv (fun s : Probe => s.obstacles.length = a.obstacles.length) _ _
      (fun s hs _ => by
        show (probe_step _ _ _ _ _ s).obstacles.length = _
        rw [probe_step_length]; exact hs) _ _ rfl
  · rfl

theorem probe_step_idx (e : Edge) (t : Bool) (ss cs es : ℚ) (s : Probe) :
    s.idx < (probe_step e t ss cs es s).idx := by
  unfold probe_step
  cases e <;> cases t <;> simp only [] <;> split_ifs <;> simp <;> omega

theorem probe_starts (e : Edge) (tr : Int → Int → Bool) {ss : ℚ} (cs es : ℚ) (a : Sweep)
    (h : ∀ o ∈ a.obstacles, 0 < o.1) (hss : 0 < ss) (hlast : a.last_line ≤ a.obstacles.length) :
    ∀ o ∈ (probe e tr ss cs es a).obstacles, 0 < o.1 := by
  unfold probe
  split_ifs
  · exact h
  · have key := iterate_while_inv
      (fun s : Probe => s.obstacles.length = a.obstacles.length ∧ ∀ o ∈ s.obstacles, 0 < o.1)
      (fun t => decide (t.idx < a.last_line) && t.visible)
      (probe_step e (tr a.ring a.pos) ss cs es)
      (by
        intro s hs hc
        refine ⟨by rw [probe_step_length]; exact hs.1, ?_⟩
        have hidx : s.idx < s.obstacles.length := by
          simp only [Bool.and_eq_true, decide_eq_true_eq] at hc
          omega
        have hget : s.obstacles.getD s.idx (0, 0) = s.obstacles[s.idx] := by
          simp [List.getD_eq_getElem?_getD, List.getElem?_eq_getElem hidx]
        have hpos : 0 < (s.obstacles[s.idx]).1 := hs.2 _ (List.getElem_mem hidx)
        intro o ho
        unfold probe_step at ho
        rw [hget] at ho
        cases e <;> cases htr : tr a.ring a.pos <;> simp only [htr] at ho <;>
          split_ifs at ho <;> simp only [] at ho <;>
          first
            | exact hs.2 o ho
            | (rcases List.mem_or_eq_of_mem_set ho with h1 | h1
               · exact hs.2 o h1
               · rw [h1]; exact lt_min hpos hss))
      a.last_line
      { obstacles := a.obstacles, idx := 0, visible := true, extended := false } ⟨rfl, h⟩
    exact key.2
  · exact h

theorem probe_axis_visible (e : Edge) (tr : Int → Int → Bool) {ss cs : ℚ} (es : ℚ) (a : Sweep)
    (h : ∀ o ∈ a.obstacles, 0 < o.1) (hss : ss < 0) (hcs : cs ≤ 0)
    (hlast : a.last_line ≤ a.obstacles.length)
    (hnb : 0 < a.last_line → a.lit (a.ring - 1) a.pos = true ∧ tr (a.ring - 1) a.pos = true) :
    (probe e tr ss cs es a).visible = true := by
  unfold probe
  split_ifs with h1 h2
  · obtain ⟨n1, n2⟩ := hnb h1
    simp [n1, n2] at h2
  · have key := iterate_while_inv
      (fun s : Probe => s.obstacles.length = a.obstacles.length ∧ s.visible = true ∧
        ∀ j, s.idx ≤ j → ∀ hj : j < s.obstacles.length, 0 < (s.obstacles[j]).1)
      (fun t => decide (t.idx < a.last_line) && t.visible)
      (probe_step e (tr a.ring a.pos) ss cs es)
      (by
        intro s hs hc
        refine ⟨by rw [probe_step_length]; exact hs.1, ?_⟩
        have hidx : s.idx < s.obstacles.length := by
          simp only [Bool.and_eq_true, decide_eq_true_eq] at hc
          omega
        have hget : s.obstacles.getD s.idx (0, 0) = s.obstacles[s.idx] := by
          simp [List.getD_eq_getElem?_getD, List.getElem?_eq_getElem hidx]
        have hpos : 0 < (s.obstacles[s.idx]).1 := hs.2.2 _ (le_refl _) hidx
        have hn1 : ¬ (cs > (s.obstacles[s.idx]).1 ∧ cs < (s.obstacles[s.idx]).2) := by
          rintro ⟨c1, _⟩; linarith
        have hn2 : ¬ (ss ≥ (s.obstacles[s.idx]).1 ∧ es ≤ (s.obstacles[s.idx]).2) := by
          rintro ⟨c1, _⟩; linarith
        unfold probe_step
        rw [hget]
        cases e <;> cases htr : tr a.ring a.pos <;> simp only [hn1, hn2, if_false] <;>
          split_ifs <;> simp only [] <;> refine ⟨hs.2.1, ?_⟩ <;> intro j hj hjl <;>
          first
            | exact hs.2.2 j (by omega) hjl
            | (have hjl2 : j < s.obstacles.length := by simpa using hjl
               have hne : s.idx ≠ j := by omega
               simp only [List.getElem_set_ne hne]
               exact hs.2.2 j (by omega) hjl2))
      a.last_line
      { obstacles := a.obstacles, idx := 0, visible := true, extended := false }
      ⟨rfl, rfl, fun j _ hj => h _ (List.getElem_mem hj)⟩
    exact key.2.1
  · rfl

/-! ## One cell of the sweep -/

theorem set_lit_set_lit (g : Int → Int → Bool) (r p : Int) (b c : Bool) :
    set_lit (set_lit g r p b) r p c = set_lit g r p c := by
  funext r1 p1
  simp only [set_lit]
  split_ifs <;> rfl

theorem sweep_cell_eq (e : Edge) (lw : Bool) (tr : Int → Int → Bool) (a : Sweep) :
    sweep_cell e lw tr a =
      { (if (cell_probe e tr a).visible = true then
          sweep_mark lw (tr a.ring a.pos) (start_slope a.ring a.pos) (end_slope a.ring a.pos)
            (cell_probe e tr a).extended { a with obstacles := (cell_probe e tr a).obstacles }
        else { a with obstacles := (cell_probe e tr a).obstacles }) with
        pos := (if (cell_probe e tr a).visible = true then
          sweep_mark lw (tr a.ring a.pos) (start_slope a.ring a.pos) (end_slope a.ring a.pos)
            (cell_probe e tr a).extended { a with obstacles := (cell_probe e tr a).obstacles }
        else { a with obstacles := (cell_probe e tr a).obstacles }).pos + 1 } := rfl

theorem sweep_mark_ring (lw t : Bool) (ss es : ℚ) (x : Bool) (a : Sweep) :
    (sweep_mark lw t ss es x a).ring = a.ring := by
  unfold sweep_mark; cases t <;> cases lw <;> cases x <;> simp only [] <;> split_ifs <;> rfl

theorem sweep_mark_pos (lw t : Bool) (ss es : ℚ) (x : Bool) (a : Sweep) :
    (sweep_mark lw t ss es x a).pos = a.pos := by
  unfold sweep_mark; cases t <;> cases lw <;> cases x <;> simp only [] <;> split_ifs <;> rfl

theorem sweep_mark_last (lw t : Bool) (ss es : ℚ) (x : Bool) (a : Sweep) :
    (sweep_mark lw t ss es x a).last_line = a.last_line := by
  unfold sweep_mark; cases t <;> cases lw <;> cases x <;> simp only [] <;> split_ifs <;> rfl

theorem sweep_mark_lit (lw t : Bool) (ss es : ℚ) (x : Bool) (a : Sweep) :
    (sweep_mark lw t ss es x a).lit = set_lit a.lit a.ring a.pos (t || lw) := by
  unfold sweep_mark
  by_cases h : a.min_angle ≥ ss <;>
    cases t <;> cases lw <;> cases x <;> simp [h, set_lit_set_lit]

theorem sweep_mark_min (lw t : Bool) (ss es : ℚ) (x : Bool) (a : Sweep) :
    (sweep_mark lw t ss es x a).min_angle =
      if t = false ∧ a.min_angle ≥ ss then es else a.min_angle := by
  unfold sweep_mark
  by_cases h : a.min_angle ≥ ss <;>
    cases t <;> cases lw <;> cases x <;> simp [h]

theorem sweep_mark_obstacles (lw t : Bool) (ss es : ℚ) (x : Bool) (a : Sweep) :
    (sweep_mark lw t ss es x a).obstacles =
      if t = false ∧ ¬ a.min_angle ≥ ss ∧ x = false then a.obstacles ++ [(ss, es)]
      else a.obstacles := by
  unfold sweep_mark
  by_cases h : a.min_angle ≥ ss <;>
    cases t <;> cases lw <;> cases x <;> simp [h]

theorem sweep_mark_done (lw t : Bool) (ss es : ℚ) (x : Bool) (a : Sweep) :
    (sweep_mark lw t ss es x a).done =
      decide (t = false ∧ a.min_angle ≥ ss ∧ a.pos = a.ring) := by
  unfold sweep_mark
  by_cases h : a.min_angle ≥ ss <;> by_cases h2 : a.pos = a.ring <;>
    cases t <;> cases lw <;> cases x <;> simp [h, h2]

theorem sweep_cell_ring (e : Edge) (lw : Bool) (tr : Int → Int → Bool) (a : Sweep) :
    (sweep_cell e lw tr a).ring = a.ring := by
  rw [sweep_cell_eq]; split_ifs <;> simp [sweep_mark_ring]

theorem sweep_cell_pos (e : Edge) (lw : Bool) (tr : Int → Int → Bool) (a : Sweep) :
    (sweep_cell e lw tr a).pos = a.pos + 1 := by
  rw [sweep_cell_eq]; split_ifs <;> simp [sweep_mark_pos]

theorem sweep_cell_last (e : Edge) (lw : Bool) (tr : Int → Int → Bool) (a : Sweep) :
    (sweep_cell e lw tr a).last_line = a.last_line := by
  rw [sweep_cell_eq]; split_ifs <;> simp [sweep_mark_last]

theorem sweep_cell_lit (e : Edge) (lw : Bool) (tr : Int → Int → Bool) (a : Sweep) :
    (sweep_cell e lw tr a).lit =
      if (cell_probe e tr a).visible = true then
        set_lit a.lit a.ring a.pos (tr a.ring a.pos || lw)
      else a.lit := by
  rw [sweep_cell_eq]; split_ifs <;> simp [sweep_mark_lit]

theorem sweep_cell_min (e : Edge) (lw : Bool) (tr : Int → Int → Bool) (a : Sweep) :
    (sweep_cell e lw tr a).min_angle =
      if (cell_probe e tr a).visible = true ∧ tr a.ring a.pos = false ∧
          a.min_angle ≥ start_slope a.ring a.pos then
        end_slope a.ring a.pos
      else a.min_angle := by
  rw [sweep_cell_eq]
  by_cases h : (cell_probe e tr a).visible = true
  · simp only [h, if_true, sweep_mark_min, true_and]
  · simp [h]

theorem sweep_cell_obstacles (e : Edge) (lw : Bool) (tr : Int → Int → Bool) (a : Sweep) :
    (sweep_cell e lw tr a).obstacles =
      if (cell_probe e tr a).visible = true ∧ tr a.ring a.pos = false ∧
          ¬ a.min_angle ≥ start_slope a.ring a.pos ∧ (cell_probe e tr a).extended = false then
        (cell_probe e tr a).obstacles ++ [(start_slope a.ring a.pos, end_slope a.ring a.pos)]
      else (cell_probe e tr a).obstacles := by
  rw [sweep_cell_eq]
  by_cases h : (cell_probe e tr a).visible = true
  · simp only [h, if_true, sweep_mark_obstacles, true_and]
  · simp [h]

theorem sweep_cell_done (e : Edge) (lw : Bool) (tr : Int → Int → Bool) (a : Sweep) :
    (sweep_cell e lw tr a).done =
      if (cell_probe e tr a).visible = true then
        decide (tr a.ring a.pos = false ∧ a.min_angle ≥ start_slope a.ring a.pos ∧
          a.pos = a.ring)
      else a.done := by
  rw [sweep_cell_eq]
  by_cases h : (cell_probe e tr a).visible = true
  · simp only [h, if_true, sweep_mark_done]
  · simp [h]

theorem probe_step_transparent (e : Edge) (ss cs es : ℚ) (s : Probe) :
    (probe_step e true ss cs es s).obstacles = s.obstacles := by
  unfold probe_step
  cases e <;> simp only [] <;> split_ifs <;> rfl

theorem probe_transparent (e : Edge) (tr : Int → Int → Bool) (ss cs es : ℚ) (a : Sweep)
    (ht : tr a.ring a.pos = true) : (probe e tr ss cs es a).obstacles = a.obstacles := by
  unfold probe
  split_ifs
  · rfl
  · rw [ht]
    exact iterate_while_inv (fun s : Probe => s.obstacles = a.obstacles) _ _
      (fun s hs _ => by
        show (probe_step _ _ _ _ _ s).obstacles = _
        rw [probe_step_transparent]; exact hs) _ _ rfl
  · rfl

theorem cell_probe_length (e : Edge) (tr : Int → Int → Bool) (a : Sweep) :
    (cell_probe e tr a).obstacles.length = a.obstacles.length :=
  probe_length e tr _ _ _ a

theorem cell_probe_axis {lw : Bool} {R : Int} {tr : Int → Int → Bool} {rmax smax : Int}
    {g : Int → Int → Bool} {i : Int} {a : Sweep} (e : Edge)
    (h : ScanInv lw R tr rmax smax g i a) (hp : a.pos = 0) :
    (cell_probe e tr a).visible = true := by
  have hm := h.pos_zero hp
  apply probe_axis_visible e tr _ a (h.starts hm) _ _ h.last_le
  · intro hl
    rw [h.ring, hp]
    exact h.axis_prev hm hp (h.last_ring hl)
  · rw [h.ring, hp]; exact start_slope_neg h.ring_pos
  · rw [h.ring, hp]; simp [centre_slope]

theorem sweep_cell_inv {lw : Bool} {R : Int} {tr : Int → Int → Bool} {rmax smax : Int}
    {g : Int → Int → Bool} {i : Int} {a : Sweep} (e : Edge)
    (h : ScanInv lw R tr rmax smax g i a) (hc : a.pos ≤ min i smax) :
    ScanInv lw R tr rmax smax g i (sweep_cell e lw tr a) := by
  have hring := h.ring
  have hpos := h.pos_nonneg
  have hes : 0 < end_slope a.ring a.pos := by
    rw [hring]; exact end_slope_pos h.ring_pos hpos
  have hes2 : 2 * (i : ℚ) * end_slope a.ring a.pos = 2 * a.pos + 1 := by
    rw [hring]; exact end_slope_eq h.ring_pos a.pos
  have hmin_zero : (sweep_cell e lw tr a).min_angle = 0 →
      a.min_angle = 0 ∧ ¬ ((cell_probe e tr a).visible = true ∧ tr a.ring a.pos = false ∧
          a.min_angle ≥ start_slope a.ring a.pos) := by
    intro h0
    rw [sweep_cell_min] at h0
    split_ifs at h0 with hcase
    · linarith
    · exact ⟨h0, hcase⟩
  refine
    { ring := by rw [sweep_cell_ring]; exact hring
      ring_pos := h.ring_pos
      ring_le := h.ring_le
      radius := h.radius
      pos_nonneg := by rw [sweep_cell_pos]; omega
      last_le := ?_
      last_ring := by rw [sweep_cell_last]; exact h.last_ring
      min_nonneg := ?_
      min_far := ?_
      pos_zero := by rw [sweep_cell_pos]; intro hz; omega
      starts := ?_
      axis_prev := by rw [sweep_cell_pos]; intro _ hz; omega
      axis_here := ?_
      clear := ?_
      wall := ?_
      axis_lit := ?_
      frame := ?_ }
  · rw [sweep_cell_last, sweep_cell_obstacles]
    have := h.last_le
    split_ifs <;> simp [cell_probe_length] <;> omega
  · rw [sweep_cell_min]
    split_ifs
    · exact le_of_lt hes
    · exact h.min_nonneg
  · rw [sweep_cell_min]
    split_ifs
    · right
      rw [hes2]
      have : (0 : ℚ) ≤ (a.pos : ℚ) := by exact_mod_cast hpos
      linarith
    · exact h.min_far
  · intro h0
    obtain ⟨hm, hcase⟩ := hmin_zero h0
    rw [sweep_cell_obstacles]
    by_cases hp : a.pos = 0
    · have hvis := cell_probe_axis e h hp
      have ht : tr a.ring a.pos = true := by
        by_contra hcon
        apply hcase
        refine ⟨hvis, by simpa using hcon, ?_⟩
        rw [hm, hring, hp]
        exact le_of_lt (start_slope_neg h.ring_pos)
      have hobs : (cell_probe e tr a).obstacles = a.obstacles :=
        probe_transparent e tr _ _ _ a ht
      rw [hobs]
      simp only [ht, Bool.true_eq_false, false_and, and_false, if_false]
      exact h.starts hm
    · have hss : 0 < start_slope a.ring a.pos := by
        rw [hring]; exact start_slope_pos h.ring_pos (by omega)
      have hst := probe_starts e tr (centre_slope a.ring a.pos) (end_slope a.ring a.pos) a
        (h.starts hm) hss h.last_le
      split_ifs
      · intro o ho
        rcases List.mem_append.mp ho with h1 | h1
        · exact hst o h1
        · simp only [List.mem_singleton] at h1
          rw [h1]; exact hss
      · exact hst
  · intro h0 _
    obtain ⟨hm, hcase⟩ := hmin_zero h0
    rw [sweep_cell_lit, sweep_cell_done, hring]
    by_cases hp : a.pos = 0
    · have hvis := cell_probe_axis e h hp
      have ht : tr a.ring a.pos = true := by
        by_contra hcon
        apply hcase
        refine ⟨hvis, by simpa using hcon, ?_⟩
        rw [hm, hring, hp]
        exact le_of_lt (start_slope_neg h.ring_pos)
      rw [hring, hp] at ht
      simp only [hvis, if_true, set_lit, hp, ht, and_self, Bool.true_or, Bool.true_eq_false,
        false_and, decide_False]
    · obtain ⟨a1, a2, a3⟩ := h.axis_here hm (by omega)
      have hss : 0 < start_slope a.ring a.pos := by
        rw [hring]; exact start_slope_pos h.ring_pos (by omega)
      have hnot : ¬ a.min_angle ≥ start_slope a.ring a.pos := by
        rw [hm]; linarith
      refine ⟨?_, a2, ?_⟩
      · split_ifs
        · simp only [set_lit]
          rw [if_neg (by rintro ⟨_, hz⟩; exact hp hz.symm)]
          exact a1
        · exact a1
      · rw [hring] at hnot
        split_ifs
        · simp only [decide_eq_false_iff_not]
          rintro ⟨_, hge, _⟩
          exact hnot hge
        · exact a3
  · intro h0
    exact h.clear (hmin_zero h0).1
  · intro hne
    by_cases hm : a.min_angle = 0
    · rw [sweep_cell_min] at hne
      split_ifs at hne with hcase
      · obtain ⟨_, ht, hge⟩ := hcase
        have hp : a.pos = 0 := by
          by_contra hp
          have : 0 < start_slope i a.pos := start_slope_pos h.ring_pos (p := a.pos) (by omega)
          rw [hring, hm] at hge
          linarith
        refine ⟨i, h.ring_pos, le_refl _, ?_⟩
        rw [hring, hp] at ht
        exact ht
      · exact absurd hm hne
    · exact h.wall hm
  · intro j hj hcase hpre
    rw [sweep_cell_lit]
    rw [sweep_cell_pos] at hcase
    by_cases hjp : j = i ∧ a.pos = 0
    · obtain ⟨hji, hp⟩ := hjp
      have hvis := cell_probe_axis e h hp
      simp only [hvis, if_true, set_lit, hring, hji, hp, and_self]
    · have hold : a.lit j 0 = (tr j 0 || lw) := by
        apply h.axis_lit j hj _ hpre
        rcases hcase with h1 | ⟨h1, h2⟩
        · left; exact h1
        · right; exact ⟨h1, by
            by_contra hc2
            exact hjp ⟨h1, by omega⟩⟩
      split_ifs
      · simp only [set_lit]
        rw [if_neg]
        · exact hold
        · rintro ⟨e1, e2⟩
          exact hjp ⟨by omega, by omega⟩
      · exact hold
  · intro r s
    rw [sweep_cell_lit, sweep_cell_pos]
    by_cases hvis : (cell_probe e tr a).visible = true
    · simp only [hvis, if_true]
      by_cases hrs : r = a.ring ∧ s = a.pos
      · right
        obtain ⟨hr, hs⟩ := hrs
        subst hr hs
        have := h.ring_le
        have := h.ring_pos
        have := h.radius
        refine ⟨by omega, by omega, by intro; omega, hpos, by omega, by omega, by omega,
          by intro hR; rw [hring]; exact h.radius hR, ?_, ?_⟩
        · intro hp0 k hk1 hk2
          exact h.clear (h.pos_zero hp0) k hk1 (by omega)
        · simp [set_lit]
      · simp only [set_lit, hrs, if_false]
        rcases h.frame r s with hf | ⟨f1, f2, f3, f4, f5, f6, f7, f8, f9, f10⟩
        · left; exact hf
        · right
          exact ⟨f1, f2, fun hr => by have := f3 hr; omega, f4, f5, f6, f7, f8, f9, f10⟩
    · simp only [hvis, if_false]
      rcases h.frame r s with hf | ⟨f1, f2, f3, f4, f5, f6, f7, f8, f9, f10⟩
      · left; exact hf
      · right
        exact ⟨f1, f2, fun hr => by have := f3 hr; omega, f4, f5, f6, f7, f8, f9, f10⟩

/-! ## One ring and the whole sweep -/

/-- The first cell of a ring. -/
theorem scan_start_inv {lw : Bool} {R : Int} {tr : Int → Int → Bool} {rmax smax : Int}
    {g : Int → Int → Bool} {a : Sweep} (h : RingInv lw R tr rmax smax g a)
    (hd : a.done = false) :
    ScanInv lw R tr rmax smax g a.ring (ring_open a) := by
  unfold ring_open
  have hi := h.ring_pos
  have hiq : (1 : ℚ) ≤ (a.ring : ℚ) := by exact_mod_cast hi
  have hzero : a.min_angle = 0 →
      int_cast ((a.min_angle + 1 / (a.ring : ℚ) * (1 / 2)) / (1 / (a.ring : ℚ))) = 0 := by
    intro hm; rw [hm]; exact first_cell_zero hi
  refine
    { ring := rfl
      ring_pos := hi
      ring_le := h.ring_le hd
      radius := fun hR => h.radius hR hd
      pos_nonneg := first_cell_nonneg hi h.min_nonneg
      last_le := le_of_eq h.last_eq
      last_ring := ?_
      min_nonneg := h.min_nonneg
      min_far := ?_
      pos_zero := ?_
      starts := h.starts
      axis_prev := fun hm _ h2 => h.axis hm h2
      axis_here := ?_
      clear := h.clear
      wall := fun hne => by
        obtain ⟨k, k1, k2, k3⟩ := h.wall hne
        exact ⟨k, k1, by omega, k3⟩
      axis_lit := ?_
      frame := ?_ }
  · intro hl
    by_contra hcon
    have h1 : a.ring = 1 := by omega
    have := h.first_ring h1
    rw [h.last_eq, this] at hl
    simp at hl
  · rcases h.min_far with h0 | h1
    · left; exact h0
    · right
      have := h.min_nonneg
      nlinarith
  · intro hp
    rcases h.min_far with h0 | h1
    · exact h0
    · have := first_cell_pos hi h.min_nonneg h1
      simp only at hp
      omega
  · intro hm hp
    have := hzero hm
    simp only at hp
    omega
  · intro j hj hcase hpre
    rcases hcase with h1 | ⟨h1, h2⟩
    · exact h.axis_lit j hj h1 hpre
    · exfalso
      simp only at h2
      by_cases hm : a.min_angle = 0
      · have := hzero hm
        omega
      · obtain ⟨k, k1, k2, k3⟩ := h.wall hm
        have := hpre k k1 (by omega)
        rw [this] at k3
        exact absurd k3 (by simp)
  · intro r s
    rcases h.frame r s with hf | ⟨f1, f2, f3, f4, f5, f6, f7, f8, f9⟩
    · left; exact hf
    · right
      exact ⟨f1, by omega, fun hr => by omega, f3, f4, f5, f6, f7, f8, f9⟩

theorem scan_loop_inv {lw : Bool} {R : Int} {tr : Int → Int → Bool} {rmax smax : Int}
    {g : Int → Int → Bool} {i : Int} (e : Edge) (fuel : Nat) {a : Sweep}
    (h : ScanInv lw R tr rmax smax g i a) :
    ScanInv lw R tr rmax smax g i
      (iterate_while (fun t => decide (t.pos ≤ min i smax)) (sweep_cell e lw tr) fuel a) :=
  iterate_while_inv (ScanInv lw R tr rmax smax g i) _ _
    (fun b hb hc => sweep_cell_inv e hb (by simpa using hc)) fuel a h

theorem scan_loop_done {lw : Bool} {R : Int} {tr : Int → Int → Bool} {rmax smax : Int}
    {g : Int → Int → Bool} {i : Int} (e : Edge) (fuel : Nat) {a : Sweep}
    (h : ScanInv lw R tr rmax smax g i a) (hf : (min i smax + 1 - a.pos).toNat ≤ fuel) :
    (fun t : Sweep => decide (t.pos ≤ min i smax))
      (iterate_while (fun t => decide (t.pos ≤ min i smax)) (sweep_cell e lw tr) fuel a) =
      false :=
  iterate_while_done (ScanInv lw R tr rmax smax g i)
    (fun t : Sweep => decide (t.pos ≤ min i smax)) (sweep_cell e lw tr)
    (fun t => (min i smax + 1 - t.pos).toNat)
    (fun b hb hc => ⟨sweep_cell_inv e hb (by simpa using hc), by
      have hc2 : b.pos ≤ min i smax := by simpa using hc
      show (min i smax + 1 - (sweep_cell e lw tr b).pos).toNat < (min i smax + 1 - b.pos).toNat
      rw [sweep_cell_pos]
      omega⟩) fuel a h hf

theorem scan_loop_fuel {lw : Bool} {R : Int} {tr : Int → Int → Bool} {rmax smax : Int}
    {g : Int → Int → Bool} {i : Int} (e : Edge) (n k : Nat) {a : Sweep}
    (h : ScanInv lw R tr rmax smax g i a) (hn : (min i smax + 1 - a.pos).toNat ≤ n)
    (hk : (min i smax + 1 - a.pos).toNat ≤ k) :
    iterate_while (fun t => decide (t.pos ≤ min i smax)) (sweep_cell e lw tr) n a =
      iterate_while (fun t => decide (t.pos ≤ min i smax)) (sweep_cell e lw tr) k a :=
  iterate_while_fuel (ScanInv lw R tr rmax smax g i)
    (fun t : Sweep => decide (t.pos ≤ min i smax)) (sweep_cell e lw tr)
    (fun t => (min i smax + 1 - t.pos).toNat)
    (fun b hb hc => ⟨sweep_cell_inv e hb (by simpa using hc), by
      have hc2 : b.pos ≤ min i smax := by simpa using hc
      show (min i smax + 1 - (sweep_cell e lw tr b).pos).toNat < (min i smax + 1 - b.pos).toNat
      rw [sweep_cell_pos]
      omega⟩) n k a h hn hk

/-- Stepping from the scanned ring to the next one. -/
theorem ring_close_inv {lw : Bool} {R : Int} {tr : Int → Int → Bool} {rmax smax : Int}
    {g : Int → Int → Bool} {i : Int} {a2 : Sweep} (hs : 0 ≤ smax)
    (h : ScanInv lw R tr rmax smax g i a2) (hfin : min i smax < a2.pos) :
    RingInv lw R tr rmax smax g (ring_close R rmax a2) := by
  have hring := h.ring
  have hi := h.ring_pos
  have hile := h.ring_le
  have hpos : 1 ≤ a2.pos := by omega
  refine
    { ring_pos := by simp only [ring_close]; omega
      ring_le := by
        simp only [ring_close, Bool.or_eq_false_iff, decide_eq_false_iff_not]
        intro hd; omega
      radius := by
        simp only [ring_close, Bool.or_eq_false_iff, decide_eq_false_iff_not]
        intro hRp hd
        have := h.radius hRp
        omega
      last_eq := rfl
      first_ring := by simp only [ring_close]; intro h1; omega
      min_nonneg := h.min_nonneg
      min_far := by
        simp only [ring_close]
        rcases h.min_far with h0 | h1
        · left; exact h0
        · right
          rw [hring]
          push_cast
          linarith
      starts := h.starts
      axis := by
        simp only [ring_close]
        intro hm _
        have := h.axis_here hm hpos
        rw [hring]
        simp only [add_sub_cancel_right]
        exact ⟨this.1, this.2.1⟩
      alive := by
        simp only [ring_close, Bool.or_eq_false_iff, decide_eq_false_iff_not]
        intro hm hle hne
        exact ⟨⟨(h.axis_here hm hpos).2.2, by omega⟩, by omega⟩
      clear := by
        simp only [ring_close]
        intro hm k k1 k2
        by_cases hk : k < i
        · exact h.clear hm k k1 hk
        · have hki : k = i := by omega
          rw [hki]
          exact (h.axis_here hm hpos).2.1
      wall := by
        simp only [ring_close]
        intro hne
        obtain ⟨k, k1, k2, k3⟩ := h.wall hne
        exact ⟨k, k1, by omega, k3⟩
      axis_lit := by
        simp only [ring_close]
        intro j hj hlt hpre
        apply h.axis_lit j hj _ hpre
        by_cases hji : j < i
        · left; exact hji
        · right; exact ⟨by omega, hpos⟩
      frame := by
        simp only [ring_close]
        intro r s
        rcases h.frame r s with hf | ⟨f1, f2, f3, f4, f5, f6, f7, f8, f9, f10⟩
        · left; exact hf
        · right
          exact ⟨f1, by omega, f4, f5, f6, f7, f8, f9, f10⟩ }

theorem sweep_ring_inv {lw : Bool} {R : Int} {tr : Int → Int → Bool} {rmax smax : Int}
    {g : Int → Int → Bool} (e : Edge) (hs : 0 ≤ smax) {a : Sweep}
    (h : RingInv lw R tr rmax smax g a) (hd : a.done = false) :
    RingInv lw R tr rmax smax g (sweep_ring e lw R tr rmax smax a) := by
  have h1 := scan_start_inv h hd
  have h2 := scan_loop_inv e (min a.ring smax + 1 - (ring_open a).pos).toNat h1
  have h3 := scan_loop_done e (min a.ring smax + 1 - (ring_open a).pos).toNat h1 (le_refl _)
  simp only [decide_eq_false_iff_not, not_le] at h3
  exact ring_close_inv hs h2 h3

theorem sweep_init_inv (lw : Bool) (R : Int) (tr : Int → Int → Bool) (rmax smax : Int)
    (g : Int → Int → Bool) : RingInv lw R tr rmax smax g (sweep_init g rmax) := by
  refine
    { ring_pos := by simp [sweep_init]
      ring_le := by simp [sweep_init]
      radius := by simp only [sweep_init]; intro hR _; omega
      last_eq := rfl
      first_ring := fun _ => rfl
      min_nonneg := le_refl _
      min_far := Or.inl rfl
      starts := by simp [sweep_init]
      axis := by simp only [sweep_init]; intro _ h2; omega
      alive := by simp [sweep_init]
      clear := by simp only [sweep_init]; intro _ k k1 k2; omega
      wall := by simp [sweep_init]
      axis_lit := by simp only [sweep_init]; intro j j1 j2; omega
      frame := fun r s => Or.inl rfl }

theorem sweep_inv (e : Edge) (lw : Bool) (R : Int) (tr : Int → Int → Bool) {rmax smax : Int}
    (hs : 0 ≤ smax) (g : Int → Int → Bool) :
    RingInv lw R tr rmax smax g (sweep e lw R tr rmax smax g) :=
  iterate_while_inv (RingInv lw R tr rmax smax g) _ _
    (fun b hb hc => sweep_ring_inv e hs hb (by simpa using hc)) _ _
    (sweep_init_inv lw R tr rmax smax g)

/-- The ring loop has run to its end. -/
theorem sweep_done (e : Edge) (lw : Bool) (R : Int) (tr : Int → Int → Bool) {rmax smax : Int}
    (hs : 0 ≤ smax) (g : Int → Int → Bool) :
    (sweep e lw R tr rmax smax g).done = true := by
  have key := iterate_while_done (RingInv lw R tr rmax smax g) (fun a : Sweep => !a.done)
    (sweep_ring e lw R tr rmax smax)
    (fun t => if t.done = true then 0 else (rmax + 1 - t.ring).toNat)
    (fun b hb hc => ⟨sweep_ring_inv e hs hb (by simpa using hc), by
      have hd : b.done = false := by simpa using hc
      have hle := hb.ring_le hd
      have hq := (sweep_ring_inv e hs hb hd).ring_le
      simp only [hd, Bool.false_eq_true, if_false]
      have hr : (sweep_ring e lw R tr rmax smax b).ring = b.ring + 1 := by
        simp only [sweep_ring, ring_close]
        have := (scan_loop_inv e (min b.ring smax + 1 - (ring_open b).pos).toNat
          (scan_start_inv hb hd)).ring
        rw [this]
      split_ifs with hdone
      · omega
      · rw [hr]; omega⟩)
    rmax.toNat (sweep_init g rmax) (sweep_init_inv lw R tr rmax smax g) (by
      simp only [sweep_init]
      split_ifs <;> omega)
  simpa using key

/-! ## Octant coordinates and grid coordinates -/

theorem to_octant_apply (e : Edge) (px py dx dy : Int) (f : Int → Int → Bool) (r s : Int) :
    to_octant e px py dx dy f r s = f (cell_x e px dx r s) (cell_y e py dy r s) := by
  cases e <;> rfl

theorem unit_mul_self {d : Int} (hd : d = 1 ∨ d = -1) (k : Int) : k * d * d = k := by
  rcases hd with h | h <;> subst h <;> simp

theorem of_octant_at (e : Edge) {px py dx dy : Int} (hdx : dx = 1 ∨ dx = -1)
    (hdy : dy = 1 ∨ dy = -1) (f g : Int → Int → Bool) {r s : Int} (hr : 0 ≤ r) (hs : 0 ≤ s) :
    of_octant e px py dx dy f g (cell_x e px dx r s) (cell_y e py dy r s) = g r s := by
  cases e <;>
    simp only [of_octant, cell_x, cell_y, add_sub_cancel_left, unit_mul_self hdx,
      unit_mul_self hdy, hr, hs, and_self, if_true]

theorem of_octant_outside (e : Edge) {px py dx dy : Int} (f g : Int → Int → Bool) {x y : Int}
    (h : ¬ (0 ≤ (x - px) * dx ∧ 0 ≤ (y - py) * dy)) :
    of_octant e px py dx dy f g x y = f x y := by
  simp only [of_octant, h, if_false]

theorem of_octant_to_octant (e : Edge) {px py dx dy : Int} (hdx : dx = 1 ∨ dx = -1)
    (hdy : dy = 1 ∨ dy = -1) (f : Int → Int → Bool) :
    of_octant e px py dx dy f (to_octant e px py dx dy f) = f := by
  funext x y
  simp only [of_octant, to_octant]
  have h1 : px + (x - px) * dx * dx = x := by rw [unit_mul_self hdx]; omega
  have h2 : py + (y - py) * dy * dy = y := by rw [unit_mul_self hdy]; omega
  cases e <;> simp only [h1, h2] <;> split_ifs <;> rfl

theorem cell_coords_inj (e : Edge) {px py dx dy : Int} (hdx : dx = 1 ∨ dx = -1)
    (hdy : dy = 1 ∨ dy = -1) {r s x y : Int}
    (hx : x = cell_x e px dx r s) (hy : y = cell_y e py dy r s) :
    (match e with
      | .vertical => (y - py) * dy = r ∧ (x - px) * dx = s
      | .horizontal => (x - px) * dx = r ∧ (y - py) * dy = s) := by
  subst hx hy
  cases e <;>
    simp only [cell_x, cell_y, add_sub_cancel_left, unit_mul_self hdx, unit_mul_self hdy,
      and_self]

theorem set_lit_of_octant (e : Edge) {px py dx dy : Int} (hdx : dx = 1 ∨ dx = -1)
    (hdy : dy = 1 ∨ dy = -1) (f g : Int → Int → Bool) {r s : Int} (hr : 0 ≤ r) (hs : 0 ≤ s)
    (b : Bool) :
    set_lit (of_octant e px py dx dy f g) (cell_x e px dx r s) (cell_y e py dy r s) b =
      of_octant e px py dx dy f (set_lit g r s b) := by
  funext x y
  by_cases hxy : x = cell_x e px dx r s ∧ y = cell_y e py dy r s
  · obtain ⟨hx, hy⟩ := hxy
    subst hx hy
    rw [of_octant_at e hdx hdy _ _ hr hs]
    simp [set_lit]
  · have hl : set_lit (of_octant e px py dx dy f g) (cell_x e px dx r s)
        (cell_y e py dy r s) b x y = of_octant e px py dx dy f g x y := by
      simp only [set_lit, hxy, if_false]
    rw [hl]
    simp only [of_octant]
    split_ifs with hq
    · have hne : ¬ (match e with
          | .vertical => (y - py) * dy = r ∧ (x - px) * dx = s
          | .horizontal => (x - px) * dx = r ∧ (y - py) * dy = s) := by
        intro hcon
        apply hxy
        cases e
        · obtain ⟨h1, h2⟩ := hcon
          simp only [cell_x, cell_y]
          rw [← h1, ← h2, unit_mul_self hdx, unit_mul_self hdy]
          constructor <;> omega
        · obtain ⟨h1, h2⟩ := hcon
          simp only [cell_x, cell_y]
          rw [← h1, ← h2, unit_mul_self hdx, unit_mul_self hdy]
          constructor <;> omega
      cases e
      · simp only [set_lit]
        rw [if_neg hne]
      · simp only [set_lit]
        rw [if_neg hne]
    · rfl

theorem cell_in_bounds (e : Edge) {m0 : TCOD_Map} {px py dx dy : Int}
    (hdx : dx = 1 ∨ dx = -1) (hdy : dy = 1 ∨ dy = -1) (ho : m0.in_bounds px py)
    {r s : Int} (hr : 0 ≤ r) (hrm : r ≤ ring_extent e m0.width m0.height px py dx dy)
    (hs : 0 ≤ s) (hsm : s ≤ scan_extent e m0.width m0.height px py dx dy) :
    m0.in_bounds (cell_x e px dx r s) (cell_y e py dy r s) := by
  obtain ⟨o1, o2, o3, o4⟩ := ho
  unfold TCOD_Map.in_bounds
  cases e <;> simp only [ring_extent, scan_extent, extent, cell_x, cell_y] at hrm hsm ⊢ <;>
    rcases hdx with h | h <;> rcases hdy with h2 | h2 <;> subst h h2 <;>
    simp only [Int.reduceNeg, Int.neg_eq_of_add_eq_zero, if_true, if_false, mul_one,
      mul_neg, reduceCtorEq] at hrm hsm ⊢ <;>
    norm_num at hrm hsm ⊢ <;> omega

theorem extent_nonneg {p d limit : Int} (h0 : 0 ≤ p) (h1 : p < limit) :
    0 ≤ extent p d limit := by
  unfold extent; split_ifs <;> omega

theorem scan_extent_nonneg (e : Edge) {m0 : TCOD_Map} {px py : Int} (dx dy : Int)
    (ho : m0.in_bounds px py) : 0 ≤ scan_extent e m0.width m0.height px py dx dy := by
  obtain ⟨o1, o2, o3, o4⟩ := ho
  cases e
  · exact extent_nonneg o1 o2
  · exact extent_nonneg o3 o4

/-! ## The visibility test refines the probe -/

theorem ProbeRel.step_idx {k : CellScan} {p : Probe} (h : ProbeRel k p) (n : Nat) :
    ProbeRel { k with idx := k.idx + n } { p with idx := p.idx + n } :=
  ⟨by simp [h.idx], h.visible, h.extended, h.buffers⟩

theorem ProbeRel.hide {k : CellScan} {p : Probe} (h : ProbeRel k p) :
    ProbeRel { k with visible := false } { p with visible := false } :=
  ⟨h.idx, rfl, h.extended, h.buffers⟩

theorem ProbeRel.widen {k : CellScan} {p : Probe} (h : ProbeRel k p) (u v : ℚ) :
    ProbeRel
      { k with
        start_angle := Function.update k.start_angle k.idx u
        end_angle := Function.update k.end_angle k.idx v
        extended := true }
      { p with obstacles := p.obstacles.set p.idx (u, v), extended := true } := by
  refine ⟨h.idx, h.visible, rfl, ?_⟩
  intro j hj
  have hj2 : j < p.obstacles.length := by simpa using hj
  simp only [Function.update_apply, h.idx, List.getElem_set]
  by_cases hji : j = p.idx
  · subst hji; simp
  · have hne : ¬ p.idx = j := fun hc => hji hc.symm
    simp only [hji, hne, if_false]
    exact h.buffers j hj2

theorem obstacle_body_refines (e : Edge) {m : TCOD_Map} {c : Int} {cell : TCOD_MapCell}
    (hcell : m.cell c = .ok cell) (ss cs es : ℚ) {k : CellScan} {p : Probe}
    (h : ProbeRel k p) (hidx : p.idx < p.obstacles.length) :
    ∃ k1, obstacle_body e m c ss cs es k = .ok k1 ∧
      ProbeRel k1 (probe_step e cell.transparent ss cs es p) := by
  obtain ⟨o, ho⟩ : ∃ o, o = p.obstacles[p.idx] := ⟨_, rfl⟩
  have hget : p.obstacles.getD p.idx (0, 0) = o := by
    rw [ho]; simp [List.getD_eq_getElem?_getD, List.getElem?_eq_getElem hidx]
  have hsa : k.start_angle k.idx = o.1 := by rw [h.idx, ho]; exact (h.buffers _ hidx).1
  have hea : k.end_angle k.idx = o.2 := by rw [h.idx, ho]; exact (h.buffers _ hidx).2
  unfold obstacle_body probe_step MAX MIN
  rw [hget, hsa, hea]
  by_cases hov : ss ≤ o.2 ∧ es ≥ o.1
  · simp only [hov, and_self, if_true, bind_ok hcell]
    cases ht : cell.transparent
    · by_cases hin : ss ≥ o.1 ∧ es ≤ o.2
      · simp only [hin, and_self, if_true, Bool.false_eq_true, if_false]
        cases e
        · exact ⟨_, rfl, (h.hide).step_idx 1⟩
        · exact ⟨_, rfl, ((h.hide).step_idx 1).step_idx 1⟩
      · simp only [hin, if_false, Bool.false_eq_true]
        cases e
        · exact ⟨_, rfl, (h.widen _ _).step_idx 1⟩
        · exact ⟨_, rfl, ((h.widen _ _).step_idx 1).step_idx 1⟩
    · by_cases hin : cs > o.1 ∧ cs < o.2
      · simp only [hin, and_self, if_true]
        cases e
        · exact ⟨_, rfl, (h.hide).step_idx 1⟩
        · exact ⟨_, rfl, ((h.hide).step_idx 1).step_idx 1⟩
      · simp only [hin, if_false, if_true]
        cases e
        · exact ⟨_, rfl, h.step_idx 1⟩
        · exact ⟨_, rfl, (h.step_idx 1).step_idx 1⟩
  · simp only [hov, if_false]
    exact ⟨_, rfl, h.step_idx 1⟩

theorem obstacle_loop_refines (e : Edge) {m : TCOD_Map} {c : Int} {cell : TCOD_MapCell}
    (hcell : m.cell c = .ok cell) (ss cs es : ℚ) (last : Nat) {k : CellScan} {p : Probe}
    (h : ProbeRel k p) (hlast : last ≤ p.obstacles.length) :
    ∃ k1,
      while_loop (fun t => decide (t.idx < last) && t.visible)
        (obstacle_body e m c ss cs es) last k = .ok k1 ∧
      ProbeRel k1
        (iterate_while (fun t => decide (t.idx < last) && t.visible)
          (probe_step e cell.transparent ss cs es) last p) := by
  have hInv : ∀ q : Probe, q.obstacles.length = p.obstacles.length →
      (fun t : Probe => decide (t.idx < last) && t.visible) q = true →
      (probe_step e cell.transparent ss cs es q).obstacles.length = p.obstacles.length ∧
      (last - (probe_step e cell.transparent ss cs es q).idx) < (last - q.idx) := by
    intro q hq hc
    simp only [Bool.and_eq_true, decide_eq_true_eq] at hc
    have := probe_step_idx e cell.transparent ss cs es q
    refine ⟨by rw [probe_step_length]; exact hq, by omega⟩
  have hfin := iterate_while_done (fun q : Probe => q.obstacles.length = p.obstacles.length)
    (fun t : Probe => decide (t.idx < last) && t.visible)
    (probe_step e cell.transparent ss cs es) (fun t => last - t.idx) hInv last p rfl
    (by simp)
  obtain ⟨k1, hk1, hrel⟩ := while_loop_refines
    (fun (k : CellScan) (q : Probe) => ProbeRel k q ∧ q.obstacles.length = p.obstacles.length)
    (fun t => decide (t.idx < last) && t.visible) (obstacle_body e m c ss cs es)
    (fun t => decide (t.idx < last) && t.visible) (probe_step e cell.transparent ss cs es)
    (by
      intro k q hkq
      simp only [hkq.1.idx, hkq.1.visible])
    (by
      intro k q hkq hc
      have hc2 := hc
      simp only [Bool.and_eq_true, decide_eq_true_eq] at hc2
      obtain ⟨k1, hk1, hr⟩ := obstacle_body_refines e hcell ss cs es hkq.1
        (by rw [hkq.2]; omega)
      exact ⟨k1, hk1, hr, (hInv q hkq.2 hc).1⟩)
    last k p ⟨h, rfl⟩ hfin
  exact ⟨k1, hk1, hrel.1⟩

/-! ## The neighbour test -/

theorem index_first (e : Edge) (px py dx dy w r p : Int) :
    first_neighbour e w (cell_x e px dx r p + cell_y e py dy r p * w) dx dy =
      cell_x e px dx (r - 1) p + cell_y e py dy (r - 1) p * w := by
  cases e <;> simp only [first_neighbour, cell_x, cell_y] <;> ring

theorem index_second (e : Edge) (px py dx dy w r p : Int) :
    cell_x e px dx r p + cell_y e py dy r p * w - w * dy - dx =
      cell_x e px dx (r - 1) (p - 1) + cell_y e py dy (r - 1) (p - 1) * w := by
  cases e <;> simp only [cell_x, cell_y] <;> ring

theorem octant_cell_at (e : Edge) {m0 m : TCOD_Map} {px py dx dy : Int}
    (ctx : OctCtx m0 px py dx dy) {f0 g : Int → Int → Bool}
    (hl : LitAs m0 (of_octant e px py dx dy f0 g) m) {r p : Int}
    (hr : 0 ≤ r) (hrm : r ≤ ring_extent e m0.width m0.height px py dx dy)
    (hp : 0 ≤ p) (hpm : p ≤ scan_extent e m0.width m0.height px py dx dy) :
    ∃ c, m.cell (cell_x e px dx r p + cell_y e py dy r p * m.width) = .ok c ∧
      c.fov = g r p ∧ c.transparent = to_octant e px py dx dy m0.tr r p := by
  obtain ⟨c, h1, h2, h3⟩ := hl.cell_at ctx.wf
    (cell_in_bounds e ctx.hdx ctx.hdy ctx.origin hr hrm hp hpm)
  refine ⟨c, h1, ?_, ?_⟩
  · rw [h2, of_octant_at e ctx.hdx ctx.hdy _ _ hr hp]
  · rw [h3, to_octant_apply]

theorem octant_set_at (e : Edge) {m0 m : TCOD_Map} {px py dx dy : Int}
    (ctx : OctCtx m0 px py dx dy) {f0 g : Int → Int → Bool}
    (hl : LitAs m0 (of_octant e px py dx dy f0 g) m) {r p : Int}
    (hr : 0 ≤ r) (hrm : r ≤ ring_extent e m0.width m0.height px py dx dy)
    (hp : 0 ≤ p) (hpm : p ≤ scan_extent e m0.width m0.height px py dx dy) (b : Bool) :
    ∃ m1, m.set_fov (cell_x e px dx r p + cell_y e py dy r p * m.width) b = .ok m1 ∧
      LitAs m0 (of_octant e px py dx dy f0 (set_lit g r p b)) m1 := by
  obtain ⟨m1, h1, h2⟩ := hl.set_at ctx.wf
    (cell_in_bounds e ctx.hdx ctx.hdy ctx.origin hr hrm hp hpm) b
  refine ⟨m1, h1, ?_⟩
  rw [set_lit_of_octant e ctx.hdx ctx.hdy _ _ hr hp] at h2
  exact h2

theorem neighbours_refines (e : Edge) {m0 m : TCOD_Map} {px py dx dy : Int}
    (ctx : OctCtx m0 px py dx dy) {f0 g : Int → Int → Bool}
    (hl : LitAs m0 (of_octant e px py dx dy f0 g) m) {r p : Int}
    (hr : 1 ≤ r) (hrm : r ≤ ring_extent e m0.width m0.height px py dx dy)
    (hp : 0 ≤ p) (hpm : p ≤ scan_extent e m0.width m0.height px py dx dy)
    (haxis : p = 0 →
      g (r - 1) 0 = true ∧ to_octant e px py dx dy m0.tr (r - 1) 0 = true) :
    neighbours_blocked e m (cell_x e px dx r p + cell_y e py dy r p * m.width) dx dy =
      .ok (!(g (r - 1) p && to_octant e px py dx dy m0.tr (r - 1) p) &&
        !(decide (1 ≤ p) &&
          (g (r - 1) (p - 1) && to_octant e px py dx dy m0.tr (r - 1) (p - 1)))) := by
  obtain ⟨a, ha, ha1, ha2⟩ := octant_cell_at e ctx hl (r := r - 1) (p := p)
    (by omega) (by omega) hp hpm
  unfold neighbours_blocked
  simp only [index_first, bind_ok ha, ha1, ha2]
  by_cases hA : (g (r - 1) p && to_octant e px py dx dy m0.tr (r - 1) p) = true
  · simp only [hA, if_true, Bool.not_true, Bool.false_and]
  · by_cases hp0 : p = 0
    · exfalso
      apply hA
      subst hp0
      obtain ⟨q1, q2⟩ := haxis rfl
      simp [q1, q2]
    · obtain ⟨b, hb, hb1, hb2⟩ := octant_cell_at e ctx hl (r := r - 1) (p := p - 1)
        (by omega) (by omega) (by omega) (by omega)
      have hp1 : 1 ≤ p := by omega
      rw [index_second e px py dx dy m.width r p]
      simp only [hA, if_false, bind_ok hb, hb1, hb2, hp1, decide_True, Bool.true_and]
      simp only [Bool.not_eq_true] at hA
      simp [hA]

/-! ## One cell of the concrete sweep -/

theorem cell_visibility_refines (e : Edge) {m0 : TCOD_Map} {px py dx dy : Int}
    (ctx : OctCtx m0 px py dx dy) {f0 g : Int → Int → Bool} {lw : Bool} {R i : Int}
    {s : Octant} {a : Sweep} (hrel : ScanRel e m0 px py dx dy f0 s a)
    (hinv : ScanInv lw R (to_octant e px py dx dy m0.tr)
      (ring_extent e m0.width m0.height px py dx dy)
      (scan_extent e m0.width m0.height px py dx dy) g i a)
    (hc : a.pos ≤ min i (scan_extent e m0.width m0.height px py dx dy)) :
    ∃ k, cell_visibility e dx dy (start_slope a.ring a.pos) (centre_slope a.ring a.pos)
        (end_slope a.ring a.pos) (s.x + s.y * s.m.width) s = .ok k ∧
      ProbeRel k (cell_probe e (to_octant e px py dx dy m0.tr) a) := by
  have hring := hinv.ring
  have hr1 := hinv.ring_pos
  have hrm := hinv.ring_le
  have hp0 := hinv.pos_nonneg
  have hinit : ProbeRel
      { start_angle := s.start_angle, end_angle := s.end_angle, idx := 0, visible := true,
        extended := false }
      { obstacles := a.obstacles, idx := 0, visible := true, extended := false } :=
    ⟨rfl, rfl, rfl, hrel.buffers⟩
  rw [hrel.x, hrel.y]
  unfold cell_visibility cell_probe probe
  rw [hrel.last]
  by_cases hl : a.last_line > 0
  · simp only [hl, if_true]
    have hnb := neighbours_refines e ctx hrel.lit (r := a.ring) (p := a.pos) (by omega)
      (by omega) hp0 (by omega) (by
        intro hp
        have hm := hinv.pos_zero hp
        have := hinv.axis_prev hm hp (hinv.last_ring hl)
        rw [hring]; exact this)
    rw [bind_ok hnb]
    by_cases hb : (!(a.lit (a.ring - 1) a.pos &&
          to_octant e px py dx dy m0.tr (a.ring - 1) a.pos) &&
        !(decide (1 ≤ a.pos) && (a.lit (a.ring - 1) (a.pos - 1) &&
          to_octant e px py dx dy m0.tr (a.ring - 1) (a.pos - 1)))) = true
    · simp only [hb, if_true]
      exact ⟨_, rfl, hinit.hide⟩
    · simp only [hb, if_false]
      obtain ⟨cell, hcell, _, hct⟩ := octant_cell_at e ctx hrel.lit (r := a.ring) (p := a.pos)
        (by omega) (by omega) hp0 (by omega)
      rw [← hct]
      exact obstacle_loop_refines e hcell _ _ _ a.last_line hinit hinv.last_le
  · simp only [hl, if_false]
    exact ⟨_, rfl, hinit⟩

theorem buffers_push {sa ea : Nat → ℚ} {obs : List (ℚ × ℚ)}
    (h : ∀ (j : Nat) (hj : j < obs.length), sa j = (obs[j]).1 ∧ ea j = (obs[j]).2)
    (u v : ℚ) :
    ∀ (j : Nat) (hj : j < (obs ++ [(u, v)]).length),
      Function.update sa obs.length u j = ((obs ++ [(u, v)])[j]).1 ∧
      Function.update ea obs.length v j = ((obs ++ [(u, v)])[j]).2 := by
  intro j hj
  by_cases hjl : j < obs.length
  · have hne : j ≠ obs.length := by omega
    simp only [Function.update_apply, hne, if_false, List.getElem_append_left hjl]
    exact h j hjl
  · have hje : j = obs.length := by
      simp only [List.length_append, List.length_singleton] at hj
      omega
    subst hje
    simp

theorem mark_visible_refines (e : Edge) {m0 : TCOD_Map} {px py dx dy : Int}
    (ctx : OctCtx m0 px py dx dy) {f0 : Int → Int → Bool} {s : Octant} {a : Sweep}
    (hrel : ScanRel e m0 px py dx dy f0 s a)
    (hr : 0 ≤ a.ring) (hrm : a.ring ≤ ring_extent e m0.width m0.height px py dx dy)
    (hp : 0 ≤ a.pos) (hpm : a.pos ≤ scan_extent e m0.width m0.height px py dx dy)
    (lw : Bool) (ss es : ℚ) (ext : Bool) :
    ∃ s2, mark_visible lw ss es ext (s.x + s.y * s.m.width) s = .ok s2 ∧
      ScanRel e m0 px py dx dy f0 s2
        (sweep_mark lw (to_octant e px py dx dy m0.tr a.ring a.pos) ss es ext a) := by
  have hw : s.m.width = m0.width := hrel.lit.width
  obtain ⟨m1, hm1, hl1⟩ := octant_set_at e ctx hrel.lit hr hrm hp hpm true
  obtain ⟨cell, hcell, _, hct⟩ := octant_cell_at e ctx hl1 hr hrm hp hpm
  obtain ⟨m2, hm2, hl2⟩ := octant_set_at e ctx hl1 hr hrm hp hpm false
  rw [hl1.width, ← hw] at hcell hm2
  rw [hrel.x, hrel.y]
  unfold mark_visible sweep_mark
  simp only [bind_ok hm1, bind_ok hcell, hct]
  cases ht : to_octant e px py dx dy m0.tr a.ring a.pos
  · simp only [Bool.not_false, if_true, hrel.min_angle, hrel.processed, hrel.iteration]
    by_cases hmin : a.min_angle ≥ ss
    · simp only [hmin, if_true]
      cases lw
      · simp only [Bool.not_false, if_true, bind_ok hm2]
        exact ⟨_, rfl,
          { lit := hl2, iteration := rfl, done := rfl, total := hrel.total,
            last := hrel.last, min_angle := rfl, buffers := hrel.buffers,
            processed := rfl, x := hrel.x, y := hrel.y }⟩
      · simp only [Bool.not_true, Bool.false_eq_true, if_false]
        exact ⟨_, rfl,
          { lit := hl1, iteration := rfl, done := rfl, total := hrel.total,
            last := hrel.last, min_angle := rfl, buffers := hrel.buffers,
            processed := rfl, x := hrel.x, y := hrel.y }⟩
    · simp only [hmin, if_false]
      cases ext
      · simp only [Bool.not_false, if_true]
        cases lw
        · simp only [Bool.not_false, if_true, bind_ok hm2]
          refine ⟨_, rfl,
            { lit := hl2, iteration := rfl, done := rfl
              total := by simp [hrel.total]
              last := hrel.last, min_angle := rfl
              buffers := ?_
              processed := rfl, x := hrel.x, y := hrel.y }⟩
          show ∀ (j : ℕ) (hj : j < (a.obstacles ++ [(ss, es)]).length),
            Function.update s.start_angle s.total_obstacles ss j =
                ((a.obstacles ++ [(ss, es)])[j]).1 ∧
              Function.update s.end_angle s.total_obstacles es j =
                ((a.obstacles ++ [(ss, es)])[j]).2
          rw [hrel.total]
          exact buffers_push hrel.buffers ss es
        · simp only [Bool.not_true, Bool.false_eq_true, if_false]
          refine ⟨_, rfl,
            { lit := hl1, iteration := rfl, done := rfl
              total := by simp [hrel.total]
              last := hrel.last, min_angle := rfl
              buffers := ?_
              processed := rfl, x := hrel.x, y := hrel.y }⟩
          show ∀ (j : ℕ) (hj : j < (a.obstacles ++ [(ss, es)]).length),
            Function.update s.start_angle s.total_obstacles ss j =
                ((a.obstacles ++ [(ss, es)])[j]).1 ∧
              Function.update s.end_angle s.total_obstacles es j =
                ((a.obstacles ++ [(ss, es)])[j]).2
          rw [hrel.total]
          exact buffers_push hrel.buffers ss es
      · simp only [Bool.not_true, Bool.false_eq_true, if_false]
        cases lw
        · simp only [Bool.not_false, if_true, bind_ok hm2]
          exact ⟨_, rfl,
            { lit := hl2, iteration := rfl, done := rfl, total := hrel.total,
              last := hrel.last, min_angle := rfl, buffers := hrel.buffers,
              processed := rfl, x := hrel.x, y := hrel.y }⟩
        · simp only [Bool.not_true, Bool.false_eq_true, if_false]
          exact ⟨_, rfl,
            { lit := hl1, iteration := rfl, done := rfl, total := hrel.total,
              last := hrel.last, min_angle := rfl, buffers := hrel.buffers,
              processed := rfl, x := hrel.x, y := hrel.y }⟩
  · simp only [Bool.not_true, Bool.false_eq_true, if_false]
    exact ⟨_, rfl,
      { lit := hl1, iteration := hrel.iteration, done := rfl, total := hrel.total,
        last := hrel.last, min_angle := hrel.min_angle, buffers := hrel.buffers,
        processed := hrel.processed, x := hrel.x, y := hrel.y }⟩

theorem scan_cell_refines (e : Edge) {m0 : TCOD_Map} {px py dx dy : Int}
    (ctx : OctCtx m0 px py dx dy) {f0 g : Int → Int → Bool} (lw : Bool) {R : Int}
    {s : Octant} {a : Sweep} (hrel : ScanRel e m0 px py dx dy f0 s a)
    (hinv : ScanInv lw R (to_octant e px py dx dy m0.tr)
      (ring_extent e m0.width m0.height px py dx dy)
      (scan_extent e m0.width m0.height px py dx dy) g a.ring a)
    (hc : a.pos ≤ min a.ring (scan_extent e m0.width m0.height px py dx dy)) :
    ∃ s1, scan_cell e lw dx dy (1 / (a.ring : ℚ)) (1 / (a.ring : ℚ) * (1 / 2)) s = .ok s1 ∧
      ScanRel e m0 px py dx dy f0 s1 (sweep_cell e lw (to_octant e px py dx dy m0.tr) a) := by
  have hr1 := hinv.ring_pos
  have hrm := hinv.ring_le
  have hp0 := hinv.pos_nonneg
  obtain ⟨k, hk, hpr⟩ := cell_visibility_refines e ctx hrel hinv hc
  simp only [start_slope, centre_slope, end_slope] at hk
  have hrel1 : ScanRel e m0 px py dx dy f0
      { s with start_angle := k.start_angle, end_angle := k.end_angle }
      { a with obstacles := (cell_probe e (to_octant e px py dx dy m0.tr) a).obstacles } :=
    { lit := hrel.lit, iteration := hrel.iteration, done := hrel.done
      total := by
        show s.total_obstacles = _
        rw [cell_probe_length]; exact hrel.total
      last := hrel.last, min_angle := hrel.min_angle
      buffers := hpr.buffers
      processed := hrel.processed, x := hrel.x, y := hrel.y }
  have hq : (s.processed_cell : ℚ) = (a.pos : ℚ) := by rw [hrel.processed]
  rw [sweep_cell_eq]
  unfold scan_cell
  simp only [hq, bind_ok hk, hpr.visible, hpr.extended]
  by_cases hv : (cell_probe e (to_octant e px py dx dy m0.tr) a).visible = true
  · obtain ⟨s2, hs2, hrel2⟩ := mark_visible_refines e ctx hrel1 (by show 0 ≤ a.ring; omega)
      (by show a.ring ≤ _; omega) hp0 (by show a.pos ≤ _; omega) lw
      (start_slope a.ring a.pos) (end_slope a.ring a.pos)
      (cell_probe e (to_octant e px py dx dy m0.tr) a).extended
    simp only [start_slope, end_slope] at hs2
    simp only [hv, if_true, bind_ok hs2]
    have hring2 := sweep_mark_ring lw (to_octant e px py dx dy m0.tr a.ring a.pos)
      (start_slope a.ring a.pos) (end_slope a.ring a.pos)
      (cell_probe e (to_octant e px py dx dy m0.tr) a).extended
      { a with obstacles := (cell_probe e (to_octant e px py dx dy m0.tr) a).obstacles }
    have hpos2 := sweep_mark_pos lw (to_octant e px py dx dy m0.tr a.ring a.pos)
      (start_slope a.ring a.pos) (end_slope a.ring a.pos)
      (cell_probe e (to_octant e px py dx dy m0.tr) a).extended
      { a with obstacles := (cell_probe e (to_octant e px py dx dy m0.tr) a).obstacles }
    cases e
    · refine ⟨_, rfl,
        { lit := hrel2.lit, iteration := hrel2.iteration, done := hrel2.done
          total := hrel2.total, last := hrel2.last, min_angle := hrel2.min_angle
          buffers := hrel2.buffers
          processed := by simp only [hrel2.processed]
          x := ?_, y := ?_ }⟩
      · have := hrel2.x
        simp only [cell_x] at this ⊢
        rw [this]; ring
      · have := hrel2.y
        simp only [cell_y] at this ⊢
        rw [this]
    · refine ⟨_, rfl,
        { lit := hrel2.lit, iteration := hrel2.iteration, done := hrel2.done
          total := hrel2.total, last := hrel2.last, min_angle := hrel2.min_angle
          buffers := hrel2.buffers
          processed := by simp only [hrel2.processed]
          x := ?_, y := ?_ }⟩
      · have := hrel2.x
        simp only [cell_x] at this ⊢
        rw [this]
      · have := hrel2.y
        simp only [cell_y] at this ⊢
        rw [this]; ring
  · simp only [hv, Bool.false_eq_true, if_false]
    cases e
    · refine ⟨_, rfl,
        { lit := hrel1.lit, iteration := hrel1.iteration, done := hrel1.done
          total := hrel1.total, last := hrel1.last, min_angle := hrel1.min_angle
          buffers := hrel1.buffers
          processed := by have := hrel1.processed; simp only [] at this ⊢; rw [this]
          x := ?_, y := ?_ }⟩
      · have := hrel1.x
        simp only [cell_x] at this ⊢
        rw [this]; ring
      · have := hrel1.y
        simp only [cell_y] at this ⊢
        rw [this]
    · refine ⟨_, rfl,
        { lit := hrel1.lit, iteration := hrel1.iteration, done := hrel1.done
          total := hrel1.total, last := hrel1.last, min_angle := hrel1.min_angle
          buffers := hrel1.buffers
          processed := by have := hrel1.processed; simp only [] at this ⊢; rw [this]
          x := ?_, y := ?_ }⟩
      · have := hrel1.x
        simp only [cell_x] at this ⊢
        rw [this]
      · have := hrel1.y
        simp only [cell_y] at this ⊢
        rw [this]; ring

/-! ## One ring of the concrete sweep -/

theorem next_ring_off_grid {p d limit : Int} (hd : d = 1 ∨ d = -1) (h0 : 0 ≤ p)
    (h1 : p < limit) {r : Int} (hr : 0 ≤ r) :
    (p + r * d < 0 ∨ p + r * d ≥ limit) ↔ r > extent p d limit := by
  unfold extent
  rcases hd with h | h <;> subst h <;> norm_num <;> omega

theorem in_line_iff {p d limit : Int} (hd : d = 1 ∨ d = -1) (h0 : 0 ≤ p)
    (h1 : p < limit) {i k : Int} (hi : 0 ≤ i) (hk : 0 ≤ k) :
    (p + k * d ≥ max 0 (p - i) ∧ p + k * d ≤ min (limit - 1) (p + i)) ↔
      k ≤ min i (extent p d limit) := by
  unfold extent
  rcases hd with h | h <;> subst h <;> norm_num <;> omega

theorem line_fuel {p d limit : Int} (hd : d = 1 ∨ d = -1) (h0 : 0 ≤ p)
    (h1 : p < limit) {i k : Int} (hi : 0 ≤ i) (hk : 0 ≤ k) :
    (min i (extent p d limit) + 1 - k).toNat ≤
      (min (limit - 1) (p + i) - max 0 (p - i) + 1).toNat := by
  unfold extent
  rcases hd with h | h <;> subst h <;> norm_num <;> omega

theorem line_start_rel (e : Edge) {m0 : TCOD_Map} {px py dx dy : Int}
    {f0 : Int → Int → Bool} {s : Octant} {a : Sweep}
    (hrel : OctRel e m0 px py dx dy f0 s a) :
    ScanRel e m0 px py dx dy f0
      (line_start e px py dx dy
        (int_cast ((s.min_angle + 1 / (s.iteration : ℚ) * (1 / 2)) / (1 / (s.iteration : ℚ))))
        s)
      (ring_open a) := by
  have hfirst : int_cast ((s.min_angle + 1 / (s.iteration : ℚ) * (1 / 2)) /
      (1 / (s.iteration : ℚ))) = (ring_open a).pos := by
    rw [hrel.iteration, hrel.min_angle]; rfl
  rw [hfirst]
  have hc := hrel.ring_coord
  cases e
  · exact
      { lit := hrel.lit, iteration := hrel.iteration, done := rfl, total := hrel.total
        last := hrel.last, min_angle := hrel.min_angle, buffers := hrel.buffers
        processed := rfl, x := rfl, y := hc }
  · exact
      { lit := hrel.lit, iteration := hrel.iteration, done := rfl, total := hrel.total
        last := hrel.last, min_angle := hrel.min_angle, buffers := hrel.buffers
        processed := rfl, x := hc, y := rfl }

theorem in_line_rel (e : Edge) {m0 : TCOD_Map} {px py dx dy : Int}
    (ctx : OctCtx m0 px py dx dy) {f0 : Int → Int → Bool} {t : Octant} {b : Sweep}
    (hrel : ScanRel e m0 px py dx dy f0 t b) (hp : 0 ≤ b.pos) (hr : 0 ≤ b.ring)
    {m : TCOD_Map} (hw : m.width = m0.width) (hh : m.height = m0.height) :
    in_line e (line_lo e px py b.ring) (line_hi e m px py b.ring) t =
      decide (b.pos ≤ min b.ring (scan_extent e m0.width m0.height px py dx dy)) := by
  obtain ⟨o1, o2, o3, o4⟩ := ctx.origin
  have hx := hrel.x
  have hy := hrel.y
  cases e
  · simp only [in_line, line_lo, line_hi, MAX, MIN, scan_extent, hx, cell_x, hw, ← Bool.decide_and]
    exact decide_eq_decide.mpr (in_line_iff ctx.hdx o1 o2 hr hp)
  · simp only [in_line, line_lo, line_hi, MAX, MIN, scan_extent, hy, cell_y, hh, ← Bool.decide_and]
    exact decide_eq_decide.mpr (in_line_iff ctx.hdy o3 o4 hr hp)

theorem line_end_rel (e : Edge) {m0 : TCOD_Map} {px py dx dy : Int}
    (ctx : OctCtx m0 px py dx dy) {f0 : Int → Int → Bool} (R : Int) {s2 : Octant} {a2 : Sweep}
    (hrel : ScanRel e m0 px py dx dy f0 s2 a2) (hr : 0 ≤ a2.ring) :
    OctRel e m0 px py dx dy f0 (line_end e R dx dy s2)
      (ring_close R (ring_extent e m0.width m0.height px py dx dy) a2) := by
  obtain ⟨o1, o2, o3, o4⟩ := ctx.origin
  have hx := hrel.x
  have hy := hrel.y
  have hit := hrel.iteration
  have hdone := hrel.done
  have hw : s2.m.width = m0.width := hrel.lit.width
  have hh : s2.m.height = m0.height := hrel.lit.height
  cases e
  · have hoff : (s2.y + dy < 0 ∨ s2.y + dy ≥ s2.m.height) ↔
        a2.ring + 1 > extent py dy m0.height := by
      rw [hy, hh]
      simp only [cell_y]
      have := next_ring_off_grid ctx.hdy o3 o4 (r := a2.ring + 1) (by omega)
      rw [← this]
      have e1 : py + a2.ring * dy + dy = py + (a2.ring + 1) * dy := by ring
      rw [e1]
    simp only [line_end, ring_close, ring_extent]
    by_cases hR : s2.iteration = R <;> by_cases ho : s2.y + dy < 0 ∨ s2.y + dy ≥ s2.m.height <;>
      simp only [hR, ho, if_true, if_false] <;>
      exact
        { lit := hrel.lit
          iteration := by simp only []; omega
          done := by
            have hR2 := hR
            rw [hit] at hR2
            have ho2 := ho
            rw [hoff] at ho2
            simp [hdone, hR2, ho2]
          total := hrel.total
          last := hrel.total
          min_angle := hrel.min_angle
          buffers := hrel.buffers
          ring_coord := by
            simp only [hy, cell_y]
            ring }
  · have hoff : (s2.x + dx < 0 ∨ s2.x + dx ≥ s2.m.width) ↔
        a2.ring + 1 > extent px dx m0.width := by
      rw [hx, hw]
      simp only [cell_x]
      have := next_ring_off_grid ctx.hdx o1 o2 (r := a2.ring + 1) (by omega)
      rw [← this]
      have e1 : px + a2.ring * dx + dx = px + (a2.ring + 1) * dx := by ring
      rw [e1]
    simp only [line_end, ring_close, ring_extent]
    by_cases hR : s2.iteration = R <;> by_cases ho : s2.x + dx < 0 ∨ s2.x + dx ≥ s2.m.width <;>
      simp only [hR, ho, if_true, if_false] <;>
      exact
        { lit := hrel.lit
          iteration := by simp only []; omega
          done := by
            have hR2 := hR
            rw [hit] at hR2
            have ho2 := ho
            rw [hoff] at ho2
            simp [hdone, hR2, ho2]
          total := hrel.total
          last := hrel.total
          min_angle := hrel.min_angle
          buffers := hrel.buffers
          ring_coord := by
            simp only [hx, cell_x]
            ring }

theorem scan_ring_refines (e : Edge) {m0 : TCOD_Map} {px py dx dy : Int}
    (ctx : OctCtx m0 px py dx dy) {f0 g : Int → Int → Bool} (lw : Bool) (R : Int)
    {s : Octant} {a : Sweep} (hrel : OctRel e m0 px py dx dy f0 s a)
    (hinv : RingInv lw R (to_octant e px py dx dy m0.tr)
      (ring_extent e m0.width m0.height px py dx dy)
      (scan_extent e m0.width m0.height px py dx dy) g a)
    (hd : a.done = false) :
    ∃ s1, scan_ring e px py R lw dx dy s = .ok s1 ∧
      OctRel e m0 px py dx dy f0 s1
        (sweep_ring e lw R (to_octant e px py dx dy m0.tr)
          (ring_extent e m0.width m0.height px py dx dy)
          (scan_extent e m0.width m0.height px py dx dy) a) := by
  obtain ⟨o1, o2, o3, o4⟩ := ctx.origin
  have hsi := scan_start_inv hinv hd
  have hr1 := hinv.ring_pos
  have hw : s.m.width = m0.width := hrel.lit.width
  have hh : s.m.height = m0.height := hrel.lit.height
  have hrel1 := line_start_rel e hrel
  have hfuel : (min a.ring (scan_extent e m0.width m0.height px py dx dy) + 1 -
        (ring_open a).pos).toNat ≤
      (line_hi e s.m px py s.iteration - line_lo e px py s.iteration + 1).toNat := by
    rw [hrel.iteration]
    cases e
    · simp only [line_hi, line_lo, MAX, MIN, scan_extent, hw]
      exact line_fuel ctx.hdx o1 o2 (by omega) hsi.pos_nonneg
    · simp only [line_hi, line_lo, MAX, MIN, scan_extent, hh]
      exact line_fuel ctx.hdy o3 o4 (by omega) hsi.pos_nonneg
  have hfin := scan_loop_done e
    (line_hi e s.m px py s.iteration - line_lo e px py s.iteration + 1).toNat hsi hfuel
  have hsame := scan_loop_fuel e
    (line_hi e s.m px py s.iteration - line_lo e px py s.iteration + 1).toNat
    (min a.ring (scan_extent e m0.width m0.height px py dx dy) + 1 - (ring_open a).pos).toNat
    hsi hfuel (le_refl _)
  obtain ⟨s2, hs2, hrel2, hinv2⟩ := while_loop_refines
    (fun (t : Octant) (b : Sweep) => ScanRel e m0 px py dx dy f0 t b ∧
      ScanInv lw R (to_octant e px py dx dy m0.tr)
        (ring_extent e m0.width m0.height px py dx dy)
        (scan_extent e m0.width m0.height px py dx dy) g a.ring b)
    (in_line e (line_lo e px py s.iteration) (line_hi e s.m px py s.iteration))
    (scan_cell e lw dx dy (1 / (s.iteration : ℚ)) (1 / (s.iteration : ℚ) * (1 / 2)))
    (fun t => decide (t.pos ≤ min a.ring (scan_extent e m0.width m0.height px py dx dy)))
    (sweep_cell e lw (to_octant e px py dx dy m0.tr))
    (by
      intro t b hb
      have := in_line_rel e ctx hb.1 hb.2.pos_nonneg (by rw [hb.2.ring]; omega) hw hh
      rw [hb.2.ring, ← hrel.iteration] at this
      rw [this, hrel.iteration])
    (by
      intro t b hb hc
      have hbr := hb.2.ring
      have hb2 := hb.2
      rw [← hbr] at hb2
      have hc2 : b.pos ≤ min b.ring (scan_extent e m0.width m0.height px py dx dy) := by
        rw [hbr]; simpa using hc
      obtain ⟨t1, ht1, hr1⟩ := scan_cell_refines e ctx lw hb.1 hb2 hc2
      rw [hbr, ← hrel.iteration] at ht1
      exact ⟨t1, ht1, hr1, sweep_cell_inv e hb.2 (by simpa using hc)⟩)
    (line_hi e s.m px py s.iteration - line_lo e px py s.iteration + 1).toNat _ _
    ⟨hrel1, hsi⟩ hfin
  rw [hsame] at hrel2 hinv2
  unfold scan_ring
  simp only [bind_ok hs2]
  exact ⟨_, rfl, line_end_rel e ctx R hrel2 (by rw [hinv2.ring]; omega)⟩

theorem octant_init_rel (e : Edge) {m0 m : TCOD_Map} {px py dx dy : Int}
    (ctx : OctCtx m0 px py dx dy) {f : Int → Int → Bool} (hl : LitAs m0 f m)
    (sa ea : Nat → ℚ) :
    OctRel e m0 px py dx dy f (octant_init e m px py dx dy sa ea)
      (sweep_init (to_octant e px py dx dy f) (ring_extent e m0.width m0.height px py dx dy)) := by
  obtain ⟨o1, o2, o3, o4⟩ := ctx.origin
  have hl2 : LitAs m0 (of_octant e px py dx dy f (to_octant e px py dx dy f)) m := by
    rw [of_octant_to_octant e ctx.hdx ctx.hdy]; exact hl
  cases e
  · exact
      { lit := hl2, iteration := rfl
        done := by
          simp only [octant_init, sweep_init, ring_extent, hl.height]
          have := next_ring_off_grid ctx.hdy o3 o4 (r := 1) (by omega)
          simp only [one_mul] at this
          exact decide_eq_decide.mpr this
        total := rfl, last := rfl, min_angle := rfl
        buffers := by intro j hj; simp [sweep_init] at hj
        ring_coord := by simp [octant_init, sweep_init] }
  · exact
      { lit := hl2, iteration := rfl
        done := by
          simp only [octant_init, sweep_init, ring_extent, hl.width]
          have := next_ring_off_grid ctx.hdx o1 o2 (r := 1) (by omega)
          simp only [one_mul] at this
          exact decide_eq_decide.mpr this
        total := rfl, last := rfl, min_angle := rfl
        buffers := by intro j hj; simp [sweep_init] at hj
        ring_coord := by simp [octant_init, sweep_init] }

theorem ring_extent_lt (e : Edge) {m0 : TCOD_Map} {px py dx dy : Int}
    (ctx : OctCtx m0 px py dx dy) :
    (ring_extent e m0.width m0.height px py dx dy).toNat ≤ ring_bound e m0 := by
  obtain ⟨o1, o2, o3, o4⟩ := ctx.origin
  cases e <;> simp only [ring_extent, extent, ring_bound] <;> split_ifs <;> omega

/-! ## The octant, the quadrant and the entry point -/

theorem sweep_ring_measure {lw : Bool} {R : Int} {tr : Int → Int → Bool} {rmax smax : Int}
    {g : Int → Int → Bool} (e : Edge) (hs : 0 ≤ smax) (b : Sweep)
    (hb : RingInv lw R tr rmax smax g b) (hc : (fun a : Sweep => !a.done) b = true) :
    RingInv lw R tr rmax smax g (sweep_ring e lw R tr rmax smax b) ∧
      (fun t : Sweep => if t.done = true then 0 else (rmax + 1 - t.ring).toNat)
          (sweep_ring e lw R tr rmax smax b) <
        (fun t : Sweep => if t.done = true then 0 else (rmax + 1 - t.ring).toNat) b := by
  have hd : b.done = false := by simpa using hc
  refine ⟨sweep_ring_inv e hs hb hd, ?_⟩
  have hle := hb.ring_le hd
  have hq := (sweep_ring_inv e hs hb hd).ring_le
  simp only [hd, Bool.false_eq_true, if_false]
  have hr : (sweep_ring e lw R tr rmax smax b).ring = b.ring + 1 := by
    simp only [sweep_ring, ring_close]
    have := (scan_loop_inv e (min b.ring smax + 1 - (ring_open b).pos).toNat
      (scan_start_inv hb hd)).ring
    rw [this]
  split_ifs with hdone
  · omega
  · rw [hr]; omega

theorem octant_refines_rel (e : Edge) {m0 m : TCOD_Map} {px py dx dy : Int}
    (ctx : OctCtx m0 px py dx dy) {f : Int → Int → Bool} (hl : LitAs m0 f m)
    (lw : Bool) (R : Int) (sa ea : Nat → ℚ) :
    ∃ s1, octant e m px py R lw dx dy sa ea = .ok s1 ∧
      OctRel e m0 px py dx dy f s1
        (sweep e lw R (to_octant e px py dx dy m0.tr)
          (ring_extent e m0.width m0.height px py dx dy)
          (scan_extent e m0.width m0.height px py dx dy) (to_octant e px py dx dy f)) := by
  have hs := scan_extent_nonneg e dx dy ctx.origin
  have hinit := sweep_init_inv lw R (to_octant e px py dx dy m0.tr)
    (ring_extent e m0.width m0.height px py dx dy)
    (scan_extent e m0.width m0.height px py dx dy) (to_octant e px py dx dy f)
  have hfuel : (ring_extent e m0.width m0.height px py dx dy).toNat ≤ ring_bound e m := by
    have hb : ring_bound e m = ring_bound e m0 := by
      cases e <;> simp only [ring_bound, hl.height, hl.width]
    rw [hb]; exact ring_extent_lt e ctx
  have hmeasure : (fun t : Sweep =>
      if t.done = true then 0
      else (ring_extent e m0.width m0.height px py dx dy + 1 - t.ring).toNat)
      (sweep_init (to_octant e px py dx dy f) (ring_extent e m0.width m0.height px py dx dy)) ≤
      (ring_extent e m0.width m0.height px py dx dy).toNat := by
    simp only [sweep_init]
    split_ifs <;> omega
  have hfin := iterate_while_done _ (fun a : Sweep => !a.done)
    (sweep_ring e lw R (to_octant e px py dx dy m0.tr)
      (ring_extent e m0.width m0.height px py dx dy)
      (scan_extent e m0.width m0.height px py dx dy))
    (fun t : Sweep =>
      if t.done = true then 0
      else (ring_extent e m0.width m0.height px py dx dy + 1 - t.ring).toNat)
    (sweep_ring_measure e hs)
    (ring_bound e m) _ hinit (le_trans hmeasure hfuel)
  have hsame := iterate_while_fuel _ (fun a : Sweep => !a.done)
    (sweep_ring e lw R (to_octant e px py dx dy m0.tr)
      (ring_extent e m0.width m0.height px py dx dy)
      (scan_extent e m0.width m0.height px py dx dy))
    (fun t : Sweep =>
      if t.done = true then 0
      else (ring_extent e m0.width m0.height px py dx dy + 1 - t.ring).toNat)
    (sweep_ring_measure e hs)
    (ring_bound e m)
    (ring_extent e m0.width m0.height px py dx dy).toNat _ hinit
    (le_trans hmeasure hfuel) hmeasure
  obtain ⟨s1, hs1, hrel1, _⟩ := while_loop_refines
    (fun (t : Octant) (b : Sweep) => OctRel e m0 px py dx dy f t b ∧
      RingInv lw R (to_octant e px py dx dy m0.tr)
        (ring_extent e m0.width m0.height px py dx dy)
        (scan_extent e m0.width m0.height px py dx dy) (to_octant e px py dx dy f) b)
    (fun s => !s.done) (scan_ring e px py R lw dx dy)
    (fun a => !a.done)
    (sweep_ring e lw R (to_octant e px py dx dy m0.tr)
      (ring_extent e m0.width m0.height px py dx dy)
      (scan_extent e m0.width m0.height px py dx dy))
    (by intro t b hb; simp only [hb.1.done])
    (by
      intro t b hb hc
      have hd : b.done = false := by simpa using hc
      obtain ⟨t1, ht1, hr1⟩ := scan_ring_refines e ctx lw R hb.1 hb.2 hd
      exact ⟨t1, ht1, hr1, sweep_ring_inv e hs hb.2 hd⟩)
    (ring_bound e m)
    (octant_init e m px py dx dy sa ea) _
    ⟨octant_init_rel e ctx hl sa ea, hinit⟩ hfin
  rw [hsame] at hrel1
  exact ⟨s1, hs1, hrel1⟩

theorem octant_refines (e : Edge) {m0 m : TCOD_Map} {px py dx dy : Int}
    (ctx : OctCtx m0 px py dx dy) {f : Int → Int → Bool} (hl : LitAs m0 f m)
    (lw : Bool) (R : Int) (sa ea : Nat → ℚ) :
    ∃ s1, octant e m px py R lw dx dy sa ea = .ok s1 ∧
      LitAs m0 (octant_lit e lw R m0.tr m0.width m0.height px py dx dy f) s1.m := by
  obtain ⟨s1, hs1, hrel⟩ := octant_refines_rel e ctx hl lw R sa ea
  exact ⟨s1, hs1, hrel.lit⟩

theorem compute_quadrant_refines {m0 m : TCOD_Map} {px py dx dy : Int}
    (ctx : OctCtx m0 px py dx dy) {f : Int → Int → Bool} (hl : LitAs m0 f m)
    (lw : Bool) (R : Int) (sa ea : Nat → ℚ) :
    ∃ q, compute_quadrant m px py R lw dx dy sa ea = .ok q ∧
      LitAs m0 (quadrant_lit lw R m0.tr m0.width m0.height px py dx dy f) q.1 := by
  obtain ⟨v, hv, hlv⟩ := octant_refines .vertical ctx hl lw R sa ea
  obtain ⟨h, hh, hlh⟩ := octant_refines .horizontal ctx hlv lw R v.start_angle v.end_angle
  refine ⟨(h.m, h.start_angle, h.end_angle), ?_, hlh⟩
  unfold compute_quadrant
  rw [bind_ok hv, bind_ok hh]

theorem zero_fov_refines {m : TCOD_Map} (hwf : m.wf) :
    ∃ z, zero_fov m = .ok z ∧ LitAs m (fun _ _ => false) z.1 := by
  obtain ⟨hw, hh, hn, hlen⟩ := hwf
  have hwf : m.wf := ⟨hw, hh, hn, hlen⟩
  have hnn : 0 ≤ m.nbcells := by rw [← hlen]; omega
  have hfin := iterate_while_done (fun k : Nat => (k : Int) ≤ m.nbcells)
    (fun k : Nat => decide ((k : Int) ≠ m.nbcells)) (fun k => k + 1)
    (fun k => (m.nbcells - k).toNat)
    (by
      intro k hk hc
      simp only [ne_eq, decide_not, Bool.not_eq_true', decide_eq_false_iff_not] at hc
      refine ⟨?_, ?_⟩
      · show ((k + 1 : Nat) : Int) ≤ m.nbcells
        push_cast; omega
      · show (m.nbcells - ((k + 1 : Nat) : Int)).toNat < (m.nbcells - (k : Int)).toNat
        push_cast; omega)
    m.nbcells.toNat 0 (by simpa using hnn) (by simp)
  obtain ⟨z, hz, hrel, hinv⟩ := while_loop_refines
    (fun (s : TCOD_Map × Int) (k : Nat) => s.2 = k ∧ (k : Int) ≤ m.nbcells ∧
      LitAs m (fun x y => if x + y * m.width < k then false else m.lit x y) s.1)
    (fun s : TCOD_Map × Int => decide (s.2 ≠ m.nbcells))
    (fun s => (s.1.set_fov s.2 false).bind fun m1 => .ok (m1, s.2 + 1))
    (fun k : Nat => decide ((k : Int) ≠ m.nbcells)) (fun k => k + 1)
    (by intro s k h; simp only [h.1])
    (by
      intro s k h hc
      obtain ⟨h1, h2, h3⟩ := h
      simp only [ne_eq, decide_not, Bool.not_eq_true', decide_eq_false_iff_not] at hc
      have hk : k < m.cells.length := by omega
      obtain ⟨hb, hidx⟩ := coords_of_index hwf hk
      obtain ⟨m1, hm1, hl1⟩ := h3.set_at hwf hb false
      rw [h3.width, hidx] at hm1
      refine ⟨(m1, s.2 + 1), ?_, ?_, ?_, ?_⟩
      · show (s.1.set_fov s.2 false).bind _ = _
        rw [h1, bind_ok hm1]
      · show s.2 + 1 = ((k + 1 : Nat) : Int)
        rw [h1]; push_cast; rfl
      · show ((k + 1 : Nat) : Int) ≤ m.nbcells
        push_cast; omega
      · show LitAs m (fun x y => if x + y * m.width < ((k + 1 : Nat) : Int) then false
          else m.lit x y) m1
        apply hl1.congr hwf
        intro x y hxy
        simp only [set_lit]
        by_cases he : x = (k : Int) % m.width ∧ y = (k : Int) / m.width
        · obtain ⟨e1, e2⟩ := he
          have : x + y * m.width = k := by rw [e1, e2]; exact hidx
          simp only [e1, e2, and_self, if_true]
          rw [hidx]
          simp
        · simp only [he, if_false]
          have hne : x + y * m.width ≠ k := by
            intro hcon
            apply he
            rw [← hcon]
            exact ⟨(index_mod y hxy.1 hxy.2.1).symm, (index_div y hxy.1 hxy.2.1).symm⟩
          have hiff : (x + y * m.width < ((k + 1 : Nat) : Int)) ↔ (x + y * m.width < k) := by
            push_cast; omega
          simp only [hiff])
    m.nbcells.toNat (m, 0) 0
    ⟨rfl, by simpa using hnn, by
      have := LitAs.refl hwf
      apply this.congr hwf
      intro x y hxy
      have := (index_bounds hxy.1 hxy.2.1 hxy.2.2.1 hxy.2.2.2).1
      have hnot : ¬ (x + y * m.width < ((0 : Nat) : Int)) := by push_cast; omega
      simp only [hnot, if_false]⟩ hfin
  refine ⟨z, hz, ?_⟩
  simp only [ne_eq, decide_not, Bool.not_eq_false', decide_eq_true_eq] at hfin
  apply hinv.2.congr hwf
  intro x y hxy
  have := (index_bounds hxy.1 hxy.2.1 hxy.2.2.1 hxy.2.2.2).2
  have hlt : x + y * m.width <
      ((iterate_while (fun k : Nat => decide ((k : Int) ≠ m.nbcells)) (fun k => k + 1)
        m.nbcells.toNat 0 : Nat) : Int) := by
    have hfin2 : ((iterate_while (fun k : Nat => !decide ((k : Int) = m.nbcells))
        (fun k => k + 1) m.nbcells.toNat 0 : Nat) : Int) = m.nbcells := hfin
    simp only [ne_eq, decide_not]
    rw [hfin2, hn]; exact this
  simp only [hlt, if_true]

/-- The refinement theorem of the entry point: on a well-formed map and an
origin inside it the call returns, and the map it returns is the given map
with its `fov` flags replaced by the table `fov_lit`. -/
theorem compute_fov_refines {m : TCOD_Map} (hwf : m.wf) {px py : Int}
    (ho : m.in_bounds px py) (R : Int) (lw : Bool) (sa ea : Nat → ℚ) :
    ∃ m1, TCOD_map_compute_fov_restrictive_shadowcasting m px py R lw sa ea = .ok m1 ∧
      LitAs m (fov_lit lw R m.tr m.width m.height px py) m1 := by
  obtain ⟨z, hz, hlz⟩ := zero_fov_refines hwf
  obtain ⟨m0, hm0, hl0⟩ := hlz.set_at hwf ho true
  have hl0b : LitAs m (fun x y => decide (x = px ∧ y = py)) m0 := by
    apply hl0.congr hwf
    intro x y _
    simp only [set_lit]
    split_ifs with h <;> simp [h]
  obtain ⟨q1, hq1, hl1⟩ := compute_quadrant_refines
    (⟨hwf, ho, Or.inl rfl, Or.inl rfl⟩ : OctCtx m px py 1 1) hl0b lw R sa ea
  obtain ⟨q2, hq2, hl2⟩ := compute_quadrant_refines
    (⟨hwf, ho, Or.inl rfl, Or.inr rfl⟩ : OctCtx m px py 1 (-1)) hl1 lw R q1.2.1 q1.2.2
  obtain ⟨q3, hq3, hl3⟩ := compute_quadrant_refines
    (⟨hwf, ho, Or.inr rfl, Or.inl rfl⟩ : OctCtx m px py (-1) 1) hl2 lw R q2.2.1 q2.2.2
  obtain ⟨q4, hq4, hl4⟩ := compute_quadrant_refines
    (⟨hwf, ho, Or.inr rfl, Or.inr rfl⟩ : OctCtx m px py (-1) (-1)) hl3 lw R q3.2.1 q3.2.2
  refine ⟨q4.1, ?_, hl4⟩
  unfold TCOD_map_compute_fov_restrictive_shadowcasting
  rw [bind_ok hz, bind_ok hm0, bind_ok hq1, bind_ok hq2, bind_ok hq3, bind_ok hq4]

/-! ## What one octant sweep changes -/

theorem sweep_frame (e : Edge) (lw : Bool) (R : Int) (tr : Int → Int → Bool) {rmax smax : Int}
    (hs : 0 ≤ smax) (g : Int → Int → Bool) (r s : Int) :
    (sweep e lw R tr rmax smax g).lit r s = g r s ∨
      (1 ≤ r ∧ 0 ≤ s ∧ s ≤ r ∧ s ≤ smax ∧ r ≤ rmax ∧ (0 < R → r ≤ R) ∧
        (s = 0 → ∀ k, 1 ≤ k → k < r → tr k 0 = true) ∧
        (sweep e lw R tr rmax smax g).lit r s = (tr r s || lw)) := by
  rcases (sweep_inv e lw R tr hs g).frame r s with h | ⟨f1, _, f3, f4, f5, f6, f7, f8, f9⟩
  · left; exact h
  · right; exact ⟨f1, f3, f4, f5, f6, f7, f8, f9⟩

theorem local_coords {d : Int} (hd : d = 1 ∨ d = -1) (p x : Int) :
    p + (x - p) * d * d = x := by
  rw [unit_mul_self hd]; omega

theorem octant_lit_frame (e : Edge) (lw : Bool) (R : Int) (tr : Int → Int → Bool)
    {w h px py dx dy : Int} (hdx : dx = 1 ∨ dx = -1) (hdy : dy = 1 ∨ dy = -1)
    (hx : 0 ≤ px ∧ px < w) (hy : 0 ≤ py ∧ py < h) (f : Int → Int → Bool) (x y : Int) :
    octant_lit e lw R tr w h px py dx dy f x y = f x y ∨
      (∃ r s, 1 ≤ r ∧ 0 ≤ s ∧ s ≤ r ∧ s ≤ scan_extent e w h px py dx dy ∧
        r ≤ ring_extent e w h px py dx dy ∧ (0 < R → r ≤ R) ∧
        x = cell_x e px dx r s ∧ y = cell_y e py dy r s ∧
        octant_lit e lw R tr w h px py dx dy f x y = (tr x y || lw)) := by
  have hs : 0 ≤ scan_extent e w h px py dx dy := by
    cases e
    · exact extent_nonneg hx.1 hx.2
    · exact extent_nonneg hy.1 hy.2
  by_cases hq : 0 ≤ (x - px) * dx ∧ 0 ≤ (y - py) * dy
  · have hxx := local_coords hdx px x
    have hyy := local_coords hdy py y
    cases e
    · have hval : octant_lit .vertical lw R tr w h px py dx dy f x y =
          (sweep .vertical lw R (to_octant .vertical px py dx dy tr)
            (ring_extent .vertical w h px py dx dy) (scan_extent .vertical w h px py dx dy)
            (to_octant .vertical px py dx dy f)).lit ((y - py) * dy) ((x - px) * dx) := by
        simp only [octant_lit, of_octant, hq, and_self, if_true]
      rcases sweep_frame .vertical lw R (to_octant .vertical px py dx dy tr) hs
          (to_octant .vertical px py dx dy f) ((y - py) * dy) ((x - px) * dx) with
        h1 | ⟨f1, f3, f4, f5, f6, f7, _, f9⟩
      · left
        rw [hval, h1]
        simp only [to_octant, hxx, hyy]
      · right
        refine ⟨(y - py) * dy, (x - px) * dx, f1, f3, f4, f5, f6, f7, ?_, ?_, ?_⟩
        · simp only [cell_x, hxx]
        · simp only [cell_y, hyy]
        · rw [hval, f9]
          simp only [to_octant, hxx, hyy]
    · have hval : octant_lit .horizontal lw R tr w h px py dx dy f x y =
          (sweep .horizontal lw R (to_octant .horizontal px py dx dy tr)
            (ring_extent .horizontal w h px py dx dy)
            (scan_extent .horizontal w h px py dx dy)
            (to_octant .horizontal px py dx dy f)).lit ((x - px) * dx) ((y - py) * dy) := by
        simp only [octant_lit, of_octant, hq, and_self, if_true]
      rcases sweep_frame .horizontal lw R (to_octant .horizontal px py dx dy tr) hs
          (to_octant .horizontal px py dx dy f) ((x - px) * dx) ((y - py) * dy) with
        h1 | ⟨f1, f3, f4, f5, f6, f7, _, f9⟩
      · left
        rw [hval, h1]
        simp only [to_octant, hxx, hyy]
      · right
        refine ⟨(x - px) * dx, (y - py) * dy, f1, f3, f4, f5, f6, f7, ?_, ?_, ?_⟩
        · simp only [cell_x, hxx]
        · simp only [cell_y, hyy]
        · rw [hval, f9]
          simp only [to_octant, hxx, hyy]
  · left
    exact of_octant_outside e f _ hq

/-- A property of tables that holds of the table with only the origin lit and
is kept by every octant sweep holds of the table the entry point computes. -/
theorem fov_lit_induction (P : (Int → Int → Bool) → Prop) (lw : Bool) (R : Int)
    (tr : Int → Int → Bool) (w h px py : Int)
    (h0 : P (fun x y => decide (x = px ∧ y = py)))
    (hstep : ∀ (e : Edge) (dx dy : Int) (f : Int → Int → Bool), (dx = 1 ∨ dx = -1) →
      (dy = 1 ∨ dy = -1) → P f → P (octant_lit e lw R tr w h px py dx dy f)) :
    P (fov_lit lw R tr w h px py) := by
  unfold fov_lit quadrant_lit
  have p1 : (1 : Int) = 1 ∨ (1 : Int) = -1 := Or.inl rfl
  have m1 : (-1 : Int) = 1 ∨ (-1 : Int) = -1 := Or.inr rfl
  exact hstep _ _ _ _ m1 m1 (hstep _ _ _ _ m1 m1 (hstep _ _ _ _ m1 p1 (hstep _ _ _ _ m1 p1
    (hstep _ _ _ _ p1 m1 (hstep _ _ _ _ p1 m1 (hstep _ _ _ _ p1 p1
      (hstep _ _ _ _ p1 p1 h0)))))))

theorem cell_ne_origin (e : Edge) {px py dx dy : Int} (hdx : dx = 1 ∨ dx = -1)
    (hdy : dy = 1 ∨ dy = -1) {r s : Int} (hr : 1 ≤ r) :
    ¬ (px = cell_x e px dx r s ∧ py = cell_y e py dy r s) := by
  rintro ⟨h1, h2⟩
  cases e
  · simp only [cell_y] at h2
    rcases hdy with h | h <;> subst h <;> omega
  · simp only [cell_x] at h1
    rcases hdx with h | h <;> subst h <;> omega

theorem cell_dist (e : Edge) {px py dx dy : Int} (hdx : dx = 1 ∨ dx = -1)
    (hdy : dy = 1 ∨ dy = -1) {r s : Int} (hs0 : 0 ≤ s) (hsr : s ≤ r) :
    |cell_x e px dx r s - px| ≤ r ∧ |cell_y e py dy r s - py| ≤ r := by
  cases e <;> simp only [cell_x, cell_y, add_sub_cancel_left] <;>
    rcases hdx with h | h <;> rcases hdy with h2 | h2 <;> subst h h2 <;>
    simp only [mul_one, mul_neg, abs_neg] <;>
    constructor <;> rw [abs_le] <;> constructor <;> omega

theorem fov_lit_origin (lw : Bool) (R : Int) (tr : Int → Int → Bool) {w h px py : Int}
    (hx : 0 ≤ px ∧ px < w) (hy : 0 ≤ py ∧ py < h) :
    fov_lit lw R tr w h px py px py = true := by
  apply fov_lit_induction (fun f => f px py = true)
  · simp
  · intro e dx dy f hdx hdy hf
    rcases octant_lit_frame e lw R tr hdx hdy hx hy f px py with h1 |
      ⟨r, s, r1, _, _, _, _, _, ex, ey, _⟩
    · rw [h1]; exact hf
    · exact absurd ⟨ex, ey⟩ (cell_ne_origin e hdx hdy r1)

theorem fov_lit_radius (lw : Bool) {R : Int} (hR : 0 < R) (tr : Int → Int → Bool)
    {w h px py : Int} (hx : 0 ≤ px ∧ px < w) (hy : 0 ≤ py ∧ py < h) (x y : Int)
    (hlit : fov_lit lw R tr w h px py x y = true) : max |x - px| |y - py| ≤ R := by
  revert hlit
  revert x y
  apply fov_lit_induction (fun f => ∀ x y, f x y = true → max |x - px| |y - py| ≤ R)
  · intro x y hxy
    simp only [decide_eq_true_eq] at hxy
    rw [hxy.1, hxy.2]
    simp only [sub_self, abs_zero, max_self]
    omega
  · intro e dx dy f hdx hdy hf x y hxy
    rcases octant_lit_frame e lw R tr hdx hdy hx hy f x y with h1 |
      ⟨r, s, r1, s0, sr, _, _, rR, ex, ey, _⟩
    · rw [h1] at hxy; exact hf x y hxy
    · have := @cell_dist e px py _ _ hdx hdy _ _ s0 sr
      rw [ex, ey]
      have := rR hR
      exact max_le (by omega) (by omega)

theorem fov_lit_opaque {R : Int} (tr : Int → Int → Bool)
    {w h px py : Int} (hx : 0 ≤ px ∧ px < w) (hy : 0 ≤ py ∧ py < h) (x y : Int)
    (hlit : fov_lit false R tr w h px py x y = true) :
    tr x y = true ∨ (x = px ∧ y = py) := by
  revert hlit
  revert x y
  apply fov_lit_induction (fun f => ∀ x y, f x y = true → tr x y = true ∨ (x = px ∧ y = py))
  · intro x y hxy
    right
    simpa using hxy
  · intro e dx dy f hdx hdy hf x y hxy
    rcases octant_lit_frame e false R tr hdx hdy hx hy f x y with h1 |
      ⟨r, s, _, _, _, _, _, _, _, _, hval⟩
    · rw [h1] at hxy; exact hf x y hxy
    · left
      rw [hval] at hxy
      simpa using hxy

/-! ## Claims about the map the entry point returns -/

theorem LitAs.fov_list {m1 m2 r1 r2 : TCOD_Map} {f : Int → Int → Bool}
    (h1 : LitAs m1 f r1) (h2 : LitAs m2 f r2) (hw : m1.width = m2.width)
    (hlen : m1.cells.length = m2.cells.length) :
    r1.cells.map (fun c => c.fov) = r2.cells.map (fun c => c.fov) := by
  apply List.ext_getElem?
  intro i
  simp only [List.getElem?_map]
  by_cases hi : i < m1.cells.length
  · obtain ⟨c, _, hc, _, _, _, hf⟩ := h1.cells i hi
    obtain ⟨d, _, hd, _, _, _, hg⟩ := h2.cells i (by omega)
    rw [hc, hd]
    simp only [Option.map_some', hf, hg, hw]
  · have e1 : r1.cells[i]? = none := by
      apply List.getElem?_eq_none
      rw [h1.length]; omega
    have e2 : r2.cells[i]? = none := by
      apply List.getElem?_eq_none
      rw [h2.length]; omega
    rw [e1, e2]

theorem tr_of_in_bounds {m : TCOD_Map} {x y : Int} (hb : m.in_bounds x y) :
    m.tr x y = m.is_transparent x y := by
  simp only [TCOD_Map.tr, hb, decide_True, Bool.true_and]

theorem tr_outside {m : TCOD_Map} {x y : Int} (hb : ¬ m.in_bounds x y) :
    m.tr x y = false := by
  simp only [TCOD_Map.tr, hb, decide_False, Bool.false_and]

theorem tr_eq_of_cells {m1 m2 : TCOD_Map} (hw : m1.width = m2.width)
    (hh : m1.height = m2.height)
    (htr : m1.cells.map (fun c => c.transparent) = m2.cells.map (fun c => c.transparent)) :
    m1.tr = m2.tr := by
  funext x y
  have h := congrArg (fun l => l[(x + y * m1.width).toNat]?) htr
  simp only [List.getElem?_map] at h
  have hb : m1.in_bounds x y ↔ m2.in_bounds x y := by
    simp only [TCOD_Map.in_bounds, hw, hh]
  have ht : m1.is_transparent x y = m2.is_transparent x y := by
    simp only [TCOD_Map.is_transparent, ← hw]
    cases h1 : m1.cells[(x + y * m1.width).toNat]? <;>
      cases h2 : m2.cells[(x + y * m1.width).toNat]? <;>
      simp only [h1, h2, Option.map_some', Option.map_none', Option.some.injEq,
        reduceCtorEq] at h ⊢
    exact h
  simp only [TCOD_Map.tr, ht, decide_eq_decide.mpr hb]

theorem LitAs.tr_list {m r : TCOD_Map} {f : Int → Int → Bool} (h : LitAs m f r) :
    r.cells.map (fun c => c.transparent) = m.cells.map (fun c => c.transparent) := by
  apply List.ext_getElem?
  intro i
  simp only [List.getElem?_map]
  by_cases hi : i < m.cells.length
  · obtain ⟨c, c0, hc, hc0, ht, _, _⟩ := h.cells i hi
    rw [hc, hc0]
    simp only [Option.map_some', ht]
  · have e1 : r.cells[i]? = none := by
      apply List.getElem?_eq_none
      rw [h.length]; omega
    have e2 : m.cells[i]? = none := by
      apply List.getElem?_eq_none
      omega
    rw [e1, e2]

theorem LitAs.wf {m r : TCOD_Map} {f : Int → Int → Bool} (h : LitAs m f r) (hwf : m.wf) :
    r.wf := by
  obtain ⟨a, b, c, d⟩ := hwf
  exact ⟨by rw [h.width]; exact a, by rw [h.height]; exact b,
    by rw [h.nbcells, h.width, h.height]; exact c, by rw [h.length, h.nbcells]; exact d⟩

/-- C1: for every well-formed map and every origin inside it, whatever the
radius, `light_walls` and the initial content of the two buffers, the call
returns and the origin cell is visible in the returned map (also when the
origin cell is opaque). -/
theorem origin_visible (m : TCOD_Map) (hwf : m.wf) (player_x player_y : Int)
    (ho : m.in_bounds player_x player_y) (max_radius : Int) (light_walls : Bool)
    (start_angle end_angle : Nat → ℚ) :
    ∃ m1, TCOD_map_compute_fov_restrictive_shadowcasting m player_x player_y max_radius
        light_walls start_angle end_angle = .ok m1 ∧
      m1.visible player_x player_y = true := by
  obtain ⟨m1, h1, hl⟩ := compute_fov_refines hwf ho max_radius light_walls start_angle end_angle
  refine ⟨m1, h1, ?_⟩
  rw [(hl.visible_at hwf ho).1]
  exact fov_lit_origin light_walls max_radius m.tr ⟨ho.1, ho.2.1⟩ ⟨ho.2.2.1, ho.2.2.2⟩

theorem origin_visible_witness :
    corridor.wf ∧ corridor.in_bounds 2 0 ∧
      ∃ m1, TCOD_map_compute_fov_restrictive_shadowcasting corridor 2 0 0 false
          zero_buffer zero_buffer = .ok m1 ∧
        m1.visible 2 0 = true :=
  ⟨by decide, by decide, origin_visible corridor (by decide) 2 0 (by decide) 0 false _ _⟩

/-- C3: for every well-formed map, origin inside it and radius `R > 0`, the call
returns and every cell of the map that is visible in the returned map lies
within Chebyshev distance `R` of the origin. -/
theorem radius_bound (m : TCOD_Map) (hwf : m.wf) (player_x player_y : Int)
    (ho : m.in_bounds player_x player_y) (max_radius : Int) (hR : 0 < max_radius)
    (light_walls : Bool) (start_angle end_angle : Nat → ℚ) :
    ∃ m1, TCOD_map_compute_fov_restrictive_shadowcasting m player_x player_y max_radius
        light_walls start_angle end_angle = .ok m1 ∧
      ∀ x y, m.in_bounds x y → m1.visible x y = true →
        max |x - player_x| |y - player_y| ≤ max_radius := by
  obtain ⟨m1, h1, hl⟩ := compute_fov_refines hwf ho max_radius light_walls start_angle end_angle
  refine ⟨m1, h1, ?_⟩
  intro x y hb hv
  rw [(hl.visible_at hwf hb).1] at hv
  exact fov_lit_radius light_walls hR m.tr ⟨ho.1, ho.2.1⟩ ⟨ho.2.2.1, ho.2.2.2⟩ x y hv

theorem radius_bound_witness :
    open_room.wf ∧ open_room.in_bounds 0 0 ∧ (0 : Int) < 1 ∧
      ∃ m1, TCOD_map_compute_fov_restrictive_shadowcasting open_room 0 0 1 true
          zero_buffer zero_buffer = .ok m1 ∧
        ∀ x y, open_room.in_bounds x y → m1.visible x y = true →
          max |x - 0| |y - 0| ≤ 1 :=
  ⟨by decide, by decide, by decide,
    radius_bound open_room (by decide) 0 0 (by decide) 1 (by decide) true _ _⟩

/-- C6: for every well-formed map, origin inside it and radius, the call with
`light_walls = false` returns and no opaque cell of the map other than the
origin cell is visible in the returned map. -/
theorem walls_stay_dark (m : TCOD_Map) (hwf : m.wf) (player_x player_y : Int)
    (ho : m.in_bounds player_x player_y) (max_radius : Int)
    (start_angle end_angle : Nat → ℚ) :
    ∃ m1, TCOD_map_compute_fov_restrictive_shadowcasting m player_x player_y max_radius
        false start_angle end_angle = .ok m1 ∧
      ∀ x y, m.in_bounds x y → m.is_transparent x y = false →
        ¬ (x = player_x ∧ y = player_y) → m1.visible x y = false := by
  obtain ⟨m1, h1, hl⟩ := compute_fov_refines hwf ho max_radius false start_angle end_angle
  refine ⟨m1, h1, ?_⟩
  intro x y hb ht hne
  rw [(hl.visible_at hwf hb).1]
  by_contra hcon
  have hv : fov_lit false max_radius m.tr m.width m.height player_x player_y x y = true := by
    simpa using hcon
  rcases fov_lit_opaque m.tr ⟨ho.1, ho.2.1⟩ ⟨ho.2.2.1, ho.2.2.2⟩ x y hv with h | h
  · simp only [TCOD_Map.tr, ht, Bool.and_false] at h
    exact absurd h (by simp)
  · exact hne h

theorem walls_stay_dark_witness :
    corridor.wf ∧ corridor.in_bounds 0 0 ∧
      ∃ m1, TCOD_map_compute_fov_restrictive_shadowcasting corridor 0 0 0
          false zero_buffer zero_buffer = .ok m1 ∧
        ∀ x y, corridor.in_bounds x y → corridor.is_transparent x y = false →
          ¬ (x = 0 ∧ y = 0) → m1.visible x y = false :=
  ⟨by decide, by decide, walls_stay_dark corridor (by decide) 0 0 (by decide) 0 _ _⟩

/-- C8: for any two well-formed maps with the same width, height and per-cell
`transparent` flags, whatever their `fov` and `walkable` flags and whatever the
initial content of the buffers of either call, the two calls with the same
origin, radius and `light_walls` return maps with identical `fov` flags. -/
theorem no_stale_state (m1 m2 : TCOD_Map) (hwf1 : m1.wf) (hwf2 : m2.wf)
    (hw : m1.width = m2.width) (hh : m1.height = m2.height)
    (htr : m1.cells.map (fun c => c.transparent) = m2.cells.map (fun c => c.transparent))
    (player_x player_y : Int) (ho : m1.in_bounds player_x player_y) (max_radius : Int)
    (light_walls : Bool) (start_angle1 end_angle1 start_angle2 end_angle2 : Nat → ℚ) :
    ∃ r1 r2,
      TCOD_map_compute_fov_restrictive_shadowcasting m1 player_x player_y max_radius
        light_walls start_angle1 end_angle1 = .ok r1 ∧
      TCOD_map_compute_fov_restrictive_shadowcasting m2 player_x player_y max_radius
        light_walls start_angle2 end_angle2 = .ok r2 ∧
      r1.cells.map (fun c => c.fov) = r2.cells.map (fun c => c.fov) := by
  have ho2 : m2.in_bounds player_x player_y := by
    unfold TCOD_Map.in_bounds at ho ⊢
    rw [← hw, ← hh]; exact ho
  obtain ⟨r1, h1, hl1⟩ := compute_fov_refines hwf1 ho max_radius light_walls
    start_angle1 end_angle1
  obtain ⟨r2, h2, hl2⟩ := compute_fov_refines hwf2 ho2 max_radius light_walls
    start_angle2 end_angle2
  refine ⟨r1, r2, h1, h2, ?_⟩
  rw [← tr_eq_of_cells hw hh htr, ← hw, ← hh] at hl2
  have hlen : m1.cells.length = m2.cells.length := by
    have := congrArg List.length htr
    simpa using this
  exact hl1.fov_list hl2 hw hlen

theorem no_stale_state_witness :
    corridor.wf ∧ stale_corridor.wf ∧ corridor.width = stale_corridor.width ∧
      corridor.height = stale_corridor.height ∧
      corridor.cells.map (fun c => c.transparent) =
        stale_corridor.cells.map (fun c => c.transparent) ∧
      corridor.in_bounds 0 0 ∧
      ∃ r1 r2,
        TCOD_map_compute_fov_restrictive_shadowcasting corridor 0 0 0 true
          zero_buffer zero_buffer = .ok r1 ∧
        TCOD_map_compute_fov_restrictive_shadowcasting stale_corridor 0 0 0 true
          (fun i => (i : ℚ)) (fun i => 2 * (i : ℚ)) = .ok r2 ∧
        r1.cells.map (fun c => c.fov) = r2.cells.map (fun c => c.fov) :=
  ⟨by decide, by decide, by decide, by decide, by decide, by decide,
    no_stale_state corridor stale_corridor (by decide) (by decide) (by decide) (by decide)
      (by decide) 0 0 (by decide) 0 true _ _ _ _⟩

/-- C7: for every well-formed map, origin inside it, radius and `light_walls`,
a second call with the same arguments on the map the first call returned
returns a map whose `fov` flags are those of the first result, whatever the
initial content of the buffers of either call. -/
theorem compute_fov_idempotent (m : TCOD_Map) (hwf : m.wf) (player_x player_y : Int)
    (ho : m.in_bounds player_x player_y) (max_radius : Int) (light_walls : Bool)
    (start_angle1 end_angle1 start_angle2 end_angle2 : Nat → ℚ) :
    ∃ r1 r2,
      TCOD_map_compute_fov_restrictive_shadowcasting m player_x player_y max_radius
        light_walls start_angle1 end_angle1 = .ok r1 ∧
      TCOD_map_compute_fov_restrictive_shadowcasting r1 player_x player_y max_radius
        light_walls start_angle2 end_angle2 = .ok r2 ∧
      r2.cells.map (fun c => c.fov) = r1.cells.map (fun c => c.fov) := by
  obtain ⟨r1, h1, hl1⟩ := compute_fov_refines hwf ho max_radius light_walls
    start_angle1 end_angle1
  have hwf1 := hl1.wf hwf
  have ho1 : r1.in_bounds player_x player_y := by
    unfold TCOD_Map.in_bounds at ho ⊢
    rw [hl1.width, hl1.height]; exact ho
  obtain ⟨r2, h2, hl2⟩ := compute_fov_refines hwf1 ho1 max_radius light_walls
    start_angle2 end_angle2
  refine ⟨r1, r2, h1, h2, ?_⟩
  rw [tr_eq_of_cells hl1.width hl1.height hl1.tr_list, hl1.width, hl1.height] at hl2
  exact hl2.fov_list hl1 hl1.width hl1.length

theorem compute_fov_idempotent_witness :
    corridor.wf ∧ corridor.in_bounds 0 0 ∧
      ∃ r1 r2,
        TCOD_map_compute_fov_restrictive_shadowcasting corridor 0 0 0 true
          zero_buffer zero_buffer = .ok r1 ∧
        TCOD_map_compute_fov_restrictive_shadowcasting r1 0 0 0 true
          zero_buffer zero_buffer = .ok r2 ∧
        r2.cells.map (fun c => c.fov) = r1.cells.map (fun c => c.fov) :=
  ⟨by decide, by decide, compute_fov_idempotent corridor (by decide) 0 0 (by decide) 0 true
    _ _ _ _⟩

theorem set_fov_outside {m : TCOD_Map} {c : Int} (b : Bool)
    (h : c < 0 ∨ (m.cells.length : Int) ≤ c) : m.set_fov c b = .error .out_of_bounds := by
  unfold TCOD_Map.set_fov
  by_cases h0 : 0 ≤ c
  · have hnone : m.cells[c.toNat]? = none := by
      apply List.getElem?_eq_none
      omega
    simp only [h0, if_true, hnone]
  · simp only [h0, if_false]

/-- C10, as the code has it: there is no `InvalidOrigin` result. On the open
3 × 3 room the call with origin `(-1, 0)` ends in an access to the cell array
outside `[0, nbcells)`, and the call with origin `(-1, 1)` returns normally
with the cell `(2, 0)`, whose flat index is `-1 + 1 * 3`, marked visible. -/
theorem invalid_origin_not_rejected :
    TCOD_map_compute_fov_restrictive_shadowcasting open_room (-1) 0 0 true
        zero_buffer zero_buffer = .error .out_of_bounds ∧
      returned_visible
        (TCOD_map_compute_fov_restrictive_shadowcasting open_room (-1) 1 0 true
          zero_buffer zero_buffer) 2 0 = true := by
  constructor
  · rfl
  · decide!

/-- C10 amended: for every well-formed map and every origin whose flat index
`player_x + player_y * width` lies outside `[0, nbcells)`, the call does not
return a map: after clearing the `fov` flags it accesses the cell array out of
bounds at that index. -/
theorem invalid_origin_out_of_bounds (m : TCOD_Map) (hwf : m.wf) (player_x player_y : Int)
    (ho : player_x + player_y * m.width < 0 ∨ m.nbcells ≤ player_x + player_y * m.width)
    (max_radius : Int) (light_walls : Bool) (start_angle end_angle : Nat → ℚ) :
    TCOD_map_compute_fov_restrictive_shadowcasting m player_x player_y max_radius
      light_walls start_angle end_angle = .error .out_of_bounds := by
  obtain ⟨z, hz, hlz⟩ := zero_fov_refines hwf
  unfold TCOD_map_compute_fov_restrictive_shadowcasting
  rw [bind_ok hz]
  have hout : z.1.set_fov (player_x + player_y * z.1.width) true = .error .out_of_bounds := by
    apply set_fov_outside
    rw [hlz.width, hlz.length, hwf.2.2.2]
    exact ho
  rw [hout]
  rfl

theorem invalid_origin_out_of_bounds_witness :
    open_room.wf ∧
      ((-1 : Int) + 0 * open_room.width < 0 ∨
        open_room.nbcells ≤ (-1 : Int) + 0 * open_room.width) ∧
      TCOD_map_compute_fov_restrictive_shadowcasting open_room (-1) 0 0 true
        zero_buffer zero_buffer = .error .out_of_bounds :=
  ⟨by decide, by decide,
    invalid_origin_out_of_bounds open_room (by decide) (-1) 0 (by decide) 0 true _ _⟩

/-! ## Two sweeps side by side -/

theorem lit_and_tr_agree {tr : Int → Int → Bool} {lw lw1 : Bool} {i : Int} {a b : Sweep}
    (h : ScanAgree tr lw lw1 i a b) {r s : Int} (hr : 1 ≤ r) (hri : r < i) (hs : 0 ≤ s) :
    (a.lit r s && tr r s) = (b.lit r s && tr r s) := by
  rcases h.cells r s hr hs with h1 | ⟨_, _, h3⟩
  · cases ht : tr r s
    · simp
    · rw [h1 (Or.inl ht)]
  · omega

theorem cell_probe_agree (e : Edge) {tr : Int → Int → Bool} {lw lw1 : Bool} {i : Int}
    {a b : Sweep} (h : ScanAgree tr lw lw1 i a b) (hring : a.ring = i) (hp : 0 ≤ a.pos)
    (hlast : 0 < a.last_line → 2 ≤ i) :
    cell_probe e tr a = cell_probe e tr b := by
  unfold cell_probe probe
  rw [← h.obstacles, ← h.last_line, ← h.ring, ← h.pos]
  by_cases hl : a.last_line > 0
  · have h2 := hlast hl
    have hA := lit_and_tr_agree h (r := a.ring - 1) (s := a.pos) (by omega) (by omega) hp
    have hB : (decide (1 ≤ a.pos) && (a.lit (a.ring - 1) (a.pos - 1) &&
          tr (a.ring - 1) (a.pos - 1))) =
        (decide (1 ≤ a.pos) && (b.lit (a.ring - 1) (a.pos - 1) &&
          tr (a.ring - 1) (a.pos - 1))) := by
      by_cases hp1 : 1 ≤ a.pos
      · rw [lit_and_tr_agree h (r := a.ring - 1) (s := a.pos - 1) (by omega) (by omega)
          (by omega)]
      · simp [hp1]
    simp only [hl, if_true, hA, hB]
  · simp only [hl, if_false]

theorem sweep_cell_agree (e : Edge) {tr : Int → Int → Bool} {lw lw1 : Bool} {R : Int}
    {rmax smax : Int} {g : Int → Int → Bool} {i : Int} {a b : Sweep}
    (h : ScanAgree tr lw lw1 i a b) (ha : ScanInv lw R tr rmax smax g i a) :
    ScanAgree tr lw lw1 i (sweep_cell e lw tr a) (sweep_cell e lw1 tr b) := by
  have hpr := cell_probe_agree e h ha.ring ha.pos_nonneg ha.last_ring
  refine
    { obstacles := by
        rw [sweep_cell_obstacles, sweep_cell_obstacles, ← hpr, ← h.ring, ← h.pos,
          ← h.min_angle]
      last_line := by rw [sweep_cell_last, sweep_cell_last, h.last_line]
      min_angle := by
        rw [sweep_cell_min, sweep_cell_min, ← hpr, ← h.ring, ← h.pos, ← h.min_angle]
      done := by
        rw [sweep_cell_done, sweep_cell_done, ← hpr, ← h.ring, ← h.pos, ← h.min_angle,
          h.done]
      ring := by rw [sweep_cell_ring, sweep_cell_ring, h.ring]
      pos := by rw [sweep_cell_pos, sweep_cell_pos, h.pos]
      cells := ?_ }
  intro r s hr hs
  rw [sweep_cell_lit, sweep_cell_lit, ← hpr, ← h.ring, ← h.pos, sweep_cell_pos]
  by_cases hrs : r = a.ring ∧ s = a.pos
  · obtain ⟨e1, e2⟩ := hrs
    left
    intro hcase
    by_cases hv : (cell_probe e tr a).visible = true
    · simp only [hv, if_true, set_lit, e1, e2, and_self]
      rcases hcase with ht | hlw
      · rw [e1, e2] at ht
        simp [ht]
      · rw [hlw]
    · simp only [hv, Bool.false_eq_true, if_false]
      rcases h.cells r s hr hs with h1 | ⟨h2, _, _⟩
      · exact h1 hcase
      · exact absurd (cell_probe_axis e ha (by omega)) hv
  · have hne : ¬ (r = a.ring ∧ s = a.pos) := hrs
    have ea : (if (cell_probe e tr a).visible = true then
          set_lit a.lit a.ring a.pos (tr a.ring a.pos || lw) else a.lit) r s = a.lit r s := by
      split_ifs
      · simp only [set_lit, hne, if_false]
      · rfl
    have eb : (if (cell_probe e tr a).visible = true then
          set_lit b.lit a.ring a.pos (tr a.ring a.pos || lw1) else b.lit) r s = b.lit r s := by
      split_ifs
      · simp only [set_lit, hne, if_false]
      · rfl
    rw [ea, eb]
    rcases h.cells r s hr hs with h1 | ⟨h2, h3, h4⟩
    · left; exact h1
    · rcases h4 with h4 | ⟨h4, h5⟩
      · right; exact ⟨h2, h3, Or.inl h4⟩
      · exact absurd ⟨by rw [ha.ring]; exact h4, by omega⟩ hne

theorem scan_loop_agree (e : Edge) {tr : Int → Int → Bool} {lw lw1 : Bool} {R : Int}
    {rmax smax : Int} {g : Int → Int → Bool} {i : Int} (fuel : Nat) {a b : Sweep}
    (h : ScanAgree tr lw lw1 i a b) (ha : ScanInv lw R tr rmax smax g i a) :
    ScanAgree tr lw lw1 i
      (iterate_while (fun t => decide (t.pos ≤ min i smax)) (sweep_cell e lw tr) fuel a)
      (iterate_while (fun t => decide (t.pos ≤ min i smax)) (sweep_cell e lw1 tr) fuel b) := by
  have key := iterate_while_rel
    (fun (x y : Sweep) => ScanAgree tr lw lw1 i x y ∧ ScanInv lw R tr rmax smax g i x)
    (fun t => decide (t.pos ≤ min i smax)) (sweep_cell e lw tr)
    (fun t => decide (t.pos ≤ min i smax)) (sweep_cell e lw1 tr)
    (by intro x y hxy; simp only [hxy.1.pos])
    (by
      intro x y hxy hc
      exact ⟨sweep_cell_agree e hxy.1 hxy.2,
        sweep_cell_inv e hxy.2 (by simpa using hc)⟩)
    fuel a b ⟨h, ha⟩
  exact key.1

theorem sweep_ring_agree (e : Edge) {tr : Int → Int → Bool} {lw lw1 : Bool} {R : Int}
    {rmax smax : Int} (hs : 0 ≤ smax) {g : Int → Int → Bool} {a b : Sweep}
    (h : RingAgree tr lw lw1 a b) (ha : RingInv lw R tr rmax smax g a)
    (hd : a.done = false) :
    RingAgree tr lw lw1 (sweep_ring e lw R tr rmax smax a)
      (sweep_ring e lw1 R tr rmax smax b) := by
  have hsi := scan_start_inv ha hd
  have hopen : ScanAgree tr lw lw1 a.ring (ring_open a) (ring_open b) := by
    have hpos : (ring_open a).pos = (ring_open b).pos := by
      simp only [ring_open, h.min_angle, h.ring]
    refine
      { obstacles := h.obstacles, last_line := h.last_line, min_angle := h.min_angle
        done := rfl, ring := h.ring, pos := hpos, cells := ?_ }
    intro r s hr hs0
    rcases h.cells r s hr hs0 with h1 | ⟨h2, h3, h4⟩
    · left; exact h1
    · by_cases hri : a.ring < r
      · right; exact ⟨h2, h3, Or.inl hri⟩
      · have hre : r = a.ring := by omega
        by_cases hm : a.min_angle = 0
        · right
          refine ⟨h2, h3, Or.inr ⟨hre, ?_⟩⟩
          simp only [ring_open, hm]
          exact first_cell_zero ha.ring_pos
        · obtain ⟨k, k1, k2, k3⟩ := ha.wall hm
          have := h3 k k1 (by omega)
          rw [this] at k3
          exact absurd k3 (by simp)
  have hscan := scan_loop_agree e
    (min a.ring smax + 1 - (ring_open a).pos).toNat hopen hsi
  have hfin := scan_loop_done e (min a.ring smax + 1 - (ring_open a).pos).toNat hsi (le_refl _)
  simp only [decide_eq_false_iff_not, not_le] at hfin
  have hinv := scan_loop_inv e (min a.ring smax + 1 - (ring_open a).pos).toNat hsi
  have hpeq : (ring_open a).pos = (ring_open b).pos := hopen.pos
  unfold sweep_ring
  rw [← h.ring, ← hpeq]
  refine
    { obstacles := hscan.obstacles
      last_line := by simp only [ring_close, hscan.obstacles]
      min_angle := hscan.min_angle
      done := by simp only [ring_close, hscan.done, hscan.ring]
      ring := by simp only [ring_close, hscan.ring]
      cells := ?_ }
  intro r s hr hs0
  rcases hscan.cells r s hr hs0 with h1 | ⟨h2, h3, h4⟩
  · left; exact h1
  · right
    refine ⟨h2, h3, ?_⟩
    simp only [ring_close, hinv.ring]
    rcases h4 with h4 | ⟨_, h5⟩
    · omega
    · omega

theorem sweep_agree (e : Edge) (tr : Int → Int → Bool) (lw lw1 : Bool) (R : Int)
    {rmax smax : Int} (hs : 0 ≤ smax) (g g1 : Int → Int → Bool)
    (h0 : ∀ r s, 1 ≤ r → 0 ≤ s →
      ((tr r s = true ∨ lw = lw1) → g r s = g1 r s) ∨
        (s = 0 ∧ ∀ k, 1 ≤ k → k < r → tr k 0 = true)) :
    RingAgree tr lw lw1 (sweep e lw R tr rmax smax g) (sweep e lw1 R tr rmax smax g1) := by
  have key := iterate_while_rel
    (fun (x y : Sweep) => RingAgree tr lw lw1 x y ∧ RingInv lw R tr rmax smax g x)
    (fun a => !a.done) (sweep_ring e lw R tr rmax smax)
    (fun a => !a.done) (sweep_ring e lw1 R tr rmax smax)
    (by intro x y hxy; simp only [hxy.1.done])
    (by
      intro x y hxy hc
      have hd : x.done = false := by simpa using hc
      exact ⟨sweep_ring_agree e hs hxy.1 hxy.2 hd, sweep_ring_inv e hs hxy.2 hd⟩)
    rmax.toNat (sweep_init g rmax) (sweep_init g1 rmax)
    ⟨{ obstacles := rfl, last_line := rfl, min_angle := rfl, done := rfl, ring := rfl
       cells := by
        intro r s hr hs0
        rcases h0 r s hr hs0 with h1 | ⟨h2, h3⟩
        · left; exact h1
        · right; exact ⟨h2, h3, hr⟩ },
      sweep_init_inv lw R tr rmax smax g⟩
  exact key.1

theorem sweep_agree_lit (e : Edge) (tr : Int → Int → Bool) (lw lw1 : Bool) (R : Int)
    {rmax smax : Int} (hs : 0 ≤ smax) (g g1 : Int → Int → Bool)
    (h0 : ∀ r s, 1 ≤ r → 0 ≤ s →
      ((tr r s = true ∨ lw = lw1) → g r s = g1 r s) ∨
        (s = 0 ∧ ∀ k, 1 ≤ k → k < r → tr k 0 = true))
    {r s : Int} (hr : 1 ≤ r) (hs0 : 0 ≤ s) :
    ((tr r s = true ∨ lw = lw1) →
        (sweep e lw R tr rmax smax g).lit r s = (sweep e lw1 R tr rmax smax g1).lit r s) ∨
      (s = 0 ∧ (∀ k, 1 ≤ k → k < r → tr k 0 = true) ∧
        (sweep e lw R tr rmax smax g).lit r 0 = g r 0 ∧
        (sweep e lw1 R tr rmax smax g1).lit r 0 = g1 r 0) := by
  have hag := @sweep_agree e tr lw lw1 R rmax _ hs g g1 h0
  rcases hag.cells r s hr hs0 with h1 | ⟨h2, h3, h4⟩
  · left; exact h1
  · right
    refine ⟨h2, h3, ?_, ?_⟩
    · rcases (sweep_inv e lw R tr hs g).frame r 0 with hf | ⟨_, f2, _⟩
      · exact hf
      · omega
    · rcases (sweep_inv e lw1 R tr hs g1).frame r 0 with hf | ⟨_, f2, _⟩
      · exact hf
      · rw [← hag.ring] at f2; omega

theorem sweep_ring_zero (e : Edge) (lw : Bool) (R : Int) (tr : Int → Int → Bool)
    {rmax smax : Int} (hs : 0 ≤ smax) (g : Int → Int → Bool) {r : Int} (hr : r ≤ 0)
    (s : Int) : (sweep e lw R tr rmax smax g).lit r s = g r s := by
  rcases sweep_frame e lw R tr hs g r s with h | ⟨f1, _⟩
  · exact h
  · omega

/-- The value of `octant_lit` at a cell of the quadrant, in ring and scan
coordinates. -/
theorem octant_lit_inside (e : Edge) (lw : Bool) (R : Int) (tr : Int → Int → Bool)
    {w h px py dx dy : Int} (hdx : dx = 1 ∨ dx = -1) (hdy : dy = 1 ∨ dy = -1)
    (f : Int → Int → Bool) {r s : Int} (hr : 0 ≤ r) (hs : 0 ≤ s) :
    octant_lit e lw R tr w h px py dx dy f (cell_x e px dx r s) (cell_y e py dy r s) =
      (sweep e lw R (to_octant e px py dx dy tr) (ring_extent e w h px py dx dy)
        (scan_extent e w h px py dx dy) (to_octant e px py dx dy f)).lit r s := by
  unfold octant_lit
  rw [of_octant_at e hdx hdy _ _ hr hs]

/-- Every cell of the quadrant is a cell of the octant frame. -/
theorem quadrant_cell (e : Edge) {px py dx dy : Int} (hdx : dx = 1 ∨ dx = -1)
    (hdy : dy = 1 ∨ dy = -1) {x y : Int} (hq : 0 ≤ (x - px) * dx ∧ 0 ≤ (y - py) * dy) :
    ∃ r s, 0 ≤ r ∧ 0 ≤ s ∧ x = cell_x e px dx r s ∧ y = cell_y e py dy r s := by
  have hxx := local_coords hdx px x
  have hyy := local_coords hdy py y
  cases e
  · exact ⟨(y - py) * dy, (x - px) * dx, hq.2, hq.1, by simp only [cell_x, hxx],
      by simp only [cell_y, hyy]⟩
  · exact ⟨(x - px) * dx, (y - py) * dy, hq.1, hq.2, by simp only [cell_x, hxx],
      by simp only [cell_y, hyy]⟩

theorem octant_lit_toggle (e : Edge) (R : Int) (tr : Int → Int → Bool)
    {w h px py dx dy : Int} (hdx : dx = 1 ∨ dx = -1) (hdy : dy = 1 ∨ dy = -1)
    (hx : 0 ≤ px ∧ px < w) (hy : 0 ≤ py ∧ py < h) (f f1 : Int → Int → Bool)
    (hf : ∀ x y, tr x y = true → f x y = f1 x y) (x y : Int) (ht : tr x y = true) :
    octant_lit e true R tr w h px py dx dy f x y =
      octant_lit e false R tr w h px py dx dy f1 x y := by
  have hs : 0 ≤ scan_extent e w h px py dx dy := by
    cases e
    · exact extent_nonneg hx.1 hx.2
    · exact extent_nonneg hy.1 hy.2
  by_cases hq : 0 ≤ (x - px) * dx ∧ 0 ≤ (y - py) * dy
  · obtain ⟨r, s, hr, hs0, ex, ey⟩ := quadrant_cell e hdx hdy hq
    rw [ex, ey, octant_lit_inside e true R tr hdx hdy f hr hs0,
      octant_lit_inside e false R tr hdx hdy f1 hr hs0]
    have htr : to_octant e px py dx dy tr r s = true := by
      rw [to_octant_apply, ← ex, ← ey]; exact ht
    have h0 : ∀ r s, 1 ≤ r → 0 ≤ s →
        ((to_octant e px py dx dy tr r s = true ∨ true = false) →
          to_octant e px py dx dy f r s = to_octant e px py dx dy f1 r s) ∨
        (s = 0 ∧ ∀ k, 1 ≤ k → k < r → to_octant e px py dx dy tr k 0 = true) := by
      intro r s _ _
      left
      intro hc
      rcases hc with hc | hc
      · rw [to_octant_apply] at hc
        rw [to_octant_apply, to_octant_apply]
        exact hf _ _ hc
      · exact absurd hc (by simp)
    by_cases hr1 : 1 ≤ r
    · rcases sweep_agree_lit e (to_octant e px py dx dy tr) true false R hs
          (to_octant e px py dx dy f) (to_octant e px py dx dy f1) h0 hr1 hs0 with
        h1 | ⟨h2, _, h4, h5⟩
      · exact h1 (Or.inl htr)
      · subst h2
        rw [h4, h5, to_octant_apply, to_octant_apply, ← ex, ← ey]
        exact hf x y ht
    · rw [sweep_ring_zero e true R _ hs _ (by omega), sweep_ring_zero e false R _ hs _ (by omega),
        to_octant_apply, to_octant_apply, ← ex, ← ey]
      exact hf x y ht
  · unfold octant_lit
    rw [of_octant_outside e f _ hq, of_octant_outside e f1 _ hq]
    exact hf x y ht

/-- A relation between tables that holds of the initial table and is kept when
the same octant sweep runs on both sides holds of the final tables. -/
theorem fov_lit_induction2 (P : (Int → Int → Bool) → (Int → Int → Bool) → Prop)
    (lw lw1 : Bool) (R R1 : Int) (tr tr1 : Int → Int → Bool) (w h px py w1 h1 px1 py1 : Int)
    (h0 : P (fun x y => decide (x = px ∧ y = py)) (fun x y => decide (x = px1 ∧ y = py1)))
    (hstep : ∀ (e : Edge) (dx dy : Int) (f f1 : Int → Int → Bool), (dx = 1 ∨ dx = -1) →
      (dy = 1 ∨ dy = -1) → P f f1 →
      P (octant_lit e lw R tr w h px py dx dy f) (octant_lit e lw1 R1 tr1 w1 h1 px1 py1 dx dy f1)) :
    P (fov_lit lw R tr w h px py) (fov_lit lw1 R1 tr1 w1 h1 px1 py1) := by
  unfold fov_lit quadrant_lit
  have p1 : (1 : Int) = 1 ∨ (1 : Int) = -1 := Or.inl rfl
  have m1 : (-1 : Int) = 1 ∨ (-1 : Int) = -1 := Or.inr rfl
  exact hstep _ _ _ _ _ m1 m1 (hstep _ _ _ _ _ m1 m1 (hstep _ _ _ _ _ m1 p1
    (hstep _ _ _ _ _ m1 p1 (hstep _ _ _ _ _ p1 m1 (hstep _ _ _ _ _ p1 m1
      (hstep _ _ _ _ _ p1 p1 (hstep _ _ _ _ _ p1 p1 h0)))))))

theorem fov_lit_toggle (R : Int) (tr : Int → Int → Bool) {w h px py : Int}
    (hx : 0 ≤ px ∧ px < w) (hy : 0 ≤ py ∧ py < h) (x y : Int) (ht : tr x y = true) :
    fov_lit true R tr w h px py x y = fov_lit false R tr w h px py x y := by
  revert ht
  revert x y
  apply fov_lit_induction2 (fun f f1 => ∀ x y, tr x y = true → f x y = f1 x y)
  · intro x y _; rfl
  · intro e dx dy f f1 hdx hdy hf x y ht
    exact octant_lit_toggle e R tr hdx hdy hx hy f f1 hf x y ht

/-! ## Open ground -/

theorem cell_probe_first_ring (e : Edge) (tr : Int → Int → Bool) (a : Sweep)
    (h : a.last_line = 0) :
    cell_probe e tr a =
      { obstacles := a.obstacles, idx := 0, visible := true, extended := false } := by
  unfold cell_probe probe
  simp [h]

theorem sweep_cell_cover (e : Edge) {lw : Bool} {R : Int} {tr : Int → Int → Bool}
    {rmax smax : Int} {g : Int → Int → Bool} {i : Int} {a : Sweep}
    (htr : ∀ r s, 1 ≤ r → r ≤ rmax → 0 ≤ s → s ≤ smax → tr r s = true)
    (hinv : ScanInv lw R tr rmax smax g i a) (hc : a.pos ≤ min i smax)
    (h : CoverScan smax i a) : CoverScan smax i (sweep_cell e lw tr a) := by
  have hpr := cell_probe_first_ring e tr a h.last_line
  have ht : tr a.ring a.pos = true := by
    rw [hinv.ring]
    exact htr i a.pos hinv.ring_pos hinv.ring_le hinv.pos_nonneg (by omega)
  have hlit : (sweep_cell e lw tr a).lit = set_lit a.lit a.ring a.pos true := by
    rw [sweep_cell_lit, hpr]
    simp [ht]
  refine
    { obstacles := by
        rw [sweep_cell_obstacles, hpr]
        simp [ht, h.obstacles]
      last_line := by rw [sweep_cell_last]; exact h.last_line
      min_angle := by
        rw [sweep_cell_min]
        simp [ht, h.min_angle]
      earlier := ?_
      here := ?_ }
  · intro r s r1 r2 s1 s2
    rw [hlit]
    simp only [set_lit]
    split_ifs
    · rfl
    · exact h.earlier r s r1 r2 s1 s2
  · intro s s1 s2 s3
    rw [hlit]
    rw [sweep_cell_pos] at s2
    simp only [set_lit]
    split_ifs with hcase
    · rfl
    · apply h.here s s1 _ s3
      by_contra hcon
      exact hcase ⟨hinv.ring.symm, by omega⟩

theorem sweep_cover (e : Edge) (lw : Bool) (R : Int) {tr : Int → Int → Bool}
    {rmax smax : Int} (hs : 0 ≤ smax) (g : Int → Int → Bool)
    (htr : ∀ r s, 1 ≤ r → r ≤ rmax → 0 ≤ s → s ≤ smax → tr r s = true)
    {r s : Int} (hr1 : 1 ≤ r) (hr2 : r ≤ rmax) (hR : 0 < R → r ≤ R) (hs1 : 0 ≤ s)
    (hs2 : s ≤ min r smax) :
    (sweep e lw R tr rmax smax g).lit r s = true := by
  have key : RingInv lw R tr rmax smax g (sweep e lw R tr rmax smax g) ∧
      (sweep e lw R tr rmax smax g).obstacles = [] ∧
      (sweep e lw R tr rmax smax g).min_angle = 0 ∧
      ∀ r s, 1 ≤ r → r < (sweep e lw R tr rmax smax g).ring → 0 ≤ s → s ≤ min r smax →
        (sweep e lw R tr rmax smax g).lit r s = true := iterate_while_inv
    (fun a : Sweep => RingInv lw R tr rmax smax g a ∧ a.obstacles = [] ∧ a.min_angle = 0 ∧
      ∀ r s, 1 ≤ r → r < a.ring → 0 ≤ s → s ≤ min r smax → a.lit r s = true)
    (fun a => !a.done) (sweep_ring e lw R tr rmax smax)
    (by
      intro a ha hc
      have hd : a.done = false := by simpa using hc
      obtain ⟨hinv, hobs, hmin, hearlier⟩ := ha
      have hsi := scan_start_inv hinv hd
      have hopen : CoverScan smax a.ring (ring_open a) :=
        { obstacles := hobs
          last_line := by
            show a.last_line = 0
            rw [hinv.last_eq, hobs]; rfl
          min_angle := hmin
          earlier := hearlier
          here := by
            intro s s1 s2 _
            have : (ring_open a).pos = 0 := by
              simp only [ring_open, hmin]
              exact first_cell_zero hinv.ring_pos
            omega }
      have hloop := iterate_while_inv
        (fun b : Sweep => ScanInv lw R tr rmax smax g a.ring b ∧ CoverScan smax a.ring b)
        (fun t => decide (t.pos ≤ min a.ring smax)) (sweep_cell e lw tr)
        (by
          intro b hb hcb
          have hcb2 : b.pos ≤ min a.ring smax := by simpa using hcb
          exact ⟨sweep_cell_inv e hb.1 hcb2, sweep_cell_cover e htr hb.1 hcb2 hb.2⟩)
        (min a.ring smax + 1 - (ring_open a).pos).toNat (ring_open a) ⟨hsi, hopen⟩
      have hfin := scan_loop_done e (min a.ring smax + 1 - (ring_open a).pos).toNat hsi
        (le_refl _)
      simp only [decide_eq_false_iff_not, not_le] at hfin
      refine ⟨sweep_ring_inv e hs hinv hd, ?_, ?_, ?_⟩
      · exact hloop.2.obstacles
      · exact hloop.2.min_angle
      · intro r s r1 r2 s1 s2
        have hring : (sweep_ring e lw R tr rmax smax a).ring = a.ring + 1 := by
          simp only [sweep_ring, ring_close]
          rw [hloop.1.ring]
        rw [hring] at r2
        show (iterate_while _ _ _ (ring_open a)).lit r s = true
        by_cases hra : r < a.ring
        · exact hloop.2.earlier r s r1 hra s1 s2
        · have hre : r = a.ring := by omega
          subst hre
          exact hloop.2.here s s1 (by omega) s2)
    rmax.toNat (sweep_init g rmax)
    ⟨sweep_init_inv lw R tr rmax smax g, rfl, rfl, by
      intro r s r1 r2
      simp only [sweep_init] at r2
      omega⟩
  obtain ⟨hinv, _, hmin, hearlier⟩ := key
  have hdone := @sweep_done e lw R tr rmax _ hs g
  apply hearlier r s hr1 _ hs1 hs2
  by_contra hcon
  have hring1 := hinv.ring_pos
  have hal := hinv.alive hmin (by omega) (by
    by_cases h1 : (sweep e lw R tr rmax smax g).ring = 1
    · left; exact h1
    · right
      intro h2
      have hRpos : 0 < R := by omega
      have := hR hRpos
      omega)
  rw [hdone] at hal
  exact absurd hal (by simp)

theorem octant_lit_keeps (e : Edge) (lw : Bool) (R : Int) (tr : Int → Int → Bool)
    {w h px py dx dy : Int} (hdx : dx = 1 ∨ dx = -1) (hdy : dy = 1 ∨ dy = -1)
    (hx : 0 ≤ px ∧ px < w) (hy : 0 ≤ py ∧ py < h) (f : Int → Int → Bool) {x y : Int}
    (ht : tr x y = true) (hf : f x y = true) :
    octant_lit e lw R tr w h px py dx dy f x y = true := by
  rcases octant_lit_frame e lw R tr hdx hdy hx hy f x y with h1 |
    ⟨_, _, _, _, _, _, _, _, _, _, hval⟩
  · rw [h1]; exact hf
  · rw [hval, ht]; rfl

/-- A property of tables that every octant sweep keeps and that one of the eight
sweeps establishes whatever it starts from holds of the final table. -/
theorem fov_lit_established (P : (Int → Int → Bool) → Prop) (lw : Bool) (R : Int)
    (tr : Int → Int → Bool) (w h px py : Int)
    (hkeep : ∀ (e : Edge) (dx dy : Int) (f : Int → Int → Bool), (dx = 1 ∨ dx = -1) →
      (dy = 1 ∨ dy = -1) → P f → P (octant_lit e lw R tr w h px py dx dy f))
    (e : Edge) {dx dy : Int} (hdx : dx = 1 ∨ dx = -1) (hdy : dy = 1 ∨ dy = -1)
    (hest : ∀ f, P (octant_lit e lw R tr w h px py dx dy f)) :
    P (fov_lit lw R tr w h px py) := by
  unfold fov_lit quadrant_lit
  have p1 : (1 : Int) = 1 ∨ (1 : Int) = -1 := Or.inl rfl
  have m1 : (-1 : Int) = 1 ∨ (-1 : Int) = -1 := Or.inr rfl
  cases e <;> rcases hdx with h1 | h1 <;> rcases hdy with h2 | h2 <;> subst h1 h2
  · exact hkeep _ _ _ _ m1 m1 (hkeep _ _ _ _ m1 m1 (hkeep _ _ _ _ m1 p1 (hkeep _ _ _ _ m1 p1
      (hkeep _ _ _ _ p1 m1 (hkeep _ _ _ _ p1 m1 (hkeep _ _ _ _ p1 p1 (hest _)))))))
  · exact hkeep _ _ _ _ m1 m1 (hkeep _ _ _ _ m1 m1 (hkeep _ _ _ _ m1 p1 (hkeep _ _ _ _ m1 p1
      (hkeep _ _ _ _ p1 m1 (hest _)))))
  · exact hkeep _ _ _ _ m1 m1 (hkeep _ _ _ _ m1 m1 (hkeep _ _ _ _ m1 p1 (hest _)))
  · exact hkeep _ _ _ _ m1 m1 (hest _)
  · exact hkeep _ _ _ _ m1 m1 (hkeep _ _ _ _ m1 m1 (hkeep _ _ _ _ m1 p1 (hkeep _ _ _ _ m1 p1
      (hkeep _ _ _ _ p1 m1 (hkeep _ _ _ _ p1 m1 (hest _))))))
  · exact hkeep _ _ _ _ m1 m1 (hkeep _ _ _ _ m1 m1 (hkeep _ _ _ _ m1 p1 (hkeep _ _ _ _ m1 p1
      (hest _))))
  · exact hkeep _ _ _ _ m1 m1 (hkeep _ _ _ _ m1 m1 (hest _))
  · exact hest _

theorem cell_in_grid (e : Edge) {w h px py dx dy : Int}
    (hdx : dx = 1 ∨ dx = -1) (hdy : dy = 1 ∨ dy = -1) (hx : 0 ≤ px ∧ px < w)
    (hy : 0 ≤ py ∧ py < h) {r s : Int} (hr : 0 ≤ r) (hrm : r ≤ ring_extent e w h px py dx dy)
    (hs : 0 ≤ s) (hsm : s ≤ scan_extent e w h px py dx dy) :
    (0 ≤ cell_x e px dx r s ∧ cell_x e px dx r s < w) ∧
      (0 ≤ cell_y e py dy r s ∧ cell_y e py dy r s < h) := by
  have := @cell_in_bounds e { width := w, height := h, nbcells := 0, cells := [] } px py dx dy
    hdx hdy ⟨hx.1, hx.2, hy.1, hy.2⟩ r s hr hrm hs hsm
  exact ⟨⟨this.1, this.2.1⟩, ⟨this.2.2.1, this.2.2.2⟩⟩

theorem octant_lit_cover (e : Edge) (lw : Bool) (R : Int) (tr : Int → Int → Bool)
    {w h px py dx dy : Int} (hdx : dx = 1 ∨ dx = -1) (hdy : dy = 1 ∨ dy = -1)
    (hx : 0 ≤ px ∧ px < w) (hy : 0 ≤ py ∧ py < h)
    (htr : ∀ x y, 0 ≤ x → x < w → 0 ≤ y → y < h → tr x y = true)
    (f : Int → Int → Bool) {r s : Int} (hr1 : 1 ≤ r)
    (hr2 : r ≤ ring_extent e w h px py dx dy) (hR : 0 < R → r ≤ R) (hs1 : 0 ≤ s)
    (hs2 : s ≤ min r (scan_extent e w h px py dx dy)) :
    octant_lit e lw R tr w h px py dx dy f (cell_x e px dx r s) (cell_y e py dy r s) =
      true := by
  have hs : 0 ≤ scan_extent e w h px py dx dy := by
    cases e
    · exact extent_nonneg hx.1 hx.2
    · exact extent_nonneg hy.1 hy.2
  rw [octant_lit_inside e lw R tr hdx hdy f (by omega) hs1]
  apply sweep_cover e lw R hs _ _ hr1 hr2 hR hs1 hs2
  intro r1 s1 a1 a2 a3 a4
  rw [to_octant_apply]
  have := cell_in_grid e hdx hdy hx hy (r := r1) (s := s1) (by omega) a2 a3 a4
  exact htr _ _ this.1.1 this.1.2 this.2.1 this.2.2

/-- Every cell of the grid other than the origin is scanned by one of the eight
octants, in the ring of its Chebyshev distance from the origin. -/
theorem covering_octant {w h px py x y : Int} (hxw : 0 ≤ x ∧ x < w) (hyh : 0 ≤ y ∧ y < h)
    (hne : ¬ (x = px ∧ y = py)) :
    ∃ (e : Edge) (dx dy r s : Int), (dx = 1 ∨ dx = -1) ∧ (dy = 1 ∨ dy = -1) ∧ 1 ≤ r ∧
      r ≤ ring_extent e w h px py dx dy ∧ 0 ≤ s ∧
      s ≤ min r (scan_extent e w h px py dx dy) ∧
      x = cell_x e px dx r s ∧ y = cell_y e py dy r s ∧
      r = max |x - px| |y - py| := by
  have hax : |x - px| = if px ≤ x then x - px else px - x := by
    split_ifs with hc
    · exact abs_of_nonneg (by omega)
    · rw [abs_of_neg (by omega)]; omega
  have hay : |y - py| = if py ≤ y then y - py else py - y := by
    split_ifs with hc
    · exact abs_of_nonneg (by omega)
    · rw [abs_of_neg (by omega)]; omega
  rw [hax, hay]
  by_cases h1 : px ≤ x <;> by_cases h2 : py ≤ y <;> simp only [h1, h2, if_true, if_false]
  · by_cases h3 : x - px ≤ y - py
    · exact ⟨.vertical, 1, 1, y - py, x - px, Or.inl rfl, Or.inl rfl, by omega,
        by simp [ring_extent, extent]; omega, by omega,
        by simp [scan_extent, extent]; omega,
        by simp [cell_x], by simp [cell_y], by rw [max_eq_right h3]⟩
    · exact ⟨.horizontal, 1, 1, x - px, y - py, Or.inl rfl, Or.inl rfl, by omega,
        by simp [ring_extent, extent]; omega, by omega,
        by simp [scan_extent, extent]; omega,
        by simp [cell_x], by simp [cell_y], by rw [max_eq_left (by omega)]⟩
  · by_cases h3 : x - px ≤ py - y
    · exact ⟨.vertical, 1, -1, py - y, x - px, Or.inl rfl, Or.inr rfl, by omega,
        by simp [ring_extent, extent]; omega, by omega,
        by simp [scan_extent, extent]; omega,
        by simp [cell_x], by simp [cell_y], by rw [max_eq_right h3]⟩
    · exact ⟨.horizontal, 1, -1, x - px, py - y, Or.inl rfl, Or.inr rfl, by omega,
        by simp [ring_extent, extent]; omega, by omega,
        by simp [scan_extent, extent]; omega,
        by simp [cell_x], by simp [cell_y], by rw [max_eq_left (by omega)]⟩
  · by_cases h3 : px - x ≤ y - py
    · exact ⟨.vertical, -1, 1, y - py, px - x, Or.inr rfl, Or.inl rfl, by omega,
        by simp [ring_extent, extent]; omega, by omega,
        by simp [scan_extent, extent]; omega,
        by simp [cell_x], by simp [cell_y], by rw [max_eq_right h3]⟩
    · exact ⟨.horizontal, -1, 1, px - x, y - py, Or.inr rfl, Or.inl rfl, by omega,
        by simp [ring_extent, extent]; omega, by omega,
        by simp [scan_extent, extent]; omega,
        by simp [cell_x], by simp [cell_y], by rw [max_eq_left (by omega)]⟩
  · by_cases h3 : px - x ≤ py - y
    · exact ⟨.vertical, -1, -1, py - y, px - x, Or.inr rfl, Or.inr rfl, by omega,
        by simp [ring_extent, extent]; omega, by omega,
        by simp [scan_extent, extent]; omega,
        by simp [cell_x], by simp [cell_y], by rw [max_eq_right h3]⟩
    · exact ⟨.horizontal, -1, -1, px - x, py - y, Or.inr rfl, Or.inr rfl, by omega,
        by simp [ring_extent, extent]; omega, by omega,
        by simp [scan_extent, extent]; omega,
        by simp [cell_x], by simp [cell_y], by rw [max_eq_left (by omega)]⟩

theorem fov_lit_open (lw : Bool) (R : Int) (tr : Int → Int → Bool) {w h px py : Int}
    (hx : 0 ≤ px ∧ px < w) (hy : 0 ≤ py ∧ py < h)
    (htr : ∀ x y, 0 ≤ x → x < w → 0 ≤ y → y < h → tr x y = true)
    {x y : Int} (hxw : 0 ≤ x ∧ x < w) (hyh : 0 ≤ y ∧ y < h)
    (hR : 0 < R → max |x - px| |y - py| ≤ R) :
    fov_lit lw R tr w h px py x y = true := by
  by_cases hne : x = px ∧ y = py
  · rw [hne.1, hne.2]
    exact fov_lit_origin lw R tr hx hy
  · obtain ⟨e, dx, dy, r, s, hdx, hdy, r1, r2, s1, s2, ex, ey, er⟩ :=
      covering_octant hxw hyh hne
    apply fov_lit_established (fun f => f x y = true) lw R tr w h px py _ e hdx hdy
    · intro f
      show octant_lit e lw R tr w h px py dx dy f x y = true
      rw [ex, ey]
      exact octant_lit_cover e lw R tr hdx hdy hx hy htr f r1 r2
        (by intro hRp; rw [er]; exact hR hRp) s1 s2
    · intro e1 dx1 dy1 f hdx1 hdy1 hf
      exact octant_lit_keeps e1 lw R tr hdx1 hdy1 hx hy f
        (htr x y hxw.1 hxw.2 hyh.1 hyh.2) hf

/-- C2: for every well-formed map in which every cell is transparent, every
origin inside it and both values of `light_walls`, the call with
`max_radius = 0` returns and every cell of the map is visible in the returned
map. -/
theorem open_room_all_visible (m : TCOD_Map) (hwf : m.wf)
    (htr : ∀ x y, m.in_bounds x y → m.is_transparent x y = true)
    (player_x player_y : Int) (ho : m.in_bounds player_x player_y) (light_walls : Bool)
    (start_angle end_angle : Nat → ℚ) :
    ∃ m1, TCOD_map_compute_fov_restrictive_shadowcasting m player_x player_y 0
        light_walls start_angle end_angle = .ok m1 ∧
      ∀ x y, m.in_bounds x y → m1.visible x y = true := by
  obtain ⟨m1, h1, hl⟩ := compute_fov_refines hwf ho 0 light_walls start_angle end_angle
  refine ⟨m1, h1, ?_⟩
  intro x y hb
  rw [(hl.visible_at hwf hb).1]
  exact fov_lit_open light_walls 0 m.tr ⟨ho.1, ho.2.1⟩ ⟨ho.2.2.1, ho.2.2.2⟩
    (fun x y a b c d => (tr_of_in_bounds ⟨a, b, c, d⟩).trans (htr x y ⟨a, b, c, d⟩)) ⟨hb.1, hb.2.1⟩ ⟨hb.2.2.1, hb.2.2.2⟩
    (fun hR => absurd hR (by decide))

theorem open_room_transparent (x y : Int) (hb : open_room.in_bounds x y) :
    open_room.is_transparent x y = true := by
  obtain ⟨h1, h2, h3, h4⟩ := hb
  simp only [open_room] at h2 h4
  have hx : x = 0 ∨ x = 1 ∨ x = 2 := by omega
  have hy : y = 0 ∨ y = 1 ∨ y = 2 := by omega
  rcases hx with h | h | h <;> rcases hy with h5 | h5 | h5 <;> subst h h5 <;> decide

theorem open_room_all_visible_witness :
    open_room.wf ∧ (∀ x y, open_room.in_bounds x y → open_room.is_transparent x y = true) ∧
      open_room.in_bounds 1 2 ∧
      ∃ m1, TCOD_map_compute_fov_restrictive_shadowcasting open_room 1 2 0
          false zero_buffer zero_buffer = .ok m1 ∧
        ∀ x y, open_room.in_bounds x y → m1.visible x y = true :=
  ⟨by decide, open_room_transparent, by decide,
    open_room_all_visible open_room (by decide) open_room_transparent 1 2 (by decide) false
      _ _⟩

/-- C5: for every well-formed map, origin inside it and radius, the calls with
`light_walls = true` and with `light_walls = false` both return, and every
transparent cell of the map has the same `fov` flag in the two returned maps. -/
theorem light_walls_toggle (m : TCOD_Map) (hwf : m.wf) (player_x player_y : Int)
    (ho : m.in_bounds player_x player_y) (max_radius : Int)
    (start_angle1 end_angle1 start_angle2 end_angle2 : Nat → ℚ) :
    ∃ r1 r2,
      TCOD_map_compute_fov_restrictive_shadowcasting m player_x player_y max_radius
        true start_angle1 end_angle1 = .ok r1 ∧
      TCOD_map_compute_fov_restrictive_shadowcasting m player_x player_y max_radius
        false start_angle2 end_angle2 = .ok r2 ∧
      ∀ x y, m.in_bounds x y → m.is_transparent x y = true →
        r1.visible x y = r2.visible x y := by
  obtain ⟨r1, h1, hl1⟩ := compute_fov_refines hwf ho max_radius true start_angle1 end_angle1
  obtain ⟨r2, h2, hl2⟩ := compute_fov_refines hwf ho max_radius false start_angle2 end_angle2
  refine ⟨r1, r2, h1, h2, ?_⟩
  intro x y hb ht
  rw [(hl1.visible_at hwf hb).1, (hl2.visible_at hwf hb).1]
  exact fov_lit_toggle max_radius m.tr ⟨ho.1, ho.2.1⟩ ⟨ho.2.2.1, ho.2.2.2⟩ x y
    ((tr_of_in_bounds hb).trans ht)

theorem light_walls_toggle_witness :
    corridor.wf ∧ corridor.in_bounds 0 0 ∧
      ∃ r1 r2,
        TCOD_map_compute_fov_restrictive_shadowcasting corridor 0 0 3
          true zero_buffer zero_buffer = .ok r1 ∧
        TCOD_map_compute_fov_restrictive_shadowcasting corridor 0 0 3
          false zero_buffer zero_buffer = .ok r2 ∧
        ∀ x y, corridor.in_bounds x y → corridor.is_transparent x y = true →
          r1.visible x y = r2.visible x y :=
  ⟨by decide, by decide, light_walls_toggle corridor (by decide) 0 0 (by decide) 3 _ _ _ _⟩

/-! ## The first column of a quadrant -/

theorem sweep_axis (e : Edge) (lw : Bool) (R : Int) {tr : Int → Int → Bool}
    {rmax smax : Int} (hs : 0 ≤ smax) (g : Int → Int → Bool) {k : Int} (hk1 : 1 ≤ k)
    (hk2 : k ≤ rmax) (hR : 0 < R → k ≤ R)
    (hclear : ∀ j, 1 ≤ j → j < k → tr j 0 = true) (hwall : tr k 0 = false) :
    (∀ j, 1 ≤ j → j < k → (sweep e lw R tr rmax smax g).lit j 0 = true) ∧
      (sweep e lw R tr rmax smax g).lit k 0 = lw ∧
      (∀ j, k < j → (sweep e lw R tr rmax smax g).lit j 0 = g j 0) := by
  have hinv := @sweep_inv e lw R tr rmax _ hs g
  have hdone := @sweep_done e lw R tr rmax _ hs g
  have hring1 := hinv.ring_pos
  have hreach : k < (sweep e lw R tr rmax smax g).ring := by
    by_contra hcon
    by_cases hm : (sweep e lw R tr rmax smax g).min_angle = 0
    · have hal := hinv.alive hm (by omega) (by
        by_cases h1 : (sweep e lw R tr rmax smax g).ring = 1
        · left; exact h1
        · right
          intro h2
          have hRpos : 0 < R := by omega
          have := hR hRpos
          omega)
      rw [hdone] at hal
      exact absurd hal (by simp)
    · obtain ⟨k1, a1, a2, a3⟩ := hinv.wall hm
      have := hclear k1 a1 (by omega)
      rw [this] at a3
      exact absurd a3 (by simp)
  refine ⟨?_, ?_, ?_⟩
  · intro j j1 j2
    rw [hinv.axis_lit j j1 (by omega) (fun i i1 i2 => hclear i i1 (by omega)),
      hclear j j1 j2]
    rfl
  · rw [hinv.axis_lit k hk1 hreach hclear, hwall]
    rfl
  · intro j hj
    rcases hinv.frame j 0 with h1 | ⟨_, _, _, _, _, _, _, f8, _⟩
    · exact h1
    · have := f8 rfl k hk1 hj
      rw [this] at hwall
      exact absurd hwall (by simp)

/-! ## Properties established by one of the eight sweeps -/

theorem foldl_kept {α β : Type} (step : α → β → α) (Q P : α → Prop) :
    ∀ (l : List β) (f : α), (∀ f b, b ∈ l → Q f → Q (step f b)) →
      (∀ f b, b ∈ l → Q f → P f → P (step f b)) → Q f → P f →
      Q (l.foldl step f) ∧ P (l.foldl step f) := by
  intro l
  induction l with
  | nil => intro f _ _ hq hp; exact ⟨hq, hp⟩
  | cons b t ih =>
    intro f hQ hP hq hp
    simp only [List.foldl_cons]
    exact ih (step f b)
      (fun f1 b1 hb1 => hQ f1 b1 (List.mem_cons_of_mem _ hb1))
      (fun f1 b1 hb1 => hP f1 b1 (List.mem_cons_of_mem _ hb1))
      (hQ f b (List.mem_cons_self _ _) hq) (hP f b (List.mem_cons_self _ _) hq hp)

theorem foldl_established {α β : Type} (step : α → β → α) (Q P : α → Prop) (o : β)
    (hest : ∀ f, Q f → P (step f o)) :
    ∀ (l : List β) (f : α), o ∈ l → (∀ f b, b ∈ l → Q f → Q (step f b)) →
      (∀ f b, b ∈ l → Q f → P f → P (step f b)) → Q f →
      Q (l.foldl step f) ∧ P (l.foldl step f) := by
  intro l
  induction l with
  | nil => intro f ho; exact absurd ho (List.not_mem_nil _)
  | cons b t ih =>
    intro f ho hQ hP hq
    simp only [List.foldl_cons]
    by_cases hob : o = b
    · subst hob
      exact foldl_kept step Q P t (step f o)
        (fun f1 b1 hb1 => hQ f1 b1 (List.mem_cons_of_mem _ hb1))
        (fun f1 b1 hb1 => hP f1 b1 (List.mem_cons_of_mem _ hb1))
        (hQ f o (List.mem_cons_self _ _) hq) (hest f hq)
    · have hot : o ∈ t := by
        rcases List.mem_cons.mp ho with h | h
        · exact absurd h hob
        · exact h
      exact ih (step f b) hot
        (fun f1 b1 hb1 => hQ f1 b1 (List.mem_cons_of_mem _ hb1))
        (fun f1 b1 hb1 => hP f1 b1 (List.mem_cons_of_mem _ hb1))
        (hQ f b (List.mem_cons_self _ _) hq)

theorem fov_lit_eq_foldl (lw : Bool) (R : Int) (tr : Int → Int → Bool) (w h px py : Int) :
    fov_lit lw R tr w h px py =
      octant_order.foldl
        (fun f o => octant_lit o.1 lw R tr w h px py o.2.1 o.2.2 f)
        (fun x y => decide (x = px ∧ y = py)) := rfl

theorem mem_octant_order (e : Edge) {dx dy : Int} (hdx : dx = 1 ∨ dx = -1)
    (hdy : dy = 1 ∨ dy = -1) : (e, dx, dy) ∈ octant_order := by
  cases e <;> rcases hdx with h | h <;> rcases hdy with h2 | h2 <;> subst h h2 <;>
    simp [octant_order]

theorem octant_order_unit {o : Edge × Int × Int} (ho : o ∈ octant_order) :
    (o.2.1 = 1 ∨ o.2.1 = -1) ∧ (o.2.2 = 1 ∨ o.2.2 = -1) := by
  simp only [octant_order, List.mem_cons, List.mem_singleton, List.not_mem_nil, or_false] at ho
  rcases ho with h | h | h | h | h | h | h | h <;> subst h <;> simp

/-- A property `P` of tables holds of the final table when an invariant `Q`
holds initially and is kept by every sweep, `P` is kept by every sweep under
`Q`, and one sweep establishes `P` from `Q`. -/
theorem fov_lit_established2 (Q P : (Int → Int → Bool) → Prop) (lw : Bool) (R : Int)
    (tr : Int → Int → Bool) (w h px py : Int)
    (hQ0 : Q (fun x y => decide (x = px ∧ y = py)))
    (hQ : ∀ (e : Edge) (dx dy : Int) (f : Int → Int → Bool), (dx = 1 ∨ dx = -1) →
      (dy = 1 ∨ dy = -1) → Q f → Q (octant_lit e lw R tr w h px py dx dy f))
    (hkeep : ∀ (e : Edge) (dx dy : Int) (f : Int → Int → Bool), (dx = 1 ∨ dx = -1) →
      (dy = 1 ∨ dy = -1) → Q f → P f → P (octant_lit e lw R tr w h px py dx dy f))
    (e : Edge) {dx dy : Int} (hdx : dx = 1 ∨ dx = -1) (hdy : dy = 1 ∨ dy = -1)
    (hest : ∀ f, Q f → P (octant_lit e lw R tr w h px py dx dy f)) :
    P (fov_lit lw R tr w h px py) := by
  rw [fov_lit_eq_foldl]
  exact (foldl_established
    (fun (f : Int → Int → Bool) (o : Edge × Int × Int) =>
      octant_lit o.1 lw R tr w h px py o.2.1 o.2.2 f) Q P (e, dx, dy) hest
    octant_order _ (mem_octant_order e hdx hdy)
    (fun f b hb hq => hQ b.1 b.2.1 b.2.2 f (octant_order_unit hb).1 (octant_order_unit hb).2 hq)
    (fun f b hb hq hp =>
      hkeep b.1 b.2.1 b.2.2 f (octant_order_unit hb).1 (octant_order_unit hb).2 hq hp)
    hQ0).2

/-! ## Rays along the axes -/

theorem ray_on_axis {e : Edge} {dx dy d1 d2 : Int} (h : OnAxis e dx dy d1 d2)
    (px py j : Int) :
    px + j * d1 = cell_x e px dx j 0 ∧ py + j * d2 = cell_y e py dy j 0 := by
  rcases h with ⟨h1, h2, h3⟩ | ⟨h1, h2, h3⟩ <;> subst h1 h2 h3 <;> simp [cell_x, cell_y]

theorem ray_off_axis (e : Edge) (lw : Bool) (R : Int) (tr : Int → Int → Bool)
    {w h px py dx dy d1 d2 : Int} (hdx : dx = 1 ∨ dx = -1) (hdy : dy = 1 ∨ dy = -1)
    (hx : 0 ≤ px ∧ px < w) (hy : 0 ≤ py ∧ py < h)
    (hd : (d1 = 1 ∧ d2 = 0) ∨ (d1 = -1 ∧ d2 = 0) ∨ (d1 = 0 ∧ d2 = 1) ∨ (d1 = 0 ∧ d2 = -1))
    (hoff : ¬ OnAxis e dx dy d1 d2) (f : Int → Int → Bool) {j : Int} (hj : 1 ≤ j) :
    octant_lit e lw R tr w h px py dx dy f (px + j * d1) (py + j * d2) =
      f (px + j * d1) (py + j * d2) := by
  rcases octant_lit_frame e lw R tr hdx hdy hx hy f (px + j * d1) (py + j * d2) with h1 |
    ⟨r, s, r1, s0, _, _, _, _, ex, ey, _⟩
  · exact h1
  · exfalso
    unfold OnAxis at hoff
    cases e <;> rcases hd with ⟨a, b⟩ | ⟨a, b⟩ | ⟨a, b⟩ | ⟨a, b⟩ <;>
      rcases hdx with c | c <;> rcases hdy with d | d <;> subst a b c d <;>
      simp [cell_x, cell_y] at ex ey hoff <;> omega

theorem ray_extent {e : Edge} {w h px py dx dy d1 d2 : Int}
    (hdx : dx = 1 ∨ dx = -1) (hdy : dy = 1 ∨ dy = -1)
    (hon : OnAxis e dx dy d1 d2) {k : Int}
    (hin : (0 ≤ px + k * d1 ∧ px + k * d1 < w) ∧ (0 ≤ py + k * d2 ∧ py + k * d2 < h)) :
    k ≤ ring_extent e w h px py dx dy := by
  rcases hon with ⟨h1, h2, h3⟩ | ⟨h1, h2, h3⟩ <;> subst h1 h2 h3
  · rcases hdy with c | c <;> subst c <;> simp [ring_extent, extent] at hin ⊢ <;> omega
  · rcases hdx with c | c <;> subst c <;> simp [ring_extent, extent] at hin ⊢ <;> omega

theorem octant_lit_ray (e : Edge) (lw : Bool) (R : Int) (tr : Int → Int → Bool)
    {w h px py dx dy d1 d2 : Int} (hdx : dx = 1 ∨ dx = -1) (hdy : dy = 1 ∨ dy = -1)
    (hx : 0 ≤ px ∧ px < w) (hy : 0 ≤ py ∧ py < h)
    (hon : OnAxis e dx dy d1 d2) {k : Int} (hk : 1 ≤ k) (hR : 0 < R → k ≤ R)
    (hin : (0 ≤ px + k * d1 ∧ px + k * d1 < w) ∧ (0 ≤ py + k * d2 ∧ py + k * d2 < h))
    (hclear : ∀ j, 1 ≤ j → j < k → tr (px + j * d1) (py + j * d2) = true)
    (hwall : tr (px + k * d1) (py + k * d2) = false) (f : Int → Int → Bool) :
    (∀ j, 1 ≤ j → j < k →
        octant_lit e lw R tr w h px py dx dy f (px + j * d1) (py + j * d2) = true) ∧
      octant_lit e lw R tr w h px py dx dy f (px + k * d1) (py + k * d2) = lw ∧
      (∀ j, k < j →
        octant_lit e lw R tr w h px py dx dy f (px + j * d1) (py + j * d2) =
          f (px + j * d1) (py + j * d2)) := by
  have hs : 0 ≤ scan_extent e w h px py dx dy := by
    cases e
    · exact extent_nonneg hx.1 hx.2
    · exact extent_nonneg hy.1 hy.2
  have hray := ray_on_axis hon px py
  have hax := @sweep_axis e lw R (to_octant e px py dx dy tr) _ _ hs
    (to_octant e px py dx dy f) _ hk (ray_extent hdx hdy hon hin) hR
    (by
      intro j j1 j2
      rw [to_octant_apply, ← (hray j).1, ← (hray j).2]
      exact hclear j j1 j2)
    (by
      rw [to_octant_apply, ← (hray k).1, ← (hray k).2]
      exact hwall)
  refine ⟨?_, ?_, ?_⟩
  · intro j j1 j2
    rw [(hray j).1, (hray j).2, octant_lit_inside e lw R tr hdx hdy f (by omega) (le_refl _)]
    exact hax.1 j j1 j2
  · rw [(hray k).1, (hray k).2, octant_lit_inside e lw R tr hdx hdy f (by omega) (le_refl _)]
    exact hax.2.1
  · intro j hj
    rw [(hray j).1, (hray j).2, octant_lit_inside e lw R tr hdx hdy f (by omega) (le_refl _),
      hax.2.2 j hj, to_octant_apply]

theorem axis_octant {d1 d2 : Int}
    (hd : (d1 = 1 ∧ d2 = 0) ∨ (d1 = -1 ∧ d2 = 0) ∨ (d1 = 0 ∧ d2 = 1) ∨ (d1 = 0 ∧ d2 = -1)) :
    ∃ (e : Edge) (dx dy : Int), (dx = 1 ∨ dx = -1) ∧ (dy = 1 ∨ dy = -1) ∧
      OnAxis e dx dy d1 d2 := by
  rcases hd with ⟨a, b⟩ | ⟨a, b⟩ | ⟨a, b⟩ | ⟨a, b⟩ <;> subst a b
  · exact ⟨.horizontal, 1, 1, Or.inl rfl, Or.inl rfl, Or.inr ⟨rfl, rfl, rfl⟩⟩
  · exact ⟨.horizontal, -1, 1, Or.inr rfl, Or.inl rfl, Or.inr ⟨rfl, rfl, rfl⟩⟩
  · exact ⟨.vertical, 1, 1, Or.inl rfl, Or.inl rfl, Or.inl ⟨rfl, rfl, rfl⟩⟩
  · exact ⟨.vertical, 1, -1, Or.inl rfl, Or.inr rfl, Or.inl ⟨rfl, rfl, rfl⟩⟩

theorem fov_lit_axis (lw : Bool) (R : Int) (tr : Int → Int → Bool)
    {w h px py d1 d2 : Int} (hx : 0 ≤ px ∧ px < w) (hy : 0 ≤ py ∧ py < h)
    (hd : (d1 = 1 ∧ d2 = 0) ∨ (d1 = -1 ∧ d2 = 0) ∨ (d1 = 0 ∧ d2 = 1) ∨ (d1 = 0 ∧ d2 = -1))
    {k : Int} (hk : 1 ≤ k) (hR : 0 < R → k ≤ R)
    (hin : (0 ≤ px + k * d1 ∧ px + k * d1 < w) ∧ (0 ≤ py + k * d2 ∧ py + k * d2 < h))
    (hclear : ∀ j, 1 ≤ j → j < k → tr (px + j * d1) (py + j * d2) = true)
    (hwall : tr (px + k * d1) (py + k * d2) = false) :
    (∀ j, 1 ≤ j → j < k → fov_lit lw R tr w h px py (px + j * d1) (py + j * d2) = true) ∧
      fov_lit lw R tr w h px py (px + k * d1) (py + k * d2) = lw ∧
      (∀ j, k < j → fov_lit lw R tr w h px py (px + j * d1) (py + j * d2) = false) := by
  have hdark : ∀ j, k < j → fov_lit lw R tr w h px py (px + j * d1) (py + j * d2) = false := by
    apply fov_lit_induction
      (fun f => ∀ j, k < j → f (px + j * d1) (py + j * d2) = false)
    · intro j hj
      simp only [decide_eq_false_iff_not]
      rintro ⟨a, _⟩
      rcases hd with ⟨c, b⟩ | ⟨c, b⟩ | ⟨c, b⟩ | ⟨c, b⟩ <;> subst c b <;> omega
    · intro e dx dy f hdx hdy hf j hj
      by_cases hon : OnAxis e dx dy d1 d2
      · rw [(octant_lit_ray e lw R tr hdx hdy hx hy hon hk hR hin hclear hwall f).2.2 j hj]
        exact hf j hj
      · rw [ray_off_axis e lw R tr hdx hdy hx hy hd hon f (by omega)]
        exact hf j hj
  obtain ⟨e, dx, dy, hdx, hdy, hon⟩ := axis_octant hd
  have hlit := fov_lit_established2 (fun _ => True)
    (fun f => (∀ j, 1 ≤ j → j < k → f (px + j * d1) (py + j * d2) = true) ∧
      f (px + k * d1) (py + k * d2) = lw)
    lw R tr w h px py trivial (fun _ _ _ _ _ _ _ => trivial)
    (by
      intro e1 dx1 dy1 f hdx1 hdy1 _ hf
      by_cases hon1 : OnAxis e1 dx1 dy1 d1 d2
      · have := octant_lit_ray e1 lw R tr hdx1 hdy1 hx hy hon1 hk hR hin hclear hwall f
        exact ⟨this.1, this.2.1⟩
      · refine ⟨?_, ?_⟩
        · intro j j1 j2
          rw [ray_off_axis e1 lw R tr hdx1 hdy1 hx hy hd hon1 f j1]
          exact hf.1 j j1 j2
        · rw [ray_off_axis e1 lw R tr hdx1 hdy1 hx hy hd hon1 f hk]
          exact hf.2)
    e hdx hdy
    (by
      intro f _
      have := octant_lit_ray e lw R tr hdx hdy hx hy hon hk hR hin hclear hwall f
      exact ⟨this.1, this.2.1⟩)
  exact ⟨hlit.1, hlit.2, hdark⟩

/-- C4: for every well-formed map, origin inside it, axis direction `(d1, d2)`
and `k ≥ 1` such that the cell at distance `k` from the origin in that
direction is an opaque cell of the map and the cells at distances `1..k-1`
are transparent, the call with `max_radius = 0` returns a map in which the
cells at distances `1..k-1` on the ray are visible, the opaque cell at distance
`k` is visible exactly when `light_walls` is true, and no cell of the ray
beyond it is visible. -/
theorem axis_shadow (m : TCOD_Map) (hwf : m.wf) (player_x player_y : Int)
    (ho : m.in_bounds player_x player_y) (d1 d2 : Int)
    (hd : (d1 = 1 ∧ d2 = 0) ∨ (d1 = -1 ∧ d2 = 0) ∨ (d1 = 0 ∧ d2 = 1) ∨ (d1 = 0 ∧ d2 = -1))
    (k : Int) (hk : 1 ≤ k) (hin : m.in_bounds (player_x + k * d1) (player_y + k * d2))
    (hclear : ∀ j, 1 ≤ j → j < k →
      m.is_transparent (player_x + j * d1) (player_y + j * d2) = true)
    (hwall : m.is_transparent (player_x + k * d1) (player_y + k * d2) = false)
    (light_walls : Bool) (start_angle end_angle : Nat → ℚ) :
    ∃ m1, TCOD_map_compute_fov_restrictive_shadowcasting m player_x player_y 0
        light_walls start_angle end_angle = .ok m1 ∧
      (∀ j, 1 ≤ j → j < k → m1.visible (player_x + j * d1) (player_y + j * d2) = true) ∧
      m1.visible (player_x + k * d1) (player_y + k * d2) = light_walls ∧
      (∀ j, k < j → m.in_bounds (player_x + j * d1) (player_y + j * d2) →
        m1.visible (player_x + j * d1) (player_y + j * d2) = false) := by
  obtain ⟨m1, h1, hl⟩ := compute_fov_refines hwf ho 0 light_walls start_angle end_angle
  have hray : ∀ j, 1 ≤ j → j ≤ k → m.in_bounds (player_x + j * d1) (player_y + j * d2) := by
    intro j j1 j2
    obtain ⟨a1, a2, a3, a4⟩ := hin
    obtain ⟨b1, b2, b3, b4⟩ := ho
    unfold TCOD_Map.in_bounds
    rcases hd with ⟨c, b⟩ | ⟨c, b⟩ | ⟨c, b⟩ | ⟨c, b⟩ <;> subst c b <;>
      simp only [mul_one, mul_zero, add_zero, mul_neg] at a1 a2 a3 a4 ⊢ <;>
      refine ⟨?_, ?_, ?_, ?_⟩ <;> omega
  have hax := fov_lit_axis light_walls 0 m.tr ⟨ho.1, ho.2.1⟩ ⟨ho.2.2.1, ho.2.2.2⟩ hd hk
    (fun hR => absurd hR (by decide)) ⟨⟨hin.1, hin.2.1⟩, ⟨hin.2.2.1, hin.2.2.2⟩⟩
    (fun j j1 j2 => (tr_of_in_bounds (hray j j1 (by omega))).trans (hclear j j1 j2))
    ((tr_of_in_bounds hin).trans hwall)
  refine ⟨m1, h1, ?_, ?_, ?_⟩
  · intro j j1 j2
    rw [(hl.visible_at hwf (hray j j1 (by omega))).1]
    exact hax.1 j j1 j2
  · rw [(hl.visible_at hwf hin).1]
    exact hax.2.1
  · intro j hj hb
    rw [(hl.visible_at hwf hb).1]
    exact hax.2.2 j hj

theorem corridor_clear (j : Int) (h1 : 1 ≤ j) (h2 : j < 2) :
    corridor.is_transparent (0 + j * 1) (0 + j * 0) = true := by
  have : j = 1 := by omega
  subst this
  decide

theorem axis_shadow_witness :
    corridor.wf ∧ corridor.in_bounds 0 0 ∧
      (((1 : Int) = 1 ∧ (0 : Int) = 0) ∨ ((1 : Int) = -1 ∧ (0 : Int) = 0) ∨
        ((1 : Int) = 0 ∧ (0 : Int) = 1) ∨ ((1 : Int) = 0 ∧ (0 : Int) = -1)) ∧
      (1 : Int) ≤ 2 ∧ corridor.in_bounds (0 + 2 * 1) (0 + 2 * 0) ∧
      (∀ j : Int, 1 ≤ j → j < 2 → corridor.is_transparent (0 + j * 1) (0 + j * 0) = true) ∧
      corridor.is_transparent (0 + 2 * 1) (0 + 2 * 0) = false ∧
      ∃ m1, TCOD_map_compute_fov_restrictive_shadowcasting corridor 0 0 0
          false zero_buffer zero_buffer = .ok m1 ∧
        (∀ j : Int, 1 ≤ j → j < 2 → m1.visible (0 + j * 1) (0 + j * 0) = true) ∧
        m1.visible (0 + 2 * 1) (0 + 2 * 0) = false ∧
        (∀ j : Int, 2 < j → corridor.in_bounds (0 + j * 1) (0 + j * 0) →
          m1.visible (0 + j * 1) (0 + j * 0) = false) :=
  ⟨by decide, by decide, by decide, by decide, by decide, corridor_clear, by decide,
    axis_shadow corridor (by decide) 0 0 (by decide) 1 0 (by decide) 2 (by decide) (by decide)
      corridor_clear (by decide) false _ _⟩

/-! ## Mirror symmetry

A quadrant run from a table that is dark inside the quadrant, and on its two
axes either dark or already as the first quadrant leaves them, produces the
table the first quadrant produces from the initial table. -/

theorem quadrant_agree (lw : Bool) (R : Int) (tv th : Int → Int → Bool)
    {rv sv rh sh : Int} (hsv : 0 ≤ sv) (hsh : 0 ≤ sh) (g g1 k k1 : Int → Int → Bool)
    (hg : ∀ r s, 0 ≤ r → 0 ≤ s → g r s = decide (r = 0 ∧ s = 0))
    (hk : ∀ r s, 0 ≤ r → 0 ≤ s → k r s = (sweep .vertical lw R tv rv sv g).lit s r)
    (hk1 : ∀ r s, 0 ≤ r → 0 ≤ s → k1 r s = (sweep .vertical lw R tv rv sv g1).lit s r)
    (h00 : g1 0 0 = true)
    (hint : ∀ r s, 1 ≤ r → 1 ≤ s → g1 r s = false)
    (hy : ∀ r, 1 ≤ r →
      g1 r 0 = false ∨ g1 r 0 = (sweep .horizontal lw R th rh sh k).lit 0 r)
    (hx : ∀ s, 1 ≤ s →
      g1 0 s = false ∨ g1 0 s = (sweep .horizontal lw R th rh sh k).lit s 0)
    {u v : Int} (hu : 0 ≤ u) (hv : 0 ≤ v) :
    (sweep .horizontal lw R th rh sh k1).lit u v =
      (sweep .horizontal lw R th rh sh k).lit u v := by
  have hB0 : ∀ s, 0 ≤ s → (sweep .horizontal lw R th rh sh k).lit 0 s =
      (sweep .vertical lw R tv rv sv g).lit s 0 := by
    intro s hs
    rw [sweep_ring_zero .horizontal lw R th hsh k (le_refl 0) s, hk 0 s (le_refl 0) hs]
  have hgf : ∀ r s, 0 ≤ r → 0 ≤ s → (1 ≤ r ∨ 1 ≤ s) → g r s = false := by
    intro r s hr hs h
    rw [hg r s hr hs, decide_eq_false_iff_not]
    omega
  have hA : ∀ r s, 1 ≤ r → 0 ≤ s →
      (sweep .vertical lw R tv rv sv g).lit r s = (sweep .vertical lw R tv rv sv g1).lit r s := by
    intro r s hr hs
    have h0 : ∀ r s, 1 ≤ r → 0 ≤ s → ((tv r s = true ∨ lw = lw) → g r s = g1 r s) ∨
        (s = 0 ∧ ∀ j, 1 ≤ j → j < r → tv j 0 = true) := by
      intro r s hr hs
      by_cases hs1 : 1 ≤ s
      · left; intro _; rw [hgf r s (by omega) hs (Or.inl hr), hint r s hr hs1]
      · have hs0 : s = 0 := by omega
        subst hs0
        rcases hy r hr with h | h
        · left; intro _; rw [hgf r 0 (by omega) hs (Or.inl hr), h]
        · rw [hB0 r (by omega)] at h
          rcases @sweep_frame .vertical lw R tv rv sv hsv g r 0 with
            hf | ⟨_, _, _, _, _, _, hpre, _⟩
          · left; intro _; rw [h, hf]
          · right; exact ⟨rfl, hpre rfl⟩
    rcases @sweep_agree_lit .vertical tv lw lw R rv sv hsv g g1 h0 r s hr hs with
      h | ⟨hs0, _, ha, ha1⟩
    · exact h (Or.inr rfl)
    · subst hs0
      rw [ha, ha1]
      rcases hy r hr with h | h
      · rw [h, hgf r 0 (by omega) (le_refl 0) (Or.inl hr)]
      · rw [h, hB0 r (by omega), ha]
  have hk0 : ∀ r, 1 ≤ r → k r 0 = false := by
    intro r hr
    rw [hk r 0 (by omega) (le_refl 0), sweep_ring_zero .vertical lw R tv hsv g (le_refl 0) r,
      hgf 0 r (le_refl 0) (by omega) (Or.inr hr)]
  have hk10 : ∀ r, 1 ≤ r → k1 r 0 = g1 0 r := by
    intro r hr
    rw [hk1 r 0 (by omega) (le_refl 0), sweep_ring_zero .vertical lw R tv hsv g1 (le_refl 0) r]
  have hB : ∀ r s, 1 ≤ r → 0 ≤ s → (sweep .horizontal lw R th rh sh k1).lit r s =
      (sweep .horizontal lw R th rh sh k).lit r s := by
    intro r s hr hs
    have h0 : ∀ r s, 1 ≤ r → 0 ≤ s → ((th r s = true ∨ lw = lw) → k r s = k1 r s) ∨
        (s = 0 ∧ ∀ j, 1 ≤ j → j < r → th j 0 = true) := by
      intro r s hr hs
      by_cases hs1 : 1 ≤ s
      · left; intro _
        rw [hk r s (by omega) hs, hk1 r s (by omega) hs, hA s r hs1 (by omega)]
      · have hs0 : s = 0 := by omega
        subst hs0
        rcases hx r hr with h | h
        · left; intro _; rw [hk0 r hr, hk10 r hr, h]
        · rcases @sweep_frame .horizontal lw R th rh sh hsh k r 0 with
            hf | ⟨_, _, _, _, _, _, hpre, _⟩
          · left; intro _; rw [hk10 r hr, h, hf]
          · right; exact ⟨rfl, hpre rfl⟩
    rcases @sweep_agree_lit .horizontal th lw lw R rh sh hsh k k1 h0 r s hr hs with
      h | ⟨hs0, _, hb, hb1⟩
    · exact (h (Or.inr rfl)).symm
    · subst hs0
      rw [hb, hb1, hk10 r hr]
      rcases hx r hr with h | h
      · rw [h, hk0 r hr]
      · rw [h, hb]
  by_cases hu1 : 1 ≤ u
  · exact hB u v hu1 hv
  · have hu0 : u = 0 := by omega
    subst hu0
    rw [sweep_ring_zero .horizontal lw R th hsh k1 (le_refl 0) v,
      sweep_ring_zero .horizontal lw R th hsh k (le_refl 0) v, hk1 0 v (le_refl 0) hv,
      hk 0 v (le_refl 0) hv]
    by_cases hv1 : 1 ≤ v
    · exact (hA v 0 hv1 (le_refl 0)).symm
    · have hv0 : v = 0 := by omega
      subst hv0
      rw [sweep_ring_zero .vertical lw R tv hsv g1 (le_refl 0) 0,
        sweep_ring_zero .vertical lw R tv hsv g (le_refl 0) 0, h00,
        hg 0 0 (le_refl 0) (le_refl 0)]
      rfl

theorem quadrant_lit_inside (lw : Bool) (R : Int) (tr : Int → Int → Bool)
    {w h px py dx dy : Int} (hdx : dx = 1 ∨ dx = -1) (hdy : dy = 1 ∨ dy = -1)
    (f : Int → Int → Bool) {u v : Int} (hu : 0 ≤ u) (hv : 0 ≤ v) :
    quadrant_lit lw R tr w h px py dx dy f (px + u * dx) (py + v * dy) =
      (sweep .horizontal lw R (to_octant .horizontal px py dx dy tr)
        (ring_extent .horizontal w h px py dx dy) (scan_extent .horizontal w h px py dx dy)
        (to_octant .horizontal px py dx dy
          (octant_lit .vertical lw R tr w h px py dx dy f))).lit u v :=
  octant_lit_inside .horizontal lw R tr hdx hdy _ hu hv

theorem quadrant_lit_outside (lw : Bool) (R : Int) (tr : Int → Int → Bool)
    {w h px py dx dy : Int} (f : Int → Int → Bool) {x y : Int}
    (hq : ¬ (0 ≤ (x - px) * dx ∧ 0 ≤ (y - py) * dy)) :
    quadrant_lit lw R tr w h px py dx dy f x y = f x y := by
  unfold quadrant_lit octant_lit
  rw [of_octant_outside _ _ _ hq, of_octant_outside _ _ _ hq]

/-- The table the vertical-edge sweep hands to the horizontal-edge sweep, in the
ring and scan coordinates of the latter. -/
theorem to_octant_octant_lit (lw : Bool) (R : Int) (tr : Int → Int → Bool)
    {w h px py dx dy : Int} (hdx : dx = 1 ∨ dx = -1) (hdy : dy = 1 ∨ dy = -1)
    (f : Int → Int → Bool) {r s : Int} (hr : 0 ≤ r) (hs : 0 ≤ s) :
    to_octant .horizontal px py dx dy (octant_lit .vertical lw R tr w h px py dx dy f) r s =
      (sweep .vertical lw R (to_octant .vertical px py dx dy tr)
        (ring_extent .vertical w h px py dx dy) (scan_extent .vertical w h px py dx dy)
        (to_octant .vertical px py dx dy f)).lit s r :=
  octant_lit_inside .vertical lw R tr hdx hdy f hs hr

theorem first_quadrant_lit_eq (lw : Bool) (R : Int) (tr : Int → Int → Bool)
    (w h px py : Int) {u v : Int} (hu : 0 ≤ u) (hv : 0 ≤ v) :
    first_quadrant_lit lw R tr w h px py u v =
      (sweep .horizontal lw R (to_octant .horizontal px py 1 1 tr)
        (ring_extent .horizontal w h px py 1 1) (scan_extent .horizontal w h px py 1 1)
        (to_octant .horizontal px py 1 1
          (octant_lit .vertical lw R tr w h px py 1 1
            (fun x y => decide (x = px ∧ y = py))))).lit u v := by
  have h := @quadrant_lit_inside lw R tr w h px py 1 1 (Or.inl rfl) (Or.inl rfl)
    (fun x y => decide (x = px ∧ y = py)) u v hu hv
  rw [mul_one, mul_one] at h
  exact h

theorem extent_mirror {p d : Int} : extent p d (2 * p + 1) = p := by
  unfold extent
  split <;> omega

theorem to_octant_mirror (e : Edge) {px py dx dy : Int} (hdx : dx = 1 ∨ dx = -1)
    (hdy : dy = 1 ∨ dy = -1) (tr : Int → Int → Bool)
    (hsym : ∀ a b, tr (px + a) (py + b) = tr (px - a) (py + b) ∧
      tr (px + a) (py + b) = tr (px + a) (py - b)) :
    to_octant e px py dx dy tr = to_octant e px py 1 1 tr := by
  funext r s
  have h1 : ∀ a b, tr (px + a * -1) (py + b * 1) = tr (px + a * 1) (py + b * 1) := by
    intro a b
    rw [mul_one, mul_one, mul_neg, mul_one, ← sub_eq_add_neg]
    exact ((hsym a b).1).symm
  have h2 : ∀ a b, tr (px + a * 1) (py + b * -1) = tr (px + a * 1) (py + b * 1) := by
    intro a b
    rw [mul_one, mul_one, mul_neg, mul_one, ← sub_eq_add_neg]
    exact ((hsym a b).2).symm
  have h3 : ∀ a b, tr (px + a * -1) (py + b * -1) = tr (px + a * 1) (py + b * 1) := by
    intro a b
    have e1 := (hsym a b).1
    have e2 := (hsym (-a) b).2
    rw [← sub_eq_add_neg] at e2
    rw [mul_one, mul_one, mul_neg, mul_one, mul_neg, mul_one, ← sub_eq_add_neg,
      ← sub_eq_add_neg, ← e2, ← e1]
  cases e <;> rcases hdx with h | h <;> rcases hdy with h5 | h5 <;> subst h h5 <;>
    simp only [to_octant] <;> first | rfl | exact h1 _ _ | exact h2 _ _ | exact h3 _ _

theorem unit_abs {d : Int} (hd : d = 1 ∨ d = -1) {a : Int} (h : 0 ≤ a * d) : |a| = a * d := by
  rcases hd with h1 | h1 <;> subst h1
  · rw [mul_one] at h ⊢
    exact abs_of_nonneg h
  · rw [mul_neg, mul_one] at h ⊢
    exact abs_of_nonpos (by omega)

theorem ring_extent_mirror (e : Edge) (ox oy dx dy : Int) :
    ring_extent e (2 * ox + 1) (2 * oy + 1) ox oy dx dy =
      ring_extent e (2 * ox + 1) (2 * oy + 1) ox oy 1 1 := by
  cases e <;> simp only [ring_extent, extent_mirror]

theorem scan_extent_mirror (e : Edge) (ox oy dx dy : Int) :
    scan_extent e (2 * ox + 1) (2 * oy + 1) ox oy dx dy =
      scan_extent e (2 * ox + 1) (2 * oy + 1) ox oy 1 1 := by
  cases e <;> simp only [scan_extent, extent_mirror]

theorem scan_extent_centre (e : Edge) {ox oy : Int} (hox : 0 ≤ ox) (hoy : 0 ≤ oy)
    (dx dy : Int) : 0 ≤ scan_extent e (2 * ox + 1) (2 * oy + 1) ox oy dx dy := by
  cases e <;> simp only [scan_extent, extent_mirror] <;> assumption

/-- A quadrant sweep of a mirror-symmetric map, run on a table that is dark
inside the quadrant and on each axis cell either dark or as the first quadrant
leaves it, leaves the quadrant as the first quadrant leaves its own. -/
theorem quadrant_lit_mirror (lw : Bool) (R : Int) (tr : Int → Int → Bool) {ox oy dx dy : Int}
    (hdx : dx = 1 ∨ dx = -1) (hdy : dy = 1 ∨ dy = -1) (hox : 0 ≤ ox) (hoy : 0 ≤ oy)
    (hsym : ∀ a b, tr (ox + a) (oy + b) = tr (ox - a) (oy + b) ∧
      tr (ox + a) (oy + b) = tr (ox + a) (oy - b))
    (f : Int → Int → Bool) (h00 : f ox oy = true)
    (hint : ∀ u v, 1 ≤ u → 1 ≤ v → f (ox + u * dx) (oy + v * dy) = false)
    (hy : ∀ v, 1 ≤ v → f ox (oy + v * dy) = false ∨
      f ox (oy + v * dy) = first_quadrant_lit lw R tr (2 * ox + 1) (2 * oy + 1) ox oy 0 v)
    (hx : ∀ u, 1 ≤ u → f (ox + u * dx) oy = false ∨
      f (ox + u * dx) oy = first_quadrant_lit lw R tr (2 * ox + 1) (2 * oy + 1) ox oy u 0)
    {u v : Int} (hu : 0 ≤ u) (hv : 0 ≤ v) :
    quadrant_lit lw R tr (2 * ox + 1) (2 * oy + 1) ox oy dx dy f (ox + u * dx) (oy + v * dy) =
      first_quadrant_lit lw R tr (2 * ox + 1) (2 * oy + 1) ox oy u v := by
  have p1 : (1 : Int) = 1 ∨ (1 : Int) = -1 := Or.inl rfl
  rw [quadrant_lit_inside lw R tr hdx hdy f hu hv, first_quadrant_lit_eq lw R tr _ _ _ _ hu hv,
    to_octant_mirror .horizontal hdx hdy tr hsym, ring_extent_mirror .horizontal ox oy dx dy,
    scan_extent_mirror .horizontal ox oy dx dy]
  refine @quadrant_agree lw R (to_octant .vertical ox oy 1 1 tr)
    (to_octant .horizontal ox oy 1 1 tr)
    (ring_extent .vertical (2 * ox + 1) (2 * oy + 1) ox oy 1 1)
    (scan_extent .vertical (2 * ox + 1) (2 * oy + 1) ox oy 1 1)
    (ring_extent .horizontal (2 * ox + 1) (2 * oy + 1) ox oy 1 1)
    (scan_extent .horizontal (2 * ox + 1) (2 * oy + 1) ox oy 1 1)
    (scan_extent_centre .vertical hox hoy 1 1) (scan_extent_centre .horizontal hox hoy 1 1)
    (to_octant .vertical ox oy 1 1 (fun x y => decide (x = ox ∧ y = oy)))
    (to_octant .vertical ox oy dx dy f) _ _ ?_ ?_ ?_ ?_ ?_ ?_ ?_ u v hu hv
  · intro r s _ _
    simp only [to_octant, mul_one]
    rw [decide_eq_decide]
    omega
  · intro r s hr hs
    exact to_octant_octant_lit lw R tr p1 p1 _ hr hs
  · intro r s hr hs
    rw [to_octant_octant_lit lw R tr hdx hdy f hr hs,
      to_octant_mirror .vertical hdx hdy tr hsym, ring_extent_mirror .vertical ox oy dx dy,
      scan_extent_mirror .vertical ox oy dx dy]
  · simp only [to_octant, zero_mul, add_zero]
    exact h00
  · intro r s hr hs
    exact hint s r hs hr
  · intro r hr
    simp only [to_octant, zero_mul, add_zero]
    rw [← first_quadrant_lit_eq lw R tr _ _ _ _ (le_refl 0) (by omega : 0 ≤ r)]
    exact hy r hr
  · intro s hs
    simp only [to_octant, zero_mul, add_zero]
    rw [← first_quadrant_lit_eq lw R tr _ _ _ _ (by omega : 0 ≤ s) (le_refl 0)]
    exact hx s hs

theorem first_quadrant_lit_origin (lw : Bool) (R : Int) (tr : Int → Int → Bool)
    {ox oy : Int} (hox : 0 ≤ ox) (hoy : 0 ≤ oy) :
    first_quadrant_lit lw R tr (2 * ox + 1) (2 * oy + 1) ox oy 0 0 = true := by
  have p1 : (1 : Int) = 1 ∨ (1 : Int) = -1 := Or.inl rfl
  rw [first_quadrant_lit_eq lw R tr _ _ _ _ (le_refl 0) (le_refl 0),
    sweep_ring_zero .horizontal lw R _ (scan_extent_centre .horizontal hox hoy 1 1) _
      (le_refl 0) 0,
    to_octant_octant_lit lw R tr p1 p1 _ (le_refl 0) (le_refl 0),
    sweep_ring_zero .vertical lw R _ (scan_extent_centre .vertical hox hoy 1 1) _
      (le_refl 0) 0]
  simp only [to_octant, zero_mul, add_zero, and_self, decide_True]

/-- One step of the quadrant sequence on a mirror-symmetric map: the offsets
covered so far, and those of the quadrant just swept, hold the table of the
first quadrant at their absolute values; the others are still dark. -/
theorem quadrant_lit_covers (lw : Bool) (R : Int) (tr : Int → Int → Bool) {ox oy dx dy : Int}
    (hdx : dx = 1 ∨ dx = -1) (hdy : dy = 1 ∨ dy = -1) (hox : 0 ≤ ox) (hoy : 0 ≤ oy)
    (hsym : ∀ a b, tr (ox + a) (oy + b) = tr (ox - a) (oy + b) ∧
      tr (ox + a) (oy + b) = tr (ox + a) (oy - b))
    (c : Int → Int → Bool) (f : Int → Int → Bool)
    (hinv : ∀ a b, f (ox + a) (oy + b) =
      if c a b = true then first_quadrant_lit lw R tr (2 * ox + 1) (2 * oy + 1) ox oy |a| |b|
      else decide (a = 0 ∧ b = 0))
    (hc : ∀ u v, 1 ≤ u → 1 ≤ v → c (u * dx) (v * dy) = false) (a b : Int) :
    quadrant_lit lw R tr (2 * ox + 1) (2 * oy + 1) ox oy dx dy f (ox + a) (oy + b) =
      if (c a b || decide (0 ≤ a * dx ∧ 0 ≤ b * dy)) = true then
        first_quadrant_lit lw R tr (2 * ox + 1) (2 * oy + 1) ox oy |a| |b|
      else decide (a = 0 ∧ b = 0) := by
  have hO := first_quadrant_lit_origin lw R tr hox hoy
  have hne : ∀ {d : Int}, (d = 1 ∨ d = -1) → ∀ u : Int, 1 ≤ u → u * d ≠ 0 := by
    intro d hd u hu
    rcases hd with h | h <;> subst h <;> omega
  have habs : ∀ {d : Int}, (d = 1 ∨ d = -1) → ∀ u : Int, 1 ≤ u → |u * d| = u := by
    intro d hd u hu
    rw [unit_abs hd (by rw [unit_mul_self hd]; omega), unit_mul_self hd]
  by_cases hq : 0 ≤ a * dx ∧ 0 ≤ b * dy
  · have key := quadrant_lit_mirror lw R tr hdx hdy hox hoy hsym f ?_ ?_ ?_ ?_ hq.1 hq.2
    · rw [unit_mul_self hdx, unit_mul_self hdy] at key
      rw [key, unit_abs hdx hq.1, unit_abs hdy hq.2]
      simp only [hq, and_self, decide_True, Bool.or_true, if_true]
    · have h := hinv 0 0
      rw [add_zero, add_zero] at h
      rw [h]
      split
      · rw [abs_zero]; exact hO
      · simp only [and_self, decide_True]
    · intro u v hu hv
      rw [hinv (u * dx) (v * dy), hc u v hu hv, if_neg (by simp), decide_eq_false_iff_not]
      rintro ⟨h1, -⟩
      exact hne hdx u hu h1
    · intro v hv
      have h := hinv 0 (v * dy)
      rw [add_zero] at h
      rw [h]
      by_cases hcv : c 0 (v * dy) = true
      · right
        rw [if_pos hcv, abs_zero, habs hdy v hv]
      · left
        rw [if_neg hcv, decide_eq_false_iff_not]
        rintro ⟨-, h2⟩
        exact hne hdy v hv h2
    · intro u hu
      have h := hinv (u * dx) 0
      rw [add_zero] at h
      rw [h]
      by_cases hcu : c (u * dx) 0 = true
      · right
        rw [if_pos hcu, abs_zero, habs hdx u hu]
      · left
        rw [if_neg hcu, decide_eq_false_iff_not]
        rintro ⟨h2, -⟩
        exact hne hdx u hu h2
  · rw [quadrant_lit_outside lw R tr f (by simpa only [add_sub_cancel_left] using hq),
      hinv a b]
    simp only [hq, decide_False, Bool.or_false]

/-- On a mirror-symmetric map with the origin at the centre, the final table at
any offset is the table of the first quadrant at the absolute offsets. -/
theorem fov_lit_mirror (lw : Bool) (R : Int) (tr : Int → Int → Bool) {ox oy : Int}
    (hox : 0 ≤ ox) (hoy : 0 ≤ oy)
    (hsym : ∀ a b, tr (ox + a) (oy + b) = tr (ox - a) (oy + b) ∧
      tr (ox + a) (oy + b) = tr (ox + a) (oy - b)) (a b : Int) :
    fov_lit lw R tr (2 * ox + 1) (2 * oy + 1) ox oy (ox + a) (oy + b) =
      first_quadrant_lit lw R tr (2 * ox + 1) (2 * oy + 1) ox oy |a| |b| := by
  have p1 : (1 : Int) = 1 ∨ (1 : Int) = -1 := Or.inl rfl
  have m1 : (-1 : Int) = 1 ∨ (-1 : Int) = -1 := Or.inr rfl
  have h0 : ∀ a b, (fun x y => decide (x = ox ∧ y = oy)) (ox + a) (oy + b) =
      if (fun _ _ => false) a b = true then
        first_quadrant_lit lw R tr (2 * ox + 1) (2 * oy + 1) ox oy |a| |b|
      else decide (a = 0 ∧ b = 0) := by
    intro a b
    simp only [Bool.false_eq_true, if_false, add_right_eq_self]
  have h1 := quadrant_lit_covers lw R tr p1 p1 hox hoy hsym (fun _ _ => false)
    (fun x y => decide (x = ox ∧ y = oy)) h0 (by intros; rfl)
  have h2 := quadrant_lit_covers lw R tr p1 m1 hox hoy hsym
    (fun a b => false || decide (0 ≤ a * 1 ∧ 0 ≤ b * 1)) _ h1 (by
      intro u v hu hv
      simp only [Bool.false_or, decide_eq_false_iff_not]
      omega)
  have h3 := quadrant_lit_covers lw R tr m1 p1 hox hoy hsym
    (fun a b => (false || decide (0 ≤ a * 1 ∧ 0 ≤ b * 1)) ||
      decide (0 ≤ a * 1 ∧ 0 ≤ b * -1)) _ h2 (by
      intro u v hu hv
      simp only [Bool.false_or, Bool.or_eq_false_iff, decide_eq_false_iff_not]
      omega)
  have h4 := quadrant_lit_covers lw R tr m1 m1 hox hoy hsym
    (fun a b => ((false || decide (0 ≤ a * 1 ∧ 0 ≤ b * 1)) ||
      decide (0 ≤ a * 1 ∧ 0 ≤ b * -1)) || decide (0 ≤ a * -1 ∧ 0 ≤ b * 1)) _ h3 (by
      intro u v hu hv
      simp only [Bool.false_or, Bool.or_eq_false_iff, decide_eq_false_iff_not]
      omega)
  unfold fov_lit
  rw [h4 a b, if_pos]
  simp only [Bool.false_or, Bool.or_eq_true, decide_eq_true_eq]
  omega

/-! ## Four-fold symmetry -/

/-- C9: on a well-formed map of width `2 * ox + 1` and height `2 * oy + 1` whose
`transparent` flags are the same at the mirror images `(ox - a, oy + b)` and
`(ox + a, oy - b)` of every cell `(ox + a, oy + b)` of the grid, the call with
origin `(ox, oy)` returns, for every radius, both values of `light_walls` and
any content of the interval buffers, and the `fov` flags of the four mirror
images of every cell of the grid are equal. -/
theorem fov_symmetric (m : TCOD_Map) (hwf : m.wf) (ox oy : Int)
    (hw : m.width = 2 * ox + 1) (hh : m.height = 2 * oy + 1)
    (hsym : ∀ a b, m.in_bounds (ox + a) (oy + b) →
      m.is_transparent (ox + a) (oy + b) = m.is_transparent (ox - a) (oy + b) ∧
        m.is_transparent (ox + a) (oy + b) = m.is_transparent (ox + a) (oy - b))
    (max_radius : Int) (light_walls : Bool) (start_angle end_angle : Nat → ℚ) :
    ∃ m1, TCOD_map_compute_fov_restrictive_shadowcasting m ox oy max_radius
        light_walls start_angle end_angle = .ok m1 ∧
      ∀ a b, m.in_bounds (ox + a) (oy + b) →
        m1.visible (ox + a) (oy + b) = m1.visible (ox - a) (oy + b) ∧
          m1.visible (ox - a) (oy + b) = m1.visible (ox + a) (oy - b) ∧
          m1.visible (ox + a) (oy - b) = m1.visible (ox - a) (oy - b) := by
  obtain ⟨w0, h0, _, _⟩ := hwf
  have hox : 0 ≤ ox := by omega
  have hoy : 0 ≤ oy := by omega
  have ho : m.in_bounds ox oy := ⟨hox, by omega, hoy, by omega⟩
  have hmir : ∀ a b, m.in_bounds (ox + a) (oy + b) →
      m.in_bounds (ox - a) (oy + b) ∧ m.in_bounds (ox + a) (oy - b) ∧
        m.in_bounds (ox - a) (oy - b) := by
    intro a b hb
    unfold TCOD_Map.in_bounds at hb ⊢
    rw [hw, hh] at hb ⊢
    omega
  have htr : ∀ a b, m.tr (ox + a) (oy + b) = m.tr (ox - a) (oy + b) ∧
      m.tr (ox + a) (oy + b) = m.tr (ox + a) (oy - b) := by
    intro a b
    by_cases hb : m.in_bounds (ox + a) (oy + b)
    · obtain ⟨b1, b2, _⟩ := hmir a b hb
      rw [tr_of_in_bounds hb, tr_of_in_bounds b1, tr_of_in_bounds b2]
      exact hsym a b hb
    · have c1 : ¬ m.in_bounds (ox - a) (oy + b) := by
        unfold TCOD_Map.in_bounds at hb ⊢
        rw [hw, hh] at hb ⊢
        omega
      have c2 : ¬ m.in_bounds (ox + a) (oy - b) := by
        unfold TCOD_Map.in_bounds at hb ⊢
        rw [hw, hh] at hb ⊢
        omega
      rw [tr_outside hb, tr_outside c1, tr_outside c2]
      exact ⟨rfl, rfl⟩
  obtain ⟨m1, h1, hl⟩ := compute_fov_refines ⟨w0, h0, ‹_›, ‹_›⟩ ho max_radius light_walls
    start_angle end_angle
  rw [hw, hh] at hl
  refine ⟨m1, h1, ?_⟩
  intro a b hb
  obtain ⟨b1, b2, b3⟩ := hmir a b hb
  have hwf1 : m.wf := ⟨w0, h0, ‹_›, ‹_›⟩
  have e0 := fov_lit_mirror light_walls max_radius m.tr hox hoy htr a b
  have e1 := fov_lit_mirror light_walls max_radius m.tr hox hoy htr (-a) b
  have e2 := fov_lit_mirror light_walls max_radius m.tr hox hoy htr a (-b)
  have e3 := fov_lit_mirror light_walls max_radius m.tr hox hoy htr (-a) (-b)
  simp only [← sub_eq_add_neg, abs_neg] at e1 e2 e3
  rw [(hl.visible_at hwf1 hb).1, (hl.visible_at hwf1 b1).1, (hl.visible_at hwf1 b2).1,
    (hl.visible_at hwf1 b3).1, e0, e1, e2, e3]
  exact ⟨rfl, rfl, rfl⟩

theorem pillar_room_mirror (a b : Int) (hb : pillar_room.in_bounds (1 + a) (1 + b)) :
    pillar_room.is_transparent (1 + a) (1 + b) = pillar_room.is_transparent (1 - a) (1 + b) ∧
      pillar_room.is_transparent (1 + a) (1 + b) =
        pillar_room.is_transparent (1 + a) (1 - b) := by
  obtain ⟨h1, h2, h3, h4⟩ := hb
  simp only [pillar_room] at h2 h4
  have ha : a = -1 ∨ a = 0 ∨ a = 1 := by omega
  have hb : b = -1 ∨ b = 0 ∨ b = 1 := by omega
  rcases ha with h | h | h <;> rcases hb with h5 | h5 | h5 <;> subst h h5 <;> decide

theorem fov_symmetric_witness :
    pillar_room.wf ∧ pillar_room.width = 2 * 1 + 1 ∧ pillar_room.height = 2 * 1 + 1 ∧
      (∀ a b, pillar_room.in_bounds (1 + a) (1 + b) →
        pillar_room.is_transparent (1 + a) (1 + b) =
            pillar_room.is_transparent (1 - a) (1 + b) ∧
          pillar_room.is_transparent (1 + a) (1 + b) =
            pillar_room.is_transparent (1 + a) (1 - b)) ∧
      ∃ m1, TCOD_map_compute_fov_restrictive_shadowcasting pillar_room 1 1 0
          true zero_buffer zero_buffer = .ok m1 ∧
        ∀ a b, pillar_room.in_bounds (1 + a) (1 + b) →
          m1.visible (1 + a) (1 + b) = m1.visible (1 - a) (1 + b) ∧
            m1.visible (1 - a) (1 + b) = m1.visible (1 + a) (1 - b) ∧
            m1.visible (1 + a) (1 - b) = m1.visible (1 - a) (1 - b) :=
  ⟨by decide, by decide, by decide, pillar_room_mirror,
    fov_symmetric pillar_room (by decide) 1 1 (by decide) (by decide) pillar_room_mirror
      0 true _ _⟩

/-! ## Termination, frame and degenerate maps -/

theorem while_loop_skip {σ : Type} (cond : σ → Bool) (body : σ → Except Fault σ)
    (fuel : Nat) {s : σ} (h : cond s = false) : while_loop cond body fuel s = .ok s := by
  cases fuel <;> simp [while_loop, h]

/-- The ring loop of a sweep stops at the latest one ring past the last ring of
the quadrant. -/
theorem sweep_ring_bound (e : Edge) (lw : Bool) (R : Int) (tr : Int → Int → Bool)
    {rmax smax : Int} (hs : 0 ≤ smax) (g : Int → Int → Bool) :
    (sweep e lw R tr rmax smax g).ring ≤ max 1 (rmax + 1) := by
  have key := iterate_while_inv
    (fun a : Sweep => RingInv lw R tr rmax smax g a ∧ a.ring ≤ max 1 (rmax + 1))
    (fun a => !a.done) (sweep_ring e lw R tr rmax smax)
    (by
      intro a ha hc
      have hd : a.done = false := by simpa using hc
      refine ⟨sweep_ring_inv e hs ha.1 hd, ?_⟩
      have hr : (sweep_ring e lw R tr rmax smax a).ring = a.ring + 1 := by
        simp only [sweep_ring, ring_close]
        have := (scan_loop_inv e (min a.ring smax + 1 - (ring_open a).pos).toNat
          (scan_start_inv ha.1 hd)).ring
        rw [this]
      have hle := ha.1.ring_le hd
      show (sweep_ring e lw R tr rmax smax a).ring ≤ max 1 (rmax + 1)
      rw [hr]
      omega)
    rmax.toNat (sweep_init g rmax)
    ⟨sweep_init_inv lw R tr rmax smax g, by simp only [sweep_init]; omega⟩
  exact key.2

theorem ring_extent_bound (e : Edge) {m : TCOD_Map} {px py : Int} (dx dy : Int)
    (ho : m.in_bounds px py) :
    max 1 (ring_extent e m.width m.height px py dx dy + 1) - 1 ≤ (ring_bound e m : Int) := by
  obtain ⟨o1, o2, o3, o4⟩ := ho
  cases e <;> simp only [ring_extent, extent, ring_bound] <;> split_ifs <;> omega

/-- C12: for every well-formed map, origin inside it, radius (zero included)
and `light_walls`, the call returns, whatever the buffers hold; and each octant
sweep on such a map, whatever its `fov` flags, returns after processing at most
`height` rings (vertical edge) or `width` rings (horizontal edge), a ring being
one pass through the body of `while (!done)`, counted by `iteration - 1`. -/
theorem compute_fov_terminates (m : TCOD_Map) (hwf : m.wf) (player_x player_y : Int)
    (ho : m.in_bounds player_x player_y) (max_radius : Int) (light_walls : Bool) :
    (∀ start_angle end_angle : Nat → ℚ,
      ∃ m1, TCOD_map_compute_fov_restrictive_shadowcasting m player_x player_y max_radius
        light_walls start_angle end_angle = .ok m1) ∧
    ∀ (e : Edge) (dx dy : Int), (dx = 1 ∨ dx = -1) → (dy = 1 ∨ dy = -1) →
      ∀ start_angle end_angle : Nat → ℚ,
        ∃ o, octant e m player_x player_y max_radius light_walls dx dy
            start_angle end_angle = .ok o ∧
          o.iteration - 1 ≤ (ring_bound e m : Int) := by
  constructor
  · intro sa ea
    obtain ⟨m1, h1, _⟩ := compute_fov_refines hwf ho max_radius light_walls sa ea
    exact ⟨m1, h1⟩
  · intro e dx dy hdx hdy sa ea
    obtain ⟨o, h1, hrel⟩ := octant_refines_rel e ⟨hwf, ho, hdx, hdy⟩ (LitAs.refl hwf)
      light_walls max_radius sa ea
    refine ⟨o, h1, ?_⟩
    rw [hrel.iteration]
    have hb := @sweep_ring_bound e light_walls max_radius
      (to_octant e player_x player_y dx dy m.tr)
      (ring_extent e m.width m.height player_x player_y dx dy) _
      (scan_extent_nonneg e dx dy ho) (to_octant e player_x player_y dx dy m.lit)
    have hc := ring_extent_bound e dx dy ho
    omega

theorem compute_fov_terminates_witness :
    corridor.wf ∧ corridor.in_bounds 2 0 ∧
      (∀ start_angle end_angle : Nat → ℚ,
        ∃ m1, TCOD_map_compute_fov_restrictive_shadowcasting corridor 2 0 0
          true start_angle end_angle = .ok m1) ∧
      ∀ (e : Edge) (dx dy : Int), (dx = 1 ∨ dx = -1) → (dy = 1 ∨ dy = -1) →
        ∀ start_angle end_angle : Nat → ℚ,
          ∃ o, octant e corridor 2 0 0 true dx dy start_angle end_angle = .ok o ∧
            o.iteration - 1 ≤ (ring_bound e corridor : Int) :=
  ⟨by decide, by decide, compute_fov_terminates corridor (by decide) 2 0 (by decide) 0 true⟩

theorem LitAs.walkable_list {m r : TCOD_Map} {f : Int → Int → Bool} (h : LitAs m f r) :
    r.cells.map (fun c => c.walkable) = m.cells.map (fun c => c.walkable) := by
  apply List.ext_getElem?
  intro i
  simp only [List.getElem?_map]
  by_cases hi : i < m.cells.length
  · obtain ⟨c, c0, hc, hc0, _, hw, _⟩ := h.cells i hi
    rw [hc, hc0]
    simp only [Option.map_some', hw]
  · have e1 : r.cells[i]? = none := by
      apply List.getElem?_eq_none
      rw [h.length]; omega
    have e2 : m.cells[i]? = none := by
      apply List.getElem?_eq_none
      omega
    rw [e1, e2]

/-- C13: for every well-formed map and origin inside it the call returns a map
with the same `width`, `height` and `nbcells` and the same `transparent` and
`walkable` flag in every cell; and on any map that differs from the given one
in `walkable` flags only, the call returns the same `fov` flags. -/
theorem compute_fov_frame (m : TCOD_Map) (hwf : m.wf) (player_x player_y : Int)
    (ho : m.in_bounds player_x player_y) (max_radius : Int) (light_walls : Bool)
    (start_angle end_angle : Nat → ℚ) :
    ∃ m1, TCOD_map_compute_fov_restrictive_shadowcasting m player_x player_y max_radius
        light_walls start_angle end_angle = .ok m1 ∧
      m1.width = m.width ∧ m1.height = m.height ∧ m1.nbcells = m.nbcells ∧
      m1.cells.map (fun c => c.transparent) = m.cells.map (fun c => c.transparent) ∧
      m1.cells.map (fun c => c.walkable) = m.cells.map (fun c => c.walkable) ∧
      ∀ (m2 : TCOD_Map) (start_angle2 end_angle2 : Nat → ℚ),
        m2.width = m.width → m2.height = m.height → m2.nbcells = m.nbcells →
        m2.cells.map (fun c => c.transparent) = m.cells.map (fun c => c.transparent) →
        m2.cells.map (fun c => c.fov) = m.cells.map (fun c => c.fov) →
        ∃ r2, TCOD_map_compute_fov_restrictive_shadowcasting m2 player_x player_y max_radius
            light_walls start_angle2 end_angle2 = .ok r2 ∧
          r2.cells.map (fun c => c.fov) = m1.cells.map (fun c => c.fov) := by
  obtain ⟨m1, h1, hl⟩ := compute_fov_refines hwf ho max_radius light_walls start_angle end_angle
  refine ⟨m1, h1, hl.width, hl.height, hl.nbcells, hl.tr_list, hl.walkable_list, ?_⟩
  intro m2 sa2 ea2 hw hh hn htr _
  have hlen : m2.cells.length = m.cells.length := by
    have := congrArg List.length htr
    simpa only [List.length_map] using this
  obtain ⟨w0, h0, n0, l0⟩ := hwf
  have hwf2 : m2.wf := ⟨by rw [hw]; exact w0, by rw [hh]; exact h0,
    by rw [hn, hw, hh]; exact n0, by rw [hlen, hn]; exact l0⟩
  have ho2 : m2.in_bounds player_x player_y := by
    unfold TCOD_Map.in_bounds at ho ⊢
    rw [hw, hh]; exact ho
  obtain ⟨r2, h2, hl2⟩ := compute_fov_refines hwf2 ho2 max_radius light_walls sa2 ea2
  refine ⟨r2, h2, ?_⟩
  rw [tr_eq_of_cells hw hh htr, hw, hh] at hl2
  exact LitAs.fov_list hl2 hl hw hlen

theorem compute_fov_frame_witness :
    corridor.wf ∧ corridor.in_bounds 0 0 ∧
      ∃ m1, TCOD_map_compute_fov_restrictive_shadowcasting corridor 0 0 0
          true zero_buffer zero_buffer = .ok m1 ∧
        m1.width = corridor.width ∧ m1.height = corridor.height ∧
        m1.nbcells = corridor.nbcells ∧
        m1.cells.map (fun c => c.transparent) = corridor.cells.map (fun c => c.transparent) ∧
        m1.cells.map (fun c => c.walkable) = corridor.cells.map (fun c => c.walkable) ∧
        ∀ (m2 : TCOD_Map) (start_angle2 end_angle2 : Nat → ℚ),
          m2.width = corridor.width → m2.height = corridor.height →
          m2.nbcells = corridor.nbcells →
          m2.cells.map (fun c => c.transparent) =
            corridor.cells.map (fun c => c.transparent) →
          m2.cells.map (fun c => c.fov) = corridor.cells.map (fun c => c.fov) →
          ∃ r2, TCOD_map_compute_fov_restrictive_shadowcasting m2 0 0 0
              true start_angle2 end_angle2 = .ok r2 ∧
            r2.cells.map (fun c => c.fov) = m1.cells.map (fun c => c.fov) :=
  ⟨by decide, by decide, compute_fov_frame corridor (by decide) 0 0 (by decide) 0 true _ _⟩

/-- C14: for every well-formed map in which every cell is transparent, every
origin inside it, both values of `light_walls` and every radius `R > 0`, the
call returns and a cell of the map is visible in the returned map exactly when
its Chebyshev distance from the origin is at most `R`. -/
theorem open_map_square (m : TCOD_Map) (hwf : m.wf)
    (htr : ∀ x y, m.in_bounds x y → m.is_transparent x y = true)
    (player_x player_y : Int) (ho : m.in_bounds player_x player_y) (max_radius : Int)
    (hR : 0 < max_radius) (light_walls : Bool) (start_angle end_angle : Nat → ℚ) :
    ∃ m1, TCOD_map_compute_fov_restrictive_shadowcasting m player_x player_y max_radius
        light_walls start_angle end_angle = .ok m1 ∧
      ∀ x y, m.in_bounds x y →
        (m1.visible x y = true ↔ max |x - player_x| |y - player_y| ≤ max_radius) := by
  obtain ⟨m1, h1, hl⟩ := compute_fov_refines hwf ho max_radius light_walls start_angle end_angle
  refine ⟨m1, h1, ?_⟩
  intro x y hb
  rw [(hl.visible_at hwf hb).1]
  constructor
  · intro hv
    exact fov_lit_radius light_walls hR m.tr ⟨ho.1, ho.2.1⟩ ⟨ho.2.2.1, ho.2.2.2⟩ x y hv
  · intro hd
    exact fov_lit_open light_walls max_radius m.tr ⟨ho.1, ho.2.1⟩ ⟨ho.2.2.1, ho.2.2.2⟩
      (fun x y a b c d => (tr_of_in_bounds ⟨a, b, c, d⟩).trans (htr x y ⟨a, b, c, d⟩))
      ⟨hb.1, hb.2.1⟩ ⟨hb.2.2.1, hb.2.2.2⟩ (fun _ => hd)

theorem open_map_square_witness :
    open_room.wf ∧ (∀ x y, open_room.in_bounds x y → open_room.is_transparent x y = true) ∧
      open_room.in_bounds 0 0 ∧ (0 : Int) < 1 ∧
      ∃ m1, TCOD_map_compute_fov_restrictive_shadowcasting open_room 0 0 1
          false zero_buffer zero_buffer = .ok m1 ∧
        ∀ x y, open_room.in_bounds x y →
          (m1.visible x y = true ↔ max |x - 0| |y - 0| ≤ 1) :=
  ⟨by decide, open_room_transparent, by decide, by decide,
    open_map_square open_room (by decide) open_room_transparent 0 0 (by decide) 1 (by decide)
      false _ _⟩

/-- C15: on a map of height 1 a vertical-edge octant sweep from an origin inside
the map returns without processing a ring (`iteration` is still 1) and with the
map as it was; likewise a horizontal-edge sweep on a map of width 1; and on a
well-formed 1 × 1 map the call returns, for every radius, `light_walls` and
transparency of the cell, with its single cell, the origin, visible. -/
theorem degenerate_maps (m : TCOD_Map) (player_x player_y : Int)
    (ho : m.in_bounds player_x player_y) (max_radius : Int) (light_walls : Bool)
    (dx dy : Int) (hdx : dx = 1 ∨ dx = -1) (hdy : dy = 1 ∨ dy = -1)
    (start_angle end_angle : Nat → ℚ) :
    (m.height = 1 →
      ∃ o, octant .vertical m player_x player_y max_radius light_walls dx dy
          start_angle end_angle = .ok o ∧ o.iteration = 1 ∧ o.m = m) ∧
    (m.width = 1 →
      ∃ o, octant .horizontal m player_x player_y max_radius light_walls dx dy
          start_angle end_angle = .ok o ∧ o.iteration = 1 ∧ o.m = m) ∧
    (m.wf → m.width = 1 → m.height = 1 →
      ∃ m1, TCOD_map_compute_fov_restrictive_shadowcasting m player_x player_y max_radius
          light_walls start_angle end_angle = .ok m1 ∧
        m1.cells.map (fun c => c.fov) = [true]) := by
  obtain ⟨o1, o2, o3, o4⟩ := ho
  refine ⟨?_, ?_, ?_⟩
  · intro hh
    refine ⟨octant_init .vertical m player_x player_y dx dy start_angle end_angle, ?_, rfl, rfl⟩
    unfold octant
    apply while_loop_skip
    simp only [octant_init, Bool.not_eq_false', decide_eq_true_eq]
    rcases hdy with h | h <;> subst h <;> omega
  · intro hw
    refine ⟨octant_init .horizontal m player_x player_y dx dy start_angle end_angle, ?_,
      rfl, rfl⟩
    unfold octant
    apply while_loop_skip
    simp only [octant_init, Bool.not_eq_false', decide_eq_true_eq]
    rcases hdx with h | h <;> subst h <;> omega
  · intro hwf hw hh
    have ho : m.in_bounds player_x player_y := ⟨o1, o2, o3, o4⟩
    obtain ⟨m1, h1, hl⟩ := compute_fov_refines hwf ho max_radius light_walls
      start_angle end_angle
    refine ⟨m1, h1, ?_⟩
    obtain ⟨_, _, hn, hlen⟩ := hwf
    have hlen1 : m.cells.length = 1 := by
      have : (m.cells.length : Int) = 1 := by rw [hlen, hn, hw, hh]; rfl
      omega
    obtain ⟨c, _, hc, _, _, _, hf⟩ := hl.cells 0 (by omega)
    have hx : player_x = 0 := by omega
    have hy : player_y = 0 := by omega
    have hlit : c.fov = true := by
      rw [hf, hw]
      simp only [Nat.cast_zero, Int.zero_emod, Int.zero_ediv]
      have := fov_lit_origin light_walls max_radius m.tr (w := m.width) (h := m.height)
        ⟨o1, o2⟩ ⟨o3, o4⟩
      rw [hx, hy, hw] at this
      rw [hx, hy]
      exact this
    have hl1 : m1.cells.length = 1 := by rw [hl.length]; exact hlen1
    match hm : m1.cells, hl1 with
    | [d], _ =>
      rw [hm] at hc
      simp only [List.getElem?_cons_zero, Option.some.injEq] at hc
      rw [List.map_cons, List.map_nil, hc, hlit]

theorem degenerate_maps_witness :
    single_cell.in_bounds 0 0 ∧ ((1 : Int) = 1 ∨ (1 : Int) = -1) ∧
      ((-1 : Int) = 1 ∨ (-1 : Int) = -1) ∧
      (∃ o, octant .vertical single_cell 0 0 0 false 1 (-1)
          zero_buffer zero_buffer = .ok o ∧ o.iteration = 1 ∧ o.m = single_cell) ∧
      (∃ o, octant .horizontal single_cell 0 0 0 false 1 (-1)
          zero_buffer zero_buffer = .ok o ∧ o.iteration = 1 ∧ o.m = single_cell) ∧
      ∃ m1, TCOD_map_compute_fov_restrictive_shadowcasting single_cell 0 0 0
          false zero_buffer zero_buffer = .ok m1 ∧
        m1.cells.map (fun c => c.fov) = [true] :=
  ⟨by decide, by decide, by decide,
    (degenerate_maps single_cell 0 0 (by decide) 0 false 1 (-1) (by decide) (by decide)
      zero_buffer zero_buffer).1 rfl,
    (degenerate_maps single_cell 0 0 (by decide) 0 false 1 (-1) (by decide) (by decide)
      zero_buffer zero_buffer).2.1 rfl,
    (degenerate_maps single_cell 0 0 (by decide) 0 false 1 (-1) (by decide) (by decide)
      zero_buffer zero_buffer).2.2 (by decide) rfl rfl⟩

/-! ## The neighbour test -/

/-- C17, as the code has it: one neighbour that is not visible-and-transparent
does not block. In the first octant block of the call on the 3 × 3 room with a
pillar at `(1, 1)`, origin `(0, 0)`, `light_walls = true`: after ring 1 one
obstacle is recorded, the neighbour `(1, 1)` of the cell `(1, 2)` is not
visible-and-transparent, the other neighbour `(0, 1)` is, and `(1, 2)` is not
yet in view; ring 2 marks `(1, 2)` visible. -/
theorem neighbour_test_needs_both :
    ((first_vertical_rings pillar_cross 0 0 0 true zero_buffer zero_buffer 1).map fun s =>
        (s.done, s.iteration, s.obstacles_in_last_line,
          s.m.visible 1 1 && s.m.is_transparent 1 1,
          s.m.visible 0 1 && s.m.is_transparent 0 1, s.m.visible 1 2)).toOption =
      some (false, 2, 1, false, true, false) ∧
    ((first_vertical_rings pillar_cross 0 0 0 true zero_buffer zero_buffer 2).map fun s =>
        s.m.visible 1 2).toOption = some true := by
  constructor <;> decide!

/-- C17 amended: in both octant blocks, when at least one obstacle was recorded
on earlier rings and neither of the two neighbour cells one ring closer is both
in view and transparent, the scan of the cell returns with the map, the
obstacle buffers, `min_angle`, `done` and the obstacle count as they were: the
cell is blocked and not marked visible. -/
theorem neighbour_test_blocks (e : Edge) (light_walls : Bool) (dx dy : Int)
    (slopes_per_cell half_slopes : ℚ) (s : Octant) (a b : TCOD_MapCell)
    (hlast : 0 < s.obstacles_in_last_line)
    (ha : s.m.cell (first_neighbour e s.m.width (s.x + s.y * s.m.width) dx dy) = .ok a)
    (hb : s.m.cell (s.x + s.y * s.m.width - s.m.width * dy - dx) = .ok b)
    (hna : (a.fov && a.transparent) = false) (hnb : (b.fov && b.transparent) = false) :
    ∃ s1, scan_cell e light_walls dx dy slopes_per_cell half_slopes s = .ok s1 ∧
      s1.m = s.m ∧ s1.start_angle = s.start_angle ∧ s1.end_angle = s.end_angle ∧
      s1.min_angle = s.min_angle ∧ s1.done = s.done ∧
      s1.total_obstacles = s.total_obstacles := by
  have hblocked : neighbours_blocked e s.m (s.x + s.y * s.m.width) dx dy = .ok true := by
    unfold neighbours_blocked
    rw [bind_ok ha]
    simp only [hna, Bool.false_eq_true, if_false, bind_ok hb, hnb, Bool.not_false]
  unfold scan_cell cell_visibility
  simp only [gt_iff_lt, hlast, if_true, bind_ok hblocked]
  cases e
  · exact ⟨_, rfl, rfl, rfl, rfl, rfl, rfl, rfl⟩
  · exact ⟨_, rfl, rfl, rfl, rfl, rfl, rfl, rfl⟩

theorem neighbour_test_blocks_witness :
    0 < dark_scan.obstacles_in_last_line ∧
      dark_scan.m.cell (first_neighbour .vertical dark_scan.m.width
        (dark_scan.x + dark_scan.y * dark_scan.m.width) 1 1) = .ok floor_cell ∧
      dark_scan.m.cell (dark_scan.x + dark_scan.y * dark_scan.m.width -
        dark_scan.m.width * 1 - 1) = .ok floor_cell ∧
      (floor_cell.fov && floor_cell.transparent) = false ∧
      ∃ s1, scan_cell .vertical true 1 1 (1 / 2) (1 / 4) dark_scan = .ok s1 ∧
        s1.m = dark_scan.m ∧ s1.start_angle = dark_scan.start_angle ∧
        s1.end_angle = dark_scan.end_angle ∧ s1.min_angle = dark_scan.min_angle ∧
        s1.done = dark_scan.done ∧ s1.total_obstacles = dark_scan.total_obstacles :=
  ⟨by decide, rfl, rfl, rfl,
    neighbour_test_blocks .vertical true 1 1 (1 / 2) (1 / 4) dark_scan floor_cell floor_cell
      (by decide) rfl rfl rfl rfl⟩

/-! ## The obstacle buffers and the obstacle loop on concrete maps -/

/-- C11, evaluated: on the 2 × 5 map with walls at `(1, 1)` and `(1, 4)`, origin
`(0, 0)`, `max_radius = 0`, `light_walls = true`, the capacity `nbcells / 7` of
the buffers is 1, and the first octant block of the call ends, after four
rings, with two obstacles recorded, the second one written at index 1. -/
theorem obstacle_buffer_overflow :
    max_obstacles narrow_hall = 1 ∧
    ((first_vertical_rings narrow_hall 0 0 0 true zero_buffer zero_buffer 4).map fun s =>
        (s.done, s.total_obstacles, s.start_angle 1, s.end_angle 1)).toOption =
      some (true, 2, 1 / 8, 3 / 8) := by
  constructor
  · decide
  · decide!

/-- C16, evaluated: on the 7 × 5 map with walls at `(3, 1)`, `(4, 3)` and
`(6, 3)`, origin `(0, 0)`, signs `(1, 1)`, `max_radius = 0`, `light_walls = true`
and no cell in view, the horizontal-edge block marks the cell `(6, 4)` visible,
while the vertical-edge block on the transposed map, whose walls are at
`(1, 3)`, `(3, 4)` and `(3, 6)`, leaves the cell `(4, 6)` dark. -/
theorem octant_sweeps_differ :
    ((octant .horizontal gapped_hall 0 0 0 true 1 1 zero_buffer zero_buffer).map fun o =>
        o.m.visible 6 4).toOption = some true ∧
    ((octant .vertical gapped_hall.transpose 0 0 0 true 1 1 zero_buffer zero_buffer).map
        fun o => o.m.visible 4 6).toOption = some false ∧
    (gapped_hall.transpose.width, gapped_hall.transpose.height,
        (gapped_hall.transpose.cells.filter fun c => !c.transparent).length,
        gapped_hall.transpose.is_transparent 1 3, gapped_hall.transpose.is_transparent 3 4,
        gapped_hall.transpose.is_transparent 3 6) = (5, 7, 3, false, false, false) := by
  refine ⟨?_, ?_, ?_⟩ <;> decide!

/-- C18, evaluated: in the horizontal-edge block of the quadrant `(1, 1)` of the
call on the 7 × 5 map with walls at `(3, 1)`, `(4, 3)` and `(6, 3)`, origin
`(0, 0)`, `max_radius = 0`, `light_walls = true`: after ring 5 the obstacles
`(1/6, 1/2)` and `(5/8, 7/8)` are recorded, the neighbour `(5, 3)` of the
transparent cell `(6, 4)` is in view and transparent, and `(6, 4)` is dark;
the slope range `[7/12, 3/4]` of `(6, 4)` on ring 6 overlaps the second
obstacle, which strictly contains its centre slope `2/3`; yet ring 6, which
leaves the second obstacle as it is, marks `(6, 4)` visible. -/
theorem horizontal_sweep_skips_obstacle :
    ((first_horizontal_rings gapped_hall 0 0 0 true zero_buffer zero_buffer 5).map fun s =>
        (s.done, s.iteration, s.obstacles_in_last_line, s.obstacles)).toOption =
      some (false, 6, 2, [(1 / 6, 1 / 2), (5 / 8, 7 / 8)]) ∧
    ((first_horizontal_rings gapped_hall 0 0 0 true zero_buffer zero_buffer 5).map fun s =>
        (s.m.visible 5 3 && s.m.is_transparent 5 3, s.m.is_transparent 6 4,
          s.m.visible 6 4)).toOption = some (true, true, false) ∧
    (start_slope 6 4 ≤ 7 / 8 ∧ end_slope 6 4 ≥ 5 / 8 ∧
      (5 : ℚ) / 8 < centre_slope 6 4 ∧ centre_slope 6 4 < 7 / 8) ∧
    ((first_horizontal_rings gapped_hall 0 0 0 true zero_buffer zero_buffer 6).map fun s =>
        (s.m.visible 6 4, s.obstacles)).toOption =
      some (true, [(1 / 6, 7 / 12), (5 / 8, 7 / 8)]) := by
  refine ⟨?_, ?_, ?_, ?_⟩ <;> decide!

/-- C19, as the code has it: an opaque cell that is not blocked may append an
obstacle. In the first octant block of the call on the 2 × 5 map with walls at
`(1, 1)` and `(1, 4)`, origin `(0, 0)`, `light_walls = true`: after ring 3 the
one obstacle `(1/2, 3/2)` is recorded and the neighbour `(1, 3)` of the opaque
cell `(1, 4)` is in view and transparent; the slope range `[1/8, 3/8]` of
`(1, 4)` on ring 4 does not overlap the obstacle; ring 4 marks `(1, 4)` visible
and appends the obstacle `(1/8, 3/8)`. -/
theorem opaque_cell_appends_obstacle :
    ((first_vertical_rings narrow_hall 0 0 0 true zero_buffer zero_buffer 3).map fun s =>
        (s.done, s.iteration, s.obstacles_in_last_line, s.obstacles)).toOption =
      some (false, 4, 1, [(1 / 2, 3 / 2)]) ∧
    ((first_vertical_rings narrow_hall 0 0 0 true zero_buffer zero_buffer 3).map fun s =>
        (s.m.visible 1 3 && s.m.is_transparent 1 3, s.m.is_transparent 1 4,
          s.m.visible 1 4)).toOption = some (true, false, false) ∧
    (start_slope 4 1 = 1 / 8 ∧ end_slope 4 1 = 3 / 8 ∧ ¬ end_slope 4 1 ≥ 1 / 2) ∧
    ((first_vertical_rings narrow_hall 0 0 0 true zero_buffer zero_buffer 4).map fun s =>
        (s.m.visible 1 4, s.obstacles)).toOption =
      some (true, [(1 / 2, 3 / 2), (1 / 8, 3 / 8)]) := by
  refine ⟨?_, ?_, ?_, ?_⟩ <;> decide!

/-! ## The opaque-cell rule of the vertical-edge obstacle loop -/

theorem cell_ok_iff {m : TCOD_Map} {c : Int} {cell : TCOD_MapCell}
    (h : m.cell c = .ok cell) : 0 ≤ c ∧ m.cells[c.toNat]? = some cell := by
  unfold TCOD_Map.cell at h
  by_cases hc : 0 ≤ c
  · rw [if_pos hc] at h
    refine ⟨hc, ?_⟩
    cases hx : m.cells[c.toNat]? with
    | none => rw [hx] at h; cases h
    | some d =>
      rw [hx] at h
      simp only [Except.ok.injEq] at h
      rw [h]
  · rw [if_neg hc] at h; cases h

theorem set_fov_ok {m : TCOD_Map} {c : Int} {cell : TCOD_MapCell}
    (h : m.cell c = .ok cell) (b : Bool) :
    ∃ m1, m.set_fov c b = .ok m1 ∧ m1.cell c = .ok { cell with fov := b } ∧
      m1.width = m.width := by
  obtain ⟨hc, hx⟩ := cell_ok_iff h
  refine ⟨{ m with cells := m.cells.set c.toNat { cell with fov := b } }, ?_, ?_, rfl⟩
  · unfold TCOD_Map.set_fov
    rw [if_pos hc, hx]
  · unfold TCOD_Map.cell
    rw [if_pos hc]
    have hlt : c.toNat < m.cells.length := by
      by_contra hcon
      rw [List.getElem?_eq_none (by omega)] at hx
      cases hx
    simp only [List.getElem?_set_self hlt]

/-- The branch `if (visible)` on an opaque cell that widened an obstacle returns,
appends nothing and leaves the `fov` flag of the cell equal to `light_walls`. -/
theorem mark_visible_extended (light_walls : Bool) (ss es : ℚ) {c : Int} {s : Octant}
    {cell : TCOD_MapCell} (hcell : s.m.cell c = .ok cell) (hop : cell.transparent = false) :
    ∃ s2, mark_visible light_walls ss es true c s = .ok s2 ∧
      s2.total_obstacles = s.total_obstacles ∧ s2.start_angle = s.start_angle ∧
      s2.end_angle = s.end_angle ∧ s2.processed_cell = s.processed_cell ∧
      s2.x = s.x ∧ s2.y = s.y ∧ s2.m.cell c = .ok { cell with fov := light_walls } := by
  obtain ⟨t, w, f⟩ := cell
  simp only at hop
  subst hop
  obtain ⟨m1, h1, h2, _⟩ := set_fov_ok hcell true
  obtain ⟨m2, h3, h4, _⟩ := set_fov_ok h2 false
  unfold mark_visible
  simp only [bind_ok h1, bind_ok h2, Bool.not_false, if_true, Bool.not_true,
    Bool.false_eq_true, if_false]
  by_cases hmin : s.min_angle ≥ ss
  · simp only [hmin, if_true]
    cases light_walls
    · simp only [Bool.not_false, if_true, bind_ok h3]
      exact ⟨_, rfl, rfl, rfl, rfl, rfl, rfl, rfl, h4⟩
    · simp only [Bool.not_true, Bool.false_eq_true, if_false]
      exact ⟨_, rfl, rfl, rfl, rfl, rfl, rfl, rfl, h2⟩
  · simp only [hmin, if_false]
    cases light_walls
    · simp only [Bool.not_false, if_true, bind_ok h3]
      exact ⟨_, rfl, rfl, rfl, rfl, rfl, rfl, rfl, h4⟩
    · simp only [Bool.not_true, Bool.false_eq_true, if_false]
      exact ⟨_, rfl, rfl, rfl, rfl, rfl, rfl, rfl, h2⟩

/-- The branch `if (visible)` on an opaque cell returns and leaves the `fov`
flag of the cell equal to `light_walls`. -/
theorem mark_visible_on_wall (light_walls : Bool) (ss es : ℚ) (ext : Bool) {c : Int}
    {s : Octant} {cell : TCOD_MapCell} (hcell : s.m.cell c = .ok cell)
    (hop : cell.transparent = false) :
    ∃ s2, mark_visible light_walls ss es ext c s = .ok s2 ∧
      s2.m.cell c = .ok { cell with fov := light_walls } := by
  obtain ⟨t, w, f⟩ := cell
  simp only at hop
  subst hop
  obtain ⟨m1, h1, h2, _⟩ := set_fov_ok hcell true
  obtain ⟨m2, h3, h4, _⟩ := set_fov_ok h2 false
  unfold mark_visible
  simp only [bind_ok h1, bind_ok h2, Bool.not_false, if_true]
  cases light_walls
  · simp only [Bool.not_false, if_true]
    split_ifs <;> simp only [bind_ok h3] <;> exact ⟨_, rfl, h4⟩
  · simp only [Bool.not_true, Bool.false_eq_true, if_false]
    split_ifs <;> exact ⟨_, rfl, h2⟩

/-- One pass of the vertical-edge obstacle loop on an opaque cell. -/
theorem obstacle_body_on_wall {m : TCOD_Map} {c : Int} {cell : TCOD_MapCell}
    (hcell : m.cell c = .ok cell) (hop : cell.transparent = false) (ss cs es : ℚ)
    (t : CellScan) :
    obstacle_body .vertical m c ss cs es t = .ok
      (if ss ≤ t.end_angle t.idx ∧ es ≥ t.start_angle t.idx then
        if ss ≥ t.start_angle t.idx ∧ es ≤ t.end_angle t.idx then
          { t with visible := false, idx := t.idx + 1 }
        else
          { t with
            start_angle := Function.update t.start_angle t.idx (min (t.start_angle t.idx) ss)
            end_angle := Function.update t.end_angle t.idx (max (t.end_angle t.idx) es)
            extended := true
            idx := t.idx + 1 }
      else { t with idx := t.idx + 1 }) := by
  unfold obstacle_body MAX MIN
  by_cases hov : ss ≤ t.end_angle t.idx ∧ es ≥ t.start_angle t.idx
  · simp only [hov, and_self, if_true, bind_ok hcell, hop, Bool.false_eq_true, if_false]
    by_cases hct : ss ≥ t.start_angle t.idx ∧ es ≤ t.end_angle t.idx
    · simp only [hct, and_self, if_true]
    · simp only [hct, if_false]
  · simp only [hov, if_false]

theorem opaque_loop_vertical {m : TCOD_Map} {c : Int} {cell : TCOD_MapCell}
    (hcell : m.cell c = .ok cell) (hop : cell.transparent = false) (sa ea : Nat → ℚ)
    (ss cs es : ℚ) (last : Nat) :
    ∀ (n k : Nat) (t : CellScan), k + n = last → OpaqueScan sa ea ss es k t →
      ∃ r, while_loop (fun t => decide (t.idx < last) && t.visible)
          (obstacle_body .vertical m c ss cs es) n t = .ok r ∧
        ((r.visible = false ∧
            ∃ i, i < last ∧ (ss ≤ ea i ∧ es ≥ sa i) ∧ (ss ≥ sa i ∧ es ≤ ea i)) ∨
          OpaqueScan sa ea ss es last r) := by
  intro n
  induction n with
  | zero =>
    intro k t hk ht
    have hkl : k = last := by omega
    subst hkl
    refine ⟨t, ?_, Or.inr ht⟩
    apply while_loop_skip
    simp only [ht.idx, lt_self_iff_false, decide_False, Bool.false_and]
  | succ n ih =>
    intro k t hk ht
    have hlt : k < last := by omega
    have hcond : (fun t : CellScan => decide (t.idx < last) && t.visible) t = true := by
      simp only [ht.idx, hlt, decide_True, ht.visible, Bool.and_self]
    have hsa : t.start_angle k = sa k := (ht.kept k (by omega)).1
    have hea : t.end_angle k = ea k := (ht.kept k (by omega)).2
    have hstep : while_loop (fun t => decide (t.idx < last) && t.visible)
        (obstacle_body .vertical m c ss cs es) (n + 1) t =
        (obstacle_body .vertical m c ss cs es t).bind
          (while_loop (fun t => decide (t.idx < last) && t.visible)
            (obstacle_body .vertical m c ss cs es) n) := by
      simp only [while_loop, hcond, if_true]
    rw [hstep, bind_ok (obstacle_body_on_wall hcell hop ss cs es t), ht.idx, hsa, hea]
    by_cases hov : ss ≤ ea k ∧ es ≥ sa k
    · rw [if_pos hov]
      by_cases hct : ss ≥ sa k ∧ es ≤ ea k
      · rw [if_pos hct]
        refine ⟨{ t with visible := false, idx := k + 1 }, ?_,
          Or.inl ⟨rfl, k, hlt, hov, hct⟩⟩
        apply while_loop_skip
        simp only [Bool.and_false]
      · rw [if_neg hct]
        apply ih (k + 1) _ (by omega)
        refine
          { idx := by simp only [ht.idx]
            visible := ht.visible
            open_before := ?_
            widened := ?_
            kept := ?_
            extended := ?_ }
        · intro i hi
          by_cases hik : i = k
          · subst hik; exact fun h => hct h.2
          · exact ht.open_before i (by omega)
        · intro i hi hovi
          by_cases hik : i = k
          · subst hik
            simp only [Function.update_same, and_self]
          · simp only [Function.update_noteq hik]
            exact ht.widened i (by omega) hovi
        · intro i hi
          have hik : i ≠ k := by
            intro h; subst h; exact hi ⟨by omega, hov⟩
          simp only [Function.update_noteq hik]
          exact ht.kept i (fun h => hi ⟨by omega, h.2⟩)
        · exact ⟨fun _ => ⟨k, by omega, hov⟩, fun _ => rfl⟩
    · rw [if_neg hov]
      apply ih (k + 1) _ (by omega)
      refine
        { idx := by simp only [ht.idx]
          visible := ht.visible
          open_before := ?_
          widened := ?_
          kept := ?_
          extended := ?_ }
      · intro i hi
        by_cases hik : i = k
        · subst hik; exact fun h => hov h.1
        · exact ht.open_before i (by omega)
      · intro i hi hovi
        have hik : i ≠ k := by
          intro h; subst h; exact hov hovi
        exact ht.widened i (by omega) hovi
      · intro i hi
        apply ht.kept i
        exact fun h => hi ⟨by omega, h.2⟩
      · rw [ht.extended]
        constructor
        · rintro ⟨i, hi, h⟩; exact ⟨i, by omega, h⟩
        · rintro ⟨i, hi, h⟩
          have hik : i ≠ k := by
            intro h2; subst h2; exact hov h
          exact ⟨i, by omega, h⟩

/-- C19 amended, for the vertical-edge octant block: an opaque scanned cell that
passes the neighbour test is blocked exactly when some obstacle of the earlier
rings overlaps its slope range and contains the whole range, bounds included;
when it is not blocked, every obstacle of the earlier rings that overlaps it
is widened to `min(start_angle, start_slope)`, `max(end_angle, end_slope)`, the
other buffer entries are as they were, the scan of the cell returns with the
`fov` flag of the cell equal to `light_walls`, and, if at least one obstacle
overlapped the cell, without appending an obstacle. -/
theorem opaque_rule_vertical (light_walls : Bool) (dx dy : Int)
    (slopes_per_cell half_slopes : ℚ) (s : Octant) (cell : TCOD_MapCell) (ss cs es : ℚ)
    (hcs : cs = (s.processed_cell : ℚ) * slopes_per_cell) (hss : ss = cs - half_slopes)
    (hes : es = cs + half_slopes) (hlast : 0 < s.obstacles_in_last_line)
    (hnb : neighbours_blocked .vertical s.m (s.x + s.y * s.m.width) dx dy = .ok false)
    (hcell : s.m.cell (s.x + s.y * s.m.width) = .ok cell) (hop : cell.transparent = false) :
    ∃ r s1,
      cell_visibility .vertical dx dy ss cs es (s.x + s.y * s.m.width) s = .ok r ∧
      scan_cell .vertical light_walls dx dy slopes_per_cell half_slopes s = .ok s1 ∧
      (r.visible = false ↔ ∃ i, i < s.obstacles_in_last_line ∧
        (ss ≤ s.end_angle i ∧ es ≥ s.start_angle i) ∧
        (ss ≥ s.start_angle i ∧ es ≤ s.end_angle i)) ∧
      (r.visible = true →
        (∀ i, i < s.obstacles_in_last_line → (ss ≤ s.end_angle i ∧ es ≥ s.start_angle i) →
          r.start_angle i = min (s.start_angle i) ss ∧
            r.end_angle i = max (s.end_angle i) es) ∧
        (∀ i, ¬ (i < s.obstacles_in_last_line ∧ (ss ≤ s.end_angle i ∧ es ≥ s.start_angle i)) →
          r.start_angle i = s.start_angle i ∧ r.end_angle i = s.end_angle i) ∧
        s1.m.cell (s.x + s.y * s.m.width) = .ok { cell with fov := light_walls } ∧
        ((∃ i, i < s.obstacles_in_last_line ∧
            (ss ≤ s.end_angle i ∧ es ≥ s.start_angle i)) →
          s1.total_obstacles = s.total_obstacles ∧ s1.start_angle = r.start_angle ∧
            s1.end_angle = r.end_angle)) := by
  have hinit : OpaqueScan s.start_angle s.end_angle ss es 0
      { start_angle := s.start_angle, end_angle := s.end_angle, idx := 0, visible := true,
        extended := false } :=
    { idx := rfl, visible := rfl
      open_before := fun i hi => absurd hi (by omega)
      widened := fun i hi => absurd hi (by omega)
      kept := fun i _ => ⟨rfl, rfl⟩
      extended := by
        constructor
        · intro h; cases h
        · rintro ⟨i, hi, _⟩; omega }
  obtain ⟨r, hr, hpost⟩ := opaque_loop_vertical hcell hop s.start_angle s.end_angle ss cs es
    s.obstacles_in_last_line s.obstacles_in_last_line 0 _ (by omega) hinit
  have hcv : cell_visibility .vertical dx dy ss cs es (s.x + s.y * s.m.width) s = .ok r := by
    unfold cell_visibility
    simp only [gt_iff_lt, hlast, if_true, bind_ok hnb, Bool.false_eq_true, if_false]
    exact hr
  have hscan : scan_cell .vertical light_walls dx dy slopes_per_cell half_slopes s =
      ((if r.visible = true then
          mark_visible light_walls ss es r.extended (s.x + s.y * s.m.width)
            { s with start_angle := r.start_angle, end_angle := r.end_angle }
        else .ok { s with start_angle := r.start_angle, end_angle := r.end_angle }).bind
        fun s2 => .ok { s2 with processed_cell := s2.processed_cell + 1, x := s2.x + dx }) := by
    unfold scan_cell
    simp only [← hcs, ← hss, ← hes, bind_ok hcv]
  rcases hpost with ⟨hvis, hex⟩ | hopen
  · refine ⟨r,
      { s with
        start_angle := r.start_angle, end_angle := r.end_angle
        processed_cell := s.processed_cell + 1, x := s.x + dx },
      hcv, ?_, ⟨fun _ => hex, fun _ => hvis⟩, ?_⟩
    · rw [hscan]
      simp only [hvis, Bool.false_eq_true, if_false]
      rfl
    · intro h; rw [hvis] at h; cases h
  · have hcell1 : ({ s with start_angle := r.start_angle, end_angle := r.end_angle } :
        Octant).m.cell (s.x + s.y * s.m.width) = .ok cell := hcell
    have hno : ¬ ∃ i, i < s.obstacles_in_last_line ∧
        (ss ≤ s.end_angle i ∧ es ≥ s.start_angle i) ∧
        (ss ≥ s.start_angle i ∧ es ≤ s.end_angle i) := by
      rintro ⟨i, hi, h⟩
      exact hopen.open_before i hi h
    by_cases hext : r.extended = true
    · obtain ⟨s2, h2, t1, t2, t3, _, _, _, t7⟩ :=
        mark_visible_extended light_walls ss es hcell1 hop
      refine ⟨r, { s2 with processed_cell := s2.processed_cell + 1, x := s2.x + dx }, hcv, ?_,
        ⟨fun h => (by rw [hopen.visible] at h; cases h), fun h => absurd h hno⟩, ?_⟩
      · rw [hscan]
        simp only [hopen.visible, if_true, hext, bind_ok h2]
      · intro _
        exact ⟨hopen.widened, hopen.kept, t7, fun _ => ⟨t1, t2, t3⟩⟩
    · obtain ⟨s2, h2, t7⟩ := mark_visible_on_wall light_walls ss es r.extended hcell1 hop
      refine ⟨r, { s2 with processed_cell := s2.processed_cell + 1, x := s2.x + dx }, hcv, ?_,
        ⟨fun h => (by rw [hopen.visible] at h; cases h), fun h => absurd h hno⟩, ?_⟩
      · rw [hscan]
        simp only [hopen.visible, if_true, bind_ok h2]
      · intro _
        exact ⟨hopen.widened, hopen.kept, t7, fun h => absurd (hopen.extended.mpr h) hext⟩

theorem opaque_rule_vertical_witness :
    ((1 : ℚ) / 2 = (widening_scan.processed_cell : ℚ) * (1 / 2)) ∧
      ((1 : ℚ) / 4 = 1 / 2 - 1 / 4) ∧ ((3 : ℚ) / 4 = 1 / 2 + 1 / 4) ∧
      0 < widening_scan.obstacles_in_last_line ∧
      neighbours_blocked .vertical widening_scan.m
        (widening_scan.x + widening_scan.y * widening_scan.m.width) 1 1 = .ok false ∧
      widening_scan.m.cell (widening_scan.x + widening_scan.y * widening_scan.m.width) =
        .ok wall_cell ∧
      wall_cell.transparent = false ∧
      ∃ r s1,
        cell_visibility .vertical 1 1 (1 / 4) (1 / 2) (3 / 4)
          (widening_scan.x + widening_scan.y * widening_scan.m.width) widening_scan = .ok r ∧
        scan_cell .vertical true 1 1 (1 / 2) (1 / 4) widening_scan = .ok s1 ∧
        (r.visible = false ↔ ∃ i, i < widening_scan.obstacles_in_last_line ∧
          ((1 : ℚ) / 4 ≤ widening_scan.end_angle i ∧ (3 : ℚ) / 4 ≥ widening_scan.start_angle i) ∧
          ((1 : ℚ) / 4 ≥ widening_scan.start_angle i ∧
            (3 : ℚ) / 4 ≤ widening_scan.end_angle i)) ∧
        (r.visible = true →
          (∀ i, i < widening_scan.obstacles_in_last_line →
            ((1 : ℚ) / 4 ≤ widening_scan.end_angle i ∧
              (3 : ℚ) / 4 ≥ widening_scan.start_angle i) →
            r.start_angle i = min (widening_scan.start_angle i) (1 / 4) ∧
              r.end_angle i = max (widening_scan.end_angle i) (3 / 4)) ∧
          (∀ i, ¬ (i < widening_scan.obstacles_in_last_line ∧
              ((1 : ℚ) / 4 ≤ widening_scan.end_angle i ∧
                (3 : ℚ) / 4 ≥ widening_scan.start_angle i)) →
            r.start_angle i = widening_scan.start_angle i ∧
              r.end_angle i = widening_scan.end_angle i) ∧
          s1.m.cell (widening_scan.x + widening_scan.y * widening_scan.m.width) =
            .ok { wall_cell with fov := true } ∧
          ((∃ i, i < widening_scan.obstacles_in_last_line ∧
              ((1 : ℚ) / 4 ≤ widening_scan.end_angle i ∧
                (3 : ℚ) / 4 ≥ widening_scan.start_angle i)) →
            s1.total_obstacles = widening_scan.total_obstacles ∧
              s1.start_angle = r.start_angle ∧ s1.end_angle = r.end_angle)) :=
  ⟨by decide!, by decide!, by decide!, by decide, rfl, rfl, rfl,
    opaque_rule_vertical true 1 1 (1 / 2) (1 / 4) widening_scan wall_cell (1 / 4) (1 / 2)
      (3 / 4) (by decide!) (by decide!) (by decide!) (by decide) rfl rfl rfl⟩

/-! ## The checked code returns what the code returns -/

theorem while_loop_congr {σ α : Type} (Rel : σ → α → Prop)
    (cc : σ → Bool) (bc bc1 : σ → Except Fault σ) (ca : α → Bool) (ba : α → α)
    (hcond : ∀ s a, Rel s a → cc s = ca a)
    (hbody : ∀ s a, Rel s a → ca a = true → ∃ s1, bc s = .ok s1 ∧ Rel s1 (ba a))
    (heq : ∀ s a, Rel s a → ca a = true → bc1 s = bc s) :
    ∀ (fuel : Nat) (s : σ) (a : α), Rel s a →
      while_loop cc bc1 fuel s = while_loop cc bc fuel s := by
  intro fuel
  induction fuel with
  | zero => intro s a _; simp only [while_loop]
  | succ n ih =>
    intro s a h
    by_cases hc : cc s = true
    · have hca : ca a = true := by rw [← hcond s a h]; exact hc
      obtain ⟨s1, hs1, hr1⟩ := hbody s a h hca
      simp only [while_loop, hc, if_true, heq s a h hca, bind_ok hs1]
      exact ih s1 _ hr1
    · have hcf : cc s = false := by simpa using hc
      simp only [while_loop, hcf, Bool.false_eq_true, if_false]

theorem cell_at_eq {m : TCOD_Map} {x y c : Int} (hb : m.in_bounds x y)
    (hc : c = x + y * m.width) : m.cell_at x y c = m.cell c := by
  unfold TCOD_Map.cell_at
  rw [if_pos ⟨hb, hc⟩]

theorem set_fov_at_eq {m : TCOD_Map} {x y c : Int} (hb : m.in_bounds x y)
    (hc : c = x + y * m.width) (b : Bool) : m.set_fov_at x y c b = m.set_fov c b := by
  unfold TCOD_Map.set_fov_at
  rw [if_pos ⟨hb, hc⟩]

theorem set_fov_dims {m m1 : TCOD_Map} {c : Int} {b : Bool} (h : m.set_fov c b = .ok m1) :
    m1.width = m.width ∧ m1.height = m.height := by
  unfold TCOD_Map.set_fov at h
  by_cases hc : 0 ≤ c
  · rw [if_pos hc] at h
    cases hx : m.cells[c.toNat]? with
    | none => rw [hx] at h; cases h
    | some d =>
      rw [hx] at h
      simp only [Except.ok.injEq] at h
      rw [← h]
      exact ⟨rfl, rfl⟩
  · rw [if_neg hc] at h; cases h

theorem LitAs.in_bounds_iff {m0 m : TCOD_Map} {f : Int → Int → Bool} (h : LitAs m0 f m)
    (x y : Int) : m.in_bounds x y ↔ m0.in_bounds x y := by
  unfold TCOD_Map.in_bounds
  rw [h.width, h.height]

theorem obstacle_body_checked_eq (e : Edge) {m : TCOD_Map} {x y c : Int}
    (hb : m.in_bounds x y) (hc : c = x + y * m.width) (ss cs es : ℚ) :
    obstacle_body_checked e m x y c ss cs es = obstacle_body e m c ss cs es := by
  funext s
  unfold obstacle_body_checked obstacle_body
  rw [cell_at_eq hb hc]

theorem neighbours_checked_eq (e : Edge) {m0 m : TCOD_Map} {px py dx dy : Int}
    (ctx : OctCtx m0 px py dx dy) {f0 g : Int → Int → Bool}
    (hl : LitAs m0 (of_octant e px py dx dy f0 g) m) {r p : Int}
    (hr : 1 ≤ r) (hrm : r ≤ ring_extent e m0.width m0.height px py dx dy)
    (hp : 0 ≤ p) (hpm : p ≤ scan_extent e m0.width m0.height px py dx dy)
    (haxis : p = 0 →
      g (r - 1) 0 = true ∧ to_octant e px py dx dy m0.tr (r - 1) 0 = true)
    {x y : Int} (hx : x = cell_x e px dx r p) (hy : y = cell_y e py dy r p) :
    neighbours_blocked_checked e m x y (x + y * m.width) dx dy =
      neighbours_blocked e m (x + y * m.width) dx dy := by
  subst hx hy
  obtain ⟨a, ha, ha1, ha2⟩ := octant_cell_at e ctx hl (r := r - 1) (p := p)
    (by omega) (by omega) hp hpm
  have hb1 : m.in_bounds (cell_x e px dx (r - 1) p) (cell_y e py dy (r - 1) p) :=
    (hl.in_bounds_iff _ _).mpr
      (cell_in_bounds e ctx.hdx ctx.hdy ctx.origin (by omega) (by omega) hp hpm)
  rw [← index_first] at ha
  have hfv : e = .vertical →
      m.cell_at (cell_x e px dx r p) (cell_y e py dy r p - dy)
        (first_neighbour e m.width (cell_x e px dx r p + cell_y e py dy r p * m.width) dx dy) =
      .ok a := by
    intro he
    subst he
    have e1 : cell_y .vertical py dy r p - dy = cell_y .vertical py dy (r - 1) p := by
      simp only [cell_y]; ring
    rw [← ha, e1]
    exact cell_at_eq hb1 (index_first .vertical px py dx dy m.width r p)
  have hfh : e = .horizontal →
      m.cell_at (cell_x e px dx r p - dx) (cell_y e py dy r p)
        (first_neighbour e m.width (cell_x e px dx r p + cell_y e py dy r p * m.width) dx dy) =
      .ok a := by
    intro he
    subst he
    have e1 : cell_x .horizontal px dx r p - dx = cell_x .horizontal px dx (r - 1) p := by
      simp only [cell_x]; ring
    rw [← ha, e1]
    exact cell_at_eq hb1 (index_first .horizontal px py dx dy m.width r p)
  have hstart : neighbours_blocked_checked e m (cell_x e px dx r p) (cell_y e py dy r p)
      (cell_x e px dx r p + cell_y e py dy r p * m.width) dx dy =
      if (a.fov && a.transparent) = true then .ok false
      else
        (m.cell_at (cell_x e px dx r p - dx) (cell_y e py dy r p - dy)
          (cell_x e px dx r p + cell_y e py dy r p * m.width - m.width * dy - dx)).bind
            fun b => .ok (!(b.fov && b.transparent)) := by
    unfold neighbours_blocked_checked
    cases e
    · simp only [bind_ok (hfv rfl)]
    · simp only [bind_ok (hfh rfl)]
  rw [hstart]
  unfold neighbours_blocked
  rw [bind_ok ha]
  by_cases hA : (a.fov && a.transparent) = true
  · simp only [hA, if_true]
  · simp only [hA, if_false]
    have hp1 : 1 ≤ p := by
      by_contra hcon
      have hp0 : p = 0 := by omega
      obtain ⟨h1, h2⟩ := haxis hp0
      rw [hp0] at ha1 ha2
      rw [ha1, ha2, h1, h2] at hA
      exact hA rfl
    have hb2 : m.in_bounds (cell_x e px dx (r - 1) (p - 1)) (cell_y e py dy (r - 1) (p - 1)) :=
      (hl.in_bounds_iff _ _).mpr
        (cell_in_bounds e ctx.hdx ctx.hdy ctx.origin (by omega) (by omega) (by omega)
          (by omega))
    have ex : cell_x e px dx r p - dx = cell_x e px dx (r - 1) (p - 1) := by
      cases e <;> simp only [cell_x] <;> ring
    have ey : cell_y e py dy r p - dy = cell_y e py dy (r - 1) (p - 1) := by
      cases e <;> simp only [cell_y] <;> ring
    rw [ex, ey, cell_at_eq hb2 (index_second e px py dx dy m.width r p)]

theorem cell_visibility_checked_eq (e : Edge) {m0 : TCOD_Map} {px py dx dy : Int}
    (ctx : OctCtx m0 px py dx dy) {f0 g : Int → Int → Bool} {lw : Bool} {R i : Int}
    {s : Octant} {a : Sweep} (hrel : ScanRel e m0 px py dx dy f0 s a)
    (hinv : ScanInv lw R (to_octant e px py dx dy m0.tr)
      (ring_extent e m0.width m0.height px py dx dy)
      (scan_extent e m0.width m0.height px py dx dy) g i a)
    (hc : a.pos ≤ min i (scan_extent e m0.width m0.height px py dx dy)) (ss cs es : ℚ) :
    cell_visibility_checked e dx dy ss cs es (s.x + s.y * s.m.width) s =
      cell_visibility e dx dy ss cs es (s.x + s.y * s.m.width) s := by
  have hring := hinv.ring
  have hr1 := hinv.ring_pos
  have hrm := hinv.ring_le
  have hp0 := hinv.pos_nonneg
  have hb : s.m.in_bounds s.x s.y := by
    rw [hrel.x, hrel.y]
    exact (hrel.lit.in_bounds_iff _ _).mpr
      (cell_in_bounds e ctx.hdx ctx.hdy ctx.origin (by omega) (by omega) hp0 (by omega))
  unfold cell_visibility_checked cell_visibility
  by_cases hl : s.obstacles_in_last_line > 0
  · have hla : a.last_line > 0 := by rw [← hrel.last]; exact hl
    have hnb := neighbours_checked_eq e ctx hrel.lit (r := a.ring) (p := a.pos) (by omega)
      (by omega) hp0 (by omega) (by
        intro hp
        have hm := hinv.pos_zero hp
        have := hinv.axis_prev hm hp (hinv.last_ring hla)
        rw [hring]; exact this) hrel.x hrel.y
    simp only [hl, if_true, hnb, obstacle_body_checked_eq e hb rfl]
  · simp only [hl, if_false]

theorem mark_visible_checked_eq (light_walls : Bool) (ss es : ℚ) (ext : Bool) {c : Int}
    {s : Octant} (hb : s.m.in_bounds s.x s.y) (hc : c = s.x + s.y * s.m.width) :
    mark_visible_checked light_walls ss es ext c s = mark_visible light_walls ss es ext c s := by
  unfold mark_visible_checked mark_visible
  rw [set_fov_at_eq hb hc]
  cases h1 : s.m.set_fov c true with
  | error err => rfl
  | ok m1 =>
    obtain ⟨hw, hh⟩ := set_fov_dims h1
    have hb1 : m1.in_bounds s.x s.y := by
      unfold TCOD_Map.in_bounds at hb ⊢
      rw [hw, hh]; exact hb
    have hc1 : c = s.x + s.y * m1.width := by rw [hw]; exact hc
    simp only [Except.bind, cell_at_eq hb1 hc1]
    cases h2 : m1.cell c with
    | error err => rfl
    | ok cell =>
      simp only
      cases cell.transparent
      · simp only [Bool.not_false, if_true]
        cases light_walls
        · simp only [Bool.not_false, if_true]
          split_ifs <;> simp only [set_fov_at_eq hb1 hc1]
        · simp only [Bool.not_true, Bool.false_eq_true, if_false]
      · simp only [Bool.not_true, Bool.false_eq_true, if_false]

theorem scan_cell_checked_eq (e : Edge) {m0 : TCOD_Map} {px py dx dy : Int}
    (ctx : OctCtx m0 px py dx dy) {f0 g : Int → Int → Bool} (lw : Bool) {R : Int}
    {s : Octant} {a : Sweep} (hrel : ScanRel e m0 px py dx dy f0 s a)
    (hinv : ScanInv lw R (to_octant e px py dx dy m0.tr)
      (ring_extent e m0.width m0.height px py dx dy)
      (scan_extent e m0.width m0.height px py dx dy) g a.ring a)
    (hc : a.pos ≤ min a.ring (scan_extent e m0.width m0.height px py dx dy))
    (slopes_per_cell half_slopes : ℚ) :
    scan_cell_checked e lw dx dy slopes_per_cell half_slopes s =
      scan_cell e lw dx dy slopes_per_cell half_slopes s := by
  have hr1 := hinv.ring_pos
  have hrm := hinv.ring_le
  have hp0 := hinv.pos_nonneg
  have hb : s.m.in_bounds s.x s.y := by
    rw [hrel.x, hrel.y]
    exact (hrel.lit.in_bounds_iff _ _).mpr
      (cell_in_bounds e ctx.hdx ctx.hdy ctx.origin (by omega) (by omega) hp0 (by omega))
  unfold scan_cell_checked scan_cell
  simp only [cell_visibility_checked_eq e ctx hrel hinv hc]
  congr 1
  funext r
  have hm := mark_visible_checked_eq lw
    ((s.processed_cell : ℚ) * slopes_per_cell - half_slopes)
    ((s.processed_cell : ℚ) * slopes_per_cell + half_slopes) r.extended
    (s := { s with start_angle := r.start_angle, end_angle := r.end_angle })
    (c := s.x + s.y * s.m.width) hb rfl
  rw [hm]

theorem scan_ring_checked_eq (e : Edge) {m0 : TCOD_Map} {px py dx dy : Int}
    (ctx : OctCtx m0 px py dx dy) {f0 g : Int → Int → Bool} (lw : Bool) (R : Int)
    {s : Octant} {a : Sweep} (hrel : OctRel e m0 px py dx dy f0 s a)
    (hinv : RingInv lw R (to_octant e px py dx dy m0.tr)
      (ring_extent e m0.width m0.height px py dx dy)
      (scan_extent e m0.width m0.height px py dx dy) g a)
    (hd : a.done = false) :
    scan_ring_checked e px py R lw dx dy s = scan_ring e px py R lw dx dy s := by
  have hsi := scan_start_inv hinv hd
  have hr1 := hinv.ring_pos
  have hw : s.m.width = m0.width := hrel.lit.width
  have hh : s.m.height = m0.height := hrel.lit.height
  have hrel1 := line_start_rel e hrel
  have key := while_loop_congr
    (fun (t : Octant) (b : Sweep) => ScanRel e m0 px py dx dy f0 t b ∧
      ScanInv lw R (to_octant e px py dx dy m0.tr)
        (ring_extent e m0.width m0.height px py dx dy)
        (scan_extent e m0.width m0.height px py dx dy) g a.ring b)
    (in_line e (line_lo e px py s.iteration) (line_hi e s.m px py s.iteration))
    (scan_cell e lw dx dy (1 / (s.iteration : ℚ)) (1 / (s.iteration : ℚ) * (1 / 2)))
    (scan_cell_checked e lw dx dy (1 / (s.iteration : ℚ)) (1 / (s.iteration : ℚ) * (1 / 2)))
    (fun t => decide (t.pos ≤ min a.ring (scan_extent e m0.width m0.height px py dx dy)))
    (sweep_cell e lw (to_octant e px py dx dy m0.tr))
    (by
      intro t b hb
      have := in_line_rel e ctx hb.1 hb.2.pos_nonneg (by rw [hb.2.ring]; omega) hw hh
      rw [hb.2.ring, ← hrel.iteration] at this
      rw [this, hrel.iteration])
    (by
      intro t b hb hc
      have hbr := hb.2.ring
      have hb2 := hb.2
      rw [← hbr] at hb2
      have hc2 : b.pos ≤ min b.ring (scan_extent e m0.width m0.height px py dx dy) := by
        rw [hbr]; simpa using hc
      obtain ⟨t1, ht1, hr1⟩ := scan_cell_refines e ctx lw hb.1 hb2 hc2
      rw [hbr, ← hrel.iteration] at ht1
      exact ⟨t1, ht1, hr1, sweep_cell_inv e hb.2 (by simpa using hc)⟩)
    (by
      intro t b hb hc
      have hbr := hb.2.ring
      have hb2 := hb.2
      rw [← hbr] at hb2
      have hc2 : b.pos ≤ min b.ring (scan_extent e m0.width m0.height px py dx dy) := by
        rw [hbr]; simpa using hc
      exact scan_cell_checked_eq e ctx lw hb.1 hb2 hc2 _ _)
    (line_hi e s.m px py s.iteration - line_lo e px py s.iteration + 1).toNat _ _
    ⟨hrel1, hsi⟩
  unfold scan_ring_checked scan_ring
  simp only [key]

theorem octant_checked_eq (e : Edge) {m0 m : TCOD_Map} {px py dx dy : Int}
    (ctx : OctCtx m0 px py dx dy) {f : Int → Int → Bool} (hl : LitAs m0 f m)
    (lw : Bool) (R : Int) (sa ea : Nat → ℚ) :
    octant_checked e m px py R lw dx dy sa ea = octant e m px py R lw dx dy sa ea := by
  have hs := scan_extent_nonneg e dx dy ctx.origin
  have hinit := sweep_init_inv lw R (to_octant e px py dx dy m0.tr)
    (ring_extent e m0.width m0.height px py dx dy)
    (scan_extent e m0.width m0.height px py dx dy) (to_octant e px py dx dy f)
  unfold octant_checked octant
  exact while_loop_congr
    (fun (t : Octant) (b : Sweep) => OctRel e m0 px py dx dy f t b ∧
      RingInv lw R (to_octant e px py dx dy m0.tr)
        (ring_extent e m0.width m0.height px py dx dy)
        (scan_extent e m0.width m0.height px py dx dy) (to_octant e px py dx dy f) b)
    (fun s => !s.done) (scan_ring e px py R lw dx dy) (scan_ring_checked e px py R lw dx dy)
    (fun a => !a.done)
    (sweep_ring e lw R (to_octant e px py dx dy m0.tr)
      (ring_extent e m0.width m0.height px py dx dy)
      (scan_extent e m0.width m0.height px py dx dy))
    (by intro t b hb; simp only [hb.1.done])
    (by
      intro t b hb hc
      have hd : b.done = false := by simpa using hc
      obtain ⟨t1, ht1, hr1⟩ := scan_ring_refines e ctx lw R hb.1 hb.2 hd
      exact ⟨t1, ht1, hr1, sweep_ring_inv e hs hb.2 hd⟩)
    (by
      intro t b hb hc
      have hd : b.done = false := by simpa using hc
      exact scan_ring_checked_eq e ctx lw R hb.1 hb.2 hd)
    (ring_bound e m)
    (octant_init e m px py dx dy sa ea) _
    ⟨octant_init_rel e ctx hl sa ea, hinit⟩

theorem compute_quadrant_checked_eq {m0 m : TCOD_Map} {px py dx dy : Int}
    (ctx : OctCtx m0 px py dx dy) {f : Int → Int → Bool} (hl : LitAs m0 f m)
    (lw : Bool) (R : Int) (sa ea : Nat → ℚ) :
    compute_quadrant_checked m px py R lw dx dy sa ea =
      compute_quadrant m px py R lw dx dy sa ea := by
  obtain ⟨v, hv, hlv⟩ := octant_refines .vertical ctx hl lw R sa ea
  unfold compute_quadrant_checked compute_quadrant
  rw [octant_checked_eq .vertical ctx hl, hv]
  show (octant_checked .horizontal v.m px py R lw dx dy v.start_angle v.end_angle).bind _ =
    (octant .horizontal v.m px py R lw dx dy v.start_angle v.end_angle).bind _
  rw [octant_checked_eq .horizontal ctx hlv]

/-- The checked entry point returns exactly what the entry point returns. -/
theorem compute_fov_checked_eq {m : TCOD_Map} (hwf : m.wf) {px py : Int}
    (ho : m.in_bounds px py) (R : Int) (lw : Bool) (sa ea : Nat → ℚ) :
    compute_fov_checked m px py R lw sa ea =
      TCOD_map_compute_fov_restrictive_shadowcasting m px py R lw sa ea := by
  obtain ⟨z, hz, hlz⟩ := zero_fov_refines hwf
  obtain ⟨m0, hm0, hl0⟩ := hlz.set_at hwf ho true
  have p1 : (1 : Int) = 1 ∨ (1 : Int) = -1 := Or.inl rfl
  have m1 : (-1 : Int) = 1 ∨ (-1 : Int) = -1 := Or.inr rfl
  obtain ⟨q1, hq1, hl1⟩ := compute_quadrant_refines ⟨hwf, ho, p1, p1⟩ hl0 lw R sa ea
  obtain ⟨q2, hq2, hl2⟩ := compute_quadrant_refines ⟨hwf, ho, p1, m1⟩ hl1 lw R q1.2.1 q1.2.2
  obtain ⟨q3, hq3, hl3⟩ := compute_quadrant_refines ⟨hwf, ho, m1, p1⟩ hl2 lw R q2.2.1 q2.2.2
  unfold compute_fov_checked TCOD_map_compute_fov_restrictive_shadowcasting
  rw [bind_ok hz, bind_ok hz, set_fov_at_eq ((hlz.in_bounds_iff _ _).mpr ho) rfl,
    bind_ok hm0, bind_ok hm0,
    compute_quadrant_checked_eq ⟨hwf, ho, p1, p1⟩ hl0, bind_ok hq1, bind_ok hq1,
    compute_quadrant_checked_eq ⟨hwf, ho, p1, m1⟩ hl1, bind_ok hq2, bind_ok hq2,
    compute_quadrant_checked_eq ⟨hwf, ho, m1, p1⟩ hl2, bind_ok hq3, bind_ok hq3,
    compute_quadrant_checked_eq ⟨hwf, ho, m1, m1⟩ hl3]

/-- C20: for every well-formed map, origin inside it, radius and `light_walls`,
with slopes as exact rationals, the code in which every cell access is checked
against the coordinates of the cell it is meant for (the origin, the scanned
cell `(x, y)`, and the neighbours `(x, y - dy)`, `(x - dx, y)` and
`(x - dx, y - dy)`) returns, and returns the map the unchecked code returns:
every index read or written lies in `[0, nbcells)` and is the index of a cell
of the grid at the coordinates meant, without wrap-around. -/
theorem cell_index_safety (m : TCOD_Map) (hwf : m.wf) (player_x player_y : Int)
    (ho : m.in_bounds player_x player_y) (max_radius : Int) (light_walls : Bool)
    (start_angle end_angle : Nat → ℚ) :
    ∃ m1, compute_fov_checked m player_x player_y max_radius light_walls
        start_angle end_angle = .ok m1 ∧
      TCOD_map_compute_fov_restrictive_shadowcasting m player_x player_y max_radius
        light_walls start_angle end_angle = .ok m1 := by
  obtain ⟨m1, h1, _⟩ := compute_fov_refines hwf ho max_radius light_walls start_angle end_angle
  exact ⟨m1, by rw [compute_fov_checked_eq hwf ho]; exact h1, h1⟩

theorem cell_index_safety_witness :
    pillar_room.wf ∧ pillar_room.in_bounds 0 0 ∧
      ∃ m1, compute_fov_checked pillar_room 0 0 0 false zero_buffer zero_buffer = .ok m1 ∧
        TCOD_map_compute_fov_restrictive_shadowcasting pillar_room 0 0 0 false
          zero_buffer zero_buffer = .ok m1 :=
  ⟨by decide, by decide,
    cell_index_safety pillar_room (by decide) 0 0 (by decide) 0 false _ _⟩

/-! ## The transparency of the origin -/

theorem cell_probe_congr (e : Edge) {tr tr1 : Int → Int → Bool}
    (htr : ∀ r s, 1 ≤ r → tr r s = tr1 r s) {a : Sweep} (hr : 1 ≤ a.ring)
    (hlast : 0 < a.last_line → 2 ≤ a.ring) :
    cell_probe e tr a = cell_probe e tr1 a := by
  unfold cell_probe probe
  by_cases hl : a.last_line > 0
  · have h2 := hlast hl
    rw [htr (a.ring - 1) a.pos (by omega), htr (a.ring - 1) (a.pos - 1) (by omega),
      htr a.ring a.pos hr]
  · simp only [hl, if_false]

theorem sweep_cell_congr (e : Edge) (lw : Bool) {tr tr1 : Int → Int → Bool}
    (htr : ∀ r s, 1 ≤ r → tr r s = tr1 r s) {a : Sweep} (hr : 1 ≤ a.ring)
    (hlast : 0 < a.last_line → 2 ≤ a.ring) :
    sweep_cell e lw tr a = sweep_cell e lw tr1 a := by
  rw [sweep_cell_eq, sweep_cell_eq, cell_probe_congr e htr hr hlast, htr a.ring a.pos hr]

theorem sweep_ring_congr (e : Edge) (lw : Bool) (R : Int) {tr tr1 : Int → Int → Bool}
    (htr : ∀ r s, 1 ≤ r → tr r s = tr1 r s) {rmax smax : Int} {g : Int → Int → Bool}
    {a : Sweep} (h : RingInv lw R tr rmax smax g a) (hd : a.done = false) :
    sweep_ring e lw R tr rmax smax a = sweep_ring e lw R tr1 rmax smax a := by
  have key := iterate_while_rel
    (fun (x y : Sweep) => x = y ∧ ScanInv lw R tr rmax smax g a.ring x)
    (fun t => decide (t.pos ≤ min a.ring smax)) (sweep_cell e lw tr)
    (fun t => decide (t.pos ≤ min a.ring smax)) (sweep_cell e lw tr1)
    (by intro x y hxy; rw [hxy.1])
    (by
      intro x y hxy hc
      refine ⟨?_, sweep_cell_inv e hxy.2 (by simpa using hc)⟩
      rw [← hxy.1]
      exact sweep_cell_congr e lw htr (by rw [hxy.2.ring]; exact hxy.2.ring_pos)
        (by rw [hxy.2.ring]; exact hxy.2.last_ring))
    (min a.ring smax + 1 - (ring_open a).pos).toNat (ring_open a) (ring_open a)
    ⟨rfl, scan_start_inv h hd⟩
  unfold sweep_ring
  rw [key.1]

theorem sweep_congr (e : Edge) (lw : Bool) (R : Int) {tr tr1 : Int → Int → Bool}
    (htr : ∀ r s, 1 ≤ r → tr r s = tr1 r s) {rmax smax : Int} (hs : 0 ≤ smax)
    (g : Int → Int → Bool) :
    sweep e lw R tr rmax smax g = sweep e lw R tr1 rmax smax g := by
  have key := iterate_while_rel
    (fun (x y : Sweep) => x = y ∧ RingInv lw R tr rmax smax g x)
    (fun a => !a.done) (sweep_ring e lw R tr rmax smax)
    (fun a => !a.done) (sweep_ring e lw R tr1 rmax smax)
    (by intro x y hxy; rw [hxy.1])
    (by
      intro x y hxy hc
      have hd : x.done = false := by simpa using hc
      refine ⟨?_, sweep_ring_inv e hs hxy.2 hd⟩
      rw [← hxy.1]
      exact sweep_ring_congr e lw R htr hxy.2 hd)
    rmax.toNat (sweep_init g rmax) (sweep_init g rmax)
    ⟨rfl, sweep_init_inv lw R tr rmax smax g⟩
  exact key.1

theorem octant_lit_congr (e : Edge) (lw : Bool) (R : Int) {tr tr1 : Int → Int → Bool}
    {w h px py dx dy : Int} (hdx : dx = 1 ∨ dx = -1) (hdy : dy = 1 ∨ dy = -1)
    (hx : 0 ≤ px ∧ px < w) (hy : 0 ≤ py ∧ py < h)
    (htr : ∀ x y, ¬ (x = px ∧ y = py) → tr x y = tr1 x y) (f : Int → Int → Bool) :
    octant_lit e lw R tr w h px py dx dy f = octant_lit e lw R tr1 w h px py dx dy f := by
  have hs : 0 ≤ scan_extent e w h px py dx dy := by
    cases e
    · exact extent_nonneg hx.1 hx.2
    · exact extent_nonneg hy.1 hy.2
  unfold octant_lit
  rw [sweep_congr e lw R _ hs]
  intro r s hr
  rw [to_octant_apply, to_octant_apply]
  apply htr
  intro hc
  exact cell_ne_origin e hdx hdy hr ⟨hc.1.symm, hc.2.symm⟩

theorem fov_lit_congr (lw : Bool) (R : Int) {tr tr1 : Int → Int → Bool} {w h px py : Int}
    (hx : 0 ≤ px ∧ px < w) (hy : 0 ≤ py ∧ py < h)
    (htr : ∀ x y, ¬ (x = px ∧ y = py) → tr x y = tr1 x y) :
    fov_lit lw R tr w h px py = fov_lit lw R tr1 w h px py := by
  apply fov_lit_induction2 (fun f f1 => f = f1)
  · rfl
  · intro e dx dy f f1 hdx hdy hf
    rw [hf]
    exact octant_lit_congr e lw R hdx hdy hx hy htr f1

theorem walled_in_up (x y : Int) (hb : walled_in.in_bounds x y) (hne : ¬ (x = 1 ∧ y = 1)) :
    walled_in.is_transparent x y = walled_up.is_transparent x y := by
  obtain ⟨h1, h2, h3, h4⟩ := hb
  simp only [walled_in] at h2 h4
  have hx : x = 0 ∨ x = 1 ∨ x = 2 ∨ x = 3 := by omega
  have hy : y = 0 ∨ y = 1 ∨ y = 2 := by omega
  rcases hx with h | h | h | h <;> rcases hy with h5 | h5 | h5 <;> subst h h5 <;>
    first
      | decide
      | exact absurd ⟨rfl, rfl⟩ hne

/-- C28: for any two well-formed maps of the same width and height whose
`transparent` flags agree in every cell other than the origin, whatever their
`fov` and `walkable` flags and the content of the buffers, the two calls with
the same origin, radius and `light_walls` return maps with identical `fov`
flags in every cell. -/
theorem origin_transparency_irrelevant (m1 m2 : TCOD_Map) (hwf1 : m1.wf) (hwf2 : m2.wf)
    (hw : m1.width = m2.width) (hh : m1.height = m2.height)
    (player_x player_y : Int) (ho : m1.in_bounds player_x player_y)
    (htr : ∀ x y, m1.in_bounds x y → ¬ (x = player_x ∧ y = player_y) →
      m1.is_transparent x y = m2.is_transparent x y)
    (max_radius : Int) (light_walls : Bool)
    (start_angle1 end_angle1 start_angle2 end_angle2 : Nat → ℚ) :
    ∃ r1 r2,
      TCOD_map_compute_fov_restrictive_shadowcasting m1 player_x player_y max_radius
        light_walls start_angle1 end_angle1 = .ok r1 ∧
      TCOD_map_compute_fov_restrictive_shadowcasting m2 player_x player_y max_radius
        light_walls start_angle2 end_angle2 = .ok r2 ∧
      r1.cells.map (fun c => c.fov) = r2.cells.map (fun c => c.fov) := by
  have hbi : ∀ x y, m1.in_bounds x y ↔ m2.in_bounds x y := by
    intro x y
    simp only [TCOD_Map.in_bounds, hw, hh]
  have ho2 : m2.in_bounds player_x player_y := (hbi _ _).mp ho
  obtain ⟨r1, h1, hl1⟩ := compute_fov_refines hwf1 ho max_radius light_walls
    start_angle1 end_angle1
  obtain ⟨r2, h2, hl2⟩ := compute_fov_refines hwf2 ho2 max_radius light_walls
    start_angle2 end_angle2
  refine ⟨r1, r2, h1, h2, ?_⟩
  have htab : fov_lit light_walls max_radius m1.tr m1.width m1.height player_x player_y =
      fov_lit light_walls max_radius m2.tr m1.width m1.height player_x player_y := by
    apply fov_lit_congr light_walls max_radius ⟨ho.1, ho.2.1⟩ ⟨ho.2.2.1, ho.2.2.2⟩
    intro x y hne
    by_cases hb : m1.in_bounds x y
    · rw [tr_of_in_bounds hb, tr_of_in_bounds ((hbi x y).mp hb)]
      exact htr x y hb hne
    · rw [tr_outside hb, tr_outside (fun hc => hb ((hbi x y).mpr hc))]
  rw [← hw, ← hh, ← htab] at hl2
  have hlen : m1.cells.length = m2.cells.length := by
    obtain ⟨_, _, a3, a4⟩ := hwf1
    obtain ⟨_, _, b3, b4⟩ := hwf2
    have : (m1.cells.length : Int) = (m2.cells.length : Int) := by
      rw [a4, b4, a3, b3, hw, hh]
    exact_mod_cast this
  exact hl1.fov_list hl2 hw hlen

theorem origin_transparency_irrelevant_witness :
    walled_in.wf ∧ walled_up.wf ∧ walled_in.width = walled_up.width ∧
      walled_in.height = walled_up.height ∧ walled_in.in_bounds 1 1 ∧
      (∀ x y, walled_in.in_bounds x y → ¬ (x = 1 ∧ y = 1) →
        walled_in.is_transparent x y = walled_up.is_transparent x y) ∧
      ∃ r1 r2,
        TCOD_map_compute_fov_restrictive_shadowcasting walled_in 1 1 0 true
          zero_buffer zero_buffer = .ok r1 ∧
        TCOD_map_compute_fov_restrictive_shadowcasting walled_up 1 1 0 true
          zero_buffer zero_buffer = .ok r2 ∧
        r1.cells.map (fun c => c.fov) = r2.cells.map (fun c => c.fov) :=
  ⟨by decide, by decide, by decide, by decide, by decide, walled_in_up,
    origin_transparency_irrelevant walled_in walled_up (by decide) (by decide) (by decide)
      (by decide) 1 1 (by decide) walled_in_up 0 true _ _ _ _⟩

/-! ## A radius cuts the unlimited field of view to a square -/

theorem iterate_while_stop {α : Type} (c : α → Bool) (b : α → α) (fuel : Nat) {a : α}
    (h : c a = false) : iterate_while c b fuel a = a := by
  cases fuel <;> simp [iterate_while, h]

theorem cell_probe_radius (e : Edge) (tr : Int → Int → Bool) {R : Int} {a b : Sweep}
    (h : RadiusAgree R a b) (hp : 0 ≤ a.pos) (hpr : a.pos ≤ a.ring) (hr : a.ring ≤ R)
    (hlast : 0 < a.last_line → 2 ≤ a.ring) :
    cell_probe e tr a = cell_probe e tr b := by
  unfold cell_probe probe
  rw [← h.obstacles, ← h.last_line, ← h.ring, ← h.pos]
  by_cases hl : a.last_line > 0
  · have h2 := hlast hl
    have hA : a.lit (a.ring - 1) a.pos = b.lit (a.ring - 1) a.pos :=
      h.cells _ _ (by omega) (by omega) hp (by omega)
    have hB : (decide (1 ≤ a.pos) && (a.lit (a.ring - 1) (a.pos - 1) &&
          tr (a.ring - 1) (a.pos - 1))) =
        (decide (1 ≤ a.pos) && (b.lit (a.ring - 1) (a.pos - 1) &&
          tr (a.ring - 1) (a.pos - 1))) := by
      by_cases hp1 : 1 ≤ a.pos
      · rw [h.cells (a.ring - 1) (a.pos - 1) (by omega) (by omega) (by omega) (by omega)]
      · simp [hp1]
    simp only [hl, if_true, hA, hB]
  · simp only [hl, if_false]

theorem sweep_cell_radius (e : Edge) (lw : Bool) (tr : Int → Int → Bool) {R : Int}
    {a b : Sweep} (h : RadiusAgree R a b) (hp : 0 ≤ a.pos) (hpr : a.pos ≤ a.ring)
    (hr : a.ring ≤ R) (hlast : 0 < a.last_line → 2 ≤ a.ring) :
    RadiusAgree R (sweep_cell e lw tr a) (sweep_cell e lw tr b) := by
  have hpb := cell_probe_radius e tr h hp hpr hr hlast
  refine
    { obstacles := ?_, last_line := ?_, min_angle := ?_, done := ?_, ring := ?_, pos := ?_
      cells := ?_ }
  · rw [sweep_cell_obstacles, sweep_cell_obstacles, hpb, h.ring, h.pos, h.min_angle]
  · rw [sweep_cell_last, sweep_cell_last, h.last_line]
  · rw [sweep_cell_min, sweep_cell_min, hpb, h.ring, h.pos, h.min_angle]
  · rw [sweep_cell_done, sweep_cell_done, hpb, h.ring, h.pos, h.min_angle, h.done]
  · rw [sweep_cell_ring, sweep_cell_ring, h.ring]
  · rw [sweep_cell_pos, sweep_cell_pos, h.pos]
  · intro r s r0 r1 s0 s1
    rw [sweep_cell_lit, sweep_cell_lit, hpb, h.ring, h.pos]
    split_ifs
    · simp only [set_lit]
      split_ifs
      · rfl
      · exact h.cells r s r0 r1 s0 s1
    · exact h.cells r s r0 r1 s0 s1

theorem scan_loop_radius (e : Edge) (lw : Bool) {R : Int} (hR : 0 < R)
    (tr : Int → Int → Bool) {rmax smax : Int} {g : Int → Int → Bool} {i : Int} (fuel : Nat)
    {a b : Sweep} (h : RadiusAgree R a b) (hinv : ScanInv lw R tr rmax smax g i a) :
    RadiusAgree R
      (iterate_while (fun t => decide (t.pos ≤ min i smax)) (sweep_cell e lw tr) fuel a)
      (iterate_while (fun t => decide (t.pos ≤ min i smax)) (sweep_cell e lw tr) fuel b) := by
  have key := iterate_while_rel
    (fun (x y : Sweep) => RadiusAgree R x y ∧ ScanInv lw R tr rmax smax g i x)
    (fun t => decide (t.pos ≤ min i smax)) (sweep_cell e lw tr)
    (fun t => decide (t.pos ≤ min i smax)) (sweep_cell e lw tr)
    (by intro x y hxy; simp only [hxy.1.pos])
    (by
      intro x y hxy hc
      have hc2 : x.pos ≤ min i smax := by simpa using hc
      have hri := hxy.2.ring
      refine ⟨sweep_cell_radius e lw tr hxy.1 hxy.2.pos_nonneg ?_ ?_ ?_,
        sweep_cell_inv e hxy.2 hc2⟩
      · rw [hri]; exact le_trans hc2 (min_le_left _ _)
      · rw [hri]; exact hxy.2.radius hR
      · rw [hri]; exact hxy.2.last_ring)
    fuel a b ⟨h, hinv⟩
  exact key.1

theorem scan_loop_ring (e : Edge) (lw : Bool) (tr : Int → Int → Bool) (c : Sweep → Bool)
    (fuel : Nat) (a : Sweep) :
    (iterate_while c (sweep_cell e lw tr) fuel a).ring = a.ring ∧
      ∀ r s, r ≠ a.ring → (iterate_while c (sweep_cell e lw tr) fuel a).lit r s = a.lit r s :=
  iterate_while_inv (fun t : Sweep => t.ring = a.ring ∧ ∀ r s, r ≠ a.ring → t.lit r s = a.lit r s)
    c (sweep_cell e lw tr)
    (by
      intro t ht _
      refine ⟨by rw [sweep_cell_ring]; exact ht.1, ?_⟩
      intro r s hr
      rw [sweep_cell_lit]
      split_ifs
      · simp only [set_lit]
        rw [if_neg (by rw [ht.1]; intro hc; exact hr hc.1)]
        exact ht.2 r s hr
      · exact ht.2 r s hr)
    fuel a ⟨rfl, fun _ _ _ => rfl⟩

theorem sweep_ring_other (e : Edge) (lw : Bool) (R : Int) (tr : Int → Int → Bool)
    (rmax smax : Int) (a : Sweep) :
    (sweep_ring e lw R tr rmax smax a).ring = a.ring + 1 ∧
      ∀ r s, r ≠ a.ring → (sweep_ring e lw R tr rmax smax a).lit r s = a.lit r s := by
  have key := scan_loop_ring e lw tr (fun t => decide (t.pos ≤ min a.ring smax))
    (min a.ring smax + 1 - (ring_open a).pos).toNat (ring_open a)
  simp only [sweep_ring, ring_close]
  exact ⟨by rw [key.1]; rfl, fun r s hr => key.2 r s hr⟩

/-- One ring of the two sweeps: they still agree, or ring `R` has just been
closed and the sweep with the radius is done. -/
theorem sweep_ring_radius (e : Edge) (lw : Bool) {R : Int} (hR : 0 < R)
    (tr : Int → Int → Bool) {rmax smax : Int} {g : Int → Int → Bool} {a b : Sweep}
    (h : RadiusAgree R a b) (hinv : RingInv lw R tr rmax smax g a) (hd : a.done = false) :
    (RadiusAgree R (sweep_ring e lw R tr rmax smax a) (sweep_ring e lw 0 tr rmax smax b)) ∨
      ((sweep_ring e lw R tr rmax smax a).done = true ∧
        R < (sweep_ring e lw 0 tr rmax smax b).ring ∧
        ∀ r s, 0 ≤ r → r ≤ R → 0 ≤ s → s ≤ R →
          (sweep_ring e lw R tr rmax smax a).lit r s =
            (sweep_ring e lw 0 tr rmax smax b).lit r s) := by
  have hsi := scan_start_inv hinv hd
  have hopen : RadiusAgree R (ring_open a) (ring_open b) :=
    { obstacles := h.obstacles, last_line := h.last_line, min_angle := h.min_angle
      done := rfl, ring := h.ring
      pos := by simp only [ring_open, h.min_angle, h.ring]
      cells := h.cells }
  have hloop := scan_loop_radius e lw hR tr
    (min a.ring smax + 1 - (ring_open a).pos).toNat hopen hsi
  have hfuel : (min a.ring smax + 1 - (ring_open a).pos).toNat =
      (min b.ring smax + 1 - (ring_open b).pos).toNat := by
    rw [hopen.pos, h.ring]
  have hringa := (scan_loop_inv e (min a.ring smax + 1 - (ring_open a).pos).toNat hsi).ring
  have hi := hinv.ring_pos
  have hle := hinv.radius hR hd
  by_cases hlast : a.ring = R
  · right
    refine ⟨?_, ?_, ?_⟩
    · simp only [sweep_ring, ring_close]
      rw [hringa]
      simp only [hlast, decide_True, Bool.or_true, Bool.true_or]
    · rw [(sweep_ring_other e lw 0 tr rmax smax b).1, ← h.ring]; omega
    · intro r s r0 r1 s0 s1
      simp only [sweep_ring, ring_close]
      rw [← hfuel, ← h.ring]
      exact hloop.cells r s r0 r1 s0 s1
  · left
    simp only [sweep_ring]
    rw [← hfuel, ← h.ring]
    exact
      { obstacles := by simp only [ring_close]; exact hloop.obstacles
        last_line := by simp only [ring_close, hloop.obstacles]
        min_angle := by simp only [ring_close]; exact hloop.min_angle
        done := by
          simp only [ring_close, hloop.done, ← hloop.ring, hringa]
          have h0 : ¬ a.ring = 0 := by omega
          simp only [hlast, h0, decide_False, Bool.or_false]
        ring := by simp only [ring_close, hloop.ring]
        pos := by simp only [ring_close]; exact hloop.pos
        cells := by simp only [ring_close]; exact hloop.cells }

theorem sweep_radius_loop (e : Edge) (lw : Bool) {R : Int} (hR : 0 < R)
    (tr : Int → Int → Bool) {rmax smax : Int} (hs : 0 ≤ smax) {g : Int → Int → Bool} :
    ∀ (fuel : Nat) (a b : Sweep),
      ((RadiusAgree R a b ∧ RingInv lw R tr rmax smax g a) ∨
        (a.done = true ∧ R < b.ring ∧
          ∀ r s, 0 ≤ r → r ≤ R → 0 ≤ s → s ≤ R → a.lit r s = b.lit r s)) →
      ∀ r s, 0 ≤ r → r ≤ R → 0 ≤ s → s ≤ R →
        (iterate_while (fun a => !a.done) (sweep_ring e lw R tr rmax smax) fuel a).lit r s =
          (iterate_while (fun a => !a.done) (sweep_ring e lw 0 tr rmax smax) fuel b).lit r s := by
  intro fuel
  induction fuel with
  | zero =>
    intro a b h
    simp only [iterate_while]
    rcases h with h | h
    · exact h.1.cells
    · exact h.2.2
  | succ n ih =>
    intro a b h
    rcases h with ⟨hag, hinv⟩ | ⟨hda, hrb, hcells⟩
    · by_cases hd : a.done = true
      · have hdb : b.done = true := by rw [← hag.done]; exact hd
        simp only [iterate_while, hd, hdb, Bool.not_true, Bool.false_eq_true, if_false]
        exact hag.cells
      · have hd1 : a.done = false := by simpa using hd
        have hdb : b.done = false := by rw [← hag.done]; exact hd1
        simp only [iterate_while, hd1, hdb, Bool.not_false, if_true]
        apply ih
        rcases sweep_ring_radius e lw hR tr hag hinv hd1 with h1 | h1
        · left; exact ⟨h1, sweep_ring_inv e hs hinv hd1⟩
        · right; exact h1
    · rw [iterate_while_stop _ _ _ (by simp [hda])]
      by_cases hdb : b.done = true
      · rw [iterate_while_stop _ _ _ (by simp [hdb])]
        exact hcells
      · have hdb1 : b.done = false := by simpa using hdb
        simp only [iterate_while, hdb1, Bool.not_false, if_true]
        have hstep := ih a (sweep_ring e lw 0 tr rmax smax b) (Or.inr ⟨hda, by
          rw [(sweep_ring_other e lw 0 tr rmax smax b).1]; omega, by
          intro r s r0 r1 s0 s1
          rw [(sweep_ring_other e lw 0 tr rmax smax b).2 r s (by omega)]
          exact hcells r s r0 r1 s0 s1⟩)
        rw [iterate_while_stop _ _ _ (by simp [hda])] at hstep
        exact hstep

theorem sweep_radius (e : Edge) (lw : Bool) {R : Int} (hR : 0 < R) (tr : Int → Int → Bool)
    {rmax smax : Int} (hs : 0 ≤ smax) (g g0 : Int → Int → Bool)
    (hg : ∀ r s, 0 ≤ r → r ≤ R → 0 ≤ s → s ≤ R → g r s = g0 r s)
    {r s : Int} (r0 : 0 ≤ r) (r1 : r ≤ R) (s0 : 0 ≤ s) (s1 : s ≤ R) :
    (sweep e lw R tr rmax smax g).lit r s = (sweep e lw 0 tr rmax smax g0).lit r s := by
  unfold sweep
  exact sweep_radius_loop e lw hR tr hs rmax.toNat (sweep_init g rmax) (sweep_init g0 rmax)
    (Or.inl ⟨{ obstacles := rfl, last_line := rfl, min_angle := rfl, done := rfl, ring := rfl
               pos := rfl, cells := hg },
      sweep_init_inv lw R tr rmax smax g⟩) r s r0 r1 s0 s1

theorem octant_lit_radius (e : Edge) (lw : Bool) {R : Int} (hR : 0 < R)
    (tr : Int → Int → Bool) {w h px py dx dy : Int} (hdx : dx = 1 ∨ dx = -1)
    (hdy : dy = 1 ∨ dy = -1) (hx : 0 ≤ px ∧ px < w) (hy : 0 ≤ py ∧ py < h)
    (f f0 : Int → Int → Bool)
    (hf : ∀ x y, max |x - px| |y - py| ≤ R → f x y = f0 x y) (x y : Int)
    (hd : max |x - px| |y - py| ≤ R) :
    octant_lit e lw R tr w h px py dx dy f x y =
      octant_lit e lw 0 tr w h px py dx dy f0 x y := by
  have hs : 0 ≤ scan_extent e w h px py dx dy := by
    cases e
    · exact extent_nonneg hx.1 hx.2
    · exact extent_nonneg hy.1 hy.2
  have hdist : ∀ r s : Int, 0 ≤ r → r ≤ R → 0 ≤ s → s ≤ R →
      max |cell_x e px dx r s - px| |cell_y e py dy r s - py| ≤ R := by
    intro r s r0 r1 s0 s1
    cases e <;> simp only [cell_x, cell_y, add_sub_cancel_left] <;>
      rcases hdx with h1 | h1 <;> rcases hdy with h2 | h2 <;> subst h1 h2 <;>
      simp only [mul_one, mul_neg, abs_neg] <;>
      apply max_le <;> rw [abs_le] <;> constructor <;> omega
  by_cases hq : 0 ≤ (x - px) * dx ∧ 0 ≤ (y - py) * dy
  · obtain ⟨r, s, hr, hs0, ex, ey⟩ := quadrant_cell e hdx hdy hq
    have hrs : r ≤ R ∧ s ≤ R := by
      have h1 : |x - px| ≤ R := le_trans (le_max_left _ _) hd
      have h2 : |y - py| ≤ R := le_trans (le_max_right _ _) hd
      rw [abs_le] at h1 h2
      rw [ex] at h1
      rw [ey] at h2
      cases e <;> simp only [cell_x, cell_y] at h1 h2 <;>
        rcases hdx with k1 | k1 <;> rcases hdy with k2 | k2 <;> subst k1 k2 <;>
        constructor <;> omega
    rw [ex, ey, octant_lit_inside e lw R tr hdx hdy f hr hs0,
      octant_lit_inside e lw 0 tr hdx hdy f0 hr hs0]
    apply sweep_radius e lw hR _ hs _ _ _ hr hrs.1 hs0 hrs.2
    intro r2 s2 a1 a2 a3 a4
    rw [to_octant_apply, to_octant_apply]
    have := hdist r2 s2 a1 a2 a3 a4
    cases e
    · simp only [cell_x, cell_y] at this
      exact hf _ _ this
    · simp only [cell_x, cell_y] at this
      exact hf _ _ this
  · unfold octant_lit
    rw [of_octant_outside e f _ hq, of_octant_outside e f0 _ hq]
    exact hf x y hd

theorem fov_lit_truncation (lw : Bool) {R : Int} (hR : 0 < R) (tr : Int → Int → Bool)
    {w h px py : Int} (hx : 0 ≤ px ∧ px < w) (hy : 0 ≤ py ∧ py < h) (x y : Int)
    (hd : max |x - px| |y - py| ≤ R) :
    fov_lit lw R tr w h px py x y = fov_lit lw 0 tr w h px py x y := by
  revert hd
  revert x y
  apply fov_lit_induction2 (fun f f0 => ∀ x y, max |x - px| |y - py| ≤ R → f x y = f0 x y)
  · intro x y _; rfl
  · intro e dx dy f f0 hdx hdy hf x y hd
    exact octant_lit_radius e lw hR tr hdx hdy hx hy f f0 hf x y hd

/-- C21: for every well-formed map, origin inside it, `light_walls` and radius
`R > 0`, the call with `max_radius = R` and the call with `max_radius = 0` both
return, and every cell of the map within Chebyshev distance `R` of the origin
has the same `fov` flag in the two returned maps. -/
theorem radius_truncation (m : TCOD_Map) (hwf : m.wf) (player_x player_y : Int)
    (ho : m.in_bounds player_x player_y) (max_radius : Int) (hR : 0 < max_radius)
    (light_walls : Bool) (start_angle1 end_angle1 start_angle2 end_angle2 : Nat → ℚ) :
    ∃ m1 m2,
      TCOD_map_compute_fov_restrictive_shadowcasting m player_x player_y max_radius
        light_walls start_angle1 end_angle1 = .ok m1 ∧
      TCOD_map_compute_fov_restrictive_shadowcasting m player_x player_y 0
        light_walls start_angle2 end_angle2 = .ok m2 ∧
      ∀ x y, m.in_bounds x y → max |x - player_x| |y - player_y| ≤ max_radius →
        m1.visible x y = m2.visible x y := by
  obtain ⟨m1, h1, hl1⟩ := compute_fov_refines hwf ho max_radius light_walls
    start_angle1 end_angle1
  obtain ⟨m2, h2, hl2⟩ := compute_fov_refines hwf ho 0 light_walls start_angle2 end_angle2
  refine ⟨m1, m2, h1, h2, ?_⟩
  intro x y hb hd
  rw [(hl1.visible_at hwf hb).1, (hl2.visible_at hwf hb).1]
  exact fov_lit_truncation light_walls hR m.tr ⟨ho.1, ho.2.1⟩ ⟨ho.2.2.1, ho.2.2.2⟩ x y hd

theorem radius_truncation_witness :
    slanted_hall.wf ∧ slanted_hall.in_bounds 0 0 ∧ (0 : Int) < 2 ∧
      ∃ m1 m2,
        TCOD_map_compute_fov_restrictive_shadowcasting slanted_hall 0 0 2
          true zero_buffer zero_buffer = .ok m1 ∧
        TCOD_map_compute_fov_restrictive_shadowcasting slanted_hall 0 0 0
          true zero_buffer zero_buffer = .ok m2 ∧
        ∀ x y, slanted_hall.in_bounds x y → max |x - 0| |y - 0| ≤ 2 →
          m1.visible x y = m2.visible x y :=
  ⟨by decide, by decide, by decide,
    radius_truncation slanted_hall (by decide) 0 0 (by decide) 2 (by decide) true _ _ _ _⟩

/-! ## Bounds on `min_angle` and on the obstacles -/

theorem probe_obstacles_inv (e : Edge) (tr : Int → Int → Bool) (ss cs es : ℚ) (a : Sweep)
    (Q : ℚ × ℚ → Prop) (hlast : a.last_line ≤ a.obstacles.length)
    (h : ∀ o ∈ a.obstacles, Q o)
    (hw : ∀ o : ℚ × ℚ, Q o → ss ≤ o.2 → es ≥ o.1 → Q (min o.1 ss, max o.2 es)) :
    ∀ o ∈ (probe e tr ss cs es a).obstacles, Q o := by
  unfold probe
  split_ifs
  · exact h
  · have key := iterate_while_inv
      (fun s : Probe => s.obstacles.length = a.obstacles.length ∧ ∀ o ∈ s.obstacles, Q o)
      (fun t => decide (t.idx < a.last_line) && t.visible)
      (probe_step e (tr a.ring a.pos) ss cs es)
      (by
        intro s hs hc
        refine ⟨by rw [probe_step_length]; exact hs.1, ?_⟩
        have hidx : s.idx < s.obstacles.length := by
          simp only [Bool.and_eq_true, decide_eq_true_eq] at hc
          omega
        have hget : s.obstacles.getD s.idx (0, 0) = s.obstacles[s.idx] := by
          simp [List.getD_eq_getElem?_getD, List.getElem?_eq_getElem hidx]
        have hq : Q (s.obstacles[s.idx]) := hs.2 _ (List.getElem_mem hidx)
        intro o ho
        unfold probe_step at ho
        rw [hget] at ho
        by_cases hov : ss ≤ (s.obstacles[s.idx]).2 ∧ es ≥ (s.obstacles[s.idx]).1
        · cases e <;> cases htr : tr a.ring a.pos <;> simp only [htr, hov] at ho <;>
            split_ifs at ho <;> simp only [] at ho <;>
            first
              | exact hs.2 o ho
              | (rcases List.mem_or_eq_of_mem_set ho with h1 | h1
                 · exact hs.2 o h1
                 · rw [h1]; exact hw _ hq hov.1 hov.2)
        · simp only [hov, if_false] at ho
          exact hs.2 o ho)
      a.last_line
      { obstacles := a.obstacles, idx := 0, visible := true, extended := false } ⟨rfl, h⟩
    exact key.2
  · exact h

theorem end_slope_step {i : Int} (hi : 1 ≤ i) (p : Int) :
    end_slope i p < end_slope i (p + 1) := by
  have hq : (0 : ℚ) < (i : ℚ) := by exact_mod_cast (by omega : (0 : Int) < i)
  have h1 : (0 : ℚ) < 1 / (i : ℚ) := by positivity
  unfold end_slope
  push_cast
  nlinarith

theorem end_slope_le {i p : Int} (hi : 1 ≤ i) (hp : p ≤ i) : end_slope i p ≤ 3 / 2 := by
  have hq : (1 : ℚ) ≤ (i : ℚ) := by exact_mod_cast hi
  have hpq : (p : ℚ) ≤ (i : ℚ) := by exact_mod_cast hp
  have h := end_slope_eq hi p
  unfold end_slope
  by_contra hcon
  push_neg at hcon
  have : 2 * (i : ℚ) * (3 / 2) < 2 * (i : ℚ) * ((p : ℚ) * (1 / (i : ℚ)) + 1 / (i : ℚ) * (1 / 2)) :=
    mul_lt_mul_of_pos_left hcon (by linarith)
  linarith

theorem start_lt_end_slope {i : Int} (hi : 1 ≤ i) (p : Int) :
    start_slope i p < end_slope i p := by
  have hq : (0 : ℚ) < (i : ℚ) := by exact_mod_cast (by omega : (0 : Int) < i)
  have h1 : (0 : ℚ) < 1 / (i : ℚ) * (1 / 2) := by positivity
  unfold start_slope end_slope
  linarith

theorem sweep_cell_bounds {lw : Bool} {R : Int} {tr : Int → Int → Bool} {rmax smax : Int}
    {g : Int → Int → Bool} {i : Int} {a : Sweep} (e : Edge)
    (h : ScanInv lw R tr rmax smax g i a) (hb : ScanBounds lw tr smax i a)
    (hc : a.pos ≤ min i smax) :
    ScanBounds lw tr smax i (sweep_cell e lw tr a) := by
  have hring := h.ring
  have hi := h.ring_pos
  have hpos := h.pos_nonneg
  have hiq : (0 : ℚ) < (i : ℚ) := by exact_mod_cast (by omega : (0 : Int) < i)
  have hpi : a.pos ≤ i := le_trans hc (min_le_left _ _)
  have hss : 2 * (i : ℚ) * start_slope i a.pos = 2 * a.pos - 1 := start_slope_eq hi a.pos
  have hes : 2 * (i : ℚ) * end_slope i a.pos = 2 * a.pos + 1 := end_slope_eq hi a.pos
  have hes32 : end_slope i a.pos ≤ 3 / 2 := end_slope_le hi hpi
  have hprobe : ∀ o ∈ (cell_probe e tr a).obstacles,
      1 ≤ 2 * (i : ℚ) * o.1 ∧ o.1 < o.2 ∧ o.2 ≤ 3 / 2 ∧
        (a.pos = 0 → 1 < 2 * (i : ℚ) * o.1) := by
    unfold cell_probe
    rw [hring]
    apply probe_obstacles_inv e tr _ _ _ a
      (fun o => 1 ≤ 2 * (i : ℚ) * o.1 ∧ o.1 < o.2 ∧ o.2 ≤ 3 / 2 ∧
        (a.pos = 0 → 1 < 2 * (i : ℚ) * o.1)) h.last_le hb.bounds
    intro o ho h1 h2
    by_cases hp0 : a.pos = 0
    · exfalso
      have hfar := ho.2.2.2 hp0
      have : 2 * (i : ℚ) * o.1 ≤ 2 * (i : ℚ) * end_slope i a.pos :=
        mul_le_mul_of_nonneg_left h2 (by linarith)
      rw [hes, hp0] at this
      push_cast at this
      linarith
    · have hp1 : (1 : ℚ) ≤ (a.pos : ℚ) := by exact_mod_cast (by omega : (1 : Int) ≤ a.pos)
      refine ⟨?_, ?_, ?_, fun hc0 => absurd hc0 hp0⟩
      · show 1 ≤ 2 * (i : ℚ) * min o.1 (start_slope i a.pos)
        rcases min_choice o.1 (start_slope i a.pos) with hm | hm <;> rw [hm]
        · exact ho.1
        · rw [hss]; linarith
      · show min o.1 (start_slope i a.pos) < max o.2 (end_slope i a.pos)
        exact lt_of_le_of_lt (min_le_left _ _) (lt_of_lt_of_le ho.2.1 (le_max_left _ _))
      · show max o.2 (end_slope i a.pos) ≤ 3 / 2
        exact max_le ho.2.2.1 hes32
  have hnz : ¬ (sweep_cell e lw tr a).pos = 0 := by rw [sweep_cell_pos]; omega
  refine { ahead := ?_, bounds := ?_, first := ?_ }
  · rw [sweep_cell_min, sweep_cell_pos, hring]
    have hstep := end_slope_step hi a.pos
    split_ifs
    · exact hstep
    · exact lt_trans hb.ahead hstep
  · intro o ho
    rw [sweep_cell_obstacles] at ho
    split_ifs at ho with hcase
    · rcases List.mem_append.mp ho with h1 | h1
      · obtain ⟨q1, q2, q3, _⟩ := hprobe o h1
        exact ⟨q1, q2, q3, fun h0 => absurd h0 hnz⟩
      · simp only [List.mem_singleton] at h1
        rw [h1, hring]
        have hlt : a.min_angle < start_slope i a.pos := by
          have := hcase.2.2.1
          rw [hring] at this
          exact lt_of_not_ge this
        have hsp : 0 < start_slope i a.pos := lt_of_le_of_lt h.min_nonneg hlt
        have h2p : (0 : ℚ) < 2 * (a.pos : ℚ) - 1 := by
          rw [← hss]; positivity
        have hp1 : (1 : ℚ) ≤ (a.pos : ℚ) := by
          have : (0 : Int) < 2 * a.pos - 1 := by exact_mod_cast h2p
          exact_mod_cast (by omega : (1 : Int) ≤ a.pos)
        refine ⟨?_, start_lt_end_slope hi a.pos, hes32, fun h0 => absurd h0 hnz⟩
        show 1 ≤ 2 * (i : ℚ) * start_slope i a.pos
        rw [hss]; linarith
    · obtain ⟨q1, q2, q3, _⟩ := hprobe o ho
      exact ⟨q1, q2, q3, fun h0 => absurd h0 hnz⟩
  · intro s s0 s1 hs
    rw [sweep_cell_lit, sweep_cell_pos] at *
    by_cases hi1 : i = 1
    · have hl0 : a.last_line = 0 := by
        by_contra hcon
        have := h.last_ring (by omega)
        omega
      have hvis : (cell_probe e tr a).visible = true := by
        rw [cell_probe_first_ring e tr a hl0]
      rw [if_pos hvis]
      simp only [set_lit]
      by_cases hsp : s = a.pos
      · rw [if_pos ⟨by rw [hring, hi1], hsp⟩, hring, hi1, hsp]
      · rw [if_neg (fun hcon => hsp hcon.2)]
        exact hb.first s s0 s1 (fun _ => by have := hs hi1; omega)
    · have hne : ¬ ((1 : Int) = a.ring ∧ s = a.pos) := by
        rw [hring]; intro hcon; exact hi1 hcon.1.symm
      split_ifs
      · simp only [set_lit, if_neg hne]
        exact hb.first s s0 s1 (fun h1 => absurd h1 hi1)
      · exact hb.first s s0 s1 (fun h1 => absurd h1 hi1)

theorem scan_start_bounds {lw : Bool} {R : Int} {tr : Int → Int → Bool} {rmax smax : Int}
    {g : Int → Int → Bool} {a : Sweep} (h : RingInv lw R tr rmax smax g a)
    (hb : RingBounds lw tr smax a) :
    ScanBounds lw tr smax a.ring (ring_open a) := by
  have hi := h.ring_pos
  have hiq : (1 : ℚ) ≤ (a.ring : ℚ) := by exact_mod_cast hi
  have hm := h.min_nonneg
  refine { ahead := ?_, bounds := ?_, first := ?_ }
  · simp only [ring_open]
    rw [first_cell_eq hi hm]
    have hfl := Int.lt_floor_add_one (a.min_angle * (a.ring : ℚ) + 1 / 2)
    have hes := end_slope_eq hi ⌊a.min_angle * (a.ring : ℚ) + 1 / 2⌋
    unfold end_slope
    by_contra hcon
    push_neg at hcon
    have : 2 * (a.ring : ℚ) * ((⌊a.min_angle * (a.ring : ℚ) + 1 / 2⌋ : ℚ) * (1 / (a.ring : ℚ)) +
        1 / (a.ring : ℚ) * (1 / 2)) ≤ 2 * (a.ring : ℚ) * a.min_angle :=
      mul_le_mul_of_nonneg_left hcon (by linarith)
    rw [hes] at this
    linarith
  · intro o ho
    obtain ⟨q1, q2, q3⟩ := hb.bounds o ho
    have ho1 : 0 < o.1 := by
      by_contra hcon
      push_neg at hcon
      have : 2 * ((a.ring : ℚ) - 1) * o.1 ≤ 0 :=
        mul_nonpos_of_nonneg_of_nonpos (by linarith) hcon
      linarith
    have hst : 1 < 2 * (a.ring : ℚ) * o.1 := by nlinarith
    exact ⟨le_of_lt hst, q2, q3, fun _ => hst⟩
  · intro s s0 s1 hs
    by_cases h1 : a.ring = 1
    · exfalso
      have hmin : a.min_angle = 0 := by
        rcases h.min_far with h0 | h0
        · exact h0
        · rw [h1] at h0
          norm_num at h0
      have := hs h1
      simp only [ring_open] at this
      rw [hmin, first_cell_zero hi] at this
      omega
    · exact hb.first (by omega) s s0 s1

theorem ring_close_bounds {lw : Bool} {R : Int} {tr : Int → Int → Bool} {rmax smax : Int}
    {g : Int → Int → Bool} {i : Int} {a2 : Sweep}
    (h : ScanInv lw R tr rmax smax g i a2) (hb : ScanBounds lw tr smax i a2)
    (hfin : min i smax < a2.pos) :
    RingBounds lw tr smax (ring_close R rmax a2) := by
  have hring := h.ring
  have hi := h.ring_pos
  refine { bounds := ?_, first := ?_ }
  · intro o ho
    simp only [ring_close] at ho ⊢
    obtain ⟨q1, q2, q3, _⟩ := hb.bounds o ho
    refine ⟨?_, q2, q3⟩
    rw [hring]
    push_cast
    linarith
  · intro _ s s0 s1
    simp only [ring_close]
    apply hb.first s s0 s1
    intro h1
    rw [h1] at hfin
    omega

theorem sweep_ring_bounds {lw : Bool} {R : Int} {tr : Int → Int → Bool} {rmax smax : Int}
    {g : Int → Int → Bool} (e : Edge) {a : Sweep}
    (h : RingInv lw R tr rmax smax g a) (hb : RingBounds lw tr smax a) (hd : a.done = false) :
    RingBounds lw tr smax (sweep_ring e lw R tr rmax smax a) := by
  have h1 := scan_start_inv h hd
  have key := iterate_while_inv
    (fun t : Sweep => ScanInv lw R tr rmax smax g a.ring t ∧ ScanBounds lw tr smax a.ring t)
    (fun t => decide (t.pos ≤ min a.ring smax)) (sweep_cell e lw tr)
    (fun t ht hc => ⟨sweep_cell_inv e ht.1 (by simpa using hc),
      sweep_cell_bounds e ht.1 ht.2 (by simpa using hc)⟩)
    (min a.ring smax + 1 - (ring_open a).pos).toNat (ring_open a)
    ⟨h1, scan_start_bounds h hb⟩
  have h3 := scan_loop_done e (min a.ring smax + 1 - (ring_open a).pos).toNat h1 (le_refl _)
  simp only [decide_eq_false_iff_not, not_le] at h3
  exact ring_close_bounds key.1 key.2 h3

theorem sweep_init_bounds (lw : Bool) (tr : Int → Int → Bool) (rmax smax : Int)
    (g : Int → Int → Bool) : RingBounds lw tr smax (sweep_init g rmax) :=
  { bounds := by simp [sweep_init]
    first := by simp only [sweep_init]; intro h2; omega }

theorem sweep_bounds (e : Edge) (lw : Bool) (R : Int) (tr : Int → Int → Bool) {rmax smax : Int}
    (hs : 0 ≤ smax) (g : Int → Int → Bool) :
    RingBounds lw tr smax (sweep e lw R tr rmax smax g) :=
  (iterate_while_inv
    (fun t : Sweep => RingInv lw R tr rmax smax g t ∧ RingBounds lw tr smax t) _ _
    (fun b hb hc => ⟨sweep_ring_inv e hs hb.1 (by simpa using hc),
      sweep_ring_bounds e hb.1 hb.2 (by simpa using hc)⟩) _ _
    ⟨sweep_init_inv lw R tr rmax smax g, sweep_init_bounds lw tr rmax smax g⟩).2

/-! ## The eight neighbours of the origin -/

theorem sweep_second_ring (e : Edge) (lw : Bool) (R : Int) (tr : Int → Int → Bool)
    {rmax smax : Int} (hs : 0 ≤ smax) (g : Int → Int → Bool) (hr : 1 ≤ rmax) :
    2 ≤ (sweep e lw R tr rmax smax g).ring := by
  have hinv := @sweep_inv e lw R tr rmax _ hs g
  have hdone := @sweep_done e lw R tr rmax _ hs g
  have h1 := hinv.ring_pos
  by_contra hcon
  have hone : (sweep e lw R tr rmax smax g).ring = 1 := by omega
  have hmin : (sweep e lw R tr rmax smax g).min_angle = 0 := by
    rcases hinv.min_far with h0 | h0
    · exact h0
    · rw [hone] at h0
      norm_num at h0
  have := hinv.alive hmin (by omega) (Or.inl hone)
  rw [hdone] at this
  exact absurd this (by simp)

theorem sweep_first_ring (e : Edge) (lw : Bool) (R : Int) (tr : Int → Int → Bool)
    {rmax smax : Int} (hs : 0 ≤ smax) (g : Int → Int → Bool) (hr : 1 ≤ rmax)
    {s : Int} (s0 : 0 ≤ s) (s1 : s ≤ min 1 smax) :
    (sweep e lw R tr rmax smax g).lit 1 s = (tr 1 s || lw) :=
  (sweep_bounds e lw R tr hs g).first (sweep_second_ring e lw R tr hs g hr) s s0 s1

theorem fov_lit_adjacent (lw : Bool) (R : Int) (tr : Int → Int → Bool) {w h px py : Int}
    (hx : 0 ≤ px ∧ px < w) (hy : 0 ≤ py ∧ py < h) {x y : Int}
    (hxw : 0 ≤ x ∧ x < w) (hyh : 0 ≤ y ∧ y < h) (hd : max |x - px| |y - py| = 1) :
    fov_lit lw R tr w h px py x y = (tr x y || lw) := by
  have hne : ¬ (x = px ∧ y = py) := by
    rintro ⟨h1, h2⟩
    rw [h1, h2] at hd
    simp at hd
  obtain ⟨e, dx, dy, r, s, hdx, hdy, r1, r2, s1, s2, ex, ey, er⟩ :=
    covering_octant hxw hyh hne
  have hr : r = 1 := by rw [er, hd]
  subst hr
  have hs : 0 ≤ scan_extent e w h px py dx dy := by
    cases e
    · exact extent_nonneg hx.1 hx.2
    · exact extent_nonneg hy.1 hy.2
  apply fov_lit_established (fun f => f x y = (tr x y || lw)) lw R tr w h px py _ e hdx hdy
  · intro f
    show octant_lit e lw R tr w h px py dx dy f x y = (tr x y || lw)
    rw [ex, ey, octant_lit_inside e lw R tr hdx hdy f (by omega) s1,
      sweep_first_ring e lw R _ hs _ r2 s1 s2, to_octant_apply]
  · intro e1 dx1 dy1 f hdx1 hdy1 hf
    rcases octant_lit_frame e1 lw R tr hdx1 hdy1 hx hy f x y with h1 |
      ⟨_, _, _, _, _, _, _, _, _, _, hval⟩
    · rw [h1]; exact hf
    · exact hval

/-- C26: for every well-formed map, origin inside it, radius and `light_walls`,
the call returns and every cell of the map at Chebyshev distance 1 from the
origin is visible in the returned map exactly when it is transparent or
`light_walls` is set, whatever the other cells of the map are. -/
theorem adjacent_cells (m : TCOD_Map) (hwf : m.wf) (player_x player_y : Int)
    (ho : m.in_bounds player_x player_y) (max_radius : Int) (light_walls : Bool)
    (start_angle end_angle : Nat → ℚ) :
    ∃ m1, TCOD_map_compute_fov_restrictive_shadowcasting m player_x player_y max_radius
        light_walls start_angle end_angle = .ok m1 ∧
      ∀ x y, m.in_bounds x y → max |x - player_x| |y - player_y| = 1 →
        m1.visible x y = (m.is_transparent x y || light_walls) := by
  obtain ⟨m1, h1, hl⟩ := compute_fov_refines hwf ho max_radius light_walls start_angle end_angle
  refine ⟨m1, h1, ?_⟩
  intro x y hb hd
  rw [(hl.visible_at hwf hb).1, ← tr_of_in_bounds hb]
  exact fov_lit_adjacent light_walls max_radius m.tr ⟨ho.1, ho.2.1⟩ ⟨ho.2.2.1, ho.2.2.2⟩
    ⟨hb.1, hb.2.1⟩ ⟨hb.2.2.1, hb.2.2.2⟩ hd

theorem adjacent_cells_witness :
    pillar_room.wf ∧ pillar_room.in_bounds 1 1 ∧
      ∃ m1, TCOD_map_compute_fov_restrictive_shadowcasting pillar_room 1 1 0
          false zero_buffer zero_buffer = .ok m1 ∧
        ∀ x y, pillar_room.in_bounds x y → max |x - 1| |y - 1| = 1 →
          m1.visible x y = (pillar_room.is_transparent x y || false) :=
  ⟨by decide, by decide, adjacent_cells pillar_room (by decide) 1 1 (by decide) 0 false _ _⟩

/-! ## An observer walled in by its neighbours -/

theorem sweep_cell_shut {lw : Bool} {R : Int} {tr : Int → Int → Bool} {rmax smax : Int}
    {g : Int → Int → Bool} {i : Int} {a : Sweep} (e : Edge)
    (h10 : tr 1 0 = false) (h11 : tr 1 1 = false)
    (h : ScanInv lw R tr rmax smax g i a) (hs : ShutScan smax g i a)
    (hc : a.pos ≤ min i smax) :
    ShutScan smax g i (sweep_cell e lw tr a) := by
  have hring := h.ring
  have hi := h.ring_pos
  have hone : i = 1 := by
    by_contra hcon
    obtain ⟨b1, b2, _⟩ := hs.beyond (by omega)
    rw [b1] at hc
    have := le_trans hc (min_le_right _ _)
    omega
  subst hone
  have hl0 : a.last_line = 0 := by
    by_contra hcon
    have := h.last_ring (by omega)
    omega
  have hvis : (cell_probe e tr a).visible = true := by
    rw [cell_probe_first_ring e tr a hl0]
  have hp1 : a.pos ≤ 1 := le_trans hc (min_le_left _ _)
  refine { ring_one := ?_, beyond := ?_, frame := ?_ }
  · intro _
    rw [sweep_cell_pos, sweep_cell_min, sweep_cell_done]
    rcases hs.ring_one rfl with h0 | ⟨h1, hm⟩ | ⟨h2, _⟩
    · right; left
      have hm0 := h.pos_zero h0
      refine ⟨by omega, ?_⟩
      rw [if_pos ⟨hvis, by rw [hring, h0]; exact h10, by
        rw [hring, h0, hm0]; norm_num [start_slope]⟩, hring, h0]
      norm_num [end_slope]
    · right; right
      refine ⟨by omega, ?_⟩
      rw [if_pos hvis]
      simp only [decide_eq_true_eq]
      refine ⟨by rw [hring, h1]; exact h11, ?_, by rw [hring, h1]⟩
      rw [hring, h1, hm]
      norm_num [start_slope]
    · omega
  · intro h2; omega
  · intro r s hr
    rw [sweep_cell_lit, if_pos hvis]
    simp only [set_lit]
    rw [if_neg (by rw [hring]; intro hcon; omega)]
    exact hs.frame r s hr

theorem scan_start_shut {lw : Bool} {R : Int} {tr : Int → Int → Bool} {rmax smax : Int}
    {g : Int → Int → Bool} {a : Sweep} (h : RingInv lw R tr rmax smax g a)
    (hs : ShutRing smax g a) (hd : a.done = false) :
    ShutScan smax g a.ring (ring_open a) := by
  have hi := h.ring_pos
  refine { ring_one := ?_, beyond := ?_, frame := hs.frame }
  · intro h1
    left
    have hmin : a.min_angle = 0 := by
      rcases h.min_far with h0 | h0
      · exact h0
      · rw [h1] at h0
        norm_num at h0
    simp only [ring_open]
    rw [hmin]
    exact first_cell_zero hi
  · intro h2
    rcases hs.beyond h2 with hdone | ⟨hs0, hm⟩
    · rw [hd] at hdone
      exact absurd hdone (by simp)
    · refine ⟨hs0, ?_, hm, rfl⟩
      simp only [ring_open]
      apply first_cell_pos hi h.min_nonneg
      have hiq : (2 : ℚ) ≤ (a.ring : ℚ) := by exact_mod_cast h2
      nlinarith

theorem ring_close_shut {lw : Bool} {R : Int} {tr : Int → Int → Bool} {rmax smax : Int}
    {g : Int → Int → Bool} {i : Int} {a2 : Sweep} (hsm : 0 ≤ smax)
    (h : ScanInv lw R tr rmax smax g i a2) (hs : ShutScan smax g i a2)
    (hfin : min i smax < a2.pos) :
    ShutRing smax g (ring_close R rmax a2) := by
  have hring := h.ring
  have hi := h.ring_pos
  refine { beyond := ?_, frame := hs.frame }
  intro _
  simp only [ring_close]
  by_cases hone : i = 1
  · rcases hs.ring_one hone with h0 | ⟨h1, hm⟩ | ⟨_, hdone⟩
    · exfalso
      rw [h0] at hfin
      have : 0 ≤ min i smax := le_min (by omega) hsm
      omega
    · right
      rw [h1, hone] at hfin
      refine ⟨?_, by rw [hm]⟩
      by_contra hcon
      have : (1 : Int) ≤ min 1 smax := le_min (le_refl _) (by omega)
      omega
    · left
      rw [hdone]; rfl
  · left
    rw [(hs.beyond (by omega)).2.2.2]; rfl

theorem sweep_ring_shut {lw : Bool} {R : Int} {tr : Int → Int → Bool} {rmax smax : Int}
    {g : Int → Int → Bool} (e : Edge) (hsm : 0 ≤ smax)
    (h10 : tr 1 0 = false) (h11 : tr 1 1 = false) {a : Sweep}
    (h : RingInv lw R tr rmax smax g a) (hs : ShutRing smax g a) (hd : a.done = false) :
    ShutRing smax g (sweep_ring e lw R tr rmax smax a) := by
  have h1 := scan_start_inv h hd
  have key := iterate_while_inv
    (fun t : Sweep => ScanInv lw R tr rmax smax g a.ring t ∧ ShutScan smax g a.ring t)
    (fun t => decide (t.pos ≤ min a.ring smax)) (sweep_cell e lw tr)
    (fun t ht hc => ⟨sweep_cell_inv e ht.1 (by simpa using hc),
      sweep_cell_shut e h10 h11 ht.1 ht.2 (by simpa using hc)⟩)
    (min a.ring smax + 1 - (ring_open a).pos).toNat (ring_open a)
    ⟨h1, scan_start_shut h hs hd⟩
  have h3 := scan_loop_done e (min a.ring smax + 1 - (ring_open a).pos).toNat h1 (le_refl _)
  simp only [decide_eq_false_iff_not, not_le] at h3
  exact ring_close_shut hsm key.1 key.2 h3

theorem sweep_shut (e : Edge) (lw : Bool) (R : Int) {tr : Int → Int → Bool} {rmax smax : Int}
    (hs : 0 ≤ smax) (h10 : tr 1 0 = false) (h11 : tr 1 1 = false) (g : Int → Int → Bool)
    {r : Int} (s : Int) (hr : 2 ≤ r) :
    (sweep e lw R tr rmax smax g).lit r s = g r s :=
  (iterate_while_inv
    (fun t : Sweep => RingInv lw R tr rmax smax g t ∧ ShutRing smax g t) _ _
    (fun b hb hc => ⟨sweep_ring_inv e hs hb.1 (by simpa using hc),
      sweep_ring_shut e hs h10 h11 hb.1 hb.2 (by simpa using hc)⟩) _ _
    ⟨sweep_init_inv lw R tr rmax smax g,
      { beyond := by simp only [sweep_init]; intro h2; omega
        frame := fun _ _ _ => rfl }⟩).2.frame r s hr

theorem octant_lit_enclosed (e : Edge) (lw : Bool) (R : Int) (tr : Int → Int → Bool)
    {w h px py dx dy : Int} (hdx : dx = 1 ∨ dx = -1) (hdy : dy = 1 ∨ dy = -1)
    (hx : 0 ≤ px ∧ px < w) (hy : 0 ≤ py ∧ py < h)
    (hnb : ∀ x y, max |x - px| |y - py| = 1 → tr x y = false)
    (f : Int → Int → Bool) (x y : Int) (hd : 2 ≤ max |x - px| |y - py|) :
    octant_lit e lw R tr w h px py dx dy f x y = f x y := by
  have hs : 0 ≤ scan_extent e w h px py dx dy := by
    cases e
    · exact extent_nonneg hx.1 hx.2
    · exact extent_nonneg hy.1 hy.2
  have hone : ∀ s : Int, (s = 0 ∨ s = 1) → to_octant e px py dx dy tr 1 s = false := by
    intro s hs01
    rw [to_octant_apply]
    apply hnb
    cases e <;> rcases hdx with k1 | k1 <;> rcases hdy with k2 | k2 <;> subst k1 k2 <;>
      rcases hs01 with k3 | k3 <;> subst k3 <;> simp [cell_x, cell_y]
  by_cases hq : 0 ≤ (x - px) * dx ∧ 0 ≤ (y - py) * dy
  · obtain ⟨r, s, hr, hs0, ex, ey⟩ := quadrant_cell e hdx hdy hq
    have hrs : 2 ≤ r ∨ r < s := by
      by_contra hcon
      push_neg at hcon
      have : max |x - px| |y - py| ≤ 1 := by
        rw [ex, ey]
        have := @cell_dist e px py _ _ hdx hdy r s hs0 hcon.2
        exact max_le (by omega) (by omega)
      omega
    have hval : octant_lit e lw R tr w h px py dx dy f x y =
        to_octant e px py dx dy f r s := by
      rw [ex, ey, octant_lit_inside e lw R tr hdx hdy f hr hs0]
      rcases hrs with h2 | h2
      · exact sweep_shut e lw R hs (hone 0 (Or.inl rfl)) (hone 1 (Or.inr rfl)) _ s h2
      · rcases sweep_frame e lw R (to_octant e px py dx dy tr) hs
            (to_octant e px py dx dy f) r s with h1 | ⟨_, _, f3, _⟩
        · exact h1
        · omega
    rw [hval, to_octant_apply, ← ex, ← ey]
  · exact of_octant_outside e f _ hq

theorem fov_lit_enclosed (lw : Bool) (R : Int) (tr : Int → Int → Bool) {w h px py : Int}
    (hx : 0 ≤ px ∧ px < w) (hy : 0 ≤ py ∧ py < h)
    (hnb : ∀ x y, max |x - px| |y - py| = 1 → tr x y = false)
    (x y : Int) (hd : 2 ≤ max |x - px| |y - py|) :
    fov_lit lw R tr w h px py x y = false := by
  revert hd
  revert x y
  apply fov_lit_induction (fun f => ∀ x y, 2 ≤ max |x - px| |y - py| → f x y = false)
  · intro x y hd
    simp only [decide_eq_false_iff_not]
    rintro ⟨h1, h2⟩
    rw [h1, h2] at hd
    simp at hd
  · intro e dx dy f hdx hdy hf x y hd
    rw [octant_lit_enclosed e lw R tr hdx hdy hx hy hnb f x y hd]
    exact hf x y hd

theorem walled_in_neighbours (x y : Int) (hb : walled_in.in_bounds x y)
    (hd : max |x - 1| |y - 1| = 1) : walled_in.is_transparent x y = false := by
  obtain ⟨h1, h2, h3, h4⟩ := hb
  simp only [walled_in] at h2 h4
  have hx : x = 0 ∨ x = 1 ∨ x = 2 ∨ x = 3 := by omega
  have hy : y = 0 ∨ y = 1 ∨ y = 2 := by omega
  rcases hx with h | h | h | h <;> rcases hy with h5 | h5 | h5 <;> subst h h5 <;>
    first
      | decide
      | (exfalso; revert hd; decide)

/-- C27: for every well-formed map and origin inside it such that every cell of
the map at Chebyshev distance 1 from the origin is opaque, for every radius and
`light_walls`, the call returns and no cell of the map at Chebyshev distance 2
or more from the origin is visible in the returned map. -/
theorem enclosed_observer (m : TCOD_Map) (hwf : m.wf) (player_x player_y : Int)
    (ho : m.in_bounds player_x player_y)
    (hnb : ∀ x y, m.in_bounds x y → max |x - player_x| |y - player_y| = 1 →
      m.is_transparent x y = false)
    (max_radius : Int) (light_walls : Bool) (start_angle end_angle : Nat → ℚ) :
    ∃ m1, TCOD_map_compute_fov_restrictive_shadowcasting m player_x player_y max_radius
        light_walls start_angle end_angle = .ok m1 ∧
      ∀ x y, m.in_bounds x y → 2 ≤ max |x - player_x| |y - player_y| →
        m1.visible x y = false := by
  obtain ⟨m1, h1, hl⟩ := compute_fov_refines hwf ho max_radius light_walls start_angle end_angle
  refine ⟨m1, h1, ?_⟩
  intro x y hb hd
  rw [(hl.visible_at hwf hb).1]
  apply fov_lit_enclosed light_walls max_radius m.tr ⟨ho.1, ho.2.1⟩ ⟨ho.2.2.1, ho.2.2.2⟩ _ x y hd
  intro x1 y1 hd1
  by_cases hb1 : m.in_bounds x1 y1
  · rw [tr_of_in_bounds hb1]; exact hnb x1 y1 hb1 hd1
  · exact tr_outside hb1

theorem enclosed_observer_witness :
    walled_in.wf ∧ walled_in.in_bounds 1 1 ∧
      (∀ x y, walled_in.in_bounds x y → max |x - 1| |y - 1| = 1 →
        walled_in.is_transparent x y = false) ∧
      ∃ m1, TCOD_map_compute_fov_restrictive_shadowcasting walled_in 1 1 0
          true zero_buffer zero_buffer = .ok m1 ∧
        ∀ x y, walled_in.in_bounds x y → 2 ≤ max |x - 1| |y - 1| →
          m1.visible x y = false :=
  ⟨by decide, by decide, walled_in_neighbours,
    enclosed_observer walled_in (by decide) 1 1 (by decide) walled_in_neighbours 0 true _ _⟩

/-! ## Loops step by step -/

theorem bind_eq_ok {α β : Type} {x : Except Fault α} {f : α → Except Fault β} {b : β}
    (h : x.bind f = .ok b) : ∃ a, x = .ok a ∧ f a = .ok b := by
  cases x with
  | error err => cases h
  | ok a => exact ⟨a, rfl, h⟩

theorem loop_steps_stop {σ : Type} (cond : σ → Bool) (body : σ → Except Fault σ) {s : σ}
    (h : cond s = false) : ∀ k, loop_steps cond body k s = .ok s := by
  intro k
  induction k with
  | zero => rfl
  | succ n ih =>
    simp only [loop_steps, ih]
    show (if cond s = true then body s else .ok s) = .ok s
    rw [h]
    rfl

theorem loop_steps_head {σ : Type} (cond : σ → Bool) (body : σ → Except Fault σ) (s : σ) :
    ∀ k, loop_steps cond body (k + 1) s =
      (if cond s then body s else .ok s).bind (loop_steps cond body k) := by
  intro k
  induction k with
  | zero =>
    show (if cond s = true then body s else .ok s) = _
    cases (if cond s = true then body s else .ok s) <;> rfl
  | succ n ih =>
    have hdef : loop_steps cond body (n + 1 + 1) s =
        (loop_steps cond body (n + 1) s).bind fun t => if cond t then body t else .ok t := rfl
    rw [hdef, ih]
    cases h : (if cond s = true then body s else .ok s) with
    | error err => rfl
    | ok a => rfl

theorem while_loop_steps {σ : Type} (cond : σ → Bool) (body : σ → Except Fault σ) :
    ∀ (fuel : Nat) (s r : σ), while_loop cond body fuel s = .ok r →
      loop_steps cond body fuel s = .ok r ∧ cond r = false := by
  intro fuel
  induction fuel with
  | zero =>
    intro s r h
    by_cases hc : cond s = true
    · simp [while_loop, hc] at h
    · simp only [while_loop, hc] at h
      simp only [Bool.false_eq_true, if_false, Except.ok.injEq] at h
      subst h
      exact ⟨rfl, by simpa using hc⟩
  | succ n ih =>
    intro s r h
    by_cases hc : cond s = true
    · simp only [while_loop, hc, if_true] at h
      obtain ⟨s1, h1, h2⟩ := bind_eq_ok h
      obtain ⟨h3, h4⟩ := ih s1 r h2
      refine ⟨?_, h4⟩
      rw [loop_steps_head, if_pos hc, bind_ok h1]
      exact h3
    · have hcf : cond s = false := by simpa using hc
      simp only [while_loop, hc] at h
      simp only [Bool.false_eq_true, if_false, Except.ok.injEq] at h
      subst h
      exact ⟨loop_steps_stop cond body hcf _, hcf⟩

theorem loop_steps_stable {σ : Type} (cond : σ → Bool) (body : σ → Except Fault σ)
    {s t : σ} {k : Nat} (h : loop_steps cond body k s = .ok t) (hc : cond t = false) :
    ∀ j, loop_steps cond body (k + j) s = .ok t := by
  intro j
  induction j with
  | zero => exact h
  | succ n ih =>
    show (loop_steps cond body (k + n) s).bind _ = _
    rw [ih]
    show (if cond t = true then body t else .ok t) = .ok t
    rw [hc]
    rfl

theorem scan_steps_succ (e : Edge) (px py : Int) (lw : Bool) (dx dy : Int) (s : Octant)
    (k : Nat) :
    scan_steps e px py lw dx dy s (k + 1) =
      (scan_steps e px py lw dx dy s k).bind fun t =>
        if in_line e (line_lo e px py s.iteration) (line_hi e s.m px py s.iteration) t then
          scan_cell e lw dx dy (1 / (s.iteration : ℚ)) (1 / (s.iteration : ℚ) * (1 / 2)) t
        else .ok t := rfl

/-- The ring loop returns the state its scan settles on. -/
theorem scan_ring_steps {e : Edge} {px py R : Int} {lw : Bool} {dx dy : Int}
    {s s1 : Octant} (h : scan_ring e px py R lw dx dy s = .ok s1) :
    ∃ s2 k, s1 = line_end e R dx dy s2 ∧
      in_line e (line_lo e px py s.iteration) (line_hi e s.m px py s.iteration) s2 = false ∧
      ∀ j, scan_steps e px py lw dx dy s (k + j) = .ok s2 := by
  unfold scan_ring at h
  obtain ⟨s2, h2, h3⟩ := bind_eq_ok h
  simp only [Except.ok.injEq] at h3
  obtain ⟨h4, h5⟩ := while_loop_steps _ _ _ _ _ h2
  exact ⟨s2, _, h3.symm, h5, loop_steps_stable _ _ h4 h5⟩

/-! ## The states an octant block runs through -/

theorem sweep_cell_min_mono {lw : Bool} {tr : Int → Int → Bool} {smax : Int} {i : Int}
    {a : Sweep} (e : Edge) (hring : a.ring = i) (hb : ScanBounds lw tr smax i a) :
    a.min_angle ≤ (sweep_cell e lw tr a).min_angle := by
  rw [sweep_cell_min]
  split_ifs
  · rw [hring]; exact le_of_lt hb.ahead
  · exact le_refl _

theorem sweep_ring_min_mono {lw : Bool} {R : Int} {tr : Int → Int → Bool} {rmax smax : Int}
    {g : Int → Int → Bool} (e : Edge) {a : Sweep}
    (h : RingInv lw R tr rmax smax g a) (hb : RingBounds lw tr smax a) (hd : a.done = false) :
    a.min_angle ≤ (sweep_ring e lw R tr rmax smax a).min_angle := by
  have h1 := scan_start_inv h hd
  have key := iterate_while_inv
    (fun t : Sweep => ScanInv lw R tr rmax smax g a.ring t ∧ ScanBounds lw tr smax a.ring t ∧
      a.min_angle ≤ t.min_angle)
    (fun t => decide (t.pos ≤ min a.ring smax)) (sweep_cell e lw tr)
    (fun t ht hc => ⟨sweep_cell_inv e ht.1 (by simpa using hc),
      sweep_cell_bounds e ht.1 ht.2.1 (by simpa using hc),
      le_trans ht.2.2 (sweep_cell_min_mono e ht.1.ring ht.2.1)⟩)
    (min a.ring smax + 1 - (ring_open a).pos).toNat (ring_open a)
    ⟨h1, scan_start_bounds h hb, le_refl _⟩
  exact key.2.2

/-- Two runs of an octant block from the same map with different buffers, after
`n` rings: both have returned, in states that are the same sweep. -/
theorem after_rings_pair (e : Edge) {m0 m : TCOD_Map} {px py dx dy : Int}
    (ctx : OctCtx m0 px py dx dy) {f : Int → Int → Bool} (hl : LitAs m0 f m)
    (lw : Bool) (R : Int) (sa ea sa1 ea1 : Nat → ℚ) :
    ∀ n, ∃ s s1 a,
      after_rings e m px py R lw dx dy sa ea n = .ok s ∧
      after_rings e m px py R lw dx dy sa1 ea1 n = .ok s1 ∧
      OctRel e m0 px py dx dy f s a ∧ OctRel e m0 px py dx dy f s1 a ∧
      RingInv lw R (to_octant e px py dx dy m0.tr)
        (ring_extent e m0.width m0.height px py dx dy)
        (scan_extent e m0.width m0.height px py dx dy) (to_octant e px py dx dy f) a ∧
      RingBounds lw (to_octant e px py dx dy m0.tr)
        (scan_extent e m0.width m0.height px py dx dy) a ∧
      (n = 0 → a.min_angle = 0 ∧ a.obstacles = []) := by
  have hs := scan_extent_nonneg e dx dy ctx.origin
  intro n
  induction n with
  | zero =>
    exact ⟨_, _, _, rfl, rfl, octant_init_rel e ctx hl sa ea, octant_init_rel e ctx hl sa1 ea1,
      sweep_init_inv _ _ _ _ _ _, sweep_init_bounds _ _ _ _ _, fun _ => ⟨rfl, rfl⟩⟩
  | succ n ih =>
    obtain ⟨s, s1, a, h1, h2, r1, r2, hinv, hb, _⟩ := ih
    by_cases hd : a.done = true
    · refine ⟨s, s1, a, ?_, ?_, r1, r2, hinv, hb, fun hc => absurd hc (by omega)⟩
      · simp only [after_rings, bind_ok h1, r1.done, hd, if_true]
      · simp only [after_rings, bind_ok h2, r2.done, hd, if_true]
    · have hd1 : a.done = false := by simpa using hd
      obtain ⟨t, ht, rt⟩ := scan_ring_refines e ctx lw R r1 hinv hd1
      obtain ⟨t1, ht1, rt1⟩ := scan_ring_refines e ctx lw R r2 hinv hd1
      refine ⟨t, t1, _, ?_, ?_, rt, rt1, sweep_ring_inv e hs hinv hd1,
        sweep_ring_bounds e hinv hb hd1, fun hc => absurd hc (by omega)⟩
      · simp only [after_rings, bind_ok h1, r1.done, hd1, Bool.false_eq_true, if_false]
        exact ht
      · simp only [after_rings, bind_ok h2, r2.done, hd1, Bool.false_eq_true, if_false]
        exact ht1

/-- Two runs of the scan of a ring from states that are the same sweep, after
`k` cells: both have returned, in states that are the same scan. -/
theorem scan_steps_pair (e : Edge) {m0 : TCOD_Map} {px py dx dy : Int}
    (ctx : OctCtx m0 px py dx dy) {f g : Int → Int → Bool} (lw : Bool) {R : Int}
    {s s1 : Octant} {a : Sweep} (hrel : OctRel e m0 px py dx dy f s a)
    (hrel1 : OctRel e m0 px py dx dy f s1 a)
    (hinv : RingInv lw R (to_octant e px py dx dy m0.tr)
      (ring_extent e m0.width m0.height px py dx dy)
      (scan_extent e m0.width m0.height px py dx dy) g a)
    (hb : RingBounds lw (to_octant e px py dx dy m0.tr)
      (scan_extent e m0.width m0.height px py dx dy) a)
    (hd : a.done = false) :
    ∀ k, ∃ t t1 b,
      scan_steps e px py lw dx dy s k = .ok t ∧
      scan_steps e px py lw dx dy s1 k = .ok t1 ∧
      ScanRel e m0 px py dx dy f t b ∧ ScanRel e m0 px py dx dy f t1 b ∧
      ScanInv lw R (to_octant e px py dx dy m0.tr)
        (ring_extent e m0.width m0.height px py dx dy)
        (scan_extent e m0.width m0.height px py dx dy) g a.ring b ∧
      ScanBounds lw (to_octant e px py dx dy m0.tr)
        (scan_extent e m0.width m0.height px py dx dy) a.ring b ∧
      a.min_angle ≤ b.min_angle ∧
      in_line e (line_lo e px py s.iteration) (line_hi e s.m px py s.iteration) t =
        decide (b.pos ≤ min a.ring (scan_extent e m0.width m0.height px py dx dy)) := by
  have hr1 := hinv.ring_pos
  have hcond : ∀ (u : Octant) (t : Octant) (b : Sweep), OctRel e m0 px py dx dy f u a →
      ScanRel e m0 px py dx dy f t b →
      ScanInv lw R (to_octant e px py dx dy m0.tr)
        (ring_extent e m0.width m0.height px py dx dy)
        (scan_extent e m0.width m0.height px py dx dy) g a.ring b →
      in_line e (line_lo e px py u.iteration) (line_hi e u.m px py u.iteration) t =
        decide (b.pos ≤ min a.ring (scan_extent e m0.width m0.height px py dx dy)) := by
    intro u t b hu ht hbinv
    have := in_line_rel e ctx ht hbinv.pos_nonneg (by rw [hbinv.ring]; omega)
      hu.lit.width hu.lit.height
    rw [hbinv.ring, ← hu.iteration] at this
    rw [this, hu.iteration]
  intro k
  induction k with
  | zero =>
    have hsi := scan_start_inv hinv hd
    exact ⟨_, _, ring_open a, rfl, rfl, line_start_rel e hrel, line_start_rel e hrel1,
      hsi, scan_start_bounds hinv hb, le_refl _,
      hcond s _ _ hrel (line_start_rel e hrel) hsi⟩
  | succ n ih =>
    obtain ⟨t, t1, b, h1, h2, rt, rt1, hbinv, hbb, hmono, hin⟩ := ih
    have hin1 := hcond s1 t1 b hrel1 rt1 hbinv
    rw [scan_steps_succ, scan_steps_succ, bind_ok h1, bind_ok h2, hin, hin1]
    by_cases hc : b.pos ≤ min a.ring (scan_extent e m0.width m0.height px py dx dy)
    · have hbr := hbinv.ring
      have hb2 := hbinv
      rw [← hbr] at hb2
      have hc2 : b.pos ≤ min b.ring (scan_extent e m0.width m0.height px py dx dy) := by
        rw [hbr]; exact hc
      obtain ⟨u, hu, ru⟩ := scan_cell_refines e ctx lw rt hb2 hc2
      obtain ⟨u1, hu1, ru1⟩ := scan_cell_refines e ctx lw rt1 hb2 hc2
      rw [hbr] at hu hu1
      have hu' := hu
      rw [← hrel.iteration] at hu
      rw [← hrel1.iteration] at hu1
      have hinv2 := sweep_cell_inv e hbinv hc
      refine ⟨u, u1, _, ?_, ?_, ru, ru1, hinv2, sweep_cell_bounds e hbinv hbb hc,
        le_trans hmono (sweep_cell_min_mono e hbr hbb), hcond s u _ hrel ru hinv2⟩
      · simp only [hc, decide_True, if_true]; exact hu
      · simp only [hc, decide_True, if_true]; exact hu1
    · refine ⟨t, t1, b, ?_, ?_, rt, rt1, hbinv, hbb, hmono, hin⟩
      · simp only [hc, decide_False, Bool.false_eq_true, if_false]
      · simp only [hc, decide_False, Bool.false_eq_true, if_false]

theorem LitAs.unique {m0 m1 m2 : TCOD_Map} {f : Int → Int → Bool} (h1 : LitAs m0 f m1)
    (h2 : LitAs m0 f m2) : m2 = m1 := by
  have hcells : m2.cells = m1.cells := by
    apply List.ext_getElem?
    intro i
    by_cases hi : i < m0.cells.length
    · obtain ⟨c, c0, a1, a2, a3, a4, a5⟩ := h1.cells i hi
      obtain ⟨d, d0, b1, b2, b3, b4, b5⟩ := h2.cells i hi
      rw [a1, b1]
      rw [a2] at b2
      simp only [Option.some.injEq] at b2
      subst b2
      obtain ⟨ct, cw, cf⟩ := c
      obtain ⟨dt, dw, df⟩ := d
      simp only at a3 a4 a5 b3 b4 b5
      rw [a3, a4, a5, b3, b4, b5]
    · rw [List.getElem?_eq_none (by rw [h2.length]; omega),
        List.getElem?_eq_none (by rw [h1.length]; omega)]
  obtain ⟨w1, e1, n1, c1⟩ := m1
  obtain ⟨w2, e2, n2, c2⟩ := m2
  have hw := h1.width
  have hw2 := h2.width
  have hh := h1.height
  have hh2 := h2.height
  have hn := h1.nbcells
  have hn2 := h2.nbcells
  simp only at hw hw2 hh hh2 hn hn2 hcells
  rw [hw, hw2, hh, hh2, hn, hn2, hcells]

theorem OctRel.rings_same_run {e : Edge} {m0 : TCOD_Map} {px py dx dy : Int}
    {f : Int → Int → Bool} {s s1 : Octant} {a : Sweep}
    (h : OctRel e m0 px py dx dy f s a) (h1 : OctRel e m0 px py dx dy f s1 a) :
    same_run s s1 :=
  ⟨h.lit.unique h1.lit, by rw [h.iteration, h1.iteration], by rw [h.done, h1.done],
    by rw [h.total, h1.total], by rw [h.last, h1.last], by rw [h.min_angle, h1.min_angle],
    fun j hj => by
      have hj2 : j < a.obstacles.length := by rw [← h.total]; exact hj
      rw [(h.buffers j hj2).1, (h.buffers j hj2).2, (h1.buffers j hj2).1,
        (h1.buffers j hj2).2]
      exact ⟨rfl, rfl⟩⟩

theorem ScanRel.cells_same_run {e : Edge} {m0 : TCOD_Map} {px py dx dy : Int}
    {f : Int → Int → Bool} {s s1 : Octant} {a : Sweep}
    (h : ScanRel e m0 px py dx dy f s a) (h1 : ScanRel e m0 px py dx dy f s1 a) :
    same_run s s1 ∧ s1.x = s.x ∧ s1.y = s.y ∧ s1.processed_cell = s.processed_cell :=
  ⟨⟨h.lit.unique h1.lit, by rw [h.iteration, h1.iteration], by rw [h.done, h1.done],
    by rw [h.total, h1.total], by rw [h.last, h1.last], by rw [h.min_angle, h1.min_angle],
    fun j hj => by
      have hj2 : j < a.obstacles.length := by rw [← h.total]; exact hj
      rw [(h.buffers j hj2).1, (h.buffers j hj2).2, (h1.buffers j hj2).1,
        (h1.buffers j hj2).2]
      exact ⟨rfl, rfl⟩⟩,
    by rw [h.x, h1.x], by rw [h.y, h1.y], by rw [h.processed, h1.processed]⟩

/-- The next step of a scan: the cell is scanned when the scan is still
inside the ring, and nothing changes otherwise. -/
theorem scan_steps_next (e : Edge) {m0 : TCOD_Map} {px py dx dy : Int}
    (ctx : OctCtx m0 px py dx dy) {f g : Int → Int → Bool} (lw : Bool) {R : Int}
    {s t : Octant} {a b : Sweep} {k : Nat} (hrel : OctRel e m0 px py dx dy f s a)
    (h1 : scan_steps e px py lw dx dy s k = .ok t)
    (rt : ScanRel e m0 px py dx dy f t b)
    (hbinv : ScanInv lw R (to_octant e px py dx dy m0.tr)
      (ring_extent e m0.width m0.height px py dx dy)
      (scan_extent e m0.width m0.height px py dx dy) g a.ring b)
    (hin : in_line e (line_lo e px py s.iteration) (line_hi e s.m px py s.iteration) t =
      decide (b.pos ≤ min a.ring (scan_extent e m0.width m0.height px py dx dy))) :
    (b.pos ≤ min a.ring (scan_extent e m0.width m0.height px py dx dy) →
      ∃ u, scan_cell e lw dx dy (1 / (t.iteration : ℚ)) (1 / (t.iteration : ℚ) * (1 / 2)) t =
          .ok u ∧
        scan_steps e px py lw dx dy s (k + 1) = .ok u ∧
        ScanRel e m0 px py dx dy f u (sweep_cell e lw (to_octant e px py dx dy m0.tr) b)) ∧
    (¬ b.pos ≤ min a.ring (scan_extent e m0.width m0.height px py dx dy) →
      scan_steps e px py lw dx dy s (k + 1) = .ok t) := by
  have hbr := hbinv.ring
  rw [scan_steps_succ, bind_ok h1, hin]
  constructor
  · intro hc
    have hb2 := hbinv
    rw [← hbr] at hb2
    have hc2 : b.pos ≤ min b.ring (scan_extent e m0.width m0.height px py dx dy) := by
      rw [hbr]; exact hc
    obtain ⟨u, hu, ru⟩ := scan_cell_refines e ctx lw rt hb2 hc2
    refine ⟨u, by rw [rt.iteration]; exact hu, ?_, ru⟩
    simp only [hc, decide_True, if_true]
    rw [hrel.iteration, ← hbr]
    exact hu
  · intro hc
    simp only [hc, decide_False, Bool.false_eq_true, if_false]

/-! ## The lower bound of the open slopes -/

/-- With the slopes as exact rationals, in every octant block on a well-formed
map, from an origin inside it and whatever the `fov` flags and the buffers hold,
`min_angle` is 0 before the first ring, is never negative, and does not decrease
from one ring to the next nor from one cell of a ring to the next; in every
state of the scan of a ring `processed_cell` is not negative and `min_angle`
lies below the end slope of the cell about to be scanned, so that a cell either
leaves `min_angle` as it is or sets it to its end slope, which is larger. The
comparison `min_angle < end_slope` is an equality up to the rounding of the
slopes on some rings, so that this is a property of the exact slopes only. -/
theorem exact_min_angle_monotone (m : TCOD_Map) (hwf : m.wf) (player_x player_y : Int)
    (ho : m.in_bounds player_x player_y) (max_radius : Int) (light_walls : Bool)
    (e : Edge) (dx dy : Int) (hdx : dx = 1 ∨ dx = -1) (hdy : dy = 1 ∨ dy = -1)
    (start_angle end_angle : Nat → ℚ) (n : Nat) :
    ∃ s s1,
      after_rings e m player_x player_y max_radius light_walls dx dy
        start_angle end_angle n = .ok s ∧
      after_rings e m player_x player_y max_radius light_walls dx dy
        start_angle end_angle (n + 1) = .ok s1 ∧
      (n = 0 → s.min_angle = 0) ∧ 0 ≤ s.min_angle ∧ s.min_angle ≤ s1.min_angle ∧
      (s.done = false → ∀ k, ∃ t t1,
        scan_steps e player_x player_y light_walls dx dy s k = .ok t ∧
        scan_steps e player_x player_y light_walls dx dy s (k + 1) = .ok t1 ∧
        0 ≤ t.processed_cell ∧ s.min_angle ≤ t.min_angle ∧
        t.min_angle < end_slope t.iteration t.processed_cell ∧
        (t1.min_angle = t.min_angle ∨
          (t1.min_angle = end_slope t.iteration t.processed_cell ∧
            t.min_angle < t1.min_angle))) := by
  have ctx : OctCtx m player_x player_y dx dy := ⟨hwf, ho, hdx, hdy⟩
  have hs := scan_extent_nonneg e dx dy ctx.origin
  obtain ⟨s, _, a, h1, _, r1, _, hinv, hb, h0⟩ := after_rings_pair e ctx (LitAs.refl hwf)
    light_walls max_radius start_angle end_angle start_angle end_angle n
  have hnext : ∃ s1, after_rings e m player_x player_y max_radius light_walls dx dy
        start_angle end_angle (n + 1) = .ok s1 ∧ s.min_angle ≤ s1.min_angle := by
    by_cases hd : a.done = true
    · refine ⟨s, ?_, le_refl _⟩
      simp only [after_rings, bind_ok h1, r1.done, hd, if_true]
    · have hd1 : a.done = false := by simpa using hd
      obtain ⟨t, ht, rt⟩ := scan_ring_refines e ctx light_walls max_radius r1 hinv hd1
      refine ⟨t, ?_, ?_⟩
      · simp only [after_rings, bind_ok h1, r1.done, hd1, Bool.false_eq_true, if_false]
        exact ht
      · rw [r1.min_angle, rt.min_angle]
        exact sweep_ring_min_mono e hinv hb hd1
  obtain ⟨s1, hs1, hle⟩ := hnext
  refine ⟨s, s1, h1, hs1, ?_, ?_, hle, ?_⟩
  · intro hn; rw [r1.min_angle]; exact (h0 hn).1
  · rw [r1.min_angle]; exact hinv.min_nonneg
  · intro hd k
    have hda : a.done = false := by rw [← r1.done]; exact hd
    obtain ⟨t, _, b, ht, _, rt, _, hbinv, hbb, hmono, hin⟩ :=
      scan_steps_pair e ctx light_walls r1 r1 hinv hb hda k
    have hbr := hbinv.ring
    have hahead : t.min_angle < end_slope t.iteration t.processed_cell := by
      rw [rt.min_angle, rt.iteration, rt.processed, hbr]
      exact hbb.ahead
    obtain ⟨hyes, hno⟩ := scan_steps_next e ctx light_walls r1 ht rt hbinv hin
    by_cases hc : b.pos ≤ min a.ring (scan_extent e m.width m.height player_x player_y dx dy)
    · obtain ⟨u, _, hu, ru⟩ := hyes hc
      refine ⟨t, u, ht, hu, by rw [rt.processed]; exact hbinv.pos_nonneg,
        by rw [r1.min_angle, rt.min_angle]; exact hmono, hahead, ?_⟩
      rw [ru.min_angle, sweep_cell_min]
      split_ifs
      · right
        rw [rt.iteration, rt.processed]
        refine ⟨rfl, ?_⟩
        rw [rt.min_angle, hbr]
        exact hbb.ahead
      · left
        exact rt.min_angle.symm
    · exact ⟨t, t, ht, hno hc, by rw [rt.processed]; exact hbinv.pos_nonneg,
        by rw [r1.min_angle, rt.min_angle]; exact hmono, hahead, Or.inl rfl⟩

theorem exact_min_angle_monotone_witness :
    stepped_hall.wf ∧ stepped_hall.in_bounds 0 0 ∧
      ∃ s s1,
        after_rings .vertical stepped_hall 0 0 0 true 1 1 zero_buffer zero_buffer 1 = .ok s ∧
        after_rings .vertical stepped_hall 0 0 0 true 1 1 zero_buffer zero_buffer (1 + 1) =
          .ok s1 ∧
        ((1 : Nat) = 0 → s.min_angle = 0) ∧ 0 ≤ s.min_angle ∧ s.min_angle ≤ s1.min_angle ∧
        (s.done = false → ∀ k, ∃ t t1,
          scan_steps .vertical 0 0 true 1 1 s k = .ok t ∧
          scan_steps .vertical 0 0 true 1 1 s (k + 1) = .ok t1 ∧
          0 ≤ t.processed_cell ∧ s.min_angle ≤ t.min_angle ∧
          t.min_angle < end_slope t.iteration t.processed_cell ∧
          (t1.min_angle = t.min_angle ∨
            (t1.min_angle = end_slope t.iteration t.processed_cell ∧
              t.min_angle < t1.min_angle))) :=
  ⟨by decide, by decide,
    exact_min_angle_monotone stepped_hall (by decide) 0 0 (by decide) 0 true .vertical 1 1
      (Or.inl rfl) (Or.inl rfl) zero_buffer zero_buffer 1⟩

/-! ## The obstacle list of an octant block -/

/-- C30: every octant block on a well-formed map, from an origin inside it,
starts with no obstacle recorded (`total_obstacles = 0`,
`obstacles_in_last_line = 0`) and keeps `obstacles_in_last_line` at most
`total_obstacles` after every ring and after every cell of a ring; two runs of
the block that differ only in what the two buffers hold on entry go, ring by
ring and cell by cell, through states with the same map, the same variables
and the same obstacles below `total_obstacles`, and return such states; and
the entry point returns the same map whatever the buffers hold on entry. -/
theorem obstacle_list_isolated (m : TCOD_Map) (hwf : m.wf) (player_x player_y : Int)
    (ho : m.in_bounds player_x player_y) (max_radius : Int) (light_walls : Bool)
    (e : Edge) (dx dy : Int) (hdx : dx = 1 ∨ dx = -1) (hdy : dy = 1 ∨ dy = -1)
    (start_angle end_angle start_angle1 end_angle1 : Nat → ℚ) :
    ((octant_init e m player_x player_y dx dy start_angle end_angle).total_obstacles = 0 ∧
      (octant_init e m player_x player_y dx dy start_angle end_angle).obstacles_in_last_line
        = 0) ∧
    (∀ n, ∃ s s1,
      after_rings e m player_x player_y max_radius light_walls dx dy
        start_angle end_angle n = .ok s ∧
      after_rings e m player_x player_y max_radius light_walls dx dy
        start_angle1 end_angle1 n = .ok s1 ∧
      s.obstacles_in_last_line ≤ s.total_obstacles ∧ same_run s s1 ∧
      (s.done = false → ∀ k, ∃ t t1,
        scan_steps e player_x player_y light_walls dx dy s k = .ok t ∧
        scan_steps e player_x player_y light_walls dx dy s1 k = .ok t1 ∧
        t.obstacles_in_last_line ≤ t.total_obstacles ∧ same_run t t1 ∧
        t1.x = t.x ∧ t1.y = t.y ∧ t1.processed_cell = t.processed_cell)) ∧
    (∃ o o1,
      octant e m player_x player_y max_radius light_walls dx dy start_angle end_angle =
        .ok o ∧
      octant e m player_x player_y max_radius light_walls dx dy start_angle1 end_angle1 =
        .ok o1 ∧
      same_run o o1) ∧
    (∃ r,
      TCOD_map_compute_fov_restrictive_shadowcasting m player_x player_y max_radius
        light_walls start_angle end_angle = .ok r ∧
      TCOD_map_compute_fov_restrictive_shadowcasting m player_x player_y max_radius
        light_walls start_angle1 end_angle1 = .ok r) := by
  have ctx : OctCtx m player_x player_y dx dy := ⟨hwf, ho, hdx, hdy⟩
  refine ⟨⟨by cases e <;> rfl, by cases e <;> rfl⟩, ?_, ?_, ?_⟩
  · intro n
    obtain ⟨s, s1, a, h1, h2, r1, r2, hinv, hb, _⟩ := after_rings_pair e ctx (LitAs.refl hwf)
      light_walls max_radius start_angle end_angle start_angle1 end_angle1 n
    refine ⟨s, s1, h1, h2, ?_, r1.rings_same_run r2, ?_⟩
    · rw [r1.last, r1.total, hinv.last_eq]
    · intro hd k
      have hda : a.done = false := by rw [← r1.done]; exact hd
      obtain ⟨t, t1, b, ht, ht1, rt, rt1, hbinv, _, _, _⟩ :=
        scan_steps_pair e ctx light_walls r1 r2 hinv hb hda k
      obtain ⟨q1, q2, q3, q4⟩ := rt.cells_same_run rt1
      refine ⟨t, t1, ht, ht1, ?_, q1, q2, q3, q4⟩
      rw [rt.last, rt.total]
      exact hbinv.last_le
  · obtain ⟨o, h1, r1⟩ := octant_refines_rel e ctx (LitAs.refl hwf) light_walls max_radius
      start_angle end_angle
    obtain ⟨o1, h2, r2⟩ := octant_refines_rel e ctx (LitAs.refl hwf) light_walls max_radius
      start_angle1 end_angle1
    exact ⟨o, o1, h1, h2, r1.rings_same_run r2⟩
  · obtain ⟨r, h1, hl1⟩ := compute_fov_refines hwf ho max_radius light_walls
      start_angle end_angle
    obtain ⟨r1, h2, hl2⟩ := compute_fov_refines hwf ho max_radius light_walls
      start_angle1 end_angle1
    refine ⟨r, h1, ?_⟩
    rw [h2, hl1.unique hl2]

theorem obstacle_list_isolated_witness :
    narrow_hall.wf ∧ narrow_hall.in_bounds 0 0 ∧
    (((octant_init .vertical narrow_hall 0 0 1 1 zero_buffer zero_buffer).total_obstacles = 0 ∧
      (octant_init .vertical narrow_hall 0 0 1 1 zero_buffer
        zero_buffer).obstacles_in_last_line = 0) ∧
    (∀ n, ∃ s s1,
      after_rings .vertical narrow_hall 0 0 0 true 1 1 zero_buffer zero_buffer n = .ok s ∧
      after_rings .vertical narrow_hall 0 0 0 true 1 1 (fun i => (i : ℚ))
        (fun i => 2 * (i : ℚ)) n = .ok s1 ∧
      s.obstacles_in_last_line ≤ s.total_obstacles ∧ same_run s s1 ∧
      (s.done = false → ∀ k, ∃ t t1,
        scan_steps .vertical 0 0 true 1 1 s k = .ok t ∧
        scan_steps .vertical 0 0 true 1 1 s1 k = .ok t1 ∧
        t.obstacles_in_last_line ≤ t.total_obstacles ∧ same_run t t1 ∧
        t1.x = t.x ∧ t1.y = t.y ∧ t1.processed_cell = t.processed_cell)) ∧
    (∃ o o1,
      octant .vertical narrow_hall 0 0 0 true 1 1 zero_buffer zero_buffer = .ok o ∧
      octant .vertical narrow_hall 0 0 0 true 1 1 (fun i => (i : ℚ))
        (fun i => 2 * (i : ℚ)) = .ok o1 ∧
      same_run o o1) ∧
    (∃ r,
      TCOD_map_compute_fov_restrictive_shadowcasting narrow_hall 0 0 0 true
        zero_buffer zero_buffer = .ok r ∧
      TCOD_map_compute_fov_restrictive_shadowcasting narrow_hall 0 0 0 true
        (fun i => (i : ℚ)) (fun i => 2 * (i : ℚ)) = .ok r)) :=
  ⟨by decide, by decide,
    obstacle_list_isolated narrow_hall (by decide) 0 0 (by decide) 0 true .vertical 1 1
      (Or.inl rfl) (Or.inl rfl) zero_buffer zero_buffer (fun i => (i : ℚ))
      (fun i => 2 * (i : ℚ))⟩

/-! ## Bounds on the obstacle intervals -/

/-- C23, as the code has it: the end of an obstacle interval may exceed 1. In
the first octant block of the call on the 3 × 3 room with a pillar at `(1, 1)`,
origin `(0, 0)`, ring 1 records the obstacle `(1/2, 3/2)` for the pillar, the
diagonal cell of the ring. -/
theorem obstacle_end_exceeds_one :
    ((first_vertical_rings pillar_cross 0 0 0 true zero_buffer zero_buffer 1).map fun s =>
        (s.total_obstacles, s.m.is_transparent 1 1, s.obstacles)).toOption =
      some (1, false, [(1 / 2, 3 / 2)]) ∧
    ¬ ((3 : ℚ) / 2 ≤ 1) := by
  constructor <;> decide!

/-- C23 amended: in every octant block on a well-formed map, from an origin
inside it and whatever the `fov` flags and the buffers hold, after every ring
and after every cell of a ring every recorded obstacle `i < total_obstacles`
satisfies `0 ≤ start_angle[i] < end_angle[i] ≤ 3/2`. -/
theorem obstacle_intervals_bounded (m : TCOD_Map) (hwf : m.wf) (player_x player_y : Int)
    (ho : m.in_bounds player_x player_y) (max_radius : Int) (light_walls : Bool)
    (e : Edge) (dx dy : Int) (hdx : dx = 1 ∨ dx = -1) (hdy : dy = 1 ∨ dy = -1)
    (start_angle end_angle : Nat → ℚ) (n : Nat) :
    ∃ s,
      after_rings e m player_x player_y max_radius light_walls dx dy
        start_angle end_angle n = .ok s ∧
      (∀ i, i < s.total_obstacles →
        0 ≤ s.start_angle i ∧ s.start_angle i < s.end_angle i ∧ s.end_angle i ≤ 3 / 2) ∧
      (s.done = false → ∀ k, ∃ t,
        scan_steps e player_x player_y light_walls dx dy s k = .ok t ∧
        ∀ i, i < t.total_obstacles →
          0 ≤ t.start_angle i ∧ t.start_angle i < t.end_angle i ∧ t.end_angle i ≤ 3 / 2) := by
  have ctx : OctCtx m player_x player_y dx dy := ⟨hwf, ho, hdx, hdy⟩
  obtain ⟨s, _, a, h1, _, r1, _, hinv, hb, _⟩ := after_rings_pair e ctx (LitAs.refl hwf)
    light_walls max_radius start_angle end_angle start_angle end_angle n
  have hr1 := hinv.ring_pos
  refine ⟨s, h1, ?_, ?_⟩
  · intro i hi
    have hi2 : i < a.obstacles.length := by rw [← r1.total]; exact hi
    obtain ⟨q1, q2, q3⟩ := hb.bounds _ (List.getElem_mem hi2)
    rw [(r1.buffers i hi2).1, (r1.buffers i hi2).2]
    refine ⟨?_, q2, q3⟩
    by_contra hcon
    push_neg at hcon
    have hiq : (1 : ℚ) ≤ (a.ring : ℚ) := by exact_mod_cast hr1
    have : 2 * ((a.ring : ℚ) - 1) * (a.obstacles[i]).1 ≤ 0 :=
      mul_nonpos_of_nonneg_of_nonpos (by linarith) (le_of_lt hcon)
    linarith
  · intro hd k
    have hda : a.done = false := by rw [← r1.done]; exact hd
    obtain ⟨t, _, b, ht, _, rt, _, hbinv, hbb, _, _⟩ :=
      scan_steps_pair e ctx light_walls r1 r1 hinv hb hda k
    refine ⟨t, ht, ?_⟩
    intro i hi
    have hi2 : i < b.obstacles.length := by rw [← rt.total]; exact hi
    obtain ⟨q1, q2, q3, _⟩ := hbb.bounds _ (List.getElem_mem hi2)
    rw [(rt.buffers i hi2).1, (rt.buffers i hi2).2]
    refine ⟨?_, q2, q3⟩
    by_contra hcon
    push_neg at hcon
    have hiq : (1 : ℚ) ≤ (a.ring : ℚ) := by exact_mod_cast hr1
    have : 2 * (a.ring : ℚ) * (b.obstacles[i]).1 ≤ 0 :=
      mul_nonpos_of_nonneg_of_nonpos (by linarith) (le_of_lt hcon)
    linarith

theorem obstacle_intervals_bounded_witness :
    pillar_cross.wf ∧ pillar_cross.in_bounds 0 0 ∧
      ∃ s,
        after_rings .vertical pillar_cross 0 0 0 true 1 1 zero_buffer zero_buffer 1 = .ok s ∧
        (∀ i, i < s.total_obstacles →
          0 ≤ s.start_angle i ∧ s.start_angle i < s.end_angle i ∧ s.end_angle i ≤ 3 / 2) ∧
        (s.done = false → ∀ k, ∃ t,
          scan_steps .vertical 0 0 true 1 1 s k = .ok t ∧
          ∀ i, i < t.total_obstacles →
            0 ≤ t.start_angle i ∧ t.start_angle i < t.end_angle i ∧ t.end_angle i ≤ 3 / 2) :=
  ⟨by decide, by decide,
    obstacle_intervals_bounded pillar_cross (by decide) 0 0 (by decide) 0 true .vertical 1 1
      (Or.inl rfl) (Or.inl rfl) zero_buffer zero_buffer 1⟩

/-! ## The first cell of a ring -/

theorem line_end_done (e : Edge) (R dx dy : Int) {s2 : Octant} (h : s2.done = true) :
    (line_end e R dx dy s2).done = true := by
  unfold line_end
  cases e <;> simp only [] <;> split_ifs <;> simp [h]

theorem line_start_done (e : Edge) (px py dx dy p : Int) (s : Octant) :
    (line_start e px py dx dy p s).done = true := by
  cases e <;> rfl

theorem after_rings_done (e : Edge) (m : TCOD_Map) (px py R : Int) (lw : Bool) (dx dy : Int)
    (sa ea : Nat → ℚ) {n : Nat} {s : Octant}
    (h : after_rings e m px py R lw dx dy sa ea n = .ok s) (hd : s.done = true) :
    ∀ j, after_rings e m px py R lw dx dy sa ea (n + j) = .ok s := by
  intro j
  induction j with
  | zero => exact h
  | succ k ih =>
    show (after_rings e m px py R lw dx dy sa ea (n + k)).bind _ = _
    rw [ih]
    show (if s.done = true then Except.ok s else _) = _
    rw [if_pos hd]

/-- A scanned cell that fails the visibility test leaves `done` as it is. -/
theorem scan_cell_hidden {e : Edge} {lw : Bool} {dx dy : Int} {t u : Octant} {r : CellScan}
    (hv : scan_visibility e dx dy t = .ok r) (hr : r.visible = false)
    (hu : scan_cell e lw dx dy (1 / (t.iteration : ℚ)) (1 / (t.iteration : ℚ) * (1 / 2)) t =
      .ok u) : u.done = t.done := by
  unfold scan_visibility start_slope centre_slope end_slope at hv
  unfold scan_cell at hu
  simp only [bind_ok hv, hr, Bool.false_eq_true, if_false] at hu
  cases e <;> simp only [Except.bind, Except.ok.injEq] at hu <;> rw [← hu]

/-- C24: in every octant block on a well-formed map, from an origin inside it,
the ring index is at least 1 before every ring, so that it never equals a
`max_radius` that is 0 or negative; and when a ring is processed (`done` is
false), the body of the ring loop returns with `done` set if no scanned cell of
the ring passed the visibility test, or if the ring index equals `max_radius`,
or if the next ring coordinate (`y + dy` for the vertical edge, `x + dx` for
the horizontal edge) lies outside the grid; once `done` is set no further ring
is processed. -/
theorem ring_loop_stops (m : TCOD_Map) (hwf : m.wf) (player_x player_y : Int)
    (ho : m.in_bounds player_x player_y) (max_radius : Int) (light_walls : Bool)
    (e : Edge) (dx dy : Int) (hdx : dx = 1 ∨ dx = -1) (hdy : dy = 1 ∨ dy = -1)
    (start_angle end_angle : Nat → ℚ) (n : Nat) :
    ∃ s,
      after_rings e m player_x player_y max_radius light_walls dx dy
        start_angle end_angle n = .ok s ∧
      1 ≤ s.iteration ∧ (max_radius ≤ 0 → s.iteration ≠ max_radius) ∧
      (s.done = false → ∃ s1,
        scan_ring e player_x player_y max_radius light_walls dx dy s = .ok s1 ∧
        after_rings e m player_x player_y max_radius light_walls dx dy
          start_angle end_angle (n + 1) = .ok s1 ∧
        ((∀ k t, scan_steps e player_x player_y light_walls dx dy s k = .ok t →
            in_line e (line_lo e player_x player_y s.iteration)
              (line_hi e s.m player_x player_y s.iteration) t = true →
            ∃ r, scan_visibility e dx dy t = .ok r ∧ r.visible = false) →
          s1.done = true) ∧
        (s.iteration = max_radius → s1.done = true) ∧
        (e = .vertical → (s.y + dy < 0 ∨ s.y + dy ≥ s.m.height) → s1.done = true) ∧
        (e = .horizontal → (s.x + dx < 0 ∨ s.x + dx ≥ s.m.width) → s1.done = true) ∧
        (s1.done = true → ∀ j,
          after_rings e m player_x player_y max_radius light_walls dx dy
            start_angle end_angle (n + 1 + j) = .ok s1)) := by
  have ctx : OctCtx m player_x player_y dx dy := ⟨hwf, ho, hdx, hdy⟩
  obtain ⟨o1, o2, o3, o4⟩ := ho
  obtain ⟨s, _, a, h1, _, r1, _, hinv, hb, _⟩ := after_rings_pair e ctx (LitAs.refl hwf)
    light_walls max_radius start_angle end_angle start_angle end_angle n
  have hr1 := hinv.ring_pos
  refine ⟨s, h1, by rw [r1.iteration]; exact hr1, by rw [r1.iteration]; intro hR; omega, ?_⟩
  intro hd
  have hda : a.done = false := by rw [← r1.done]; exact hd
  obtain ⟨s1, hs1, rs1⟩ := scan_ring_refines e ctx light_walls max_radius r1 hinv hda
  have hnext : after_rings e m player_x player_y max_radius light_walls dx dy
      start_angle end_angle (n + 1) = .ok s1 := by
    simp only [after_rings, bind_ok h1, hd, Bool.false_eq_true, if_false]
    exact hs1
  have hringL := (scan_loop_inv e
    (min a.ring (scan_extent e m.width m.height player_x player_y dx dy) + 1 -
      (ring_open a).pos).toNat (scan_start_inv hinv hda)).ring
  have hdone : s1.done = true ↔
      ((iterate_while
          (fun t => decide (t.pos ≤
            min a.ring (scan_extent e m.width m.height player_x player_y dx dy)))
          (sweep_cell e light_walls (to_octant e player_x player_y dx dy m.tr))
          (min a.ring (scan_extent e m.width m.height player_x player_y dx dy) + 1 -
            (ring_open a).pos).toNat (ring_open a)).done = true ∨ a.ring = max_radius ∨
        a.ring + 1 > ring_extent e m.width m.height player_x player_y dx dy) := by
    rw [rs1.done]
    simp only [sweep_ring, ring_close, hringL, Bool.or_eq_true, decide_eq_true_eq, or_assoc]
  refine ⟨s1, hs1, hnext, ?_, ?_, ?_, ?_, ?_⟩
  · intro hall
    obtain ⟨s2, k0, e1, _, hpre⟩ := scan_ring_steps hs1
    have key : ∀ k t, scan_steps e player_x player_y light_walls dx dy s k = .ok t →
        t.done = true := by
      intro k
      induction k with
      | zero =>
        intro t ht
        have : scan_steps e player_x player_y light_walls dx dy s 0 =
            .ok (line_start e player_x player_y dx dy
              (int_cast ((s.min_angle + 1 / (s.iteration : ℚ) * (1 / 2)) /
                (1 / (s.iteration : ℚ)))) s) := rfl
        rw [this] at ht
        simp only [Except.ok.injEq] at ht
        rw [← ht]
        exact line_start_done _ _ _ _ _ _ _
      | succ j ih =>
        intro u hu
        rw [scan_steps_succ] at hu
        obtain ⟨t, ht, hstep⟩ := bind_eq_ok hu
        have htd := ih t ht
        obtain ⟨t0, _, b, ht0, _, rt, _, hbinv, _, _, _⟩ :=
          scan_steps_pair e ctx light_walls r1 r1 hinv hb hda j
        rw [ht] at ht0
        simp only [Except.ok.injEq] at ht0
        subst ht0
        have hit : t.iteration = s.iteration := by
          rw [rt.iteration, hbinv.ring, r1.iteration]
        by_cases hin : in_line e (line_lo e player_x player_y s.iteration)
            (line_hi e s.m player_x player_y s.iteration) t = true
        · rw [if_pos hin] at hstep
          obtain ⟨r, hv, hr⟩ := hall j t ht hin
          rw [← hit] at hstep
          rw [scan_cell_hidden hv hr hstep]
          exact htd
        · rw [if_neg hin] at hstep
          simp only [Except.ok.injEq] at hstep
          rw [← hstep]
          exact htd
    rw [e1]
    exact line_end_done e max_radius dx dy (key _ s2 (hpre 0))
  · intro hR
    rw [hdone]
    right; left
    rw [← r1.iteration]; exact hR
  · intro he hout
    subst he
    rw [hdone]
    right; right
    have hy := r1.ring_coord
    simp only at hy
    rw [hy, r1.lit.height] at hout
    have := (next_ring_off_grid hdy o3 o4 (r := a.ring + 1) (by omega)).mp (by
      rw [add_mul, one_mul, ← add_assoc]; exact hout)
    simpa only [ring_extent] using this
  · intro he hout
    subst he
    rw [hdone]
    right; right
    have hx := r1.ring_coord
    simp only at hx
    rw [hx, r1.lit.width] at hout
    have := (next_ring_off_grid hdx o1 o2 (r := a.ring + 1) (by omega)).mp (by
      rw [add_mul, one_mul, ← add_assoc]; exact hout)
    simpa only [ring_extent] using this
  · intro hd1
    exact after_rings_done e m player_x player_y max_radius light_walls dx dy
      start_angle end_angle hnext hd1

theorem ring_loop_stops_witness :
    corridor.wf ∧ corridor.in_bounds 0 0 ∧
      ∃ s,
        after_rings .horizontal corridor 0 0 0 true 1 1 zero_buffer zero_buffer 2 = .ok s ∧
        1 ≤ s.iteration ∧ ((0 : Int) ≤ 0 → s.iteration ≠ 0) ∧
        (s.done = false → ∃ s1,
          scan_ring .horizontal 0 0 0 true 1 1 s = .ok s1 ∧
          after_rings .horizontal corridor 0 0 0 true 1 1 zero_buffer zero_buffer (2 + 1) =
            .ok s1 ∧
          ((∀ k t, scan_steps .horizontal 0 0 true 1 1 s k = .ok t →
              in_line .horizontal (line_lo .horizontal 0 0 s.iteration)
                (line_hi .horizontal s.m 0 0 s.iteration) t = true →
              ∃ r, scan_visibility .horizontal 1 1 t = .ok r ∧ r.visible = false) →
            s1.done = true) ∧
          (s.iteration = 0 → s1.done = true) ∧
          (Edge.horizontal = .vertical → (s.y + 1 < 0 ∨ s.y + 1 ≥ s.m.height) →
            s1.done = true) ∧
          (Edge.horizontal = .horizontal → (s.x + 1 < 0 ∨ s.x + 1 ≥ s.m.width) →
            s1.done = true) ∧
          (s1.done = true → ∀ j,
            after_rings .horizontal corridor 0 0 0 true 1 1 zero_buffer zero_buffer
              (2 + 1 + j) = .ok s1)) :=
  ⟨by decide, by decide,
    ring_loop_stops corridor (by decide) 0 0 (by decide) 0 true .horizontal 1 1
      (Or.inl rfl) (Or.inl rfl) zero_buffer zero_buffer 2⟩

/-! ## What a visible cell does to `min_angle` and to the obstacles -/

theorem buffers_getD {sa ea : Nat → ℚ} {obs : List (ℚ × ℚ)}
    (h : ∀ (j : Nat) (hj : j < obs.length), sa j = (obs[j]).1 ∧ ea j = (obs[j]).2)
    {j : Nat} (hj : j < obs.length) : (sa j, ea j) = obs.getD j (0, 0) := by
  have hget : obs.getD j (0, 0) = obs[j] := by
    simp [List.getD_eq_getElem?_getD, List.getElem?_eq_getElem hj]
  rw [hget, (h j hj).1, (h j hj).2]

theorem scan_steps_stable {e : Edge} {px py : Int} {lw : Bool} {dx dy : Int}
    {s t : Octant} {k : Nat} (h : scan_steps e px py lw dx dy s k = .ok t)
    (hc : in_line e (line_lo e px py s.iteration) (line_hi e s.m px py s.iteration) t = false) :
    ∀ j, scan_steps e px py lw dx dy s (k + j) = .ok t :=
  loop_steps_stable _ _ h hc

/-- C25: in every octant block on a well-formed map, from an origin inside it
and whatever the `fov` flags and the buffers hold, every cell `t` of a ring
that is scanned is read, tested and processed without fault, and with
`start_slope` and `end_slope` the slopes of the cell:
* the obstacles recorded before the cell are those the visibility test left;
* a visible opaque cell with `min_angle ≥ start_slope` sets `min_angle` to
  `end_slope` and appends nothing, and when `processed_cell = iteration` it
  sets `done` and the block processes no further ring;
* a visible opaque cell with `min_angle < start_slope` leaves `min_angle` as it
  is, appends the one obstacle `(start_slope, end_slope)` when `extended` is
  false and appends nothing when `extended` is true;
* a transparent cell leaves `min_angle`, the number of obstacles and the
  obstacles as they were. -/
theorem blocking_update (m : TCOD_Map) (hwf : m.wf) (player_x player_y : Int)
    (ho : m.in_bounds player_x player_y) (max_radius : Int) (light_walls : Bool)
    (e : Edge) (dx dy : Int) (hdx : dx = 1 ∨ dx = -1) (hdy : dy = 1 ∨ dy = -1)
    (start_angle end_angle : Nat → ℚ) (n k : Nat) :
    ∃ s,
      after_rings e m player_x player_y max_radius light_walls dx dy
        start_angle end_angle n = .ok s ∧
      (s.done = false → ∃ t,
        scan_steps e player_x player_y light_walls dx dy s k = .ok t ∧
        (in_line e (line_lo e player_x player_y s.iteration)
            (line_hi e s.m player_x player_y s.iteration) t = true →
          ∃ cell r t1,
            t.m.cell (t.x + t.y * t.m.width) = .ok cell ∧
            scan_visibility e dx dy t = .ok r ∧
            scan_cell e light_walls dx dy (1 / (t.iteration : ℚ))
              (1 / (t.iteration : ℚ) * (1 / 2)) t = .ok t1 ∧
            scan_steps e player_x player_y light_walls dx dy s (k + 1) = .ok t1 ∧
            (∀ j, j < t.total_obstacles →
              t1.start_angle j = r.start_angle j ∧ t1.end_angle j = r.end_angle j) ∧
            (r.visible = true → cell.transparent = false →
                t.min_angle ≥ start_slope t.iteration t.processed_cell →
              t1.min_angle = end_slope t.iteration t.processed_cell ∧
              t1.total_obstacles = t.total_obstacles ∧
              (t.processed_cell = t.iteration →
                t1.done = true ∧
                ∃ s1, after_rings e m player_x player_y max_radius light_walls dx dy
                    start_angle end_angle (n + 1) = .ok s1 ∧ s1.done = true)) ∧
            (r.visible = true → cell.transparent = false →
                ¬ t.min_angle ≥ start_slope t.iteration t.processed_cell →
              t1.min_angle = t.min_angle ∧
              (r.extended = false →
                t1.total_obstacles = t.total_obstacles + 1 ∧
                t1.start_angle t.total_obstacles =
                  start_slope t.iteration t.processed_cell ∧
                t1.end_angle t.total_obstacles = end_slope t.iteration t.processed_cell) ∧
              (r.extended = true → t1.total_obstacles = t.total_obstacles)) ∧
            (cell.transparent = true →
              t1.min_angle = t.min_angle ∧ t1.total_obstacles = t.total_obstacles ∧
              ∀ j, j < t.total_obstacles →
                t1.start_angle j = t.start_angle j ∧ t1.end_angle j = t.end_angle j))) := by
  have ctx : OctCtx m player_x player_y dx dy := ⟨hwf, ho, hdx, hdy⟩
  obtain ⟨s, _, a, h1, _, r1, _, hinv, hb, _⟩ := after_rings_pair e ctx (LitAs.refl hwf)
    light_walls max_radius start_angle end_angle start_angle end_angle n
  refine ⟨s, h1, ?_⟩
  intro hd
  have hda : a.done = false := by rw [← r1.done]; exact hd
  obtain ⟨t, _, b, ht, _, rt, _, hbinv, hbb, _, hin⟩ :=
    scan_steps_pair e ctx light_walls r1 r1 hinv hb hda k
  refine ⟨t, ht, ?_⟩
  intro hline
  rw [hin] at hline
  have hc : b.pos ≤ min a.ring (scan_extent e m.width m.height player_x player_y dx dy) := by
    simpa using hline
  have hbr := hbinv.ring
  have hr1 := hbinv.ring_pos
  have hp0 := hbinv.pos_nonneg
  obtain ⟨u, hu, hpre, ru⟩ := (scan_steps_next e ctx light_walls r1 ht rt hbinv hin).1 hc
  obtain ⟨cell, hcell, _, hct⟩ := octant_cell_at e ctx rt.lit (r := b.ring) (p := b.pos)
    (by omega) (by rw [hbr]; exact hbinv.ring_le) hp0 (le_trans hc (min_le_right _ _))
  rw [← rt.x, ← rt.y] at hcell
  obtain ⟨r, hr, hpr⟩ := cell_visibility_refines e ctx rt hbinv hc
  have hvis : scan_visibility e dx dy t = .ok r := by
    unfold scan_visibility
    rw [rt.iteration, rt.processed]
    exact hr
  have hlen := cell_probe_length e (to_octant e player_x player_y dx dy m.tr) b
  have hold : ∀ j, j < t.total_obstacles →
      (u.start_angle j, u.end_angle j) =
        (cell_probe e (to_octant e player_x player_y dx dy m.tr) b).obstacles.getD j (0, 0) := by
    intro j hj
    rw [rt.total] at hj
    have hobs := sweep_cell_obstacles e light_walls (to_octant e player_x player_y dx dy m.tr) b
    have hj2 : j < (sweep_cell e light_walls (to_octant e player_x player_y dx dy m.tr)
        b).obstacles.length := by
      rw [hobs]
      split_ifs
      · rw [List.length_append, hlen]; omega
      · rw [hlen]; exact hj
    rw [buffers_getD ru.buffers hj2, hobs]
    split_ifs
    · rw [List.getD_append _ _ _ _ (by rw [hlen]; exact hj)]
    · rfl
  refine ⟨cell, r, u, hcell, hvis, hu, hpre, ?_, ?_, ?_, ?_⟩
  · intro j hj
    have h2 := hold j hj
    rw [rt.total, ← hlen] at hj
    rw [← buffers_getD hpr.buffers hj] at h2
    simp only [Prod.mk.injEq] at h2
    exact h2
  · intro hv hop hmin
    rw [hpr.visible] at hv
    rw [hct] at hop
    rw [rt.min_angle, rt.iteration, rt.processed] at hmin
    have hcase : (cell_probe e (to_octant e player_x player_y dx dy m.tr) b).visible = true ∧
        to_octant e player_x player_y dx dy m.tr b.ring b.pos = false ∧
        b.min_angle ≥ start_slope b.ring b.pos := ⟨hv, hop, hmin⟩
    refine ⟨?_, ?_, ?_⟩
    · rw [ru.min_angle, sweep_cell_min, if_pos hcase, rt.iteration, rt.processed]
    · rw [ru.total, sweep_cell_obstacles, if_neg (fun hcon => hcon.2.2.1 hmin), hlen, rt.total]
    · intro hlast
      rw [rt.processed, rt.iteration] at hlast
      have hud : u.done = true := by
        rw [ru.done, sweep_cell_done, if_pos hv]
        simp only [decide_eq_true_eq]
        exact ⟨hop, hmin, hlast⟩
      refine ⟨hud, ?_⟩
      obtain ⟨s1, hs1, _⟩ := scan_ring_refines e ctx light_walls max_radius r1 hinv hda
      refine ⟨s1, ?_, ?_⟩
      · simp only [after_rings, bind_ok h1, hd, Bool.false_eq_true, if_false]
        exact hs1
      · obtain ⟨s2, k0, e1, _, hpre2⟩ := scan_ring_steps hs1
        obtain ⟨t2, _, b2, ht2, _, rt2, _, hbinv2, _, _, hin2⟩ :=
          scan_steps_pair e ctx light_walls r1 r1 hinv hb hda (k + 1)
        rw [hpre] at ht2
        simp only [Except.ok.injEq] at ht2
        subst ht2
        have hpos2 : b2.pos = b.pos + 1 := by
          rw [← rt2.processed, ru.processed, sweep_cell_pos]
        have hout : in_line e (line_lo e player_x player_y s.iteration)
            (line_hi e s.m player_x player_y s.iteration) u = false := by
          rw [hin2, hpos2, hlast, hbr]
          simp only [decide_eq_false_iff_not, not_le]
          exact lt_of_le_of_lt (min_le_left _ _) (by omega)
        have hfix := scan_steps_stable hpre hout k0
        have hfix2 := hpre2 (k + 1)
        rw [Nat.add_comm] at hfix
        rw [hfix2] at hfix
        simp only [Except.ok.injEq] at hfix
        rw [e1, hfix]
        exact line_end_done e max_radius dx dy hud
  · intro hv hop hmin
    rw [hpr.visible] at hv
    rw [hct] at hop
    rw [rt.min_angle, rt.iteration, rt.processed] at hmin
    refine ⟨?_, ?_, ?_⟩
    · rw [ru.min_angle, sweep_cell_min, if_neg (fun hcon => hmin hcon.2.2), rt.min_angle]
    · intro hext
      rw [hpr.extended] at hext
      have hobs : (sweep_cell e light_walls (to_octant e player_x player_y dx dy m.tr)
          b).obstacles =
          (cell_probe e (to_octant e player_x player_y dx dy m.tr) b).obstacles ++
            [(start_slope b.ring b.pos, end_slope b.ring b.pos)] := by
        rw [sweep_cell_obstacles, if_pos ⟨hv, hop, hmin, hext⟩]
      have hj2 : t.total_obstacles < (sweep_cell e light_walls
          (to_octant e player_x player_y dx dy m.tr) b).obstacles.length := by
        rw [hobs, List.length_append, hlen, rt.total]; simp
      have hget := buffers_getD ru.buffers hj2
      rw [hobs, List.getD_append_right _ _ _ _ (by rw [hlen, rt.total]), hlen, rt.total,
        Nat.sub_self] at hget
      simp only [List.getD_cons_zero, Prod.mk.injEq] at hget
      refine ⟨?_, ?_, ?_⟩
      · rw [ru.total, hobs, List.length_append, hlen, rt.total]; rfl
      · rw [rt.total, hget.1, rt.iteration, rt.processed]
      · rw [rt.total, hget.2, rt.iteration, rt.processed]
    · intro hext
      rw [hpr.extended] at hext
      rw [ru.total, sweep_cell_obstacles,
        if_neg (fun hcon => by rw [hext] at hcon; exact absurd hcon.2.2.2 (by simp)),
        hlen, rt.total]
  · intro htr
    rw [hct] at htr
    have hne : ¬ to_octant e player_x player_y dx dy m.tr b.ring b.pos = false := by
      rw [htr]; simp
    have hsame := probe_transparent e (to_octant e player_x player_y dx dy m.tr)
      (start_slope b.ring b.pos) (centre_slope b.ring b.pos) (end_slope b.ring b.pos) b htr
    refine ⟨?_, ?_, ?_⟩
    · rw [ru.min_angle, sweep_cell_min, if_neg (fun hcon => hne hcon.2.1), rt.min_angle]
    · rw [ru.total, sweep_cell_obstacles, if_neg (fun hcon => hne hcon.2.1), hlen, rt.total]
    · intro j hj
      have h2 := hold j hj
      unfold cell_probe at h2
      rw [hsame] at h2
      rw [rt.total] at hj
      rw [← buffers_getD rt.buffers hj] at h2
      simp only [Prod.mk.injEq] at h2
      exact h2

theorem blocking_update_witness :
    pillar_cross.wf ∧ pillar_cross.in_bounds 0 0 ∧
      ∃ s,
        after_rings .vertical pillar_cross 0 0 0 true 1 1 zero_buffer zero_buffer 0 = .ok s ∧
        (s.done = false → ∃ t,
          scan_steps .vertical 0 0 true 1 1 s 1 = .ok t ∧
          (in_line .vertical (line_lo .vertical 0 0 s.iteration)
              (line_hi .vertical s.m 0 0 s.iteration) t = true →
            ∃ cell r t1,
              t.m.cell (t.x + t.y * t.m.width) = .ok cell ∧
              scan_visibility .vertical 1 1 t = .ok r ∧
              scan_cell .vertical true 1 1 (1 / (t.iteration : ℚ))
                (1 / (t.iteration : ℚ) * (1 / 2)) t = .ok t1 ∧
              scan_steps .vertical 0 0 true 1 1 s (1 + 1) = .ok t1 ∧
              (∀ j, j < t.total_obstacles →
                t1.start_angle j = r.start_angle j ∧ t1.end_angle j = r.end_angle j) ∧
              (r.visible = true → cell.transparent = false →
                  t.min_angle ≥ start_slope t.iteration t.processed_cell →
                t1.min_angle = end_slope t.iteration t.processed_cell ∧
                t1.total_obstacles = t.total_obstacles ∧
                (t.processed_cell = t.iteration →
                  t1.done = true ∧
                  ∃ s1, after_rings .vertical pillar_cross 0 0 0 true 1 1 zero_buffer
                      zero_buffer (0 + 1) = .ok s1 ∧ s1.done = true)) ∧
              (r.visible = true → cell.transparent = false →
                  ¬ t.min_angle ≥ start_slope t.iteration t.processed_cell →
                t1.min_angle = t.min_angle ∧
                (r.extended = false →
                  t1.total_obstacles = t.total_obstacles + 1 ∧
                  t1.start_angle t.total_obstacles =
                    start_slope t.iteration t.processed_cell ∧
                  t1.end_angle t.total_obstacles =
                    end_slope t.iteration t.processed_cell) ∧
                (r.extended = true → t1.total_obstacles = t.total_obstacles)) ∧
              (cell.transparent = true →
                t1.min_angle = t.min_angle ∧ t1.total_obstacles = t.total_obstacles ∧
                ∀ j, j < t.total_obstacles →
                  t1.start_angle j = t.start_angle j ∧ t1.end_angle j = t.end_angle j))) :=
  ⟨by decide, by decide,
    blocking_update pillar_cross (by decide) 0 0 (by decide) 0 true .vertical 1 1
      (Or.inl rfl) (Or.inl rfl) zero_buffer zero_buffer 0 1⟩

end Tcod
